import Mathlib

/-!
# Banded prefix edit distance (`correctOverlaps-Prefix_Edit_Distance.C`)

A shallow embedding of `Compute_Delta`, `Allocate_More_Edit_Space` and
`Prefix_Edit_Dist` and the properties of the kernel that follow from the code.

Conventions of the embedding

* `int32` values are `Int`.  Every value the kernel computes is bounded in
  absolute value by `max m n + Error_Limit + 2`, so no 32-bit wrap-around occurs
  for inputs that fit the C types.  The sizes and offsets of
  `Allocate_More_Edit_Space` are not bounded that way: there every `int32`
  result is reduced to 32 bits (`int32`).
* A string argument `(A, m)` is a `List Char` whose length is `m`.
* `WA->Edit_Array_Lazy[e][d]` is a total function of the row `e` and the
  (signed) diagonal `d`; the arena that backs the rows
  (`Allocate_More_Edit_Space`) only assigns storage and is not part of the value
  semantics; it is embedded on its own, on the table of row pointers
  (`editSpace`).  The initial contents of the table, of `deltaStack` and of
  `delta` are arbitrary: they are whatever an earlier call left behind.
* A failing `assert` aborts the call: the functions return `Except Abort _`.
-/

namespace Canu

/-! ## Data model -/

/-- The tuning block `WA->G` as far as the kernel reads it.

`Edit_Match_Limit` is the table `G->Edit_Match_Limit[e]`.

`Score Longest e` is the `int32` value of the source expression
`Longest * BRANCH_PT_MATCH_VALUE - e`.  The constant `BRANCH_PT_MATCH_VALUE` is
a macro of a header that is not among the sources and the expression is
evaluated in double precision, so the embedding takes the resulting function as
a parameter. -/
structure coParameters where
  Edit_Match_Limit : Nat → Int
  Score : Int → Int → Int

/-- The per-thread work area `pedWorkArea_t`. -/
structure pedWorkArea_t where
  Edit_Array_Lazy : Nat → Int → Int
  Edit_Array_Max : Int
  deltaStack : Nat → Int
  delta : Nat → Int
  deltaLen : Int
  G : coParameters

/-- The two assertions of `Prefix_Edit_Dist`. -/
inductive Abort where
  | editArrayMax
  | leftRight
  deriving DecidableEq, Repr

/-- What a call of `Prefix_Edit_Dist` hands back: the return value, the three
reference parameters and the work area. -/
structure Result where
  errors : Int
  A_End : Int
  T_End : Int
  Match_To_End : Bool
  WA : pedWorkArea_t

/-- Assignment `a[i] = v` to an array indexed by naturals. -/
def setAt (a : Nat → Int) (i : Nat) (v : Int) : Nat → Int :=
  fun j => if j = i then v else a j

/-- Assignment `Edit_Array_Lazy[e][d] = v`. -/
def setCell (D : Nat → Int → Int) (e : Nat) (d : Int) (v : Int) : Nat → Int → Int :=
  fun k c => if k = e ∧ c = d then v else D k c

/-- The character `s[i]` of a C string, for an `int32` index. -/
def charAt (s : List Char) (i : Int) : Char :=
  s.getD i.toNat default

/-- Modelled from the spec: the helper `Sign` of the header `correctOverlaps.H`,
which is not among the sources; the spec writes `sign(stack[i-1])`, the
algebraic sign of its argument. -/
def Sign (a : Int) : Int :=
  if a > 0 then 1 else if a < 0 then -1 else 0

/-! ## `Compute_Delta` -/

/-- The traceback loop `for (k=e; k>0; k--)` of `Compute_Delta`.  The argument
`k` counts the iterations still to run; the state is `(d, last, stackLen,
deltaStack)` and the result is `(last, stackLen, deltaStack)`. -/
def Compute_Delta.trace (D : Nat → Int → Int) :
    Nat → Int → Int → Nat → (Nat → Int) → Int × Nat × (Nat → Int)
  | 0, _, last, stackLen, stack => (last, stackLen, stack)
  | k + 1, d, last, stackLen, stack =>
    let frm := d
    let max := 1 + D k d
    let j := D k (d - 1)
    let frm := if j > max then d - 1 else frm
    let max := if j > max then j else max
    let j := 1 + D k (d + 1)
    let frm := if j > max then d + 1 else frm
    let max := if j > max then j else max
    if frm = d - 1 then
      Compute_Delta.trace D k (d - 1) (D k frm) (stackLen + 1)
        (setAt stack stackLen (max - last - 1))
    else if frm = d + 1 then
      Compute_Delta.trace D k (d + 1) (D k frm) (stackLen + 1)
        (setAt stack stackLen (last - (max - 1)))
    else
      Compute_Delta.trace D k d last stackLen stack

/-- The emit loop `for (k=0, i=stackLen-1; i>0; i--)` of `Compute_Delta`; the
first argument is `i`. -/
def Compute_Delta.emit (stack : Nat → Int) : Nat → Nat → (Nat → Int) → (Nat → Int)
  | 0, _, delta => delta
  | i + 1, k, delta =>
    Compute_Delta.emit stack i (k + 1) (setAt delta k (|stack (i + 1)| * Sign (stack i)))

/-- `Compute_Delta(WA, e, d, row)`. -/
def Compute_Delta (WA : pedWorkArea_t) (e : Nat) (d : Int) (row : Int) : pedWorkArea_t :=
  let t := Compute_Delta.trace WA.Edit_Array_Lazy e d row 0 WA.deltaStack
  let last := t.1
  let stackLen := t.2.1
  let stack := setAt t.2.2 stackLen (last + 1)
  let stackLen := stackLen + 1
  { WA with
    deltaStack := stack
    delta := Compute_Delta.emit stack (stackLen - 1) 0 WA.delta
    deltaLen := (stackLen : Int) - 1 }

/-! ## `Prefix_Edit_Dist` -/

/-- The loop `while ((Row < shorter) && (A[Row] == T[Row])) Row++`.  The first
argument bounds the iterations; `shorter - Row` of them always suffice. -/
def scanPrefix (A T : List Char) (shorter : Int) : Nat → Int → Int
  | 0, Row => Row
  | f + 1, Row =>
    if Row < shorter ∧ charAt A Row = charAt T Row then scanPrefix A T shorter f (Row + 1)
    else Row

/-- The loop `while ((Row < m) && (Row + d < n) && (A[Row] == T[Row + d])) Row++`.
The first argument bounds the iterations; `m - Row` of them always suffice. -/
def extend (A T : List Char) (m n d : Int) : Nat → Int → Int
  | 0, Row => Row
  | f + 1, Row =>
    if Row < m ∧ Row + d < n ∧ charAt A Row = charAt T (Row + d) then
      extend A T m n d f (Row + 1)
    else Row

/-- The value `Row` that the body of the diagonal loop stores in
`Edit_Array_Lazy[e][d]` (source lines 228-233); `k` is `e-1`. -/
def cellRow (A T : List Char) (m n : Int) (D : Nat → Int → Int) (k : Nat) (d : Int) : Int :=
  let Row := 1 + D k d
  let Row := max Row (D k (d - 1))
  let Row := max Row (D k (d + 1) + 1)
  extend A T m n d (m - Row).toNat Row

/-- Outcome of the diagonal loop of one level: the alignment hit the end of a
string at `(d, Row)` (after the tie-break adjustment of `d`), or the whole band
was filled. -/
inductive RowOutcome where
  | hitEnd (d Row : Int) (D : Nat → Int → Int)
  | filled (D : Nat → Int → Int)

/-- The loop `for (int32 d=Left; d<=Right; d++)` at level `e = k+1`, up to and
excluding the call of `Compute_Delta`.  The first argument bounds the
iterations; `Right - d + 1` of them always suffice. -/
def fillRow (A T : List Char) (m n : Int) (Edit_Array_Max : Int) (k : Nat) (Right : Int) :
    Nat → Int → (Nat → Int → Int) → Except Abort RowOutcome
  | 0, _, D => .ok (.filled D)
  | f + 1, d, D =>
    if d ≤ Right then
      let Row := cellRow A T m n D k d
      if ((k + 1 : Nat) : Int) < Edit_Array_Max then
        let D := setCell D (k + 1) d Row
        if Row = m ∨ Row + d = n then
          if Row = m ∧ 1 + D k (d + 1) = D (k + 1) d ∧ d < Right then
            let d := d + 1
            let D := setCell D (k + 1) d (D (k + 1) (d - 1))
            .ok (.hitEnd d Row D)
          else
            .ok (.hitEnd d Row D)
        else
          fillRow A T m n Edit_Array_Max k Right f (d + 1) D
      else .error .editArrayMax
    else .ok (.filled D)

/-- The loop `while (Left <= Right && Left < 0 && D[e][Left] < limit) Left++`. -/
def pruneLeftNeg (row : Int → Int) (limit Right : Int) : Nat → Int → Int
  | 0, Left => Left
  | f + 1, Left =>
    if Left ≤ Right ∧ Left < 0 ∧ row Left < limit then pruneLeftNeg row limit Right f (Left + 1)
    else Left

/-- The loop `while (Left <= Right && D[e][Left] + Left < limit) Left++`. -/
def pruneLeftPos (row : Int → Int) (limit Right : Int) : Nat → Int → Int
  | 0, Left => Left
  | f + 1, Left =>
    if Left ≤ Right ∧ row Left + Left < limit then pruneLeftPos row limit Right f (Left + 1)
    else Left

/-- The loop `while (Right > 0 && D[e][Right] + Right < limit) Right--`. -/
def pruneRightPos (row : Int → Int) (limit : Int) : Nat → Int → Int
  | 0, Right => Right
  | f + 1, Right =>
    if Right > 0 ∧ row Right + Right < limit then pruneRightPos row limit f (Right - 1)
    else Right

/-- The loop `while (D[e][Right] < limit) Right--`, which has no bound of its
own.  The embedding follows it for as many iterations as the first argument
allows; the caller passes the number of cells from `Right` down to `Left`, so
the scan is cut at `Left - 1`, where the source would go on to cells that this
level has not written and the assertion `Left <= Right` on the next line
fails. -/
def pruneRightNeg (row : Int → Int) (limit : Int) : Nat → Int → Int
  | 0, Right => Right
  | f + 1, Right =>
    if row Right < limit then pruneRightNeg row limit f (Right - 1)
    else Right

/-- The two loops that advance `Left` (source lines 262-269). -/
def pruneLeft (row : Int → Int) (limit Right Left : Int) : Int :=
  let Left := pruneLeftNeg row limit Right (Right - Left + 1).toNat Left
  if Left ≥ 0 then pruneLeftPos row limit Right (Right - Left + 1).toNat Left else Left

/-- The two loops that retract `Right` (source lines 274-280); `Left` only
bounds the second scan as described at `pruneRightNeg`. -/
def pruneRight (row : Int → Int) (limit Left Right : Int) : Int :=
  let Right := pruneRightPos row limit Right.toNat Right
  if Right ≤ 0 then pruneRightNeg row limit (Right - Left + 1).toNat Right else Right

/-- The variables of `Prefix_Edit_Dist` that live across iterations of the
level loop. -/
structure LoopState where
  Left : Int
  Right : Int
  Best_d : Int
  Best_e : Nat
  Longest : Int
  Max_Score : Int
  Max_Score_Len : Int
  Max_Score_Best_d : Int
  Max_Score_Best_e : Nat

/-- The loop `for (int32 d=Left; d <= Right; d++) if (D[e][d] > Longest) ...`. -/
def scanLongest (row : Int → Int) (e : Nat) (Right : Int) :
    Nat → Int → Int × Nat × Int → Int × Nat × Int
  | 0, _, b => b
  | f + 1, d, b =>
    if d ≤ Right then
      if row d > b.2.2 then scanLongest row e Right f (d + 1) (d, e, row d)
      else scanLongest row e Right f (d + 1) b
    else b

/-- Branch-point tracking at the end of a level (source lines 284-302), with
the pruned band `[Left, Right]`. -/
def track (G : coParameters) (row : Int → Int) (e : Nat) (Left Right : Int) (s : LoopState) :
    LoopState :=
  let b := scanLongest row e Right (Right - Left + 1).toNat Left (s.Best_d, s.Best_e, s.Longest)
  let Score := G.Score b.2.2 e
  { Left := Left, Right := Right
    Best_d := b.1, Best_e := b.2.1, Longest := b.2.2
    Max_Score := if Score > s.Max_Score then Score else s.Max_Score
    Max_Score_Len := if Score > s.Max_Score then b.2.2 else s.Max_Score_Len
    Max_Score_Best_d := if Score > s.Max_Score then b.1 else s.Max_Score_Best_d
    Max_Score_Best_e := if Score > s.Max_Score then b.2.1 else s.Max_Score_Best_e }

/-- The sentinel writes at the start of level `e = k+1` (source lines
222-225). -/
def openRow (D : Nat → Int → Int) (k : Nat) (Left Right : Int) : Nat → Int → Int :=
  let D := setCell D k Left (-2)
  let D := setCell D k (Left - 1) (-2)
  let D := setCell D k Right (-2)
  setCell D k (Right + 1) (-2)

/-- The return from inside the diagonal loop (source lines 252-258); `D` is
the table at that point. -/
def endMatch (WA : pedWorkArea_t) (e : Nat) (d Row : Int) (D : Nat → Int → Int) : Result :=
  { errors := e
    A_End := Row
    T_End := Row + d
    Match_To_End := true
    WA := Compute_Delta { WA with Edit_Array_Lazy := D } e d Row }

/-- The code after the level loop (source lines 306-314): the branch-point
return; `D` is the table at that point. -/
def branchPoint (WA : pedWorkArea_t) (e : Nat) (s : LoopState) (D : Nat → Int → Int) : Result :=
  { errors := e
    A_End := s.Max_Score_Len
    T_End := s.Max_Score_Len + s.Max_Score_Best_d
    Match_To_End := false
    WA := Compute_Delta { WA with Edit_Array_Lazy := D }
      s.Max_Score_Best_e s.Max_Score_Best_d s.Max_Score_Len }

/-- The loop `for (e = 1; e <= Error_Limit; e++)` followed by the branch-point
return.  The table `Edit_Array_Lazy` is the only part of the work area that the
loop changes, so it is passed as the loop state `D`, next to `e` and the loop
variables; `WA` supplies the rest.  The first numeric argument bounds the
iterations; `Error_Limit + 1 - e` of them always suffice. -/
def levels (A T : List Char) (m n : Int) (Error_Limit : Int) (WA : pedWorkArea_t) :
    Nat → Nat → LoopState → (Nat → Int → Int) → Except Abort Result
  | 0, e, s, D => .ok (branchPoint WA e s D)
  | f + 1, e, s, D =>
    if (e : Int) ≤ Error_Limit then
      let Left := max (s.Left - 1) (-(e : Int))
      let Right := min (s.Right + 1) (e : Int)
      match fillRow A T m n WA.Edit_Array_Max (e - 1) Right (Right - Left + 1).toNat Left
          (openRow D (e - 1) Left Right) with
      | .error a => .error a
      | .ok (.hitEnd d Row D) => .ok (endMatch WA e d Row D)
      | .ok (.filled D) =>
        let limit := WA.G.Edit_Match_Limit e
        let Left := pruneLeft (D e) limit Right Left
        if Left > Right then
          .ok (branchPoint WA e s D)
        else
          let Right := pruneRight (D e) limit Left Right
          if Left ≤ Right then
            levels A T m n Error_Limit WA f (e + 1) (track WA.G (D e) e Left Right s) D
          else .error .leftRight
    else .ok (branchPoint WA e s D)

/-- The state of the loop variables before the level loop (source lines
180-182 and 207-212). -/
def LoopState.init : LoopState :=
  { Left := 0, Right := 0, Best_d := 0, Best_e := 0, Longest := 0
    Max_Score := 0, Max_Score_Len := 0, Max_Score_Best_d := 0, Max_Score_Best_e := 0 }

/-- `Prefix_Edit_Dist(A, m, T, n, Error_Limit, A_End, T_End, Match_To_End, WA)`
with `m = |A|` and `n = |T|`. -/
def Prefix_Edit_Dist (A T : List Char) (Error_Limit : Int) (WA : pedWorkArea_t) :
    Except Abort Result :=
  let m : Int := A.length
  let n : Int := T.length
  let WA := { WA with deltaLen := 0 }
  let shorter := min m n
  let Row := scanPrefix A T shorter shorter.toNat 0
  let D := setCell WA.Edit_Array_Lazy 0 0 Row
  if Row = shorter then
    .ok { errors := 0, A_End := Row, T_End := Row, Match_To_End := true
          WA := { WA with Edit_Array_Lazy := D } }
  else
    levels A T m n Error_Limit WA Error_Limit.toNat 1 LoopState.init D

/-! ## Observations -/

/-- The delta script `delta[0 .. deltaLen)` left in a work area. -/
def script (WA : pedWorkArea_t) : List Int :=
  (List.range WA.deltaLen.toNat).map WA.delta

/-- Everything a caller can read off a call: the four results and the delta
script. -/
structure Answer where
  errors : Int
  A_End : Int
  T_End : Int
  Match_To_End : Bool
  delta : List Int
  deriving DecidableEq, Repr

/-- The answer carried by a result. -/
def Result.answer (r : Result) : Answer :=
  { errors := r.errors, A_End := r.A_End, T_End := r.T_End
    Match_To_End := r.Match_To_End, delta := script r.WA }

deriving instance DecidableEq for Except

/-- The answer of a call, or the assertion that stopped it. -/
def answer (A T : List Char) (Error_Limit : Int) (WA : pedWorkArea_t) : Except Abort Answer :=
  (Prefix_Edit_Dist A T Error_Limit WA).map Result.answer



/-- The table `D` after the cells `lo .. hi` of row `k1` have been assigned the
values `cell c`. -/
def rowFilled (cell : Int → Int) (D : Nat → Int → Int) (k1 : Nat) (lo hi : Int) :
    Nat → Int → Int :=
  fun j c => if j = k1 ∧ lo ≤ c ∧ c ≤ hi then cell c else D j c

/-- The termination test `Row == m || Row + d == n`. -/
def hitsEnd (m n Row d : Int) : Prop := Row = m ∨ Row + d = n

instance (m n Row d : Int) : Decidable (hitsEnd m n Row d) := by
  unfold hitsEnd; infer_instance



/-- The loop states `(e, s, D)` at which the level loop of a call is entered:
the state before the first level, and the state after every level that neither
ended the alignment nor collapsed the band. -/
inductive Reach (A T : List Char) (Error_Limit : Int) (WA : pedWorkArea_t) (D0 : Nat → Int → Int) :
    Nat → LoopState → (Nat → Int → Int) → Prop where
  | init : Reach A T Error_Limit WA D0 1 LoopState.init D0
  | step (e : Nat) (s : LoopState) (D D2 : Nat → Int → Int) :
      Reach A T Error_Limit WA D0 e s D →
      (e : Int) ≤ Error_Limit →
      fillRow A T A.length T.length WA.Edit_Array_Max (e - 1) (min (s.Right + 1) (e : Int))
          (min (s.Right + 1) (e : Int) - max (s.Left - 1) (-(e : Int)) + 1).toNat
          (max (s.Left - 1) (-(e : Int)))
          (openRow D (e - 1) (max (s.Left - 1) (-(e : Int))) (min (s.Right + 1) (e : Int))) =
        .ok (.filled D2) →
      pruneLeft (D2 e) (WA.G.Edit_Match_Limit e) (min (s.Right + 1) (e : Int))
          (max (s.Left - 1) (-(e : Int))) ≤ min (s.Right + 1) (e : Int) →
      Reach A T Error_Limit WA D0 (e + 1)
        (track WA.G (D2 e) e
          (pruneLeft (D2 e) (WA.G.Edit_Match_Limit e) (min (s.Right + 1) (e : Int))
            (max (s.Left - 1) (-(e : Int))))
          (pruneRight (D2 e) (WA.G.Edit_Match_Limit e)
            (pruneLeft (D2 e) (WA.G.Edit_Match_Limit e) (min (s.Right + 1) (e : Int))
              (max (s.Left - 1) (-(e : Int))))
            (min (s.Right + 1) (e : Int))) s) D2

/-- The ways the level loop hands back a result from the loop state
`(e, s, D)`: the loop condition fails, the diagonal loop hits the end of a
string, or the band collapses. -/
def Final (A T : List Char) (Error_Limit : Int) (WA : pedWorkArea_t)
    (e : Nat) (s : LoopState) (D : Nat → Int → Int) (r : Result) : Prop :=
  (Error_Limit < (e : Int) ∧ r = branchPoint WA e s D) ∨
  ((e : Int) ≤ Error_Limit ∧ ∃ d Row D2,
    fillRow A T A.length T.length WA.Edit_Array_Max (e - 1) (min (s.Right + 1) (e : Int))
        (min (s.Right + 1) (e : Int) - max (s.Left - 1) (-(e : Int)) + 1).toNat
        (max (s.Left - 1) (-(e : Int)))
        (openRow D (e - 1) (max (s.Left - 1) (-(e : Int))) (min (s.Right + 1) (e : Int))) =
      .ok (.hitEnd d Row D2) ∧ r = endMatch WA e d Row D2) ∨
  ((e : Int) ≤ Error_Limit ∧ ∃ D2,
    fillRow A T A.length T.length WA.Edit_Array_Max (e - 1) (min (s.Right + 1) (e : Int))
        (min (s.Right + 1) (e : Int) - max (s.Left - 1) (-(e : Int)) + 1).toNat
        (max (s.Left - 1) (-(e : Int)))
        (openRow D (e - 1) (max (s.Left - 1) (-(e : Int))) (min (s.Right + 1) (e : Int))) =
      .ok (.filled D2) ∧
    min (s.Right + 1) (e : Int) <
      pruneLeft (D2 e) (WA.G.Edit_Match_Limit e) (min (s.Right + 1) (e : Int))
        (max (s.Left - 1) (-(e : Int))) ∧
    r = branchPoint WA e s D2)

/-- A cell value `v` on diagonal `c` that lies inside both strings and at the
end of neither. -/
def Live (m n v c : Int) : Prop := 0 ≤ v ∧ v < m ∧ 0 ≤ v + c ∧ v + c < n

/-- The four sentinel cells of row `k` around the band `[L+1, R-1]`. -/
def Sentinels (D : Nat → Int → Int) (k : Nat) (L R : Int) : Prop :=
  D k (L - 1) = -2 ∧ D k L = -2 ∧ D k R = -2 ∧ D k (R + 1) = -2

/-- The value stored in `Edit_Array_Lazy[0][0]`: the length of the common
prefix found by the first scan. -/
def firstRow (A T : List Char) : Int :=
  scanPrefix A T (min (A.length : Int) T.length) (min (A.length : Int) T.length).toNat 0

/-- Assignment to the band history. -/
def setBand (B : Nat → Int × Int) (k : Nat) (b : Int × Int) : Nat → Int × Int :=
  fun j => if j = k then b else B j

/-- The state of the table after level `k`, for the band history `B`
(`B j` is the pruned band of level `j`), and its relation to a second table
`D'` that went through the same levels from other initial contents:
rows `0 .. k-1` carry their sentinels, every cell of a band holds the value the
recurrence gives it, is live, and is the same in both tables. -/
structure Hist (A T : List Char) (B : Nat → Int × Int) (D D' : Nat → Int → Int) (k : Nat) :
    Prop where
  base : B 0 = (0, 0)
  scan : D 0 0 = firstRow A T
  band : ∀ j, j < k → (B j).1 - 1 ≤ (B (j + 1)).1 ∧ (B (j + 1)).1 ≤ (B (j + 1)).2 ∧
    (B (j + 1)).2 ≤ (B j).2 + 1
  sent : ∀ j, j < k → Sentinels D j ((B j).1 - 1) ((B j).2 + 1) ∧
    Sentinels D' j ((B j).1 - 1) ((B j).2 + 1)
  cell : ∀ j, j < k → ∀ c, (B (j + 1)).1 ≤ c → c ≤ (B (j + 1)).2 →
    D (j + 1) c = cellRow A T A.length T.length D j c
  live : ∀ j, j ≤ k → ∀ c, (B j).1 ≤ c → c ≤ (B j).2 → Live A.length T.length (D j c) c
  agree : ∀ j, j ≤ k → ∀ c, (B j).1 ≤ c → c ≤ (B j).2 → D' j c = D j c

/-- A stored branch point `(be, bd, len)` is either the initial `(0, 0, 0)` or
a cell of the band of a level `be ≤ k` together with its value. -/
def BPok (B : Nat → Int × Int) (D : Nat → Int → Int) (k : Nat) (be : Nat) (bd len : Int) :
    Prop :=
  be ≤ k ∧ ((be = 0 ∧ bd = 0 ∧ len = 0) ∨
    (1 ≤ be ∧ (B be).1 ≤ bd ∧ bd ≤ (B be).2 ∧ len = D be bd))

/-- The invariant of the level loop at its entry with `e = k + 1`, the loop
variables `s` and the table `D` (related to a second table `D'`), for the band
history `B`. -/
def InvB (A T : List Char) (e : Nat) (s : LoopState) (D D' : Nat → Int → Int) (k : Nat)
    (B : Nat → Int × Int) : Prop :=
  e = k + 1 ∧ Hist A T B D D' k ∧ B k = (s.Left, s.Right) ∧
    BPok B D k s.Best_e s.Best_d s.Longest ∧
    BPok B D k s.Max_Score_Best_e s.Max_Score_Best_d s.Max_Score_Len

/-- The invariant of the level loop, for some band history. -/
def Inv (A T : List Char) (e : Nat) (s : LoopState) (D D' : Nat → Int → Int) : Prop :=
  ∃ (k : Nat) (B : Nat → Int × Int), InvB A T e s D D' k B

/-- The predecessor chosen by one iteration of the traceback loop of
`Compute_Delta` at diagonal `d`, reading row `k`: the pair `(from, max)`
(source lines 43-58). -/
def pick (D : Nat → Int → Int) (k : Nat) (d : Int) : Int × Int :=
  let frm := d
  let max := 1 + D k d
  let j := D k (d - 1)
  let frm := if j > max then d - 1 else frm
  let max := if j > max then j else max
  let j := 1 + D k (d + 1)
  let frm := if j > max then d + 1 else frm
  let max := if j > max then j else max
  (frm, max)

/-- The values that the traceback loop of `Compute_Delta` pushes on the delta
stack, in the order they are pushed, and the final value of `last`. -/
def traceSteps (D : Nat → Int → Int) : Nat → Int → Int → List Int × Int
  | 0, _, last => ([], last)
  | k + 1, d, last =>
    let frm := d
    let max := 1 + D k d
    let j := D k (d - 1)
    let frm := if j > max then d - 1 else frm
    let max := if j > max then j else max
    let j := 1 + D k (d + 1)
    let frm := if j > max then d + 1 else frm
    let max := if j > max then j else max
    if frm = d - 1 then
      ((max - last - 1) :: (traceSteps D k (d - 1) (D k frm)).1,
        (traceSteps D k (d - 1) (D k frm)).2)
    else if frm = d + 1 then
      ((last - (max - 1)) :: (traceSteps D k (d + 1) (D k frm)).1,
        (traceSteps D k (d + 1) (D k frm)).2)
    else
      traceSteps D k d last

/-- The number of iterations of the traceback loop that stay on the same
diagonal (`from == d`): the substitutions of the traced alignment. -/
def traceSubs (D : Nat → Int → Int) : Nat → Int → Nat
  | 0, _ => 0
  | k + 1, d =>
    let frm := d
    let max := 1 + D k d
    let j := D k (d - 1)
    let frm := if j > max then d - 1 else frm
    let max := if j > max then j else max
    let j := 1 + D k (d + 1)
    let frm := if j > max then d + 1 else frm
    if frm = d - 1 then traceSubs D k (d - 1)
    else if frm = d + 1 then traceSubs D k (d + 1)
    else traceSubs D k d + 1

/-- The stack after the values `l` have been pushed from position `sl` on. -/
def pushList (stack : Nat → Int) : Nat → List Int → Nat → Int
  | _, [] => stack
  | sl, v :: l => pushList (setAt stack sl v) (sl + 1) l

/-- The delta script that the emit loop of `Compute_Delta` writes for the
pushed values `l` (in push order) and the terminator `x`: the entry for a
pushed value carries its sign and the magnitude of the value pushed after it
(of the terminator for the last one); the script lists the entries in reverse
push order. -/
def deltaOf : List Int → Int → List Int
  | [], _ => []
  | v :: l, x => deltaOf l x ++ [|l.headD x| * Sign v]

/-- A tuning block for the examples: every `Edit_Match_Limit` is `0`, so no cell
is pruned, and the score is `Longest * 0.272 - e` truncated toward zero. -/
def exampleG : coParameters :=
  { Edit_Match_Limit := fun _ => 0
    Score := fun Longest e => (Longest * 272 - e * 1000).tdiv 1000 }

/-- A work area for the examples, with `Edit_Array_Max = 64` and cleared
buffers. -/
def exampleWA : pedWorkArea_t :=
  { Edit_Array_Lazy := fun _ _ => 0
    Edit_Array_Max := 64
    deltaStack := fun _ => 0
    delta := fun _ => 0
    deltaLen := 0
    G := exampleG }

/-- What the traceback needs of the rows below `K` of a table `D` (and of a
second table `D'`): the bands are nested and not empty, the rows carry their
sentinels, and the cells of the bands are not negative and the same in both
tables. -/
structure TraceZone (B : Nat → Int × Int) (D D' : Nat → Int → Int) (K : Nat) : Prop where
  sent : ∀ j, j < K → Sentinels D j ((B j).1 - 1) ((B j).2 + 1) ∧
    Sentinels D' j ((B j).1 - 1) ((B j).2 + 1)
  nonneg : ∀ j, j < K → ∀ c, (B j).1 ≤ c → c ≤ (B j).2 → 0 ≤ D j c
  agree : ∀ j, j < K → ∀ c, (B j).1 ≤ c → c ≤ (B j).2 → D' j c = D j c
  band : ∀ j, j + 1 < K → (B j).1 - 1 ≤ (B (j + 1)).1 ∧ (B (j + 1)).2 ≤ (B j).2 + 1
  ne : ∀ j, j < K → (B j).1 ≤ (B j).2

/-- The number of positions at which two strings differ, compared up to the
length of the shorter one. -/
def hamming : List Char → List Char → Nat
  | a :: as, b :: bs => (if a = b then 0 else 1) + hamming as bs
  | _, _ => 0

/-- Applying a delta script to the string `A`, with `T` as the source of the
inserted characters (`T` is kept in step with the output).  A positive entry
`v` copies `|v| - 1` characters of `A` and deletes the next one; a negative
entry copies `|v| - 1` characters and inserts the next character of `T`; at the
end of the script the rest of `A` is copied.  The result is `none` when an entry
is `0` or runs past the end of a string. -/
def applyDelta : List Int → List Char → List Char → Option (List Char)
  | [], A, _ => some A
  | v :: ds, A, T =>
    if 0 < v then
      if v.natAbs ≤ A.length ∧ v.natAbs - 1 ≤ T.length then
        (applyDelta ds (A.drop v.natAbs) (T.drop (v.natAbs - 1))).map
          (fun out => A.take (v.natAbs - 1) ++ out)
      else none
    else if v < 0 then
      if v.natAbs - 1 ≤ A.length ∧ v.natAbs ≤ T.length then
        (applyDelta ds (A.drop (v.natAbs - 1)) (T.drop v.natAbs)).map
          (fun out => A.take (v.natAbs - 1) ++ ((T.drop (v.natAbs - 1)).take 1 ++ out))
      else none
    else none

/-- The number of positions `i` among `lo, lo+1, .., lo+n-1` with
`A[i] ≠ T[i + d]`. -/
def mismatches (A T : List Char) (d : Int) : Int → Nat → Nat
  | _, 0 => 0
  | lo, n + 1 =>
    (if charAt A lo = charAt T (lo + d) then 0 else 1) + mismatches A T d (lo + 1) n

/-- The script `s`, applied to the rest of `A'` from position `a` with the rest
of `T'` from position `t`, yields a string as long as the rest of `T'` that
differs from it in `M` positions. -/
def Applies (A' T' : List Char) (s : List Int) (a t : Nat) (M : Nat) : Prop :=
  ∃ out, applyDelta s (A'.drop a) (T'.drop t) = some out ∧ a ≤ A'.length ∧ t ≤ T'.length ∧
    out.length = T'.length - t ∧ hamming out (T'.drop t) = M

/-- What the traceback from level `K` relies on: the rows below `K` carry their
sentinels around nested bands, row `0` holds the common prefix, which ends
before the end of both strings, and every cell of a band is live and holds the
value that the recurrence gives it from the row below. -/
structure Traceable (A T : List Char) (B : Nat → Int × Int) (D : Nat → Int → Int) (K : Nat) :
    Prop where
  zone : TraceZone B D D K
  base : B 0 = (0, 0)
  scan : 0 < K → D 0 0 = firstRow A T
  first : firstRow A T < min (A.length : Int) T.length
  cell : ∀ j, j + 1 < K → ∀ c, (B (j + 1)).1 ≤ c → c ≤ (B (j + 1)).2 →
    D (j + 1) c = cellRow A T A.length T.length D j c
  live : ∀ j, j < K → ∀ c, (B j).1 ≤ c → c ≤ (B j).2 → Live A.length T.length (D j c) c

/-- What the delta script of a result describes: applied to `A[0 .. A_End)` it
yields a string of length `T_End` whose mismatches against `T[0 .. T_End)`,
together with the entries of the script, number at most `errors`, and exactly
`errors` for an end match. -/
def DeltaValid (A T : List Char) (r : Result) : Prop :=
  ∃ out, applyDelta (script r.WA) (A.take r.A_End.toNat) (T.take r.T_End.toNat) = some out ∧
    out.length = r.T_End.toNat ∧
    hamming out (T.take r.T_End.toNat) + r.WA.deltaLen ≤ r.errors ∧
    (r.Match_To_End = true → hamming out (T.take r.T_End.toNat) + r.WA.deltaLen = r.errors)


/-- One row of the edit-distance table from the row before it: `prev` is the
row of `A[0 .. i)`, `a = A[i]`, and `i1 = i + 1`. -/
def pedNext (prev : Nat → Nat) (a : Char) (T : List Char) (i1 : Nat) : Nat → Nat
  | 0 => i1
  | j + 1 =>
    min (min (prev (j + 1) + 1) (pedNext prev a T i1 j + 1))
      (prev j + if a = charAt T (j : Int) then 0 else 1)

/-- The edit distance (insertions, deletions, substitutions) between the prefix
`A[0 .. i)` and the prefix `T[0 .. j)`, by the Wagner-Fischer recurrence. -/
def ped (A T : List Char) : Nat → Nat → Nat
  | 0 => fun j => j
  | i + 1 => pedNext (ped A T i) (charAt A (i : Int)) T (i + 1)

/-! ## `Allocate_More_Edit_Space` -/

/-- The storage side of the work area, as `Allocate_More_Edit_Space` sees it:
`Edit_Array_Lazy[e]` is `NULL` (`none`) or a pointer `alloc + Offset` into one
of the blocks of `WA->alloc` (`some (a, Offset)`: block number `a`, cell
`Offset` of that block is the centre `[e][0]` of the row); `alloc` lists the
sizes of the blocks. -/
structure editSpace where
  Edit_Array_Lazy : Nat → Option (Nat × Int)
  alloc : List Int
  Edit_Array_Max : Int

/-- The loop `while (WA->Edit_Array_Lazy[b] != NULL) b++`.  The first argument
bounds the iterations; the array has `Edit_Array_Max` entries. -/
def firstNull (rows : Nat → Option (Nat × Int)) : Nat → Nat → Nat
  | 0, b => b
  | f + 1, b => if (rows b).isSome then firstNull rows f (b + 1) else b

/-- The value that a 32-bit signed computation leaves in an `int32` when its
exact result is `x`: the representative of `x` modulo `2^32` in
`[-2^31, 2^31)`.  It is `x` itself when `x` fits.  (An overflowing signed
operation is undefined in C++ and the conversion of a `uint32` above `2^31 - 1`
is implementation-defined; this is the two's-complement result that the usual
compilers give.) -/
def int32 (x : Int) : Int := (x + 2147483648) % 4294967296 - 2147483648

/-- The loop `while (Size < Offset + Del) Size *= 2` on the `int32` variable
`Size`; `need` is the `int32` value of `Offset + Del`.  The first argument
bounds the iterations.  After 32 doublings an `int32` is `0`, where the loop
ends at once or never, so a loop that is still running after 33 iterations does
not end (`growSize_fuel`). -/
def growSize (need : Int) : Nat → Int → Int
  | 0, Size => Size
  | f + 1, Size => if Size < need then growSize need f (int32 (Size * 2)) else Size

/-- The loop `while ((Offset + Del < Size) && (e < WA->Edit_Array_Max))` that
hands out the rows of the new block `a`, on the `int32` variables `Offset`,
`Del`, `e`; the state is `(Offset, Del, e, Edit_Array_Lazy)` and the result is
`(e, Edit_Array_Lazy)`.  The first argument bounds the iterations; every
iteration increments `e`, so `Edit_Array_Max - e` of them always suffice. -/
def assignRows (a : Nat) (Size Max : Int) :
    Nat → Int → Int → Nat → (Nat → Option (Nat × Int)) → Nat × (Nat → Option (Nat × Int))
  | 0, _, _, e, rows => (e, rows)
  | f + 1, Offset, Del, e, rows =>
    if int32 (Offset + Del) < Size ∧ (e : Int) < Max then
      assignRows a Size Max f (int32 (Offset + Del)) (int32 (Del + 2)) (e + 1)
        (fun j => if j = e then some (a, Offset) else rows j)
    else (e, rows)

/-- `Allocate_More_Edit_Space(WA)` for the value `EDIT_SPACE_SIZE` of the
`uint32` global of that name.  `Offset`, `Del` and `Size` are `int32`
variables: every value stored in them goes through `int32`, including the
copy of `EDIT_SPACE_SIZE` into `Size`.  The result is `none` when the call does
not return: the doubling loop does not end, `new int32 [Size]` is given a
negative size, or `assert(e != b)` fails. -/
def Allocate_More_Edit_Space (EDIT_SPACE_SIZE : Int) (WA : editSpace) : Option editSpace :=
  let a := WA.alloc.length
  let b := firstNull WA.Edit_Array_Lazy WA.Edit_Array_Max.toNat 0
  let Offset : Int := int32 (2 + b)
  let Del : Int := int32 (6 + int32 (b * 2))
  let Size := growSize (int32 (Offset + Del)) 33 (int32 EDIT_SPACE_SIZE)
  if Size < int32 (Offset + Del) ∨ Size < 0 then none
  else
    let r := assignRows a Size WA.Edit_Array_Max (WA.Edit_Array_Max - b).toNat Offset Del b
      WA.Edit_Array_Lazy
    if r.1 = b then none
    else some { WA with Edit_Array_Lazy := r.2, alloc := WA.alloc ++ [Size] }

/-- A work area in which no row has storage yet. -/
def emptySpace (Edit_Array_Max : Int) : editSpace :=
  { Edit_Array_Lazy := fun _ => none, alloc := [], Edit_Array_Max := Edit_Array_Max }

/-! ## The delta emitter as the specification describes it -/

/-- The traceback of section 4.4 of the specification, following its words:
walk `k` from `e` down to `1`; `from = d`, `max = 1 + D[k-1][d]`; if
`D[k-1][d-1] > max` then `from = d-1`, `max = D[k-1][d-1]`; if
`1 + D[k-1][d+1] > max` then `from = d+1`, `max = 1 + D[k-1][d+1]`; if
`from == d-1` push `max - last - 1`, `d ← d-1`, `last ← D[k-1][d]`; if
`from == d+1` push `last - (max - 1)`, `d ← d+1`, `last ← D[k-1][d]`; if
`from == d` no push, no change of `d`, but `last ← D[k-1][d]`.  The stack is a
list with its top at the head; the result is the stack and the final `last`. -/
def specTraceback (D : Nat → Int → Int) : Nat → Int → Int → List Int → List Int × Int
  | 0, _, last, stack => (stack, last)
  | k + 1, d, last, stack =>
    let frm := d
    let max := 1 + D k d
    let frm := if D k (d - 1) > max then d - 1 else frm
    let max := if D k (d - 1) > max then D k (d - 1) else max
    let frm := if 1 + D k (d + 1) > max then d + 1 else frm
    let max := if 1 + D k (d + 1) > max then 1 + D k (d + 1) else max
    if frm = d - 1 then specTraceback D k (d - 1) (D k (d - 1)) ((max - last - 1) :: stack)
    else if frm = d + 1 then specTraceback D k (d + 1) (D k (d + 1)) ((last - (max - 1)) :: stack)
    else specTraceback D k d (D k d) stack

/-- The traceback of section 4.4 with the assignment `last ← D[k-1][d]` of the
case `from == d` left out: a same-diagonal step changes nothing. -/
def keepTraceback (D : Nat → Int → Int) : Nat → Int → Int → List Int → List Int × Int
  | 0, _, last, stack => (stack, last)
  | k + 1, d, last, stack =>
    let frm := d
    let max := 1 + D k d
    let frm := if D k (d - 1) > max then d - 1 else frm
    let max := if D k (d - 1) > max then D k (d - 1) else max
    let frm := if 1 + D k (d + 1) > max then d + 1 else frm
    let max := if 1 + D k (d + 1) > max then 1 + D k (d + 1) else max
    if frm = d - 1 then keepTraceback D k (d - 1) (D k (d - 1)) ((max - last - 1) :: stack)
    else if frm = d + 1 then keepTraceback D k (d + 1) (D k (d + 1)) ((last - (max - 1)) :: stack)
    else keepTraceback D k d last stack

/-- The emit order of section 4.4: read the stack from the top down and write
`|stack[i]| · sign(stack[i-1])` for each position `i`; the bottom element
gives its sign only. -/
def specEmit : List Int → List Int
  | x :: y :: rest => |x| * Sign y :: specEmit (y :: rest)
  | _ => []

/-- The delta script of section 4.4 for the terminal `(e, d, row)`: traceback
with `last` starting at `row`, then the terminator `last + 1`, then the emit
pass. -/
def specDelta (D : Nat → Int → Int) (e : Nat) (d row : Int) : List Int :=
  specEmit (((specTraceback D e d row []).2 + 1) :: (specTraceback D e d row []).1)

/-- The delta script of the section 4.4 procedure in which a same-diagonal step
leaves `last` alone. -/
def keepDelta (D : Nat → Int → Int) (e : Nat) (d row : Int) : List Int :=
  specEmit (((keepTraceback D e d row []).2 + 1) :: (keepTraceback D e d row []).1)

/-! ## The memory accesses of a call

The functions below follow the loops of `Compute_Delta` and `Prefix_Edit_Dist`
once more and list, in program order, the array accesses that the source
performs: the control flow is that of the value functions above, and an operand
that C's `&&` does not evaluate is not listed. -/

/-- One array access of the kernel. -/
inductive Access where
  /-- a read of `A[i]` -/
  | strA (i : Int)
  /-- a read of `T[i]` -/
  | strT (i : Int)
  /-- a read of `Edit_Array_Lazy[r][c]` -/
  | cellR (r c : Int)
  /-- the write `Edit_Array_Lazy[r][c] = v` of a row value -/
  | cellW (r c v : Int)
  /-- the write `Edit_Array_Lazy[r][c] = -2` of a sentinel -/
  | sentW (r c : Int)
  /-- a write of `deltaStack[i]` -/
  | stackW (i : Int)
  /-- a read of `deltaStack[i]` -/
  | stackR (i : Int)
  /-- a write of `delta[i]` -/
  | deltaW (i : Int)
  deriving DecidableEq, Repr

/-- The accesses of the loop `while ((Row < shorter) && (A[Row] == T[Row]))`. -/
def scanPrefixLog (A T : List Char) (shorter : Int) : Nat → Int → List Access
  | 0, _ => []
  | f + 1, Row =>
    if Row < shorter then
      .strA Row :: .strT Row ::
        (if charAt A Row = charAt T Row then scanPrefixLog A T shorter f (Row + 1) else [])
    else []

/-- The accesses of the loop
`while ((Row < m) && (Row + d < n) && (A[Row] == T[Row + d]))`. -/
def extendLog (A T : List Char) (m n d : Int) : Nat → Int → List Access
  | 0, _ => []
  | f + 1, Row =>
    if Row < m ∧ Row + d < n then
      .strA Row :: .strT (Row + d) ::
        (if charAt A Row = charAt T (Row + d) then extendLog A T m n d f (Row + 1) else [])
    else []

/-- The accesses of the computation of `Row` in the body of the diagonal loop
(source lines 228-233). -/
def cellRowLog (A T : List Char) (m n : Int) (D : Nat → Int → Int) (k : Nat) (d : Int) :
    List Access :=
  let Row := 1 + D k d
  let Row := max Row (D k (d - 1))
  let Row := max Row (D k (d + 1) + 1)
  .cellR k d :: .cellR k (d - 1) :: .cellR k (d + 1) :: extendLog A T m n d (m - Row).toNat Row

/-- The accesses of the diagonal loop of level `e = k+1`, up to the call of
`Compute_Delta`. -/
def fillRowLog (A T : List Char) (m n : Int) (Edit_Array_Max : Int) (k : Nat) (Right : Int) :
    Nat → Int → (Nat → Int → Int) → List Access
  | 0, _, _ => []
  | f + 1, d, D =>
    if d ≤ Right then
      let Row := cellRow A T m n D k d
      cellRowLog A T m n D k d ++
      if ((k + 1 : Nat) : Int) < Edit_Array_Max then
        let D := setCell D (k + 1) d Row
        .cellW ((k + 1 : Nat) : Int) d Row ::
        if Row = m ∨ Row + d = n then
          (if Row = m then [.cellR k (d + 1), .cellR ((k + 1 : Nat) : Int) d] else []) ++
          if Row = m ∧ 1 + D k (d + 1) = D (k + 1) d ∧ d < Right then
            [.cellR ((k + 1 : Nat) : Int) (d + 1 - 1),
              .cellW ((k + 1 : Nat) : Int) (d + 1) (D (k + 1) (d + 1 - 1))]
          else []
        else
          fillRowLog A T m n Edit_Array_Max k Right f (d + 1) D
      else []
    else []

/-- The accesses of `while (Left <= Right && Left < 0 && D[e][Left] < limit)`. -/
def pruneLeftNegLog (e : Nat) (row : Int → Int) (limit Right : Int) : Nat → Int → List Access
  | 0, _ => []
  | f + 1, Left =>
    if Left ≤ Right ∧ Left < 0 then
      .cellR e Left ::
        (if row Left < limit then pruneLeftNegLog e row limit Right f (Left + 1) else [])
    else []

/-- The accesses of `while (Left <= Right && D[e][Left] + Left < limit)`. -/
def pruneLeftPosLog (e : Nat) (row : Int → Int) (limit Right : Int) : Nat → Int → List Access
  | 0, _ => []
  | f + 1, Left =>
    if Left ≤ Right then
      .cellR e Left ::
        (if row Left + Left < limit then pruneLeftPosLog e row limit Right f (Left + 1) else [])
    else []

/-- The accesses of `while (Right > 0 && D[e][Right] + Right < limit)`. -/
def pruneRightPosLog (e : Nat) (row : Int → Int) (limit : Int) : Nat → Int → List Access
  | 0, _ => []
  | f + 1, Right =>
    if Right > 0 then
      .cellR e Right ::
        (if row Right + Right < limit then pruneRightPosLog e row limit f (Right - 1) else [])
    else []

/-- The accesses of `while (D[e][Right] < limit) Right--`, for as many
iterations as the first argument allows. -/
def pruneRightNegLog (e : Nat) (row : Int → Int) (limit : Int) : Nat → Int → List Access
  | 0, _ => []
  | f + 1, Right =>
    .cellR e Right :: (if row Right < limit then pruneRightNegLog e row limit f (Right - 1) else [])

/-- The accesses of the two loops that advance `Left`. -/
def pruneLeftLog (e : Nat) (row : Int → Int) (limit Right Left : Int) : List Access :=
  pruneLeftNegLog e row limit Right (Right - Left + 1).toNat Left ++
  let Left := pruneLeftNeg row limit Right (Right - Left + 1).toNat Left
  if Left ≥ 0 then pruneLeftPosLog e row limit Right (Right - Left + 1).toNat Left else []

/-- The accesses of the two loops that retract `Right`. -/
def pruneRightLog (e : Nat) (row : Int → Int) (limit Left Right : Int) : List Access :=
  pruneRightPosLog e row limit Right.toNat Right ++
  let Right := pruneRightPos row limit Right.toNat Right
  if Right ≤ 0 then pruneRightNegLog e row limit (Right - Left + 1).toNat Right else []

/-- The accesses of the scan for the longest cell (source lines 284-289). -/
def scanLongestLog (row : Int → Int) (e : Nat) (Right : Int) :
    Nat → Int → Int × Nat × Int → List Access
  | 0, _, _ => []
  | f + 1, d, b =>
    if d ≤ Right then
      .cellR e d ::
        (if row d > b.2.2 then .cellR e d :: scanLongestLog row e Right f (d + 1) (d, e, row d)
         else scanLongestLog row e Right f (d + 1) b)
    else []

/-- The accesses of the traceback loop of `Compute_Delta`; the state is
`(d, stackLen)`. -/
def traceLog (D : Nat → Int → Int) : Nat → Int → Nat → List Access
  | 0, _, _ => []
  | k + 1, d, stackLen =>
    .cellR k d :: .cellR k (d - 1) :: .cellR k (d + 1) ::
      (if (pick D k d).1 = d - 1 then
        .stackW stackLen :: .cellR k (pick D k d).1 :: traceLog D k (d - 1) (stackLen + 1)
      else if (pick D k d).1 = d + 1 then
        .stackW stackLen :: .cellR k (pick D k d).1 :: traceLog D k (d + 1) (stackLen + 1)
      else traceLog D k d stackLen)

/-- The accesses of the emit loop of `Compute_Delta`; the arguments are `i`
and `k`. -/
def emitLog : Nat → Nat → List Access
  | 0, _ => []
  | i + 1, k => .stackR ((i + 1 : Nat) : Int) :: .stackR i :: .deltaW k :: emitLog i (k + 1)

/-- The accesses of `Compute_Delta(WA, e, d, row)`. -/
def Compute_DeltaLog (WA : pedWorkArea_t) (e : Nat) (d : Int) (row : Int) : List Access :=
  let stackLen := (Compute_Delta.trace WA.Edit_Array_Lazy e d row 0 WA.deltaStack).2.1
  traceLog WA.Edit_Array_Lazy e d 0 ++ .stackW stackLen :: emitLog (stackLen + 1 - 1) 0

/-- The accesses of the level loop and of the return that follows it. -/
def levelsLog (A T : List Char) (m n : Int) (Error_Limit : Int) (WA : pedWorkArea_t) :
    Nat → Nat → LoopState → (Nat → Int → Int) → List Access
  | 0, _, s, D =>
    Compute_DeltaLog { WA with Edit_Array_Lazy := D }
      s.Max_Score_Best_e s.Max_Score_Best_d s.Max_Score_Len
  | f + 1, e, s, D =>
    if (e : Int) ≤ Error_Limit then
      let Left := max (s.Left - 1) (-(e : Int))
      let Right := min (s.Right + 1) (e : Int)
      .sentW ((e : Int) - 1) Left :: .sentW ((e : Int) - 1) (Left - 1) ::
      .sentW ((e : Int) - 1) Right :: .sentW ((e : Int) - 1) (Right + 1) ::
      (fillRowLog A T m n WA.Edit_Array_Max (e - 1) Right (Right - Left + 1).toNat Left
          (openRow D (e - 1) Left Right) ++
        match fillRow A T m n WA.Edit_Array_Max (e - 1) Right (Right - Left + 1).toNat Left
            (openRow D (e - 1) Left Right) with
        | .error _ => []
        | .ok (.hitEnd d Row D) => Compute_DeltaLog { WA with Edit_Array_Lazy := D } e d Row
        | .ok (.filled D) =>
          let limit := WA.G.Edit_Match_Limit e
          pruneLeftLog e (D e) limit Right Left ++
          let Left := pruneLeft (D e) limit Right Left
          if Left > Right then
            Compute_DeltaLog { WA with Edit_Array_Lazy := D }
              s.Max_Score_Best_e s.Max_Score_Best_d s.Max_Score_Len
          else
            pruneRightLog e (D e) limit Left Right ++
            let Right := pruneRight (D e) limit Left Right
            if Left ≤ Right then
              scanLongestLog (D e) e Right (Right - Left + 1).toNat Left
                  (s.Best_d, s.Best_e, s.Longest) ++
                levelsLog A T m n Error_Limit WA f (e + 1) (track WA.G (D e) e Left Right s) D
            else [])
    else
      Compute_DeltaLog { WA with Edit_Array_Lazy := D }
        s.Max_Score_Best_e s.Max_Score_Best_d s.Max_Score_Len

/-- The accesses of `Prefix_Edit_Dist(A, m, T, n, Error_Limit, ..)`. -/
def Prefix_Edit_DistLog (A T : List Char) (Error_Limit : Int) (WA : pedWorkArea_t) :
    List Access :=
  let m : Int := A.length
  let n : Int := T.length
  let WA := { WA with deltaLen := 0 }
  let shorter := min m n
  let Row := scanPrefix A T shorter shorter.toNat 0
  let D := setCell WA.Edit_Array_Lazy 0 0 Row
  scanPrefixLog A T shorter shorter.toNat 0 ++ .cellW 0 0 Row ::
    if Row = shorter then [] else
      levelsLog A T m n Error_Limit WA Error_Limit.toNat 1 LoopState.init D

/-- An access of a call with string lengths `m`, `n` and error limit `E` is in
range: a string index lies inside its string, a table access has a row
`0 ≤ r ≤ E` and a column `|c| ≤ r + 2`, a stored row value `v` on diagonal `c`
has `0 ≤ v ≤ m` and `0 ≤ v + c ≤ n`, and an index into `deltaStack` or `delta`
lies in `0 .. E`. -/
def Access.inRange (m n E : Int) : Access → Prop
  | .strA i => 0 ≤ i ∧ i < m
  | .strT i => 0 ≤ i ∧ i < n
  | .cellR r c => 0 ≤ r ∧ r ≤ E ∧ -(r + 2) ≤ c ∧ c ≤ r + 2
  | .cellW r c v =>
    (0 ≤ r ∧ r ≤ E ∧ -(r + 2) ≤ c ∧ c ≤ r + 2) ∧ 0 ≤ v ∧ v ≤ m ∧ 0 ≤ v + c ∧ v + c ≤ n
  | .sentW r c => 0 ≤ r ∧ r ≤ E ∧ -(r + 2) ≤ c ∧ c ≤ r + 2
  | .stackW i => 0 ≤ i ∧ i ≤ E
  | .stackR i => 0 ≤ i ∧ i ≤ E
  | .deltaW i => 0 ≤ i ∧ i ≤ E

/-- An access is a read of a cell of row `e` between the diagonals `lo` and
`hi`. -/
def Access.readsRow (e : Nat) (lo hi : Int) (a : Access) : Prop :=
  ∃ c, a = .cellR e c ∧ lo ≤ c ∧ c ≤ hi

/-- A row of level `2` on which both pruning loops move: the left pruning
drops diagonal `-2`, the right pruning walks from `2` down to `-1`. -/
def exampleRow : Int → Int :=
  fun c => if c = -1 then 5 else if c = 1 then 1 else 0


/-- The table after the writes of a list of accesses have been applied, in
order, to the table `D`. -/
def replay : List Access → (Nat → Int → Int) → (Nat → Int → Int)
  | [], D => D
  | .cellW r c v :: l, D => replay l (setCell D r.toNat c v)
  | .sentW r c :: l, D => replay l (setCell D r.toNat c (-2))
  | .strA _ :: l, D => replay l D
  | .strT _ :: l, D => replay l D
  | .cellR _ _ :: l, D => replay l D
  | .stackW _ :: l, D => replay l D
  | .stackR _ :: l, D => replay l D
  | .deltaW _ :: l, D => replay l D

/-- An access that does not write the table. -/
def Access.keepsTable : Access → Prop
  | .cellW _ _ _ => False
  | .sentW _ _ => False
  | _ => True

/-! # Theorems -/


/-! ## Cell updates -/

theorem setCell_same (D : Nat → Int → Int) (e : Nat) (d v : Int) : setCell D e d v e d = v := by
  simp [setCell]

theorem setCell_row_ne (D : Nat → Int → Int) (e : Nat) (d v : Int) (k : Nat) (c : Int)
    (h : k ≠ e) : setCell D e d v k c = D k c := by
  simp [setCell, h]

theorem setCell_col_ne (D : Nat → Int → Int) (e : Nat) (d v : Int) (k : Nat) (c : Int)
    (h : c ≠ d) : setCell D e d v k c = D k c := by
  simp [setCell, h]

theorem setAt_same (a : Nat → Int) (i : Nat) (v : Int) : setAt a i v i = v := by
  simp [setAt]

theorem setAt_ne (a : Nat → Int) (i : Nat) (v : Int) (j : Nat) (h : j ≠ i) :
    setAt a i v j = a j := by
  simp [setAt, h]

/-! ## The match-extension loops -/

theorem extend_ge (A T : List Char) (m n d : Int) :
    ∀ (f : Nat) (Row : Int), Row ≤ extend A T m n d f Row := by
  intro f
  induction f with
  | zero => intro Row; simp [extend]
  | succ f ih =>
    intro Row
    simp only [extend]
    split
    · have := ih (Row + 1); omega
    · exact le_refl _

theorem extend_le (A T : List Char) (m n d : Int) :
    ∀ (f : Nat) (Row : Int), Row ≤ m → Row + d ≤ n →
      extend A T m n d f Row ≤ m ∧ extend A T m n d f Row + d ≤ n := by
  intro f
  induction f with
  | zero => intro Row h1 h2; simp [extend, h1, h2]
  | succ f ih =>
    intro Row h1 h2
    simp only [extend]
    split
    · next h => exact ih (Row + 1) (by omega) (by omega)
    · exact ⟨h1, h2⟩

theorem extend_stop (A T : List Char) (m n d : Int) :
    ∀ (f : Nat) (Row : Int), (m - Row).toNat ≤ f →
      ¬ (extend A T m n d f Row < m ∧ extend A T m n d f Row + d < n ∧
        charAt A (extend A T m n d f Row) = charAt T (extend A T m n d f Row + d)) := by
  intro f
  induction f with
  | zero =>
    intro Row hf
    simp only [extend]
    omega
  | succ f ih =>
    intro Row hf
    simp only [extend]
    split
    · exact ih (Row + 1) (by omega)
    · next h => exact h

theorem extend_match (A T : List Char) (m n d : Int) :
    ∀ (f : Nat) (Row i : Int), Row ≤ i → i < extend A T m n d f Row →
      charAt A i = charAt T (i + d) := by
  intro f
  induction f with
  | zero => intro Row i h1 h2; simp only [extend] at h2; omega
  | succ f ih =>
    intro Row i h1 h2
    simp only [extend] at h2
    split at h2
    · next h =>
      by_cases hi : i = Row
      · subst hi; exact h.2.2
      · exact ih (Row + 1) i (by omega) h2
    · omega

theorem extend_lt_of_start (A T : List Char) (m n d : Int) (f : Nat) (Row : Int)
    (h : ¬ (Row < m ∧ Row + d < n ∧ charAt A Row = charAt T (Row + d))) :
    extend A T m n d f Row = Row := by
  cases f with
  | zero => rfl
  | succ f => simp only [extend, if_neg h]

theorem scanPrefix_ge (A T : List Char) (shorter : Int) :
    ∀ (f : Nat) (Row : Int), Row ≤ scanPrefix A T shorter f Row := by
  intro f
  induction f with
  | zero => intro Row; simp [scanPrefix]
  | succ f ih =>
    intro Row
    simp only [scanPrefix]
    split
    · have := ih (Row + 1); omega
    · exact le_refl _

theorem scanPrefix_le (A T : List Char) (shorter : Int) :
    ∀ (f : Nat) (Row : Int), Row ≤ shorter → scanPrefix A T shorter f Row ≤ shorter := by
  intro f
  induction f with
  | zero => intro Row h; simpa [scanPrefix] using h
  | succ f ih =>
    intro Row h
    simp only [scanPrefix]
    split
    · next h2 => exact ih (Row + 1) (by omega)
    · exact h

theorem scanPrefix_stop (A T : List Char) (shorter : Int) :
    ∀ (f : Nat) (Row : Int), (shorter - Row).toNat ≤ f →
      ¬ (scanPrefix A T shorter f Row < shorter ∧
        charAt A (scanPrefix A T shorter f Row) = charAt T (scanPrefix A T shorter f Row)) := by
  intro f
  induction f with
  | zero => intro Row hf; simp only [scanPrefix]; omega
  | succ f ih =>
    intro Row hf
    simp only [scanPrefix]
    split
    · exact ih (Row + 1) (by omega)
    · next h => exact h

theorem scanPrefix_match (A T : List Char) (shorter : Int) :
    ∀ (f : Nat) (Row i : Int), Row ≤ i → i < scanPrefix A T shorter f Row →
      charAt A i = charAt T i := by
  intro f
  induction f with
  | zero => intro Row i h1 h2; simp only [scanPrefix] at h2; omega
  | succ f ih =>
    intro Row i h1 h2
    simp only [scanPrefix] at h2
    split at h2
    · next h =>
      by_cases hi : i = Row
      · subst hi; exact h.2
      · exact ih (Row + 1) i (by omega) h2
    · omega

/-- If the two strings agree on every position below `shorter`, the scan runs
to `shorter`. -/
theorem scanPrefix_full (A T : List Char) (shorter : Int)
    (hag : ∀ i : Int, 0 ≤ i → i < shorter → charAt A i = charAt T i) :
    ∀ (f : Nat) (Row : Int), 0 ≤ Row → Row ≤ shorter → (shorter - Row).toNat ≤ f →
      scanPrefix A T shorter f Row = shorter := by
  intro f
  induction f with
  | zero => intro Row h0 h1 hf; simp only [scanPrefix]; omega
  | succ f ih =>
    intro Row h0 h1 hf
    simp only [scanPrefix]
    split
    · exact ih (Row + 1) (by omega) (by omega) (by omega)
    · next h =>
      by_contra hne
      exact h ⟨by omega, hag Row h0 (by omega)⟩




theorem cellRow_congr (A T : List Char) (m n : Int) (D D' : Nat → Int → Int) (k : Nat) (d : Int)
    (h : ∀ c, d - 1 ≤ c → c ≤ d + 1 → D k c = D' k c) :
    cellRow A T m n D k d = cellRow A T m n D' k d := by
  simp only [cellRow]
  rw [h d (by omega) (by omega), h (d - 1) (by omega) (by omega), h (d + 1) (by omega) (by omega)]

theorem rowFilled_empty (cell : Int → Int) (D : Nat → Int → Int) (k1 : Nat) (lo hi : Int)
    (h : hi < lo) : rowFilled cell D k1 lo hi = D := by
  funext j c
  simp only [rowFilled]
  rw [if_neg]
  omega

theorem rowFilled_step (cell : Int → Int) (D : Nat → Int → Int) (k1 : Nat) (lo hi : Int)
    (h : lo ≤ hi) :
    rowFilled cell (setCell D k1 lo (cell lo)) k1 (lo + 1) hi = rowFilled cell D k1 lo hi := by
  funext j c
  simp only [rowFilled, setCell]
  by_cases hj : j = k1
  · by_cases hc : c = lo
    · subst hc; simp [hj, h]
    · by_cases h1 : lo + 1 ≤ c ∧ c ≤ hi
      · have : lo ≤ c ∧ c ≤ hi := by omega
        simp [hj, h1, this]
      · have : ¬ (lo ≤ c ∧ c ≤ hi) := by omega
        simp [hj, h1, this, hc]
  · simp [hj]

theorem rowFilled_row_ne (cell : Int → Int) (D : Nat → Int → Int) (k1 : Nat) (lo hi : Int)
    (j : Nat) (c : Int) (h : j ≠ k1) : rowFilled cell D k1 lo hi j c = D j c := by
  simp [rowFilled, h]

theorem rowFilled_in (cell : Int → Int) (D : Nat → Int → Int) (k1 : Nat) (lo hi : Int)
    (c : Int) (h1 : lo ≤ c) (h2 : c ≤ hi) : rowFilled cell D k1 lo hi k1 c = cell c := by
  simp [rowFilled, h1, h2]

/-- What the diagonal loop of level `k+1` returns when started at diagonal `d`
on the table `D`: either every cell `d .. Right` was assigned its `cellRow`
value and none of them hit the end of a string, or `d0` is the first diagonal
whose value hits an end, with the tie-break adjustment spelled out. -/
theorem fillRow_spec (A T : List Char) (m n Max : Int) (k : Nat) (Right : Int)
    (hmax : ((k + 1 : Nat) : Int) < Max) :
    ∀ (f : Nat) (d : Int) (D : Nat → Int → Int), (Right - d + 1).toNat ≤ f →
      (fillRow A T m n Max k Right f d D =
          .ok (.filled (rowFilled (cellRow A T m n D k) D (k + 1) d Right)) ∧
        ∀ c, d ≤ c → c ≤ Right → ¬ hitsEnd m n (cellRow A T m n D k c) c) ∨
      ∃ d0, d ≤ d0 ∧ d0 ≤ Right ∧ hitsEnd m n (cellRow A T m n D k d0) d0 ∧
        (∀ c, d ≤ c → c < d0 → ¬ hitsEnd m n (cellRow A T m n D k c) c) ∧
        ((¬ (cellRow A T m n D k d0 = m ∧ 1 + D k (d0 + 1) = cellRow A T m n D k d0 ∧
              d0 < Right) ∧
            fillRow A T m n Max k Right f d D =
              .ok (.hitEnd d0 (cellRow A T m n D k d0)
                (rowFilled (cellRow A T m n D k) D (k + 1) d d0))) ∨
          ((cellRow A T m n D k d0 = m ∧ 1 + D k (d0 + 1) = cellRow A T m n D k d0 ∧
              d0 < Right) ∧
            fillRow A T m n Max k Right f d D =
              .ok (.hitEnd (d0 + 1) (cellRow A T m n D k d0)
                (setCell (rowFilled (cellRow A T m n D k) D (k + 1) d d0) (k + 1) (d0 + 1)
                  (cellRow A T m n D k d0))))) := by
  intro f
  induction f with
  | zero =>
    intro d D hf
    left
    refine ⟨?_, fun c h1 h2 => by omega⟩
    simp only [fillRow]
    rw [rowFilled_empty _ _ _ _ _ (by omega)]
  | succ f ih =>
    intro d D hf
    simp only [fillRow]
    by_cases hd : d ≤ Right
    · simp only [if_pos hd, if_pos hmax]
      have hrow : ∀ c, cellRow A T m n (setCell D (k + 1) d (cellRow A T m n D k d)) k c =
          cellRow A T m n D k c := fun c =>
        cellRow_congr A T m n _ _ k c (fun c' _ _ => setCell_row_ne _ _ _ _ _ _ (by omega))
      by_cases hend : cellRow A T m n D k d = m ∨ cellRow A T m n D k d + d = n
      · right
        refine ⟨d, le_refl _, hd, hend, fun c h1 h2 => by omega, ?_⟩
        simp only [if_pos hend]
        have hk : setCell D (k + 1) d (cellRow A T m n D k d) k (d + 1) = D k (d + 1) :=
          setCell_row_ne _ _ _ _ _ _ (by omega)
        have hfill : rowFilled (cellRow A T m n D k) D (k + 1) d d =
            setCell D (k + 1) d (cellRow A T m n D k d) := by
          funext j c
          simp only [rowFilled, setCell]
          by_cases hj : j = k + 1
          · by_cases hc : c = d
            · subst hc; simp [hj]
            · have : ¬ (d ≤ c ∧ c ≤ d) := by omega
              simp [hj, hc, this]
          · simp [hj]
        rw [hk, setCell_same, hfill]
        by_cases htie : cellRow A T m n D k d = m ∧ 1 + D k (d + 1) = cellRow A T m n D k d ∧
            d < Right
        · right
          refine ⟨htie, ?_⟩
          simp only [if_pos htie]
          have : d + 1 - 1 = d := by omega
          rw [this, setCell_same]
        · left
          refine ⟨htie, ?_⟩
          simp only [if_neg htie]
      · simp only [if_neg hend]
        rcases ih (d + 1) (setCell D (k + 1) d (cellRow A T m n D k d)) (by omega) with
          ⟨h1, h2⟩ | ⟨d0, h1, h2, h3, h4, h5⟩
        · left
          constructor
          · rw [h1]
            have : cellRow A T m n (setCell D (k + 1) d (cellRow A T m n D k d)) k =
                cellRow A T m n D k := funext hrow
            rw [this, rowFilled_step _ _ _ _ _ hd]
          · intro c hc1 hc2
            by_cases hcd : c = d
            · subst hcd; exact hend
            · have := h2 c (by omega) hc2
              rwa [hrow] at this
        · right
          have hfun : cellRow A T m n (setCell D (k + 1) d (cellRow A T m n D k d)) k =
              cellRow A T m n D k := funext hrow
          rw [hfun] at h3 h4 h5
          have hk : setCell D (k + 1) d (cellRow A T m n D k d) k (d0 + 1) = D k (d0 + 1) :=
            setCell_row_ne _ _ _ _ _ _ (by omega)
          rw [hk, rowFilled_step _ _ _ _ _ (by omega)] at h5
          refine ⟨d0, by omega, h2, h3, ?_, h5⟩
          intro c hc1 hc2
          by_cases hcd : c = d
          · subst hcd; exact hend
          · exact h4 c (by omega) hc2
    · left
      simp only [if_neg hd]
      refine ⟨?_, fun c h1 h2 => by omega⟩
      rw [rowFilled_empty _ _ _ _ _ (by omega)]



/-! ## Band pruning -/

theorem pruneLeftNeg_ge (row : Int → Int) (limit Right : Int) :
    ∀ (f : Nat) (Left : Int), Left ≤ pruneLeftNeg row limit Right f Left := by
  intro f
  induction f with
  | zero => intro Left; simp [pruneLeftNeg]
  | succ f ih =>
    intro Left
    simp only [pruneLeftNeg]
    split
    · have := ih (Left + 1); omega
    · exact le_refl _

theorem pruneLeftNeg_le (row : Int → Int) (limit Right : Int) :
    ∀ (f : Nat) (Left : Int), Left ≤ Right + 1 →
      pruneLeftNeg row limit Right f Left ≤ Right + 1 := by
  intro f
  induction f with
  | zero => intro Left h; simpa [pruneLeftNeg] using h
  | succ f ih =>
    intro Left h
    simp only [pruneLeftNeg]
    split
    · exact ih (Left + 1) (by omega)
    · exact h

theorem pruneLeftNeg_stop (row : Int → Int) (limit Right : Int) :
    ∀ (f : Nat) (Left : Int), (Right - Left + 1).toNat ≤ f →
      ¬ (pruneLeftNeg row limit Right f Left ≤ Right ∧ pruneLeftNeg row limit Right f Left < 0 ∧
        row (pruneLeftNeg row limit Right f Left) < limit) := by
  intro f
  induction f with
  | zero => intro Left hf; simp only [pruneLeftNeg]; omega
  | succ f ih =>
    intro Left hf
    simp only [pruneLeftNeg]
    split
    · exact ih (Left + 1) (by omega)
    · next h => exact h

theorem pruneLeftNeg_keep (row : Int → Int) (limit Right : Int) (f : Nat) (Left : Int)
    (h : ¬ (Left ≤ Right ∧ Left < 0 ∧ row Left < limit)) :
    pruneLeftNeg row limit Right f Left = Left := by
  cases f with
  | zero => rfl
  | succ f => simp only [pruneLeftNeg, if_neg h]

theorem pruneLeftPos_ge (row : Int → Int) (limit Right : Int) :
    ∀ (f : Nat) (Left : Int), Left ≤ pruneLeftPos row limit Right f Left := by
  intro f
  induction f with
  | zero => intro Left; simp [pruneLeftPos]
  | succ f ih =>
    intro Left
    simp only [pruneLeftPos]
    split
    · have := ih (Left + 1); omega
    · exact le_refl _

theorem pruneLeftPos_le (row : Int → Int) (limit Right : Int) :
    ∀ (f : Nat) (Left : Int), Left ≤ Right + 1 →
      pruneLeftPos row limit Right f Left ≤ Right + 1 := by
  intro f
  induction f with
  | zero => intro Left h; simpa [pruneLeftPos] using h
  | succ f ih =>
    intro Left h
    simp only [pruneLeftPos]
    split
    · exact ih (Left + 1) (by omega)
    · exact h

theorem pruneLeftPos_stop (row : Int → Int) (limit Right : Int) :
    ∀ (f : Nat) (Left : Int), (Right - Left + 1).toNat ≤ f →
      ¬ (pruneLeftPos row limit Right f Left ≤ Right ∧
        row (pruneLeftPos row limit Right f Left) + pruneLeftPos row limit Right f Left < limit) := by
  intro f
  induction f with
  | zero => intro Left hf; simp only [pruneLeftPos]; omega
  | succ f ih =>
    intro Left hf
    simp only [pruneLeftPos]
    split
    · exact ih (Left + 1) (by omega)
    · next h => exact h

theorem pruneLeftPos_keep (row : Int → Int) (limit Right : Int) (f : Nat) (Left : Int)
    (h : ¬ (Left ≤ Right ∧ row Left + Left < limit)) :
    pruneLeftPos row limit Right f Left = Left := by
  cases f with
  | zero => rfl
  | succ f => simp only [pruneLeftPos, if_neg h]

theorem pruneLeft_ge (row : Int → Int) (limit Right Left : Int) :
    Left ≤ pruneLeft row limit Right Left := by
  simp only [pruneLeft]
  split
  · exact le_trans (pruneLeftNeg_ge row limit Right _ Left) (pruneLeftPos_ge row limit Right _ _)
  · exact pruneLeftNeg_ge row limit Right _ Left

theorem pruneLeft_le (row : Int → Int) (limit Right Left : Int) (h : Left ≤ Right + 1) :
    pruneLeft row limit Right Left ≤ Right + 1 := by
  simp only [pruneLeft]
  split
  · exact pruneLeftPos_le row limit Right _ _ (pruneLeftNeg_le row limit Right _ Left h)
  · exact pruneLeftNeg_le row limit Right _ Left h

/-- Where the left pruning stops inside the band, the cell passes the test
that the right pruning applies to it. -/
theorem pruneLeft_stop (row : Int → Int) (limit Right Left : Int)
    (h : pruneLeft row limit Right Left ≤ Right) :
    (pruneLeft row limit Right Left < 0 → limit ≤ row (pruneLeft row limit Right Left)) ∧
    (0 ≤ pruneLeft row limit Right Left →
      limit ≤ row (pruneLeft row limit Right Left) + pruneLeft row limit Right Left) := by
  simp only [pruneLeft] at h ⊢
  split
  · next h0 =>
    rw [if_pos h0] at h
    have hs := pruneLeftPos_stop row limit Right
      (Right - pruneLeftNeg row limit Right (Right - Left + 1).toNat Left + 1).toNat
      (pruneLeftNeg row limit Right (Right - Left + 1).toNat Left) (le_refl _)
    have hg := pruneLeftPos_ge row limit Right
      (Right - pruneLeftNeg row limit Right (Right - Left + 1).toNat Left + 1).toNat
      (pruneLeftNeg row limit Right (Right - Left + 1).toNat Left)
    constructor
    · intro h1; omega
    · intro _; omega
  · next h0 =>
    rw [if_neg h0] at h
    have hs := pruneLeftNeg_stop row limit Right (Right - Left + 1).toNat Left (le_refl _)
    constructor
    · intro _; omega
    · intro h1; omega

theorem pruneLeft_keep (row : Int → Int) (limit Right Left : Int)
    (h1 : Left < 0 → limit ≤ row Left) (h2 : 0 ≤ Left → limit ≤ row Left + Left) :
    pruneLeft row limit Right Left = Left := by
  simp only [pruneLeft]
  rw [pruneLeftNeg_keep row limit Right _ Left (by omega)]
  split
  · exact pruneLeftPos_keep row limit Right _ Left (by omega)
  · rfl

theorem pruneRightPos_le (row : Int → Int) (limit : Int) :
    ∀ (f : Nat) (Right : Int), pruneRightPos row limit f Right ≤ Right := by
  intro f
  induction f with
  | zero => intro Right; simp [pruneRightPos]
  | succ f ih =>
    intro Right
    simp only [pruneRightPos]
    split
    · have := ih (Right - 1); omega
    · exact le_refl _

theorem pruneRightPos_ge (row : Int → Int) (limit Left : Int)
    (hL : 0 ≤ Left → limit ≤ row Left + Left) :
    ∀ (f : Nat) (Right : Int), Left ≤ Right → Left ≤ pruneRightPos row limit f Right := by
  intro f
  induction f with
  | zero => intro Right h; simpa [pruneRightPos] using h
  | succ f ih =>
    intro Right h
    simp only [pruneRightPos]
    split
    · next hc =>
      apply ih (Right - 1)
      by_contra hlt
      have : Left = Right := by omega
      subst this
      have := hL (by omega)
      omega
    · exact h

theorem pruneRightPos_stop (row : Int → Int) (limit : Int) :
    ∀ (f : Nat) (Right : Int), Right.toNat ≤ f →
      ¬ (pruneRightPos row limit f Right > 0 ∧
        row (pruneRightPos row limit f Right) + pruneRightPos row limit f Right < limit) := by
  intro f
  induction f with
  | zero => intro Right hf; simp only [pruneRightPos]; omega
  | succ f ih =>
    intro Right hf
    simp only [pruneRightPos]
    split
    · exact ih (Right - 1) (by omega)
    · next h => exact h

theorem pruneRightPos_keep (row : Int → Int) (limit : Int) (f : Nat) (Right : Int)
    (h : ¬ (Right > 0 ∧ row Right + Right < limit)) :
    pruneRightPos row limit f Right = Right := by
  cases f with
  | zero => rfl
  | succ f => simp only [pruneRightPos, if_neg h]

theorem pruneRightNeg_le (row : Int → Int) (limit : Int) :
    ∀ (f : Nat) (Right : Int), pruneRightNeg row limit f Right ≤ Right := by
  intro f
  induction f with
  | zero => intro Right; simp [pruneRightNeg]
  | succ f ih =>
    intro Right
    simp only [pruneRightNeg]
    split
    · have := ih (Right - 1); omega
    · exact le_refl _

/-- The unbounded scan stops at a cell that passes the test, without using up
the iterations it is given, as soon as some cell at or above `Left` passes. -/
theorem pruneRightNeg_ge (row : Int → Int) (limit Left : Int) (hL : limit ≤ row Left) :
    ∀ (f : Nat) (Right : Int), Left ≤ Right →
      Left ≤ pruneRightNeg row limit f Right ∧
      ((Right - Left).toNat ≤ f → limit ≤ row (pruneRightNeg row limit f Right)) := by
  intro f
  induction f with
  | zero =>
    intro Right h
    simp only [pruneRightNeg]
    refine ⟨h, fun hf => ?_⟩
    have : Left = Right := by omega
    subst this
    exact hL
  | succ f ih =>
    intro Right h
    simp only [pruneRightNeg]
    split
    · next hc =>
      have hlt : Left ≤ Right - 1 := by
        by_contra hlt
        have : Left = Right := by omega
        subst this
        omega
      have := ih (Right - 1) hlt
      exact ⟨this.1, fun hf => this.2 (by omega)⟩
    · next hc => exact ⟨h, fun _ => by omega⟩

theorem pruneRightNeg_keep (row : Int → Int) (limit : Int) (f : Nat) (Right : Int)
    (h : ¬ row Right < limit) : pruneRightNeg row limit f Right = Right := by
  cases f with
  | zero => rfl
  | succ f => simp only [pruneRightNeg, if_neg h]

theorem pruneRight_le (row : Int → Int) (limit Left Right : Int) :
    pruneRight row limit Left Right ≤ Right := by
  simp only [pruneRight]
  split
  · exact le_trans (pruneRightNeg_le row limit _ _) (pruneRightPos_le row limit _ Right)
  · exact pruneRightPos_le row limit _ Right

/-- After the left pruning has stopped inside the band, the right pruning stops
at or above `Left`: the assertion `Left <= Right` holds. -/
theorem pruneRight_ge (row : Int → Int) (limit Left Right : Int) (h : Left ≤ Right)
    (h1 : Left < 0 → limit ≤ row Left) (h2 : 0 ≤ Left → limit ≤ row Left + Left) :
    Left ≤ pruneRight row limit Left Right := by
  have hp := pruneRightPos_ge row limit Left h2 Right.toNat Right h
  simp only [pruneRight]
  split
  · next h0 =>
    by_cases hneg : Left < 0
    · exact (pruneRightNeg_ge row limit Left (h1 hneg) _ _ hp).1
    · have h00 : pruneRightPos row limit Right.toNat Right = Left := by omega
      have hz : Left = 0 := by omega
      rw [h00, pruneRightNeg_keep row limit _ Left (by have := h2 (by omega); omega)]
  · exact hp

theorem pruneRight_keep (row : Int → Int) (limit Left Right : Int)
    (h1 : Right ≤ 0 → limit ≤ row Right) (h2 : 0 < Right → limit ≤ row Right + Right) :
    pruneRight row limit Left Right = Right := by
  simp only [pruneRight]
  rw [pruneRightPos_keep row limit _ Right (by omega)]
  split
  · next h0 => exact pruneRightNeg_keep row limit _ Right (by have := h1 h0; omega)
  · rfl

/-! ## Branch-point tracking -/

/-- The scan for the longest cell keeps any property that holds of the old
best cell and of every cell of the band. -/
theorem scanLongest_cases (row : Int → Int) (e : Nat) (Right : Int) (P : Int × Nat × Int → Prop) :
    ∀ (f : Nat) (d : Int) (b : Int × Nat × Int), P b →
      (∀ c, d ≤ c → c ≤ Right → P (c, e, row c)) → P (scanLongest row e Right f d b) := by
  intro f
  induction f with
  | zero => intro d b hb _; simpa [scanLongest] using hb
  | succ f ih =>
    intro d b hb hc
    simp only [scanLongest]
    split
    · next hd =>
      split
      · exact ih (d + 1) _ (hc d (le_refl _) hd) (fun c h1 h2 => hc c (by omega) h2)
      · exact ih (d + 1) _ hb (fun c h1 h2 => hc c (by omega) h2)
    · exact hb

/-! ## The level loop as a transition system -/

/-- Under `Error_Limit < Edit_Array_Max` the diagonal loop of a level
`e ≤ Error_Limit` does not abort. -/
theorem fillRow_ok (A T : List Char) (m n Max : Int) (e : Nat) (he : 1 ≤ e)
    (hmax : (e : Int) < Max) (Right Left : Int) (D : Nat → Int → Int) :
    (∃ D2, fillRow A T m n Max (e - 1) Right (Right - Left + 1).toNat Left D =
      .ok (.filled D2)) ∨
    (∃ d Row D2, fillRow A T m n Max (e - 1) Right (Right - Left + 1).toNat Left D =
      .ok (.hitEnd d Row D2)) := by
  have hk : ((e - 1 + 1 : Nat) : Int) < Max := by
    have : e - 1 + 1 = e := Nat.sub_add_cancel he
    rw [this]; exact hmax
  rcases fillRow_spec A T m n Max (e - 1) Right hk (Right - Left + 1).toNat Left D (le_refl _) with
    ⟨h, _⟩ | ⟨d0, _, _, _, _, ⟨_, h⟩ | ⟨_, h⟩⟩
  · exact Or.inl ⟨_, h⟩
  · exact Or.inr ⟨_, _, _, h⟩
  · exact Or.inr ⟨_, _, _, h⟩

/-- Totality and shape of the level loop: under `Error_Limit < Edit_Array_Max`
it returns a result, and the result is one of the three `Final` forms at a
reachable loop state. -/
theorem levels_run (A T : List Char) (E : Int) (WA : pedWorkArea_t) (D0 : Nat → Int → Int)
    (hE : E < WA.Edit_Array_Max) :
    ∀ (f e : Nat) (s : LoopState) (D : Nat → Int → Int), 1 ≤ e → (E + 1 - e).toNat ≤ f →
      Reach A T E WA D0 e s D →
      ∃ e' s' D' r, Reach A T E WA D0 e' s' D' ∧ Final A T E WA e' s' D' r ∧
        levels A T A.length T.length E WA f e s D = .ok r := by
  intro f
  induction f with
  | zero =>
    intro e s D he hf hreach
    refine ⟨e, s, D, _, hreach, Or.inl ⟨by omega, rfl⟩, ?_⟩
    simp only [levels]
  | succ f ih =>
    intro e s D he hf hreach
    by_cases hle : (e : Int) ≤ E
    · simp only [levels, if_pos hle]
      rcases fillRow_ok A T A.length T.length WA.Edit_Array_Max e he (by omega)
          (min (s.Right + 1) (e : Int)) (max (s.Left - 1) (-(e : Int)))
          (openRow D (e - 1) (max (s.Left - 1) (-(e : Int))) (min (s.Right + 1) (e : Int))) with
        ⟨D2, hfill⟩ | ⟨d, Row, D2, hfill⟩
      · rw [hfill]
        simp only []
        by_cases hcol : pruneLeft (D2 e) (WA.G.Edit_Match_Limit e) (min (s.Right + 1) (e : Int))
            (max (s.Left - 1) (-(e : Int))) > min (s.Right + 1) (e : Int)
        · rw [if_pos hcol]
          exact ⟨e, s, D, _, hreach, Or.inr (Or.inr ⟨hle, D2, hfill, hcol, rfl⟩), rfl⟩
        · rw [if_neg hcol]
          have hLR := not_lt.mp hcol
          have hstop := pruneLeft_stop _ _ _ _ hLR
          have hge := pruneRight_ge (D2 e) (WA.G.Edit_Match_Limit e) _ _ hLR hstop.1 hstop.2
          rw [if_pos hge]
          exact ih (e + 1) _ D2 (by omega) (by push_cast; omega)
            (Reach.step e s D D2 hreach hle hfill hLR)
      · rw [hfill]
        exact ⟨e, s, D, _, hreach, Or.inr (Or.inl ⟨hle, d, Row, D2, hfill, rfl⟩), rfl⟩
    · simp only [levels, if_neg hle]
      exact ⟨e, s, D, _, hreach, Or.inl ⟨by omega, rfl⟩, rfl⟩

/-! ## The table invariant -/

theorem openRow_row_ne (D : Nat → Int → Int) (k : Nat) (L R : Int) (j : Nat) (c : Int)
    (h : j ≠ k) : openRow D k L R j c = D j c := by
  simp [openRow, setCell, h]

theorem openRow_inside (D : Nat → Int → Int) (k : Nat) (L R : Int) (j : Nat) (c : Int)
    (h1 : L < c) (h2 : c < R) : openRow D k L R j c = D j c := by
  have a1 : c ≠ L := by omega
  have a2 : c ≠ L - 1 := by omega
  have a3 : c ≠ R := by omega
  have a4 : c ≠ R + 1 := by omega
  simp [openRow, setCell, a1, a2, a3, a4]

theorem openRow_at (D : Nat → Int → Int) (k : Nat) (L R : Int) (c : Int)
    (h : c = L - 1 ∨ c = L ∨ c = R ∨ c = R + 1) : openRow D k L R k c = -2 := by
  simp only [openRow, setCell, true_and]
  by_cases h4 : c = R + 1
  · rw [if_pos h4]
  · rw [if_neg h4]
    by_cases h3 : c = R
    · rw [if_pos h3]
    · rw [if_neg h3]
      by_cases h2 : c = L - 1
      · rw [if_pos h2]
      · rw [if_neg h2]
        have h1 : c = L := by omega
        rw [if_pos h1]

theorem openRow_sentinels (D : Nat → Int → Int) (k : Nat) (L R : Int) :
    Sentinels (openRow D k L R) k L R :=
  ⟨openRow_at D k L R _ (Or.inl rfl), openRow_at D k L R _ (Or.inr (Or.inl rfl)),
    openRow_at D k L R _ (Or.inr (Or.inr (Or.inl rfl))),
    openRow_at D k L R _ (Or.inr (Or.inr (Or.inr rfl)))⟩

theorem Hist.lo {A T : List Char} {B : Nat → Int × Int} {D D' : Nat → Int → Int} {k : Nat}
    (h : Hist A T B D D' k) : ∀ j, j ≤ k → -(j : Int) ≤ (B j).1 ∧ (B j).1 ≤ (B j).2 ∧
      (B j).2 ≤ j := by
  intro j
  induction j with
  | zero => intro _; rw [h.base]; simp
  | succ j ih =>
    intro hj
    have := ih (by omega)
    have hb := h.band j (by omega)
    push_cast
    omega

/-- The value the recurrence gives a cell next to a live band, on a row that
carries its sentinels, lies inside both strings. -/
theorem cellRow_bounds (A T : List Char) (m n : Int) (D : Nat → Int → Int) (k : Nat)
    (L R : Int) (hLR : L ≤ R) (hs : Sentinels D k (L - 1) (R + 1))
    (hl : ∀ c, L ≤ c → c ≤ R → Live m n (D k c) c) (c : Int) (h1 : L - 1 ≤ c) (h2 : c ≤ R + 1) :
    0 ≤ cellRow A T m n D k c ∧ cellRow A T m n D k c ≤ m ∧
    0 ≤ cellRow A T m n D k c + c ∧ cellRow A T m n D k c + c ≤ n := by
  obtain ⟨s1, s2, s3, s4⟩ := hs
  have hm : 0 < m := by have := hl L (le_refl _) hLR; unfold Live at this; omega
  have key : ∀ x, L - 1 - 1 ≤ x → x ≤ R + 1 + 1 →
      (D k x = -2 ∧ (x < L ∨ R < x)) ∨ (Live m n (D k x) x ∧ L ≤ x ∧ x ≤ R) := by
    intro x hx1 hx2
    by_cases hin : L ≤ x ∧ x ≤ R
    · exact Or.inr ⟨hl x hin.1 hin.2, hin⟩
    · left
      have : x = L - 1 - 1 ∨ x = L - 1 ∨ x = R + 1 ∨ x = R + 1 + 1 := by omega
      rcases this with h | h | h | h
      · subst h; exact ⟨s1, by omega⟩
      · subst h; exact ⟨s2, by omega⟩
      · subst h; exact ⟨s3, by omega⟩
      · subst h; exact ⟨s4, by omega⟩
  have k0 := key c (by omega) (by omega)
  have k1 := key (c - 1) (by omega) (by omega)
  have k2 := key (c + 1) (by omega) (by omega)
  have hb : 0 ≤ max (max (1 + D k c) (D k (c - 1))) (D k (c + 1) + 1) ∧
      max (max (1 + D k c) (D k (c - 1))) (D k (c + 1) + 1) ≤ m ∧
      0 ≤ max (max (1 + D k c) (D k (c - 1))) (D k (c + 1) + 1) + c ∧
      max (max (1 + D k c) (D k (c - 1))) (D k (c + 1) + 1) + c ≤ n := by
    unfold Live at k0 k1 k2
    rcases k0 with ⟨e0, h0⟩ | ⟨h0, _⟩ <;> rcases k1 with ⟨e1, h1'⟩ | ⟨h1', _⟩ <;>
      rcases k2 with ⟨e2, h2'⟩ | ⟨h2', _⟩ <;>
      simp only [max_def] <;> split_ifs <;> omega
  simp only [cellRow]
  have hge := extend_ge A T m n c
    (m - max (max (1 + D k c) (D k (c - 1))) (D k (c + 1) + 1)).toNat
    (max (max (1 + D k c) (D k (c - 1))) (D k (c + 1) + 1))
  have hle := extend_le A T m n c
    (m - max (max (1 + D k c) (D k (c - 1))) (D k (c + 1) + 1)).toNat
    (max (max (1 + D k c) (D k (c - 1))) (D k (c + 1) + 1)) hb.2.1 hb.2.2.2
  omega

theorem setBand_same (B : Nat → Int × Int) (k : Nat) (b : Int × Int) : setBand B k b k = b := by
  simp [setBand]

theorem setBand_ne (B : Nat → Int × Int) (k : Nat) (b : Int × Int) (j : Nat) (h : j ≠ k) :
    setBand B k b j = B j := by
  simp [setBand, h]

/-- Opening row `k` and filling row `k+1` leaves the rows below `k` and the
band of row `k` as they were. -/
theorem level_keep (cell : Int → Int) (D : Nat → Int → Int) (k : Nat) (L R : Int) (j : Nat)
    (c : Int) (h : j < k ∨ (j = k ∧ L < c ∧ c < R)) :
    rowFilled cell (openRow D k L R) (k + 1) L R j c = D j c := by
  rcases h with h | ⟨h, h1, h2⟩
  · rw [rowFilled_row_ne _ _ _ _ _ _ _ (by omega), openRow_row_ne _ _ _ _ _ _ (by omega)]
  · rw [rowFilled_row_ne _ _ _ _ _ _ _ (by omega), openRow_inside _ _ _ _ _ _ h1 h2]

theorem Sentinels_congr (D D' : Nat → Int → Int) (k : Nat) (L R : Int)
    (h : ∀ c, D' k c = D k c) (hs : Sentinels D k L R) : Sentinels D' k L R := by
  unfold Sentinels at *
  rw [h, h, h, h]; exact hs

/-- Two tables with a common history agree on everything level `k+1` reads
from row `k` once the sentinels are written. -/
theorem Hist.open_agree {A T : List Char} {B : Nat → Int × Int} {D D' : Nat → Int → Int}
    {k : Nat} (h : Hist A T B D D' k) (c : Int)
    (h1 : (B k).1 - 1 - 1 ≤ c) (h2 : c ≤ (B k).2 + 1 + 1) :
    openRow D' k ((B k).1 - 1) ((B k).2 + 1) k c = openRow D k ((B k).1 - 1) ((B k).2 + 1) k c := by
  by_cases hin : (B k).1 - 1 < c ∧ c < (B k).2 + 1
  · rw [openRow_inside _ _ _ _ _ _ hin.1 hin.2, openRow_inside _ _ _ _ _ _ hin.1 hin.2]
    exact h.agree k (le_refl _) c (by omega) (by omega)
  · have hs : c = (B k).1 - 1 - 1 ∨ c = (B k).1 - 1 ∨ c = (B k).2 + 1 ∨
        c = (B k).2 + 1 + 1 := by omega
    rw [openRow_at _ _ _ _ _ hs, openRow_at _ _ _ _ _ hs]

theorem Hist.open_cell {A T : List Char} {B : Nat → Int × Int} {D D' : Nat → Int → Int}
    {k : Nat} (h : Hist A T B D D' k) (c : Int)
    (h1 : (B k).1 - 1 ≤ c) (h2 : c ≤ (B k).2 + 1) :
    cellRow A T A.length T.length (openRow D' k ((B k).1 - 1) ((B k).2 + 1)) k c =
      cellRow A T A.length T.length (openRow D k ((B k).1 - 1) ((B k).2 + 1)) k c := by
  apply cellRow_congr
  intro x hx1 hx2
  by_cases hin : (B k).1 - 1 < x ∧ x < (B k).2 + 1
  · rw [openRow_inside _ _ _ _ _ _ hin.1 hin.2, openRow_inside _ _ _ _ _ _ hin.1 hin.2]
    exact h.agree k (le_refl _) x (by omega) (by omega)
  · have hs : x = (B k).1 - 1 - 1 ∨ x = (B k).1 - 1 ∨ x = (B k).2 + 1 ∨
        x = (B k).2 + 1 + 1 := by omega
    rw [openRow_at _ _ _ _ _ hs, openRow_at _ _ _ _ _ hs]

/-- The bounds of the value level `k+1` gives a cell of its band. -/
theorem Hist.open_bounds {A T : List Char} {B : Nat → Int × Int} {D D' : Nat → Int → Int}
    {k : Nat} (h : Hist A T B D D' k) (c : Int)
    (h1 : (B k).1 - 1 ≤ c) (h2 : c ≤ (B k).2 + 1) :
    0 ≤ cellRow A T A.length T.length (openRow D k ((B k).1 - 1) ((B k).2 + 1)) k c ∧
    cellRow A T A.length T.length (openRow D k ((B k).1 - 1) ((B k).2 + 1)) k c ≤ A.length ∧
    0 ≤ cellRow A T A.length T.length (openRow D k ((B k).1 - 1) ((B k).2 + 1)) k c + c ∧
    cellRow A T A.length T.length (openRow D k ((B k).1 - 1) ((B k).2 + 1)) k c + c ≤
      T.length := by
  have hlo := (h.lo k (le_refl _)).2.1
  apply cellRow_bounds A T A.length T.length _ k (B k).1 (B k).2 hlo
  · have := openRow_sentinels D k ((B k).1 - 1) ((B k).2 + 1)
    exact this
  · intro x hx1 hx2
    rw [openRow_inside _ _ _ _ _ _ (by omega) (by omega)]
    exact h.live k (le_refl _) x hx1 hx2
  · exact h1
  · exact h2

/-- One level that neither ends the alignment nor collapses the band keeps the
table invariant, with the pruned band `[L', R']` appended to the history. -/
theorem Hist.step {A T : List Char} {B : Nat → Int × Int} {D D' : Nat → Int → Int} {k : Nat}
    (h : Hist A T B D D' k) (L' R' : Int)
    (hL : (B k).1 - 1 ≤ L') (hLR : L' ≤ R') (hR : R' ≤ (B k).2 + 1)
    (hno : ∀ c, L' ≤ c → c ≤ R' → ¬ hitsEnd A.length T.length
      (cellRow A T A.length T.length (openRow D k ((B k).1 - 1) ((B k).2 + 1)) k c) c) :
    Hist A T (setBand B (k + 1) (L', R'))
      (rowFilled (cellRow A T A.length T.length (openRow D k ((B k).1 - 1) ((B k).2 + 1)) k)
        (openRow D k ((B k).1 - 1) ((B k).2 + 1)) (k + 1) ((B k).1 - 1) ((B k).2 + 1))
      (rowFilled (cellRow A T A.length T.length (openRow D' k ((B k).1 - 1) ((B k).2 + 1)) k)
        (openRow D' k ((B k).1 - 1) ((B k).2 + 1)) (k + 1) ((B k).1 - 1) ((B k).2 + 1))
      (k + 1) := by
  have hlo := h.lo
  have hBj : ∀ j, j ≤ k → setBand B (k + 1) (L', R') j = B j := fun j hj =>
    setBand_ne _ _ _ _ (by omega)
  have hBk : setBand B (k + 1) (L', R') (k + 1) = (L', R') := setBand_same _ _ _
  have keep : ∀ (cell : Int → Int) (E : Nat → Int → Int) (j : Nat) (c : Int), j ≤ k →
      (B j).1 ≤ c → c ≤ (B j).2 →
      rowFilled cell (openRow E k ((B k).1 - 1) ((B k).2 + 1)) (k + 1) ((B k).1 - 1)
        ((B k).2 + 1) j c = E j c := by
    intro cell E j c hj h1 h2
    apply level_keep
    by_cases hjk : j < k
    · exact Or.inl hjk
    · have : j = k := by omega
      subst this
      exact Or.inr ⟨rfl, by omega, by omega⟩
  have keepRow : ∀ (cell : Int → Int) (E : Nat → Int → Int) (j : Nat) (c : Int), j < k →
      rowFilled cell (openRow E k ((B k).1 - 1) ((B k).2 + 1)) (k + 1) ((B k).1 - 1)
        ((B k).2 + 1) j c = E j c := fun cell E j c hj => level_keep _ _ _ _ _ _ _ (Or.inl hj)
  have rowk : ∀ (cell : Int → Int) (E : Nat → Int → Int) (c : Int),
      rowFilled cell (openRow E k ((B k).1 - 1) ((B k).2 + 1)) (k + 1) ((B k).1 - 1)
        ((B k).2 + 1) k c = openRow E k ((B k).1 - 1) ((B k).2 + 1) k c := fun cell E c =>
    rowFilled_row_ne _ _ _ _ _ _ _ (by omega)
  refine ⟨?_, ?_, ?_, ?_, ?_, ?_, ?_⟩
  · rw [hBj 0 (by omega)]; exact h.base
  · rw [keep _ _ 0 0 (by omega) (by rw [h.base]) (by rw [h.base])]; exact h.scan
  · intro j hj
    by_cases hjk : j < k
    · rw [hBj j (by omega), hBj (j + 1) (by omega)]; exact h.band j hjk
    · have : j = k := by omega
      subst this
      rw [hBj j (le_refl _), hBk]
      exact ⟨hL, hLR, hR⟩
  · intro j hj
    by_cases hjk : j < k
    · rw [hBj j (by omega)]
      have := h.sent j hjk
      exact ⟨Sentinels_congr _ _ _ _ _ (fun c => keepRow _ _ j c hjk) this.1,
        Sentinels_congr _ _ _ _ _ (fun c => keepRow _ _ j c hjk) this.2⟩
    · have : j = k := by omega
      subst this
      rw [hBj j (le_refl _)]
      exact ⟨Sentinels_congr _ _ _ _ _ (fun c => rowk _ _ c) (openRow_sentinels _ _ _ _),
        Sentinels_congr _ _ _ _ _ (fun c => rowk _ _ c) (openRow_sentinels _ _ _ _)⟩
  · intro j hj c h1 h2
    by_cases hjk : j < k
    · rw [hBj (j + 1) (by omega)] at h1 h2
      rw [keep _ _ (j + 1) c (by omega) h1 h2, h.cell j hjk c h1 h2]
      exact cellRow_congr _ _ _ _ _ _ _ _ (fun x _ _ => (keepRow _ _ j x hjk).symm)
    · have : j = k := by omega
      subst this
      rw [hBk] at h1 h2
      simp only at h1 h2
      rw [rowFilled_in _ _ _ _ _ _ (by omega) (by omega)]
      exact cellRow_congr _ _ _ _ _ _ _ _ (fun x _ _ => (rowk _ _ x).symm)
  · intro j hj c h1 h2
    by_cases hjk : j ≤ k
    · rw [hBj j hjk] at h1 h2
      rw [keep _ _ j c hjk h1 h2]
      exact h.live j hjk c h1 h2
    · have : j = k + 1 := by omega
      subst this
      rw [hBk] at h1 h2
      simp only at h1 h2
      rw [rowFilled_in _ _ _ _ _ _ (by omega) (by omega)]
      have hb := h.open_bounds c (by omega) (by omega)
      have hn := hno c h1 h2
      unfold hitsEnd at hn
      unfold Live
      omega
  · intro j hj c h1 h2
    by_cases hjk : j ≤ k
    · rw [hBj j hjk] at h1 h2
      rw [keep _ _ j c hjk h1 h2, keep _ _ j c hjk h1 h2]
      exact h.agree j hjk c h1 h2
    · have : j = k + 1 := by omega
      subst this
      rw [hBk] at h1 h2
      simp only at h1 h2
      rw [rowFilled_in _ _ _ _ _ _ (by omega) (by omega),
        rowFilled_in _ _ _ _ _ _ (by omega) (by omega)]
      exact h.open_cell c (by omega) (by omega)

/-! ## The loop invariant -/

theorem fillRow_error (A T : List Char) (m n Max : Int) (k : Nat) (Right : Int)
    (hmax : ¬ ((k + 1 : Nat) : Int) < Max) (f : Nat) (d : Int) (D : Nat → Int → Int)
    (hf : 0 < f) (hd : d ≤ Right) :
    fillRow A T m n Max k Right f d D = .error .editArrayMax := by
  cases f with
  | zero => omega
  | succ f => simp only [fillRow, if_pos hd, if_neg hmax]

/-- The shape of a level that fills its whole band, read off the invariant. -/
theorem Hist.filled {A T : List Char} {B : Nat → Int × Int} {D D' : Nat → Int → Int} {k : Nat}
    (h : Hist A T B D D' k) (Max : Int) (D2 : Nat → Int → Int)
    (hfill : fillRow A T A.length T.length Max k ((B k).2 + 1)
      ((B k).2 + 1 - ((B k).1 - 1) + 1).toNat ((B k).1 - 1)
      (openRow D k ((B k).1 - 1) ((B k).2 + 1)) = .ok (.filled D2)) :
    D2 = rowFilled (cellRow A T A.length T.length (openRow D k ((B k).1 - 1) ((B k).2 + 1)) k)
        (openRow D k ((B k).1 - 1) ((B k).2 + 1)) (k + 1) ((B k).1 - 1) ((B k).2 + 1) ∧
    (∀ c, (B k).1 - 1 ≤ c → c ≤ (B k).2 + 1 → ¬ hitsEnd A.length T.length
      (cellRow A T A.length T.length (openRow D k ((B k).1 - 1) ((B k).2 + 1)) k c) c) ∧
    ((k + 1 : Nat) : Int) < Max := by
  have hlo := (h.lo k (le_refl _)).2.1
  by_cases hmax : ((k + 1 : Nat) : Int) < Max
  · rcases fillRow_spec A T A.length T.length Max k ((B k).2 + 1) hmax
        ((B k).2 + 1 - ((B k).1 - 1) + 1).toNat ((B k).1 - 1)
        (openRow D k ((B k).1 - 1) ((B k).2 + 1)) (le_refl _) with
      ⟨h1, h2⟩ | ⟨d0, _, _, _, _, ⟨_, h1⟩ | ⟨_, h1⟩⟩
    · rw [h1] at hfill
      injection hfill with hfill
      injection hfill with hfill
      exact ⟨hfill.symm, h2, hmax⟩
    · rw [h1] at hfill; injection hfill with hfill; cases hfill
    · rw [h1] at hfill; injection hfill with hfill; cases hfill
  · rw [fillRow_error A T _ _ Max k _ hmax _ _ _ (by omega) (by omega)] at hfill
    cases hfill

theorem BPok.keep {B : Nat → Int × Int} {D : Nat → Int → Int} {k : Nat} {be : Nat}
    {bd len : Int} (h : BPok B D k be bd len) (b : Int × Int) (D2 : Nat → Int → Int)
    (hD : ∀ j c, j ≤ k → (B j).1 ≤ c → c ≤ (B j).2 → D2 j c = D j c) :
    BPok (setBand B (k + 1) b) D2 (k + 1) be bd len := by
  obtain ⟨h1, h2⟩ := h
  refine ⟨by omega, ?_⟩
  rcases h2 with h2 | ⟨h2, h3, h4, h5⟩
  · exact Or.inl h2
  · right
    rw [setBand_ne _ _ _ _ (by omega)]
    exact ⟨h2, h3, h4, by rw [hD be bd h1 h3 h4]; exact h5⟩

/-- A level that fills its band and passes the pruning re-establishes the loop
invariant for the next level. -/
theorem InvB.next_band {A T : List Char} {e : Nat} {s : LoopState} {D D' : Nat → Int → Int}
    {k : Nat} {B : Nat → Int × Int}
    (h : InvB A T e s D D' k B) (G : coParameters) (L1 R1 : Int)
    (hL : max (s.Left - 1) (-(e : Int)) ≤ L1) (hLR : L1 ≤ R1)
    (hR : R1 ≤ min (s.Right + 1) (e : Int))
    (hno : ∀ c, L1 ≤ c → c ≤ R1 → ¬ hitsEnd A.length T.length
      (cellRow A T A.length T.length (openRow D (e - 1) (max (s.Left - 1) (-(e : Int)))
        (min (s.Right + 1) (e : Int))) (e - 1) c) c) :
    InvB A T (e + 1)
      (track G (rowFilled (cellRow A T A.length T.length (openRow D (e - 1)
          (max (s.Left - 1) (-(e : Int))) (min (s.Right + 1) (e : Int))) (e - 1))
        (openRow D (e - 1) (max (s.Left - 1) (-(e : Int))) (min (s.Right + 1) (e : Int))) e
        (max (s.Left - 1) (-(e : Int))) (min (s.Right + 1) (e : Int)) e) e L1 R1 s)
      (rowFilled (cellRow A T A.length T.length (openRow D (e - 1)
          (max (s.Left - 1) (-(e : Int))) (min (s.Right + 1) (e : Int))) (e - 1))
        (openRow D (e - 1) (max (s.Left - 1) (-(e : Int))) (min (s.Right + 1) (e : Int))) e
        (max (s.Left - 1) (-(e : Int))) (min (s.Right + 1) (e : Int)))
      (rowFilled (cellRow A T A.length T.length (openRow D' (e - 1)
          (max (s.Left - 1) (-(e : Int))) (min (s.Right + 1) (e : Int))) (e - 1))
        (openRow D' (e - 1) (max (s.Left - 1) (-(e : Int))) (min (s.Right + 1) (e : Int))) e
        (max (s.Left - 1) (-(e : Int))) (min (s.Right + 1) (e : Int)))
      (k + 1) (setBand B (k + 1) (L1, R1)) := by
  obtain ⟨he, hH, hB, hb1, hb2⟩ := h
  subst he
  have hlo := hH.lo k (le_refl _)
  have hB1 : (B k).1 = s.Left := by rw [hB]
  have hB2 : (B k).2 = s.Right := by rw [hB]
  have e1 : k + 1 - 1 = k := by omega
  have eL : max (s.Left - 1) (-((k + 1 : Nat) : Int)) = (B k).1 - 1 := by
    rw [hB1]; push_cast; omega
  have eR : min (s.Right + 1) ((k + 1 : Nat) : Int) = (B k).2 + 1 := by
    rw [hB2]; push_cast; omega
  rw [e1, eL, eR] at hno ⊢
  rw [eL] at hL
  rw [eR] at hR
  have hstep := hH.step L1 R1 hL hLR hR hno
  have hkeep : ∀ j c, j ≤ k → (B j).1 ≤ c → c ≤ (B j).2 →
      rowFilled (cellRow A T A.length T.length (openRow D k ((B k).1 - 1) ((B k).2 + 1)) k)
        (openRow D k ((B k).1 - 1) ((B k).2 + 1)) (k + 1) ((B k).1 - 1) ((B k).2 + 1) j c =
        D j c := by
    intro j c hj h1 h2
    apply level_keep
    by_cases hjk : j < k
    · exact Or.inl hjk
    · have : j = k := by omega
      subst this
      exact Or.inr ⟨rfl, by omega, by omega⟩
  have hscan := scanLongest_cases
    (rowFilled (cellRow A T A.length T.length (openRow D k ((B k).1 - 1) ((B k).2 + 1)) k)
      (openRow D k ((B k).1 - 1) ((B k).2 + 1)) (k + 1) ((B k).1 - 1) ((B k).2 + 1) (k + 1))
    (k + 1) R1
    (fun b => BPok (setBand B (k + 1) (L1, R1))
      (rowFilled (cellRow A T A.length T.length (openRow D k ((B k).1 - 1) ((B k).2 + 1)) k)
        (openRow D k ((B k).1 - 1) ((B k).2 + 1)) (k + 1) ((B k).1 - 1) ((B k).2 + 1))
      (k + 1) b.2.1 b.1 b.2.2)
    (R1 - L1 + 1).toNat L1 (s.Best_d, s.Best_e, s.Longest) (hb1.keep _ _ hkeep)
    (fun c h1 h2 => ⟨le_refl _, Or.inr ⟨Nat.succ_le_succ (Nat.zero_le _),
      by rw [setBand_same]; exact h1,
      by rw [setBand_same]; exact h2, rfl⟩⟩)
  refine ⟨rfl, hstep, ?_, ?_, ?_⟩
  · rw [setBand_same]; rfl
  · exact hscan
  · simp only [track]
    split
    · exact hscan
    · exact hb2.keep _ _ hkeep

theorem Inv.next {A T : List Char} {e : Nat} {s : LoopState} {D D' : Nat → Int → Int}
    (h : Inv A T e s D D') (G : coParameters) (L1 R1 : Int)
    (hL : max (s.Left - 1) (-(e : Int)) ≤ L1) (hLR : L1 ≤ R1)
    (hR : R1 ≤ min (s.Right + 1) (e : Int))
    (hno : ∀ c, L1 ≤ c → c ≤ R1 → ¬ hitsEnd A.length T.length
      (cellRow A T A.length T.length (openRow D (e - 1) (max (s.Left - 1) (-(e : Int)))
        (min (s.Right + 1) (e : Int))) (e - 1) c) c) :
    Inv A T (e + 1)
      (track G (rowFilled (cellRow A T A.length T.length (openRow D (e - 1)
          (max (s.Left - 1) (-(e : Int))) (min (s.Right + 1) (e : Int))) (e - 1))
        (openRow D (e - 1) (max (s.Left - 1) (-(e : Int))) (min (s.Right + 1) (e : Int))) e
        (max (s.Left - 1) (-(e : Int))) (min (s.Right + 1) (e : Int)) e) e L1 R1 s)
      (rowFilled (cellRow A T A.length T.length (openRow D (e - 1)
          (max (s.Left - 1) (-(e : Int))) (min (s.Right + 1) (e : Int))) (e - 1))
        (openRow D (e - 1) (max (s.Left - 1) (-(e : Int))) (min (s.Right + 1) (e : Int))) e
        (max (s.Left - 1) (-(e : Int))) (min (s.Right + 1) (e : Int)))
      (rowFilled (cellRow A T A.length T.length (openRow D' (e - 1)
          (max (s.Left - 1) (-(e : Int))) (min (s.Right + 1) (e : Int))) (e - 1))
        (openRow D' (e - 1) (max (s.Left - 1) (-(e : Int))) (min (s.Right + 1) (e : Int))) e
        (max (s.Left - 1) (-(e : Int))) (min (s.Right + 1) (e : Int))) := by
  obtain ⟨k, B, hB⟩ := h
  exact ⟨_, _, hB.next_band G L1 R1 hL hLR hR hno⟩

theorem Inv.band {A T : List Char} {e : Nat} {s : LoopState} {D D' : Nat → Int → Int}
    (h : Inv A T e s D D') :
    1 ≤ e ∧ max (s.Left - 1) (-(e : Int)) = s.Left - 1 ∧
      min (s.Right + 1) (e : Int) = s.Right + 1 ∧ s.Left ≤ s.Right := by
  obtain ⟨k, B, he, hH, hB, _, _⟩ := h
  subst he
  have hlo := hH.lo k (le_refl _)
  rw [hB] at hlo
  simp only at hlo
  refine ⟨by omega, ?_, ?_, by omega⟩
  · push_cast; omega
  · push_cast; omega

theorem Inv.fill_shape {A T : List Char} {e : Nat} {s : LoopState} {D D' : Nat → Int → Int}
    (h : Inv A T e s D D') (Max : Int) (D2 : Nat → Int → Int)
    (hfill : fillRow A T A.length T.length Max (e - 1) (min (s.Right + 1) (e : Int))
      (min (s.Right + 1) (e : Int) - max (s.Left - 1) (-(e : Int)) + 1).toNat
      (max (s.Left - 1) (-(e : Int)))
      (openRow D (e - 1) (max (s.Left - 1) (-(e : Int))) (min (s.Right + 1) (e : Int))) =
        .ok (.filled D2)) :
    D2 = rowFilled (cellRow A T A.length T.length (openRow D (e - 1)
          (max (s.Left - 1) (-(e : Int))) (min (s.Right + 1) (e : Int))) (e - 1))
        (openRow D (e - 1) (max (s.Left - 1) (-(e : Int))) (min (s.Right + 1) (e : Int))) e
        (max (s.Left - 1) (-(e : Int))) (min (s.Right + 1) (e : Int)) ∧
    (∀ c, max (s.Left - 1) (-(e : Int)) ≤ c → c ≤ min (s.Right + 1) (e : Int) →
      ¬ hitsEnd A.length T.length
        (cellRow A T A.length T.length (openRow D (e - 1) (max (s.Left - 1) (-(e : Int)))
          (min (s.Right + 1) (e : Int))) (e - 1) c) c) ∧
    (e : Int) < Max := by
  have hband := h.band
  obtain ⟨k, B, he, hH, hB, _, _⟩ := h
  subst he
  have hB1 : (B k).1 = s.Left := by rw [hB]
  have hB2 : (B k).2 = s.Right := by rw [hB]
  have e1 : k + 1 - 1 = k := by omega
  rw [hband.2.1, hband.2.2.1, e1, ← hB1, ← hB2] at hfill ⊢
  exact hH.filled Max D2 hfill

/-- Every loop state that a call reaches satisfies the loop invariant. -/
theorem Reach.inv {A T : List Char} {E : Int} {WA : pedWorkArea_t} {D0 : Nat → Int → Int}
    (hD0 : D0 0 0 = firstRow A T)
    (hne : firstRow A T ≠ min (A.length : Int) T.length)
    {e : Nat} {s : LoopState} {D : Nat → Int → Int} (h : Reach A T E WA D0 e s D) :
    Inv A T e s D D := by
  induction h with
  | init =>
    refine ⟨0, fun _ => (0, 0), rfl, ?_, rfl, ⟨le_refl _, Or.inl ⟨rfl, rfl, rfl⟩⟩,
      ⟨le_refl _, Or.inl ⟨rfl, rfl, rfl⟩⟩⟩
    have h1 := scanPrefix_ge A T (min (A.length : Int) T.length)
      (min (A.length : Int) T.length).toNat 0
    have h2 := scanPrefix_le A T (min (A.length : Int) T.length)
      (min (A.length : Int) T.length).toNat 0 (by omega)
    refine ⟨rfl, hD0, fun j hj => by omega, fun j hj => by omega, fun j hj => by omega, ?_,
      fun _ _ _ _ _ => rfl⟩
    intro j hj c hc1 hc2
    have hj0 : j = 0 := by omega
    subst hj0
    simp only at hc1 hc2
    have hc : c = 0 := by omega
    subst hc
    rw [hD0]
    unfold firstRow at hne ⊢
    unfold Live
    omega
  | step e s D D2 _ hE hfill hprune ih =>
    have hband := ih.band
    obtain ⟨hD2, hno, _⟩ := ih.fill_shape _ _ hfill
    have hL := pruneLeft_ge (D2 e) (WA.G.Edit_Match_Limit e) (min (s.Right + 1) (e : Int))
      (max (s.Left - 1) (-(e : Int)))
    have hstop := pruneLeft_stop _ _ _ _ hprune
    have hge := pruneRight_ge (D2 e) (WA.G.Edit_Match_Limit e) _ _ hprune hstop.1 hstop.2
    have hle := pruneRight_le (D2 e) (WA.G.Edit_Match_Limit e)
      (pruneLeft (D2 e) (WA.G.Edit_Match_Limit e) (min (s.Right + 1) (e : Int))
        (max (s.Left - 1) (-(e : Int)))) (min (s.Right + 1) (e : Int))
    have := ih.next WA.G _ _ hL hge hle (fun c h1 h2 => hno c (by omega) (by omega))
    rw [← hD2] at this
    exact this

/-! ## The shape of a call -/

/-- The exact-prefix return (source lines 200-205). -/
theorem Prefix_Edit_Dist_exact (A T : List Char) (E : Int) (WA : pedWorkArea_t)
    (h : firstRow A T = min (A.length : Int) T.length) :
    Prefix_Edit_Dist A T E WA = .ok
      { errors := 0, A_End := firstRow A T, T_End := firstRow A T, Match_To_End := true
        WA := { WA with deltaLen := 0
                        Edit_Array_Lazy := setCell WA.Edit_Array_Lazy 0 0 (firstRow A T) } } := by
  unfold firstRow at h
  simp only [Prefix_Edit_Dist, if_pos h]
  rfl

/-- A call that does not return from the exact-prefix test runs the level
loop. -/
theorem Prefix_Edit_Dist_levels (A T : List Char) (E : Int) (WA : pedWorkArea_t)
    (h : firstRow A T ≠ min (A.length : Int) T.length) :
    Prefix_Edit_Dist A T E WA =
      levels A T A.length T.length E { WA with deltaLen := 0 } E.toNat 1 LoopState.init
        (setCell WA.Edit_Array_Lazy 0 0 (firstRow A T)) := by
  unfold firstRow at h
  simp only [Prefix_Edit_Dist, if_neg h]
  rfl

/-- Totality and shape of a call on a valid input: it returns, either from the
exact-prefix test or in one of the three `Final` forms at a reachable state of
the level loop. -/
theorem Prefix_Edit_Dist_run (A T : List Char) (E : Int) (WA : pedWorkArea_t)
    (hE : E < WA.Edit_Array_Max) :
    (firstRow A T = min (A.length : Int) T.length ∧
      Prefix_Edit_Dist A T E WA = .ok
        { errors := 0, A_End := firstRow A T, T_End := firstRow A T, Match_To_End := true
          WA := { WA with deltaLen := 0
                          Edit_Array_Lazy := setCell WA.Edit_Array_Lazy 0 0 (firstRow A T) } }) ∨
    (firstRow A T ≠ min (A.length : Int) T.length ∧
      ∃ e s D r,
        Reach A T E { WA with deltaLen := 0 } (setCell WA.Edit_Array_Lazy 0 0 (firstRow A T))
          e s D ∧
        Inv A T e s D D ∧
        Final A T E { WA with deltaLen := 0 } e s D r ∧
        Prefix_Edit_Dist A T E WA = .ok r) := by
  by_cases h : firstRow A T = min (A.length : Int) T.length
  · exact Or.inl ⟨h, Prefix_Edit_Dist_exact A T E WA h⟩
  · right
    refine ⟨h, ?_⟩
    obtain ⟨e, s, D, r, h1, h2, h3⟩ := levels_run A T E { WA with deltaLen := 0 }
      (setCell WA.Edit_Array_Lazy 0 0 (firstRow A T)) hE E.toNat 1 LoopState.init
      (setCell WA.Edit_Array_Lazy 0 0 (firstRow A T)) (le_refl _) (by omega) Reach.init
    refine ⟨e, s, D, r, h1, h1.inv (setCell_same _ _ _ _) h, h2, ?_⟩
    rw [Prefix_Edit_Dist_levels A T E WA h, h3]

theorem Reach.level_le {A T : List Char} {E : Int} {WA : pedWorkArea_t}
    {D0 : Nat → Int → Int} {e : Nat} {s : LoopState} {D : Nat → Int → Int}
    (h : Reach A T E WA D0 e s D) : (e : Int) ≤ max E 0 + 1 := by
  induction h with
  | init => push_cast; omega
  | step e s D D2 _ hE _ _ _ => push_cast; omega

/-- The shape of a level whose diagonal loop hits the end of a string, read off
the invariant: `d0` is the first diagonal of the band whose value hits an end,
and `d` is `d0` or, by the tie-break, `d0 + 1`. -/
theorem Hist.hit {A T : List Char} {B : Nat → Int × Int} {D D' : Nat → Int → Int} {k : Nat}
    (h : Hist A T B D D' k) (Max : Int) (d Row : Int) (D2 : Nat → Int → Int)
    (hfill : fillRow A T A.length T.length Max k ((B k).2 + 1)
      ((B k).2 + 1 - ((B k).1 - 1) + 1).toNat ((B k).1 - 1)
      (openRow D k ((B k).1 - 1) ((B k).2 + 1)) = .ok (.hitEnd d Row D2)) :
    ∃ d0, (B k).1 - 1 ≤ d0 ∧ d0 ≤ (B k).2 + 1 ∧
      Row = cellRow A T A.length T.length (openRow D k ((B k).1 - 1) ((B k).2 + 1)) k d0 ∧
      hitsEnd A.length T.length Row d0 ∧
      (∀ c, (B k).1 - 1 ≤ c → c < d0 → ¬ hitsEnd A.length T.length
        (cellRow A T A.length T.length (openRow D k ((B k).1 - 1) ((B k).2 + 1)) k c) c) ∧
      ((d = d0 ∧
          ¬ (Row = A.length ∧ 1 + openRow D k ((B k).1 - 1) ((B k).2 + 1) k (d0 + 1) = Row ∧
            d0 < (B k).2 + 1) ∧
          D2 = rowFilled
            (cellRow A T A.length T.length (openRow D k ((B k).1 - 1) ((B k).2 + 1)) k)
            (openRow D k ((B k).1 - 1) ((B k).2 + 1)) (k + 1) ((B k).1 - 1) d0) ∨
        (d = d0 + 1 ∧
          (Row = A.length ∧ 1 + openRow D k ((B k).1 - 1) ((B k).2 + 1) k (d0 + 1) = Row ∧
            d0 < (B k).2 + 1) ∧
          D2 = setCell (rowFilled
            (cellRow A T A.length T.length (openRow D k ((B k).1 - 1) ((B k).2 + 1)) k)
            (openRow D k ((B k).1 - 1) ((B k).2 + 1)) (k + 1) ((B k).1 - 1) d0)
            (k + 1) (d0 + 1) Row)) ∧
      ((k + 1 : Nat) : Int) < Max := by
  have hlo := (h.lo k (le_refl _)).2.1
  by_cases hmax : ((k + 1 : Nat) : Int) < Max
  · rcases fillRow_spec A T A.length T.length Max k ((B k).2 + 1) hmax
        ((B k).2 + 1 - ((B k).1 - 1) + 1).toNat ((B k).1 - 1)
        (openRow D k ((B k).1 - 1) ((B k).2 + 1)) (le_refl _) with
      ⟨h1, h2⟩ | ⟨d0, hd1, hd2, hd3, hd4, ⟨hd5, h1⟩ | ⟨hd5, h1⟩⟩
    · rw [h1] at hfill; injection hfill with hfill; cases hfill
    · rw [h1] at hfill
      injection hfill with hfill
      injection hfill with e1 e2 e3
      subst e1 e2 e3
      exact ⟨d0, hd1, hd2, rfl, hd3, hd4, Or.inl ⟨rfl, hd5, rfl⟩, hmax⟩
    · rw [h1] at hfill
      injection hfill with hfill
      injection hfill with e1 e2 e3
      subst e1 e2 e3
      exact ⟨d0, hd1, hd2, rfl, hd3, hd4, Or.inr ⟨rfl, hd5, rfl⟩, hmax⟩
  · rw [fillRow_error A T _ _ Max k _ hmax _ _ _ (by omega) (by omega)] at hfill
    cases hfill

/-- The rows up to `k` of the table in which a hit is reported are the rows of
the opened table. -/
theorem hit_rows (cell : Int → Int) (D1 : Nat → Int → Int) (k : Nat) (L d0 d Row : Int)
    (D2 : Nat → Int → Int)
    (h : D2 = rowFilled cell D1 (k + 1) L d0 ∨
      D2 = setCell (rowFilled cell D1 (k + 1) L d0) (k + 1) d Row)
    (j : Nat) (c : Int) (hj : j ≤ k) : D2 j c = D1 j c := by
  rcases h with h | h
  · rw [h, rowFilled_row_ne _ _ _ _ _ _ _ (by omega)]
  · rw [h, setCell_row_ne _ _ _ _ _ _ (by omega), rowFilled_row_ne _ _ _ _ _ _ _ (by omega)]

/-- The end positions reported by a hit lie inside the strings, and one of them
is the end of its string. -/
theorem Hist.hit_bounds {A T : List Char} {B : Nat → Int × Int} {D D' : Nat → Int → Int}
    {k : Nat} (h : Hist A T B D D' k) (Max : Int) (d Row : Int) (D2 : Nat → Int → Int)
    (hfill : fillRow A T A.length T.length Max k ((B k).2 + 1)
      ((B k).2 + 1 - ((B k).1 - 1) + 1).toNat ((B k).1 - 1)
      (openRow D k ((B k).1 - 1) ((B k).2 + 1)) = .ok (.hitEnd d Row D2)) :
    0 ≤ Row ∧ Row ≤ A.length ∧ 0 ≤ Row + d ∧ Row + d ≤ T.length ∧
      (Row = A.length ∨ Row + d = T.length) ∧ (B k).1 - 1 ≤ d ∧ d ≤ (B k).2 + 1 := by
  obtain ⟨d0, h1, h2, h3, h4, _, h6, _⟩ := h.hit Max d Row D2 hfill
  have hb := h.open_bounds d0 h1 h2
  rw [← h3] at hb
  have hlo := (h.lo k (le_refl _)).2.1
  have hm : (0 : Int) < A.length := by
    have := h.live k (le_refl _) (B k).1 (le_refl _) hlo
    unfold Live at this; omega
  unfold hitsEnd at h4
  rcases h6 with ⟨h6, _, _⟩ | ⟨h6, ⟨t1, t2, t3⟩, _⟩
  · subst h6; exact ⟨hb.1, hb.2.1, hb.2.2.1, hb.2.2.2, h4, h1, h2⟩
  · subst h6
    have hin : (B k).1 ≤ d0 + 1 ∧ d0 + 1 ≤ (B k).2 := by
      by_contra hc
      have : d0 + 1 = (B k).2 + 1 := by omega
      have hs := openRow_at D k ((B k).1 - 1) ((B k).2 + 1) (d0 + 1) (by omega)
      omega
    rw [openRow_inside _ _ _ _ _ _ (by omega) (by omega)] at t2
    have hl := h.live k (le_refl _) (d0 + 1) hin.1 hin.2
    unfold Live at hl
    refine ⟨hb.1, hb.2.1, by omega, by omega, Or.inl t1, by omega, by omega⟩

/-! ## `Compute_Delta` in terms of lists -/

theorem pushList_lt (l : List Int) : ∀ (stack : Nat → Int) (sl i : Nat), i < sl →
    pushList stack sl l i = stack i := by
  induction l with
  | nil => intro stack sl i _; rfl
  | cons v l ih =>
    intro stack sl i hi
    simp only [pushList]
    rw [ih _ _ _ (by omega), setAt_ne _ _ _ _ (by omega)]

theorem pushList_get (l : List Int) : ∀ (stack : Nat → Int) (sl i : Nat), i < l.length →
    pushList stack sl l (sl + i) = l.getD i 0 := by
  induction l with
  | nil => intro stack sl i hi; simp at hi
  | cons v l ih =>
    intro stack sl i hi
    simp only [pushList]
    cases i with
    | zero =>
      rw [pushList_lt _ _ _ _ (by omega)]
      show setAt stack sl v sl = v
      rw [setAt_same]
    | succ i =>
      have : sl + (i + 1) = sl + 1 + i := by omega
      rw [this, ih _ _ _ (by simpa using hi)]
      rfl

theorem trace_succ (D : Nat → Int → Int) (k : Nat) (d last : Int) (sl : Nat)
    (stack : Nat → Int) :
    Compute_Delta.trace D (k + 1) d last sl stack =
      if (pick D k d).1 = d - 1 then
        Compute_Delta.trace D k (d - 1) (D k (pick D k d).1) (sl + 1)
          (setAt stack sl ((pick D k d).2 - last - 1))
      else if (pick D k d).1 = d + 1 then
        Compute_Delta.trace D k (d + 1) (D k (pick D k d).1) (sl + 1)
          (setAt stack sl (last - ((pick D k d).2 - 1)))
      else Compute_Delta.trace D k d last sl stack := rfl

theorem traceSteps_succ (D : Nat → Int → Int) (k : Nat) (d last : Int) :
    traceSteps D (k + 1) d last =
      if (pick D k d).1 = d - 1 then
        (((pick D k d).2 - last - 1) :: (traceSteps D k (d - 1) (D k (pick D k d).1)).1,
          (traceSteps D k (d - 1) (D k (pick D k d).1)).2)
      else if (pick D k d).1 = d + 1 then
        ((last - ((pick D k d).2 - 1)) :: (traceSteps D k (d + 1) (D k (pick D k d).1)).1,
          (traceSteps D k (d + 1) (D k (pick D k d).1)).2)
      else traceSteps D k d last := rfl

theorem traceSubs_succ (D : Nat → Int → Int) (k : Nat) (d : Int) :
    traceSubs D (k + 1) d =
      if (pick D k d).1 = d - 1 then traceSubs D k (d - 1)
      else if (pick D k d).1 = d + 1 then traceSubs D k (d + 1)
      else traceSubs D k d + 1 := rfl

/-- The three ways the predecessor is chosen, with the comparisons that decide
them; `max` is the largest of the three candidates in each case. -/
theorem pick_cases (D : Nat → Int → Int) (k : Nat) (d : Int) :
    ((pick D k d).1 = d ∧ (pick D k d).2 = 1 + D k d ∧ D k (d - 1) ≤ 1 + D k d ∧
        D k (d + 1) ≤ D k d) ∨
    ((pick D k d).1 = d - 1 ∧ (pick D k d).2 = D k (d - 1) ∧ 1 + D k d < D k (d - 1) ∧
        1 + D k (d + 1) ≤ D k (d - 1)) ∨
    ((pick D k d).1 = d + 1 ∧ (pick D k d).2 = 1 + D k (d + 1) ∧ D k d < D k (d + 1) ∧
        D k (d - 1) < 1 + D k (d + 1)) := by
  simp only [pick]
  by_cases h1 : D k (d - 1) > 1 + D k d
  · by_cases h2 : 1 + D k (d + 1) > D k (d - 1)
    · right; right
      simp only [if_pos h1, if_pos h2]
      exact ⟨trivial, trivial, by omega, by omega⟩
    · right; left
      simp only [if_pos h1, if_neg h2]
      exact ⟨trivial, trivial, by omega, by omega⟩
  · by_cases h2 : 1 + D k (d + 1) > 1 + D k d
    · right; right
      simp only [if_neg h1, if_pos h2]
      exact ⟨trivial, trivial, by omega, by omega⟩
    · left
      simp only [if_neg h1, if_neg h2]
      exact ⟨trivial, trivial, by omega, by omega⟩

theorem pick_max (D : Nat → Int → Int) (k : Nat) (d : Int) :
    (pick D k d).2 = max (max (1 + D k d) (D k (d - 1))) (D k (d + 1) + 1) := by
  rcases pick_cases D k d with ⟨_, h, _, _⟩ | ⟨_, h, _, _⟩ | ⟨_, h, _, _⟩ <;> rw [h] <;>
    simp only [max_def] <;> split_ifs <;> omega

theorem trace_eq_steps (D : Nat → Int → Int) : ∀ (k : Nat) (d last : Int) (sl : Nat)
    (stack : Nat → Int),
    Compute_Delta.trace D k d last sl stack =
      ((traceSteps D k d last).2, sl + (traceSteps D k d last).1.length,
        pushList stack sl (traceSteps D k d last).1) := by
  intro k
  induction k with
  | zero => intro d last sl stack; rfl
  | succ k ih =>
    intro d last sl stack
    rw [trace_succ, traceSteps_succ]
    by_cases h1 : (pick D k d).1 = d - 1
    · rw [if_pos h1, if_pos h1, ih]
      simp only [List.length_cons, pushList]
      congr 2
      omega
    · rw [if_neg h1, if_neg h1]
      by_cases h2 : (pick D k d).1 = d + 1
      · rw [if_pos h2, if_pos h2, ih]
        simp only [List.length_cons, pushList]
        congr 2
        omega
      · rw [if_neg h2, if_neg h2, ih]

theorem traceSteps_length (D : Nat → Int → Int) : ∀ (k : Nat) (d last : Int),
    (traceSteps D k d last).1.length + traceSubs D k d = k := by
  intro k
  induction k with
  | zero => intro d last; rfl
  | succ k ih =>
    intro d last
    rw [traceSteps_succ, traceSubs_succ]
    by_cases h1 : (pick D k d).1 = d - 1
    · rw [if_pos h1, if_pos h1]
      have := ih (d - 1) (D k (pick D k d).1)
      simp only [List.length_cons]
      omega
    · rw [if_neg h1, if_neg h1]
      by_cases h2 : (pick D k d).1 = d + 1
      · rw [if_pos h2, if_pos h2]
        have := ih (d + 1) (D k (pick D k d).1)
        simp only [List.length_cons]
        omega
      · rw [if_neg h2, if_neg h2]
        have := ih d last
        omega

theorem emit_get (stack : Nat → Int) : ∀ (i k : Nat) (delta : Nat → Int) (j : Nat),
    Compute_Delta.emit stack i k delta j =
      if k ≤ j ∧ j < k + i then |stack (i - (j - k))| * Sign (stack (i - (j - k) - 1))
      else delta j := by
  intro i
  induction i with
  | zero =>
    intro k delta j
    simp only [Compute_Delta.emit]
    rw [if_neg (by omega)]
  | succ i ih =>
    intro k delta j
    simp only [Compute_Delta.emit]
    rw [ih]
    by_cases h1 : k + 1 ≤ j ∧ j < k + 1 + i
    · rw [if_pos h1, if_pos (by omega)]
      have : i + 1 - (j - k) = i - (j - (k + 1)) := by omega
      rw [this]
    · rw [if_neg h1]
      by_cases h2 : j = k
      · subst h2
        rw [setAt_same, if_pos (by omega)]
        simp
      · rw [setAt_ne _ _ _ _ h2, if_neg (by omega)]

theorem deltaOf_length (l : List Int) (x : Int) : (deltaOf l x).length = l.length := by
  induction l with
  | nil => rfl
  | cons v l ih => simp [deltaOf, ih]

/-- The index form of the emitted script agrees with `deltaOf`. -/
theorem deltaOf_eq_map (l : List Int) (x : Int) :
    (List.range l.length).map
      (fun j => |(l ++ [x]).getD (l.length - j) 0| * Sign ((l ++ [x]).getD (l.length - j - 1) 0)) =
      deltaOf l x := by
  induction l with
  | nil => rfl
  | cons v l ih =>
    simp only [deltaOf, List.length_cons, List.range_succ, List.map_append, List.map_cons,
      List.map_nil]
    congr 1
    · rw [← ih]
      apply List.map_congr_left
      intro j hj
      have hj' : j < l.length := List.mem_range.mp hj
      have e1 : l.length + 1 - j = (l.length - j) + 1 := by omega
      have e2 : l.length - j + 1 - 1 = (l.length - j - 1) + 1 := by omega
      rw [e1, e2]
      simp only [List.cons_append, List.getD_cons_succ]
    · have e1 : l.length + 1 - l.length = 1 := by omega
      rw [e1]
      simp only [List.cons_append, List.getD_cons_succ, Nat.sub_self, List.getD_cons_zero]
      congr 2
      cases l with
      | nil => rfl
      | cons w l => rfl

/-- The delta script left by `Compute_Delta`, as a function of the pushed
values. -/
theorem script_Compute_Delta (WA : pedWorkArea_t) (e : Nat) (d row : Int) :
    script (Compute_Delta WA e d row) =
      deltaOf (traceSteps WA.Edit_Array_Lazy e d row).1
        ((traceSteps WA.Edit_Array_Lazy e d row).2 + 1) := by
  rw [← deltaOf_eq_map]
  simp only [script, Compute_Delta, trace_eq_steps, Nat.zero_add, Nat.add_sub_cancel]
  have hlen : (((traceSteps WA.Edit_Array_Lazy e d row).1.length + 1 : Nat) : Int) - 1 =
      ((traceSteps WA.Edit_Array_Lazy e d row).1.length : Int) := by push_cast; omega
  rw [hlen, Int.toNat_ofNat]
  apply List.map_congr_left
  intro j hj
  have hj' : j < (traceSteps WA.Edit_Array_Lazy e d row).1.length := List.mem_range.mp hj
  rw [emit_get, if_pos (by omega)]
  have stackAt : ∀ i, i ≤ (traceSteps WA.Edit_Array_Lazy e d row).1.length →
      setAt (pushList WA.deltaStack 0 (traceSteps WA.Edit_Array_Lazy e d row).1)
        (traceSteps WA.Edit_Array_Lazy e d row).1.length
        ((traceSteps WA.Edit_Array_Lazy e d row).2 + 1) i =
      ((traceSteps WA.Edit_Array_Lazy e d row).1 ++
        [(traceSteps WA.Edit_Array_Lazy e d row).2 + 1]).getD i 0 := by
    intro i hi
    by_cases hil : i = (traceSteps WA.Edit_Array_Lazy e d row).1.length
    · rw [hil, setAt_same]
      simp [List.getD_eq_getElem?_getD]
    · rw [setAt_ne _ _ _ _ hil]
      have := pushList_get (traceSteps WA.Edit_Array_Lazy e d row).1 WA.deltaStack 0 i (by omega)
      rw [Nat.zero_add] at this
      rw [this]
      simp only [List.getD_eq_getElem?_getD]
      rw [List.getElem?_append_left (by omega)]
  rw [Nat.sub_zero, stackAt _ (by omega), stackAt _ (by omega)]

theorem deltaLen_Compute_Delta (WA : pedWorkArea_t) (e : Nat) (d row : Int) :
    (Compute_Delta WA e d row).deltaLen = (traceSteps WA.Edit_Array_Lazy e d row).1.length := by
  simp only [Compute_Delta, trace_eq_steps, Nat.zero_add]
  push_cast
  omega

theorem table_Compute_Delta (WA : pedWorkArea_t) (e : Nat) (d row : Int) :
    (Compute_Delta WA e d row).Edit_Array_Lazy = WA.Edit_Array_Lazy := rfl

/-! ## Results of a call -/

/-- The invariant with the arguments of the diagonal loop rewritten in terms
of the band history. -/
theorem Inv.unpack {A T : List Char} {e : Nat} {s : LoopState} {D D' : Nat → Int → Int}
    (h : Inv A T e s D D') :
    ∃ (k : Nat) (B : Nat → Int × Int), e = k + 1 ∧ e - 1 = k ∧ Hist A T B D D' k ∧
      max (s.Left - 1) (-(e : Int)) = (B k).1 - 1 ∧ min (s.Right + 1) (e : Int) = (B k).2 + 1 ∧
      BPok B D k s.Best_e s.Best_d s.Longest ∧
      BPok B D k s.Max_Score_Best_e s.Max_Score_Best_d s.Max_Score_Len := by
  have hband := h.band
  obtain ⟨k, B, he, hH, hB, hb1, hb2⟩ := h
  have hB1 : (B k).1 = s.Left := by rw [hB]
  have hB2 : (B k).2 = s.Right := by rw [hB]
  refine ⟨k, B, he, by omega, hH, ?_, ?_, hb1, hb2⟩
  · rw [hband.2.1, hB1]
  · rw [hband.2.2.1, hB2]

/-- The three ways a call returns from the level loop, in terms of the band
history of the state it returns from. -/
theorem Final.info {A T : List Char} {E : Int} {WA : pedWorkArea_t} {e : Nat} {s : LoopState}
    {D : Nat → Int → Int} {r : Result} (hI : Inv A T e s D D) (hF : Final A T E WA e s D r) :
    ∃ (k : Nat) (B : Nat → Int × Int), e = k + 1 ∧ Hist A T B D D k ∧
      BPok B D k s.Max_Score_Best_e s.Max_Score_Best_d s.Max_Score_Len ∧
      ((E < (e : Int) ∧ r = branchPoint WA e s D) ∨
       ((e : Int) ≤ E ∧ ∃ d Row D2,
          fillRow A T A.length T.length WA.Edit_Array_Max k ((B k).2 + 1)
            ((B k).2 + 1 - ((B k).1 - 1) + 1).toNat ((B k).1 - 1)
            (openRow D k ((B k).1 - 1) ((B k).2 + 1)) = .ok (.hitEnd d Row D2) ∧
          r = endMatch WA e d Row D2) ∨
       ((e : Int) ≤ E ∧ ∃ D2,
          fillRow A T A.length T.length WA.Edit_Array_Max k ((B k).2 + 1)
            ((B k).2 + 1 - ((B k).1 - 1) + 1).toNat ((B k).1 - 1)
            (openRow D k ((B k).1 - 1) ((B k).2 + 1)) = .ok (.filled D2) ∧
          r = branchPoint WA e s D2)) := by
  obtain ⟨k, B, he, he1, hH, hL, hR, _, hb2⟩ := hI.unpack
  refine ⟨k, B, he, hH, hb2, ?_⟩
  rcases hF with ⟨h1, h2⟩ | ⟨h1, d, Row, D2, h2, h3⟩ | ⟨h1, D2, h2, _, h3⟩
  · exact Or.inl ⟨h1, h2⟩
  · rw [he1, hL, hR] at h2
    exact Or.inr (Or.inl ⟨h1, d, Row, D2, h2, h3⟩)
  · rw [he1, hL, hR] at h2
    exact Or.inr (Or.inr ⟨h1, D2, h2, h3⟩)

theorem BPok.bounds {A T : List Char} {B : Nat → Int × Int} {D D' : Nat → Int → Int} {k : Nat}
    (h : Hist A T B D D' k) {be : Nat} {bd len : Int} (hb : BPok B D k be bd len) :
    0 ≤ len ∧ len ≤ A.length ∧ 0 ≤ len + bd ∧ len + bd ≤ T.length := by
  obtain ⟨h1, h2⟩ := hb
  rcases h2 with ⟨_, h3, h4⟩ | ⟨_, h3, h4, h5⟩
  · subst h3 h4
    simp
  · have := h.live be h1 bd h3 h4
    rw [← h5] at this
    unfold Live at this
    omega

/-! ## The pruning and tracking loops read the band only -/

theorem pruneLeftNeg_congr (row row' : Int → Int) (limit Right : Int) :
    ∀ (f : Nat) (Left : Int), (∀ c, Left ≤ c → c ≤ Right → row' c = row c) →
      pruneLeftNeg row' limit Right f Left = pruneLeftNeg row limit Right f Left := by
  intro f
  induction f with
  | zero => intro Left _; rfl
  | succ f ih =>
    intro Left h
    simp only [pruneLeftNeg]
    by_cases hc : Left ≤ Right ∧ Left < 0 ∧ row Left < limit
    · have hc' : Left ≤ Right ∧ Left < 0 ∧ row' Left < limit := by
        rw [h Left (le_refl _) hc.1]; exact hc
      rw [if_pos hc, if_pos hc']
      exact ih (Left + 1) (fun c h1 h2 => h c (by omega) h2)
    · have hc' : ¬ (Left ≤ Right ∧ Left < 0 ∧ row' Left < limit) := by
        intro hx
        rw [h Left (le_refl _) hx.1] at hx
        exact hc hx
      rw [if_neg hc, if_neg hc']

theorem pruneLeftPos_congr (row row' : Int → Int) (limit Right : Int) :
    ∀ (f : Nat) (Left : Int), (∀ c, Left ≤ c → c ≤ Right → row' c = row c) →
      pruneLeftPos row' limit Right f Left = pruneLeftPos row limit Right f Left := by
  intro f
  induction f with
  | zero => intro Left _; rfl
  | succ f ih =>
    intro Left h
    simp only [pruneLeftPos]
    by_cases hc : Left ≤ Right ∧ row Left + Left < limit
    · have hc' : Left ≤ Right ∧ row' Left + Left < limit := by
        rw [h Left (le_refl _) hc.1]; exact hc
      rw [if_pos hc, if_pos hc']
      exact ih (Left + 1) (fun c h1 h2 => h c (by omega) h2)
    · have hc' : ¬ (Left ≤ Right ∧ row' Left + Left < limit) := by
        intro hx
        rw [h Left (le_refl _) hx.1] at hx
        exact hc hx
      rw [if_neg hc, if_neg hc']

theorem pruneLeft_congr (row row' : Int → Int) (limit Right Left : Int)
    (h : ∀ c, Left ≤ c → c ≤ Right → row' c = row c) :
    pruneLeft row' limit Right Left = pruneLeft row limit Right Left := by
  simp only [pruneLeft]
  rw [pruneLeftNeg_congr row row' limit Right _ Left h]
  split
  · apply pruneLeftPos_congr
    intro c h1 h2
    exact h c (le_trans (pruneLeftNeg_ge row limit Right _ Left) h1) h2
  · rfl

theorem pruneRightPos_congr (row row' : Int → Int) (limit Left : Int)
    (hL : 0 ≤ Left → limit ≤ row Left + Left) :
    ∀ (f : Nat) (Right : Int), Left ≤ Right → (∀ c, Left ≤ c → c ≤ Right → row' c = row c) →
      pruneRightPos row' limit f Right = pruneRightPos row limit f Right := by
  intro f
  induction f with
  | zero => intro Right _ _; rfl
  | succ f ih =>
    intro Right hLR h
    simp only [pruneRightPos]
    rw [h Right hLR (le_refl _)]
    by_cases hc : Right > 0 ∧ row Right + Right < limit
    · rw [if_pos hc, if_pos hc]
      have hlt : Left ≤ Right - 1 := by
        by_contra hlt
        have : Left = Right := by omega
        subst this
        have := hL (by omega)
        omega
      exact ih (Right - 1) hlt (fun c h1 h2 => h c h1 (by omega))
    · rw [if_neg hc, if_neg hc]

theorem pruneRightNeg_congr (row row' : Int → Int) (limit Left : Int) (hL : limit ≤ row Left) :
    ∀ (f : Nat) (Right : Int), Left ≤ Right → (∀ c, Left ≤ c → c ≤ Right → row' c = row c) →
      pruneRightNeg row' limit f Right = pruneRightNeg row limit f Right := by
  intro f
  induction f with
  | zero => intro Right _ _; rfl
  | succ f ih =>
    intro Right hLR h
    simp only [pruneRightNeg]
    rw [h Right hLR (le_refl _)]
    by_cases hc : row Right < limit
    · rw [if_pos hc, if_pos hc]
      have hlt : Left ≤ Right - 1 := by
        by_contra hlt
        have : Left = Right := by omega
        subst this
        omega
      exact ih (Right - 1) hlt (fun c h1 h2 => h c h1 (by omega))
    · rw [if_neg hc, if_neg hc]

theorem pruneRight_congr (row row' : Int → Int) (limit Left Right : Int) (hLR : Left ≤ Right)
    (h1 : Left < 0 → limit ≤ row Left) (h2 : 0 ≤ Left → limit ≤ row Left + Left)
    (h : ∀ c, Left ≤ c → c ≤ Right → row' c = row c) :
    pruneRight row' limit Left Right = pruneRight row limit Left Right := by
  simp only [pruneRight]
  rw [pruneRightPos_congr row row' limit Left h2 _ Right hLR h]
  have hp := pruneRightPos_ge row limit Left h2 Right.toNat Right hLR
  have hp2 := pruneRightPos_le row limit Right.toNat Right
  split
  · next h0 =>
    by_cases hneg : Left < 0
    · exact pruneRightNeg_congr row row' limit Left (h1 hneg) _ _ hp
        (fun c c1 c2 => h c c1 (by omega))
    · have h00 : pruneRightPos row limit Right.toNat Right = Left := by omega
      have hz : Left = 0 := by omega
      have hk : ¬ row Left < limit := by have := h2 (by omega); omega
      have hk' : ¬ row' Left < limit := by rw [h Left (le_refl _) hLR]; exact hk
      rw [h00, pruneRightNeg_keep row limit _ Left hk, pruneRightNeg_keep row' limit _ Left hk']
  · rfl

theorem scanLongest_congr (row row' : Int → Int) (e : Nat) (Right : Int) :
    ∀ (f : Nat) (d : Int) (b : Int × Nat × Int), (∀ c, d ≤ c → c ≤ Right → row' c = row c) →
      scanLongest row' e Right f d b = scanLongest row e Right f d b := by
  intro f
  induction f with
  | zero => intro d b _; rfl
  | succ f ih =>
    intro d b h
    simp only [scanLongest]
    by_cases hd : d ≤ Right
    · rw [if_pos hd, if_pos hd, h d (le_refl _) hd]
      split
      · exact ih (d + 1) _ (fun c h1 h2 => h c (by omega) h2)
      · exact ih (d + 1) _ (fun c h1 h2 => h c (by omega) h2)
    · rw [if_neg hd, if_neg hd]

theorem track_congr (G : coParameters) (row row' : Int → Int) (e : Nat) (Left Right : Int)
    (s : LoopState) (h : ∀ c, Left ≤ c → c ≤ Right → row' c = row c) :
    track G row' e Left Right s = track G row e Left Right s := by
  simp only [track]
  rw [scanLongest_congr row row' e Right _ Left _ h]

/-! ## The traceback stays inside the bands -/

theorem pick_congr (D D' : Nat → Int → Int) (k : Nat) (d : Int)
    (h : ∀ c, d - 1 ≤ c → c ≤ d + 1 → D' k c = D k c) : pick D' k d = pick D k d := by
  simp only [pick]
  rw [h d (by omega) (by omega), h (d - 1) (by omega) (by omega), h (d + 1) (by omega) (by omega)]

/-- A cell that the traceback reads from a row with sentinels is a sentinel or a
cell of the band, and is the same in both tables. -/
theorem TraceZone.cell {B : Nat → Int × Int} {D D' : Nat → Int → Int} {K : Nat}
    (z : TraceZone B D D' K) (j : Nat) (hj : j < K) (c : Int)
    (h1 : (B j).1 - 1 - 1 ≤ c) (h2 : c ≤ (B j).2 + 1 + 1) :
    D' j c = D j c ∧
      ((D j c = -2 ∧ (c < (B j).1 ∨ (B j).2 < c)) ∨
        (0 ≤ D j c ∧ (B j).1 ≤ c ∧ c ≤ (B j).2)) := by
  by_cases hin : (B j).1 ≤ c ∧ c ≤ (B j).2
  · exact ⟨z.agree j hj c hin.1 hin.2, Or.inr ⟨z.nonneg j hj c hin.1 hin.2, hin⟩⟩
  · obtain ⟨⟨s1, s2, s3, s4⟩, ⟨t1, t2, t3, t4⟩⟩ := z.sent j hj
    have : c = (B j).1 - 1 - 1 ∨ c = (B j).1 - 1 ∨ c = (B j).2 + 1 ∨ c = (B j).2 + 1 + 1 := by
      omega
    rcases this with h | h | h | h
    · subst h; exact ⟨by rw [s1, t1], Or.inl ⟨s1, by omega⟩⟩
    · subst h; exact ⟨by rw [s2, t2], Or.inl ⟨s2, by omega⟩⟩
    · subst h; exact ⟨by rw [s3, t3], Or.inl ⟨s3, by omega⟩⟩
    · subst h; exact ⟨by rw [s4, t4], Or.inl ⟨s4, by omega⟩⟩

/-- The predecessor chosen at a diagonal of the opened band of row `j` is a cell
of the band of row `j`. -/
theorem TraceZone.pick_in {B : Nat → Int × Int} {D D' : Nat → Int → Int} {K : Nat}
    (z : TraceZone B D D' K) (j : Nat) (hj : j < K) (d : Int)
    (h1 : (B j).1 - 1 ≤ d) (h2 : d ≤ (B j).2 + 1) :
    (B j).1 ≤ (pick D j d).1 ∧ (pick D j d).1 ≤ (B j).2 ∧ 0 ≤ D j (pick D j d).1 := by
  have hne := z.ne j hj
  have c0 := (z.cell j hj d (by omega) (by omega)).2
  have c1 := (z.cell j hj (d - 1) (by omega) (by omega)).2
  have c2 := (z.cell j hj (d + 1) (by omega) (by omega)).2
  rcases pick_cases D j d with ⟨p1, _, p3, p4⟩ | ⟨p1, _, p3, p4⟩ | ⟨p1, _, p3, p4⟩
  · rw [p1]
    rcases c0 with ⟨e0, _⟩ | ⟨e0, i0, i1⟩
    · exfalso
      rcases c1 with ⟨e1, _⟩ | ⟨e1, _, _⟩ <;> rcases c2 with ⟨e2, _⟩ | ⟨e2, _, _⟩ <;> omega
    · exact ⟨i0, i1, e0⟩
  · rw [p1]
    rcases c1 with ⟨e1, _⟩ | ⟨e1, i0, i1⟩
    · exfalso
      rcases c0 with ⟨e0, _⟩ | ⟨e0, _, _⟩ <;> omega
    · exact ⟨i0, i1, e1⟩
  · rw [p1]
    rcases c2 with ⟨e2, _⟩ | ⟨e2, i0, i1⟩
    · exfalso
      rcases c0 with ⟨e0, _⟩ | ⟨e0, _, _⟩ <;> omega
    · exact ⟨i0, i1, e2⟩

/-- The traceback pushes the same values in two tables that share their
history: it reads sentinels and band cells only. -/
theorem traceSteps_rel {B : Nat → Int × Int} {D D' : Nat → Int → Int} {K : Nat}
    (z : TraceZone B D D' K) :
    ∀ (j : Nat), j ≤ K → ∀ (d last : Int),
      (∀ i, j = i + 1 → (B i).1 - 1 ≤ d ∧ d ≤ (B i).2 + 1) →
      traceSteps D' j d last = traceSteps D j d last := by
  intro j
  induction j with
  | zero => intro _ d last _; rfl
  | succ j ih =>
    intro hj d last hd
    obtain ⟨h1, h2⟩ := hd j rfl
    have hpick : pick D' j d = pick D j d :=
      pick_congr D D' j d (fun c c1 c2 => (z.cell j (by omega) c (by omega) (by omega)).1)
    have hin := z.pick_in j (by omega) d h1 h2
    have hval : D' j (pick D j d).1 = D j (pick D j d).1 :=
      z.agree j (by omega) _ hin.1 hin.2.1
    have hnext : ∀ i, j = i + 1 →
        (B i).1 - 1 ≤ (pick D j d).1 ∧ (pick D j d).1 ≤ (B i).2 + 1 := by
      intro i hi
      subst hi
      have := z.band i (by omega)
      omega
    rw [traceSteps_succ, traceSteps_succ, hpick, hval]
    by_cases c1 : (pick D j d).1 = d - 1
    · rw [if_pos c1, if_pos c1, ih (by omega) (d - 1) _ (by rw [← c1]; exact hnext)]
    · rw [if_neg c1, if_neg c1]
      by_cases c2 : (pick D j d).1 = d + 1
      · rw [if_pos c2, if_pos c2, ih (by omega) (d + 1) _ (by rw [← c2]; exact hnext)]
      · rw [if_neg c2, if_neg c2]
        have c3 : (pick D j d).1 = d := by
          rcases pick_cases D j d with ⟨p, _⟩ | ⟨p, _⟩ | ⟨p, _⟩
          · exact p
          · exact absurd p c1
          · exact absurd p c2
        exact ih (by omega) d last (by rw [← c3]; exact hnext)

/-- The traceback from level `K` reads the rows below `K` only. -/
theorem traceSteps_rows (D D2 : Nat → Int → Int) :
    ∀ (K : Nat), (∀ j c, j < K → D2 j c = D j c) → ∀ (d last : Int),
      traceSteps D2 K d last = traceSteps D K d last := by
  intro K
  induction K with
  | zero => intro _ d last; rfl
  | succ K ih =>
    intro h d last
    have hpick : pick D2 K d = pick D K d :=
      pick_congr D D2 K d (fun c _ _ => h K c (by omega))
    have ih' := ih (fun j c hj => h j c (by omega))
    rw [traceSteps_succ, traceSteps_succ, hpick, h K _ (by omega), ih', ih', ih']

theorem TraceZone.rows {B : Nat → Int × Int} {D D' E E' : Nat → Int → Int} {K : Nat}
    (z : TraceZone B D D' K) (h : ∀ j c, j < K → E j c = D j c)
    (h' : ∀ j c, j < K → E' j c = D' j c) : TraceZone B E E' K := by
  refine ⟨?_, ?_, ?_, z.band, z.ne⟩
  · intro j hj
    exact ⟨Sentinels_congr _ _ _ _ _ (fun c => h j c hj) (z.sent j hj).1,
      Sentinels_congr _ _ _ _ _ (fun c => h' j c hj) (z.sent j hj).2⟩
  · intro j hj c c1 c2
    rw [h j c hj]; exact z.nonneg j hj c c1 c2
  · intro j hj c c1 c2
    rw [h j c hj, h' j c hj]; exact z.agree j hj c c1 c2

/-- The rows below `k` of a table with history form a trace zone. -/
theorem Hist.zone {A T : List Char} {B : Nat → Int × Int} {D D' : Nat → Int → Int} {k : Nat}
    (h : Hist A T B D D' k) : TraceZone B D D' k := by
  refine ⟨h.sent, ?_, ?_, ?_, ?_⟩
  · intro j hj c c1 c2
    exact (h.live j (by omega) c c1 c2).1
  · intro j hj c c1 c2
    exact h.agree j (by omega) c c1 c2
  · intro j hj
    have := h.band j (by omega)
    omega
  · intro j hj
    exact (h.lo j (by omega)).2.1

/-- Once the sentinels of level `k+1` are written, the rows up to `k` form a
trace zone. -/
theorem Hist.zone_open {A T : List Char} {B : Nat → Int × Int} {D D' : Nat → Int → Int}
    {k : Nat} (h : Hist A T B D D' k) :
    TraceZone B (openRow D k ((B k).1 - 1) ((B k).2 + 1))
      (openRow D' k ((B k).1 - 1) ((B k).2 + 1)) (k + 1) := by
  have hz := h.zone
  refine ⟨?_, ?_, ?_, ?_, ?_⟩
  · intro j hj
    by_cases hjk : j < k
    · exact ⟨Sentinels_congr _ _ _ _ _ (fun c => openRow_row_ne _ _ _ _ _ _ (by omega))
          (h.sent j hjk).1,
        Sentinels_congr _ _ _ _ _ (fun c => openRow_row_ne _ _ _ _ _ _ (by omega))
          (h.sent j hjk).2⟩
    · have : j = k := by omega
      subst this
      exact ⟨openRow_sentinels _ _ _ _, openRow_sentinels _ _ _ _⟩
  · intro j hj c c1 c2
    by_cases hjk : j < k
    · rw [openRow_row_ne _ _ _ _ _ _ (by omega)]
      exact (h.live j (by omega) c c1 c2).1
    · have : j = k := by omega
      subst this
      rw [openRow_inside _ _ _ _ _ _ (by omega) (by omega)]
      exact (h.live j (le_refl _) c c1 c2).1
  · intro j hj c c1 c2
    by_cases hjk : j < k
    · rw [openRow_row_ne _ _ _ _ _ _ (by omega), openRow_row_ne _ _ _ _ _ _ (by omega)]
      exact h.agree j (by omega) c c1 c2
    · have : j = k := by omega
      subst this
      rw [openRow_inside _ _ _ _ _ _ (by omega) (by omega),
        openRow_inside _ _ _ _ _ _ (by omega) (by omega)]
      exact h.agree j (le_refl _) c c1 c2
  · intro j hj
    have := h.band j (by omega)
    omega
  · intro j hj
    exact (h.lo j (by omega)).2.1

/-! ## Two runs from different buffer contents -/

/-- The diagonal loop of a level has the same outcome on two tables that share
their history. -/
theorem Hist.fill_rel {A T : List Char} {B : Nat → Int × Int} {D D' : Nat → Int → Int} {k : Nat}
    (h : Hist A T B D D' k) (Max : Int) :
    (fillRow A T A.length T.length Max k ((B k).2 + 1)
        ((B k).2 + 1 - ((B k).1 - 1) + 1).toNat ((B k).1 - 1)
        (openRow D k ((B k).1 - 1) ((B k).2 + 1)) = .error .editArrayMax ∧
      fillRow A T A.length T.length Max k ((B k).2 + 1)
        ((B k).2 + 1 - ((B k).1 - 1) + 1).toNat ((B k).1 - 1)
        (openRow D' k ((B k).1 - 1) ((B k).2 + 1)) = .error .editArrayMax) ∨
    (fillRow A T A.length T.length Max k ((B k).2 + 1)
        ((B k).2 + 1 - ((B k).1 - 1) + 1).toNat ((B k).1 - 1)
        (openRow D k ((B k).1 - 1) ((B k).2 + 1)) =
        .ok (.filled (rowFilled
          (cellRow A T A.length T.length (openRow D k ((B k).1 - 1) ((B k).2 + 1)) k)
          (openRow D k ((B k).1 - 1) ((B k).2 + 1)) (k + 1) ((B k).1 - 1) ((B k).2 + 1))) ∧
      fillRow A T A.length T.length Max k ((B k).2 + 1)
        ((B k).2 + 1 - ((B k).1 - 1) + 1).toNat ((B k).1 - 1)
        (openRow D' k ((B k).1 - 1) ((B k).2 + 1)) =
        .ok (.filled (rowFilled
          (cellRow A T A.length T.length (openRow D' k ((B k).1 - 1) ((B k).2 + 1)) k)
          (openRow D' k ((B k).1 - 1) ((B k).2 + 1)) (k + 1) ((B k).1 - 1) ((B k).2 + 1))) ∧
      ∀ c, (B k).1 - 1 ≤ c → c ≤ (B k).2 + 1 → ¬ hitsEnd A.length T.length
        (cellRow A T A.length T.length (openRow D k ((B k).1 - 1) ((B k).2 + 1)) k c) c) ∨
    (∃ d Row D2 D2',
      fillRow A T A.length T.length Max k ((B k).2 + 1)
        ((B k).2 + 1 - ((B k).1 - 1) + 1).toNat ((B k).1 - 1)
        (openRow D k ((B k).1 - 1) ((B k).2 + 1)) = .ok (.hitEnd d Row D2) ∧
      fillRow A T A.length T.length Max k ((B k).2 + 1)
        ((B k).2 + 1 - ((B k).1 - 1) + 1).toNat ((B k).1 - 1)
        (openRow D' k ((B k).1 - 1) ((B k).2 + 1)) = .ok (.hitEnd d Row D2') ∧
      (∀ j c, j ≤ k → D2 j c = openRow D k ((B k).1 - 1) ((B k).2 + 1) j c) ∧
      (∀ j c, j ≤ k → D2' j c = openRow D' k ((B k).1 - 1) ((B k).2 + 1) j c)) := by
  have hlo := (h.lo k (le_refl _)).2.1
  by_cases hmax : ((k + 1 : Nat) : Int) < Max
  · have hC : ∀ c, (B k).1 - 1 ≤ c → c ≤ (B k).2 + 1 →
        cellRow A T A.length T.length (openRow D' k ((B k).1 - 1) ((B k).2 + 1)) k c =
        cellRow A T A.length T.length (openRow D k ((B k).1 - 1) ((B k).2 + 1)) k c :=
      fun c c1 c2 => h.open_cell c c1 c2
    rcases fillRow_spec A T A.length T.length Max k ((B k).2 + 1) hmax
        ((B k).2 + 1 - ((B k).1 - 1) + 1).toNat ((B k).1 - 1)
        (openRow D k ((B k).1 - 1) ((B k).2 + 1)) (le_refl _) with
      ⟨f1, f2⟩ | ⟨d0, a1, a2, a3, a4, a5⟩ <;>
    rcases fillRow_spec A T A.length T.length Max k ((B k).2 + 1) hmax
        ((B k).2 + 1 - ((B k).1 - 1) + 1).toNat ((B k).1 - 1)
        (openRow D' k ((B k).1 - 1) ((B k).2 + 1)) (le_refl _) with
      ⟨g1, g2⟩ | ⟨d0', b1, b2, b3, b4, b5⟩
    · exact Or.inr (Or.inl ⟨f1, g1, f2⟩)
    · exfalso
      rw [hC d0' b1 b2] at b3
      exact f2 d0' b1 b2 b3
    · exfalso
      have := g2 d0 a1 a2
      rw [hC d0 a1 a2] at this
      exact this a3
    · have hd : d0' = d0 := by
        rcases lt_trichotomy d0' d0 with hlt | heq | hgt
        · exfalso
          rw [hC d0' b1 b2] at b3
          exact a4 d0' b1 hlt b3
        · exact heq
        · exfalso
          have := b4 d0 a1 hgt
          rw [hC d0 a1 a2] at this
          exact this a3
      subst hd
      rw [hC d0' a1 a2, h.open_agree (d0' + 1) (by omega) (by omega)] at b5
      right; right
      rcases a5 with ⟨t, a6⟩ | ⟨t, a6⟩ <;> rcases b5 with ⟨t', b6⟩ | ⟨t', b6⟩
      · exact ⟨_, _, _, _, a6, b6, fun j c hj => hit_rows _ _ _ _ _ 0 0 _ (Or.inl rfl) j c hj,
          fun j c hj => hit_rows _ _ _ _ _ 0 0 _ (Or.inl rfl) j c hj⟩
      · exact absurd t' t
      · exact absurd t t'
      · exact ⟨_, _, _, _, a6, b6, fun j c hj => hit_rows _ _ _ _ _ _ _ _ (Or.inr rfl) j c hj,
          fun j c hj => hit_rows _ _ _ _ _ _ _ _ (Or.inr rfl) j c hj⟩
  · left
    exact ⟨fillRow_error A T _ _ Max k _ hmax _ _ _ (by omega) (by omega),
      fillRow_error A T _ _ Max k _ hmax _ _ _ (by omega) (by omega)⟩

theorem answer_branchPoint (WA : pedWorkArea_t) (e : Nat) (s : LoopState)
    (D : Nat → Int → Int) :
    (branchPoint WA e s D).answer =
      { errors := e, A_End := s.Max_Score_Len, T_End := s.Max_Score_Len + s.Max_Score_Best_d
        Match_To_End := false
        delta := deltaOf (traceSteps D s.Max_Score_Best_e s.Max_Score_Best_d s.Max_Score_Len).1
          ((traceSteps D s.Max_Score_Best_e s.Max_Score_Best_d s.Max_Score_Len).2 + 1) } := by
  simp only [Result.answer, branchPoint, script_Compute_Delta]

theorem answer_endMatch (WA : pedWorkArea_t) (e : Nat) (d Row : Int) (D : Nat → Int → Int) :
    (endMatch WA e d Row D).answer =
      { errors := e, A_End := Row, T_End := Row + d, Match_To_End := true
        delta := deltaOf (traceSteps D e d Row).1 ((traceSteps D e d Row).2 + 1) } := by
  simp only [Result.answer, endMatch, script_Compute_Delta]

/-- The traceback from a stored branch point is the same in two tables that
share their history. -/
theorem BPok.trace_rel {A T : List Char} {B : Nat → Int × Int} {D D' : Nat → Int → Int}
    {k : Nat} (h : Hist A T B D D' k) {be : Nat} {bd len : Int} (hb : BPok B D k be bd len) :
    traceSteps D' be bd len = traceSteps D be bd len := by
  apply traceSteps_rel h.zone be hb.1
  intro i hi
  rcases hb.2 with ⟨h0, _, _⟩ | ⟨_, h1, h2, _⟩
  · omega
  · have := h.band i (by have := hb.1; omega)
    rw [← hi] at this
    omega

/-- `Hist.fill_rel` with the arguments as the level loop writes them. -/
theorem Inv.fill_both {A T : List Char} {e : Nat} {s : LoopState} {D D' : Nat → Int → Int}
    (h : Inv A T e s D D') (Max : Int) :
    (fillRow A T A.length T.length Max (e - 1) (min (s.Right + 1) (e : Int))
        (min (s.Right + 1) (e : Int) - max (s.Left - 1) (-(e : Int)) + 1).toNat
        (max (s.Left - 1) (-(e : Int)))
        (openRow D (e - 1) (max (s.Left - 1) (-(e : Int))) (min (s.Right + 1) (e : Int))) =
        .error .editArrayMax ∧
      fillRow A T A.length T.length Max (e - 1) (min (s.Right + 1) (e : Int))
        (min (s.Right + 1) (e : Int) - max (s.Left - 1) (-(e : Int)) + 1).toNat
        (max (s.Left - 1) (-(e : Int)))
        (openRow D' (e - 1) (max (s.Left - 1) (-(e : Int))) (min (s.Right + 1) (e : Int))) =
        .error .editArrayMax) ∨
    (fillRow A T A.length T.length Max (e - 1) (min (s.Right + 1) (e : Int))
        (min (s.Right + 1) (e : Int) - max (s.Left - 1) (-(e : Int)) + 1).toNat
        (max (s.Left - 1) (-(e : Int)))
        (openRow D (e - 1) (max (s.Left - 1) (-(e : Int))) (min (s.Right + 1) (e : Int))) =
        .ok (.filled (rowFilled
          (cellRow A T A.length T.length (openRow D (e - 1) (max (s.Left - 1) (-(e : Int)))
            (min (s.Right + 1) (e : Int))) (e - 1))
          (openRow D (e - 1) (max (s.Left - 1) (-(e : Int))) (min (s.Right + 1) (e : Int)))
          e (max (s.Left - 1) (-(e : Int))) (min (s.Right + 1) (e : Int)))) ∧
      fillRow A T A.length T.length Max (e - 1) (min (s.Right + 1) (e : Int))
        (min (s.Right + 1) (e : Int) - max (s.Left - 1) (-(e : Int)) + 1).toNat
        (max (s.Left - 1) (-(e : Int)))
        (openRow D' (e - 1) (max (s.Left - 1) (-(e : Int))) (min (s.Right + 1) (e : Int))) =
        .ok (.filled (rowFilled
          (cellRow A T A.length T.length (openRow D' (e - 1) (max (s.Left - 1) (-(e : Int)))
            (min (s.Right + 1) (e : Int))) (e - 1))
          (openRow D' (e - 1) (max (s.Left - 1) (-(e : Int))) (min (s.Right + 1) (e : Int)))
          e (max (s.Left - 1) (-(e : Int))) (min (s.Right + 1) (e : Int)))) ∧
      (∀ c, max (s.Left - 1) (-(e : Int)) ≤ c → c ≤ min (s.Right + 1) (e : Int) →
        ¬ hitsEnd A.length T.length
          (cellRow A T A.length T.length (openRow D (e - 1) (max (s.Left - 1) (-(e : Int)))
            (min (s.Right + 1) (e : Int))) (e - 1) c) c) ∧
      (∀ c, max (s.Left - 1) (-(e : Int)) ≤ c → c ≤ min (s.Right + 1) (e : Int) →
        cellRow A T A.length T.length (openRow D' (e - 1) (max (s.Left - 1) (-(e : Int)))
            (min (s.Right + 1) (e : Int))) (e - 1) c =
        cellRow A T A.length T.length (openRow D (e - 1) (max (s.Left - 1) (-(e : Int)))
            (min (s.Right + 1) (e : Int))) (e - 1) c)) ∨
    (∃ d Row D2 D2',
      fillRow A T A.length T.length Max (e - 1) (min (s.Right + 1) (e : Int))
        (min (s.Right + 1) (e : Int) - max (s.Left - 1) (-(e : Int)) + 1).toNat
        (max (s.Left - 1) (-(e : Int)))
        (openRow D (e - 1) (max (s.Left - 1) (-(e : Int))) (min (s.Right + 1) (e : Int))) =
        .ok (.hitEnd d Row D2) ∧
      fillRow A T A.length T.length Max (e - 1) (min (s.Right + 1) (e : Int))
        (min (s.Right + 1) (e : Int) - max (s.Left - 1) (-(e : Int)) + 1).toNat
        (max (s.Left - 1) (-(e : Int)))
        (openRow D' (e - 1) (max (s.Left - 1) (-(e : Int))) (min (s.Right + 1) (e : Int))) =
        .ok (.hitEnd d Row D2') ∧
      traceSteps D2' e d Row = traceSteps D2 e d Row) := by
  obtain ⟨k, B, he, he1, hH, hL, hR, _, _⟩ := h.unpack
  subst he
  rw [he1, hL, hR]
  rcases hH.fill_rel Max with h1 | ⟨h1, h2, h3⟩ | ⟨d, Row, D2, D2', h1, h2, h3, h4⟩
  · exact Or.inl h1
  · exact Or.inr (Or.inl ⟨h1, h2, h3, fun c c1 c2 => hH.open_cell c c1 c2⟩)
  · refine Or.inr (Or.inr ⟨d, Row, D2, D2', h1, h2, ?_⟩)
    have hb := hH.hit_bounds Max d Row D2 h1
    have hz := hH.zone_open.rows (fun j c hj => h3 j c (by omega)) (fun j c hj => h4 j c (by omega))
    apply traceSteps_rel hz (k + 1) (le_refl _)
    intro i hi
    have : i = k := by omega
    subst this
    exact ⟨hb.2.2.2.2.2.1, hb.2.2.2.2.2.2⟩

/-- The stored branch point traces the same in two tables after a level that
filled its band. -/
theorem Inv.branch_rel {A T : List Char} {e : Nat} {s : LoopState} {D D' : Nat → Int → Int}
    (h : Inv A T e s D D') (D2 D2' : Nat → Int → Int)
    (h2 : ∀ j c, j + 1 < e → D2 j c = D j c) (h2' : ∀ j c, j + 1 < e → D2' j c = D' j c) :
    traceSteps D2' s.Max_Score_Best_e s.Max_Score_Best_d s.Max_Score_Len =
      traceSteps D2 s.Max_Score_Best_e s.Max_Score_Best_d s.Max_Score_Len := by
  obtain ⟨k, B, he, he1, hH, hL, hR, _, hb⟩ := h.unpack
  subst he
  have hbe := hb.1
  rw [traceSteps_rows D' D2' _ (fun j c hj => h2' j c (by omega)),
    traceSteps_rows D D2 _ (fun j c hj => h2 j c (by omega))]
  exact hb.trace_rel hH

theorem rowFilled_open_keep (cell : Int → Int) (D : Nat → Int → Int) (e : Nat) (L R : Int)
    (j : Nat) (c : Int) (hj : j + 1 < e) :
    rowFilled cell (openRow D (e - 1) L R) e L R j c = D j c := by
  rw [rowFilled_row_ne _ _ _ _ _ _ _ (by omega), openRow_row_ne _ _ _ _ _ _ (by omega)]

/-- Determinism under reuse of the work area, for the level loop: two runs
from loop states that share their history give the same answer, whatever the
rest of the two tables and the two work areas hold. -/
theorem levels_congr (A T : List Char) (E : Int) (WA WA' : pedWorkArea_t)
    (hG : WA'.G = WA.G) (hM : WA'.Edit_Array_Max = WA.Edit_Array_Max) :
    ∀ (f e : Nat) (s : LoopState) (D D' : Nat → Int → Int), Inv A T e s D D' →
      (levels A T A.length T.length E WA' f e s D').map Result.answer =
        (levels A T A.length T.length E WA f e s D).map Result.answer := by
  have hbranch : ∀ (e : Nat) (s : LoopState) (D D' D2 D2' : Nat → Int → Int),
      Inv A T e s D D' → (∀ j c, j + 1 < e → D2 j c = D j c) →
      (∀ j c, j + 1 < e → D2' j c = D' j c) →
      (Except.ok (branchPoint WA' e s D2') : Except Abort Result).map Result.answer =
        (Except.ok (branchPoint WA e s D2) : Except Abort Result).map Result.answer := by
    intro e s D D' D2 D2' hI h2 h2'
    show Except.ok _ = Except.ok _
    rw [answer_branchPoint, answer_branchPoint, hI.branch_rel D2 D2' h2 h2']
  intro f
  induction f with
  | zero =>
    intro e s D D' hI
    simp only [levels]
    exact hbranch e s D D' D D' hI (fun _ _ _ => rfl) (fun _ _ _ => rfl)
  | succ f ih =>
    intro e s D D' hI
    by_cases hle : (e : Int) ≤ E
    · simp only [levels, if_pos hle, hM, hG]
      rcases hI.fill_both WA.Edit_Array_Max with ⟨h1, h2⟩ | ⟨h1, h2, hno, hC⟩ |
        ⟨d, Row, D2, D2', h1, h2, h3⟩
      · rw [h1, h2]
      · rw [h1, h2]
        simp only []
        have hband := hI.band
        have hrow : ∀ c, max (s.Left - 1) (-(e : Int)) ≤ c → c ≤ min (s.Right + 1) (e : Int) →
            rowFilled (cellRow A T A.length T.length (openRow D' (e - 1)
                (max (s.Left - 1) (-(e : Int))) (min (s.Right + 1) (e : Int))) (e - 1))
              (openRow D' (e - 1) (max (s.Left - 1) (-(e : Int))) (min (s.Right + 1) (e : Int)))
              e (max (s.Left - 1) (-(e : Int))) (min (s.Right + 1) (e : Int)) e c =
            rowFilled (cellRow A T A.length T.length (openRow D (e - 1)
                (max (s.Left - 1) (-(e : Int))) (min (s.Right + 1) (e : Int))) (e - 1))
              (openRow D (e - 1) (max (s.Left - 1) (-(e : Int))) (min (s.Right + 1) (e : Int)))
              e (max (s.Left - 1) (-(e : Int))) (min (s.Right + 1) (e : Int)) e c := by
          intro c c1 c2
          rw [rowFilled_in _ _ _ _ _ _ c1 c2, rowFilled_in _ _ _ _ _ _ c1 c2]
          exact hC c c1 c2
        rw [pruneLeft_congr _ _ _ _ _ hrow]
        by_cases hcol : pruneLeft
            (rowFilled (cellRow A T A.length T.length (openRow D (e - 1)
                (max (s.Left - 1) (-(e : Int))) (min (s.Right + 1) (e : Int))) (e - 1))
              (openRow D (e - 1) (max (s.Left - 1) (-(e : Int))) (min (s.Right + 1) (e : Int)))
              e (max (s.Left - 1) (-(e : Int))) (min (s.Right + 1) (e : Int)) e)
            (WA.G.Edit_Match_Limit e) (min (s.Right + 1) (e : Int))
            (max (s.Left - 1) (-(e : Int))) > min (s.Right + 1) (e : Int)
        · rw [if_pos hcol, if_pos hcol]
          exact hbranch e s D D' _ _ hI (fun j c hj => rowFilled_open_keep _ _ _ _ _ _ _ hj)
            (fun j c hj => rowFilled_open_keep _ _ _ _ _ _ _ hj)
        · rw [if_neg hcol, if_neg hcol]
          have hLR := not_lt.mp hcol
          have hstop := pruneLeft_stop _ _ _ _ hLR
          have hLge := pruneLeft_ge
            (rowFilled (cellRow A T A.length T.length (openRow D (e - 1)
                (max (s.Left - 1) (-(e : Int))) (min (s.Right + 1) (e : Int))) (e - 1))
              (openRow D (e - 1) (max (s.Left - 1) (-(e : Int))) (min (s.Right + 1) (e : Int)))
              e (max (s.Left - 1) (-(e : Int))) (min (s.Right + 1) (e : Int)) e)
            (WA.G.Edit_Match_Limit e) (min (s.Right + 1) (e : Int))
            (max (s.Left - 1) (-(e : Int)))
          rw [pruneRight_congr _ _ _ _ _ hLR hstop.1 hstop.2
            (fun c c1 c2 => hrow c (by omega) c2)]
          have hge := pruneRight_ge _ _ _ _ hLR hstop.1 hstop.2
          have hRle := pruneRight_le
            (rowFilled (cellRow A T A.length T.length (openRow D (e - 1)
                (max (s.Left - 1) (-(e : Int))) (min (s.Right + 1) (e : Int))) (e - 1))
              (openRow D (e - 1) (max (s.Left - 1) (-(e : Int))) (min (s.Right + 1) (e : Int)))
              e (max (s.Left - 1) (-(e : Int))) (min (s.Right + 1) (e : Int)) e)
            (WA.G.Edit_Match_Limit e)
            (pruneLeft
              (rowFilled (cellRow A T A.length T.length (openRow D (e - 1)
                  (max (s.Left - 1) (-(e : Int))) (min (s.Right + 1) (e : Int))) (e - 1))
                (openRow D (e - 1) (max (s.Left - 1) (-(e : Int)))
                  (min (s.Right + 1) (e : Int)))
                e (max (s.Left - 1) (-(e : Int))) (min (s.Right + 1) (e : Int)) e)
              (WA.G.Edit_Match_Limit e) (min (s.Right + 1) (e : Int))
              (max (s.Left - 1) (-(e : Int))))
            (min (s.Right + 1) (e : Int))
          rw [if_pos hge, if_pos hge, track_congr _ _ _ _ _ _ _
            (fun c c1 c2 => hrow c (by omega) (by omega))]
          exact ih (e + 1) _ _ _
            (hI.next WA.G _ _ hLge hge hRle (fun c c1 c2 => hno c (by omega) (by omega)))
      · rw [h1, h2]
        show Except.ok _ = Except.ok _
        rw [answer_endMatch, answer_endMatch, h3]
    · simp only [levels, if_neg hle]
      exact hbranch e s D D' D D' hI (fun _ _ _ => rfl) (fun _ _ _ => rfl)

/-- The loop invariant holds before the first level, for any two tables whose
cell `[0][0]` holds the length of the common prefix. -/
theorem Inv.start (A T : List Char) (D0 D0' : Nat → Int → Int)
    (hD0 : D0 0 0 = firstRow A T) (hD0' : D0' 0 0 = firstRow A T)
    (hne : firstRow A T ≠ min (A.length : Int) T.length) :
    Inv A T 1 LoopState.init D0 D0' := by
  refine ⟨0, fun _ => (0, 0), rfl, ?_, rfl, ⟨le_refl _, Or.inl ⟨rfl, rfl, rfl⟩⟩,
    ⟨le_refl _, Or.inl ⟨rfl, rfl, rfl⟩⟩⟩
  have h1 := scanPrefix_ge A T (min (A.length : Int) T.length)
    (min (A.length : Int) T.length).toNat 0
  have h2 := scanPrefix_le A T (min (A.length : Int) T.length)
    (min (A.length : Int) T.length).toNat 0 (by omega)
  refine ⟨rfl, hD0, fun j hj => by omega, fun j hj => by omega, fun j hj => by omega, ?_, ?_⟩
  · intro j hj c hc1 hc2
    have hj0 : j = 0 := by omega
    subst hj0
    simp only at hc1 hc2
    have hc : c = 0 := by omega
    subst hc
    rw [hD0]
    unfold firstRow at hne ⊢
    unfold Live
    omega
  · intro j hj c hc1 hc2
    have hj0 : j = 0 := by omega
    subst hj0
    simp only at hc1 hc2
    have hc : c = 0 := by omega
    subst hc
    rw [hD0, hD0']

/-- The answer of a call does not depend on what the table, the delta stack,
the delta buffer and `deltaLen` hold when it starts. -/
theorem answer_reuse (A T : List Char) (E : Int) (WA : pedWorkArea_t) (D' : Nat → Int → Int)
    (stack' delta' : Nat → Int) (len' : Int) :
    answer A T E { WA with Edit_Array_Lazy := D', deltaStack := stack', delta := delta'
                           deltaLen := len' } = answer A T E WA := by
  unfold answer
  by_cases h : firstRow A T = min (A.length : Int) T.length
  · rw [Prefix_Edit_Dist_exact A T E _ h, Prefix_Edit_Dist_exact A T E _ h]
    rfl
  · rw [Prefix_Edit_Dist_levels A T E _ h, Prefix_Edit_Dist_levels A T E _ h]
    exact levels_congr A T E { WA with deltaLen := 0 }
      { Edit_Array_Lazy := D', Edit_Array_Max := WA.Edit_Array_Max, deltaStack := stack'
        delta := delta', deltaLen := 0, G := WA.G } rfl rfl E.toNat 1 LoopState.init
      (setCell WA.Edit_Array_Lazy 0 0 (firstRow A T)) (setCell D' 0 0 (firstRow A T))
      (Inv.start A T _ _ (setCell_same _ _ _ _) (setCell_same _ _ _ _) h)

/-! ## The first level -/

/-- The loop `extend` runs to the end of `A` when every remaining position of
`A` has a matching partner in `T`. -/
theorem extend_full (A T : List Char) (m n d lo : Int)
    (hag : ∀ i : Int, lo ≤ i → i < m → i + d < n ∧ charAt A i = charAt T (i + d)) :
    ∀ (f : Nat) (Row : Int), lo ≤ Row → Row ≤ m → (m - Row).toNat ≤ f →
      extend A T m n d f Row = m := by
  intro f
  induction f with
  | zero => intro Row h0 h1 hf; simp only [extend]; omega
  | succ f ih =>
    intro Row h0 h1 hf
    simp only [extend]
    split
    · exact ih (Row + 1) (by omega) (by omega) (by omega)
    · next h =>
      by_contra hne
      have := hag Row h0 (by omega)
      exact h ⟨by omega, this.1, this.2⟩

theorem charAt_eq_iff (A T : List Char) (i : Nat) (h1 : i < A.length) (h2 : i < T.length) :
    charAt A (i : Int) = charAt T (i : Int) ↔ A[i]? = T[i]? := by
  simp only [charAt, Int.toNat_ofNat, List.getD_eq_getElem?_getD, List.getElem?_eq_getElem h1,
    List.getElem?_eq_getElem h2, Option.getD_some, Option.some.injEq]

/-- The first scan stops at the first position where the strings differ. -/
theorem firstRow_eq (A T : List Char) (k : Int) (h0 : 0 ≤ k)
    (hk : k < min (A.length : Int) T.length)
    (hsame : ∀ i : Int, 0 ≤ i → i < k → charAt A i = charAt T i)
    (hdiff : charAt A k ≠ charAt T k) : firstRow A T = k := by
  unfold firstRow
  have h1 := scanPrefix_ge A T (min (A.length : Int) T.length)
    (min (A.length : Int) T.length).toNat 0
  have h2 := scanPrefix_le A T (min (A.length : Int) T.length)
    (min (A.length : Int) T.length).toNat 0 (by omega)
  have h3 := scanPrefix_stop A T (min (A.length : Int) T.length)
    (min (A.length : Int) T.length).toNat 0 (by omega)
  have h4 := scanPrefix_match A T (min (A.length : Int) T.length)
    (min (A.length : Int) T.length).toNat 0
  rcases lt_trichotomy (scanPrefix A T (min (A.length : Int) T.length)
    (min (A.length : Int) T.length).toNat 0) k with hlt | heq | hgt
  · exfalso
    exact h3 ⟨by omega, hsame _ h1 hlt⟩
  · exact heq
  · exfalso
    exact hdiff (h4 k h0 hgt)

/-- The level loop returns from inside the diagonal loop when that loop hits
the end of a string. -/
theorem levels_hit (A T : List Char) (m n E : Int) (WA : pedWorkArea_t) (f e : Nat)
    (s : LoopState) (D : Nat → Int → Int) (hle : (e : Int) ≤ E) (d Row : Int)
    (D2 : Nat → Int → Int)
    (h : fillRow A T m n WA.Edit_Array_Max (e - 1) (min (s.Right + 1) (e : Int))
      (min (s.Right + 1) (e : Int) - max (s.Left - 1) (-(e : Int)) + 1).toNat
      (max (s.Left - 1) (-(e : Int)))
      (openRow D (e - 1) (max (s.Left - 1) (-(e : Int))) (min (s.Right + 1) (e : Int))) =
      .ok (.hitEnd d Row D2)) :
    levels A T m n E WA (f + 1) e s D = .ok (endMatch WA e d Row D2) := by
  simp only [levels, if_pos hle, h]

/-- The first level works on the band `[-1, 1]` of row `0`. -/
theorem first_level_hit (A T : List Char) (m n E : Int) (WA : pedWorkArea_t) (f : Nat)
    (D : Nat → Int → Int) (hle : 1 ≤ E) (d Row : Int) (D2 : Nat → Int → Int)
    (h : fillRow A T m n WA.Edit_Array_Max 0 1 3 (-1) (openRow D 0 (-1) 1) =
      .ok (.hitEnd d Row D2)) :
    levels A T m n E WA (f + 1) 1 LoopState.init D = .ok (endMatch WA 1 d Row D2) :=
  levels_hit A T m n E WA f 1 LoopState.init D (by push_cast; omega) d Row D2 h

/-- The value of a cell of the first level next to the only cell of row `0`. -/
theorem first_cell (A T : List Char) (m n : Int) (D : Nat → Int → Int) (c : Int)
    (hk : 0 ≤ D 0 0) :
    cellRow A T m n (openRow D 0 (-1) 1) 0 c =
      if c = -1 ∨ c = 0 then extend A T m n c (m - (D 0 0 + 1)).toNat (D 0 0 + 1)
      else if c = 1 then extend A T m n c (m - D 0 0).toNat (D 0 0)
      else cellRow A T m n (openRow D 0 (-1) 1) 0 c := by
  have hs : ∀ x : Int, x = -2 ∨ x = -1 ∨ x = 1 ∨ x = 2 → openRow D 0 (-1) 1 0 x = -2 :=
    fun x hx => openRow_at D 0 (-1) 1 x (by omega)
  have h0 : ∀ x : Int, x = 0 → openRow D 0 (-1) 1 0 x = D 0 0 := by
    intro x hx
    subst hx
    exact openRow_inside D 0 (-1) 1 0 0 (by omega) (by omega)
  have hcell : ∀ v : Int,
      max (max (1 + openRow D 0 (-1) 1 0 c) (openRow D 0 (-1) 1 0 (c - 1)))
        (openRow D 0 (-1) 1 0 (c + 1) + 1) = v →
      cellRow A T m n (openRow D 0 (-1) 1) 0 c = extend A T m n c (m - v).toNat v := by
    intro v hv
    simp only [cellRow]
    rw [hv]
  by_cases h1 : c = -1
  · rw [if_pos (Or.inl h1)]
    apply hcell
    rw [hs c (by omega), hs (c - 1) (by omega), h0 (c + 1) (by omega)]
    simp only [max_def]; split_ifs <;> omega
  · by_cases h2 : c = 0
    · rw [if_pos (Or.inr h2)]
      apply hcell
      rw [h0 c h2, hs (c - 1) (by omega), hs (c + 1) (by omega)]
      simp only [max_def]; split_ifs <;> omega
    · rw [if_neg (by omega)]
      by_cases h3 : c = 1
      · rw [if_pos h3]
        apply hcell
        rw [hs c (by omega), h0 (c - 1) (by omega), hs (c + 1) (by omega)]
        simp only [max_def]; split_ifs <;> omega
      · rw [if_neg h3]

/-! ## Applying a delta script -/

theorem hamming_self (X : List Char) : hamming X X = 0 := by
  induction X with
  | nil => rfl
  | cons a X ih => simp [hamming, ih]

theorem hamming_append (X Y : List Char) : ∀ (X' Y' : List Char), X.length = Y.length →
    hamming (X ++ X') (Y ++ Y') = hamming X Y + hamming X' Y' := by
  induction X generalizing Y with
  | nil =>
    intro X' Y' h
    cases Y with
    | nil => simp [hamming]
    | cons b Y => simp at h
  | cons a X ih =>
    intro X' Y' h
    cases Y with
    | nil => simp at h
    | cons b Y =>
      show (if a = b then 0 else 1) + hamming (X ++ X') (Y ++ Y') =
        (if a = b then 0 else 1) + hamming X Y + hamming X' Y'
      rw [ih Y X' Y' (by simpa using h)]
      omega

theorem drop_drop_add (l : List Char) (a r : Nat) : (l.drop a).drop r = l.drop (a + r) := by
  rw [List.drop_drop]

theorem hamming_insert (X out T' : List Char) (t r : Nat) (hlen : X.length = r)
    (hr : t + r + 1 ≤ T'.length) :
    hamming (X ++ ((T'.drop (t + r)).take 1 ++ out)) (T'.drop t) =
      hamming X ((T'.drop t).take r) + hamming out (T'.drop (t + r + 1)) := by
  have hsplit : T'.drop t = (T'.drop t).take r ++ ((T'.drop (t + r)).take 1 ++
      T'.drop (t + r + 1)) := by
    have e3 : T'.drop (t + r + 1) = (T'.drop (t + r)).drop 1 := by rw [drop_drop_add]
    have e4 : T'.drop (t + r) = (T'.drop t).drop r := by rw [drop_drop_add]
    rw [e3, List.take_append_drop, e4, List.take_append_drop]
  have hl1 : X.length = ((T'.drop t).take r).length := by
    simp only [List.length_take, List.length_drop]; omega
  conv_lhs => arg 2; rw [hsplit]
  rw [hamming_append _ _ _ _ hl1, hamming_append _ _ _ _ rfl, hamming_self]
  omega

theorem hamming_copy (X out T' : List Char) (t r : Nat) (hlen : X.length = r)
    (hr : t + r ≤ T'.length) :
    hamming (X ++ out) (T'.drop t) =
      hamming X ((T'.drop t).take r) + hamming out (T'.drop (t + r)) := by
  have hsplit : T'.drop t = (T'.drop t).take r ++ T'.drop (t + r) := by
    rw [← drop_drop_add, List.take_append_drop]
  have hl1 : X.length = ((T'.drop t).take r).length := by
    simp only [List.length_take, List.length_drop]; omega
  conv_lhs => arg 2; rw [hsplit]
  rw [hamming_append _ _ _ _ hl1]

theorem Applies_nil (A' T' : List Char) (a t : Nat) (ha : a ≤ A'.length) (ht : t ≤ T'.length)
    (h : A'.length - a = T'.length - t) :
    Applies A' T' [] a t (hamming (A'.drop a) (T'.drop t)) :=
  ⟨A'.drop a, rfl, ha, ht, by rw [List.length_drop]; exact h, rfl⟩

theorem Applies_neg (A' T' : List Char) (s : List Int) (a t r M : Nat)
    (h : Applies A' T' s (a + r) (t + r + 1) M) :
    Applies A' T' (-((r + 1 : Nat) : Int) :: s) a t
      (hamming ((A'.drop a).take r) ((T'.drop t).take r) + M) := by
  obtain ⟨out, h1, h2, h3, h4, h5⟩ := h
  have hv : ¬ (0 : Int) < -((r + 1 : Nat) : Int) := by omega
  have hv' : -((r + 1 : Nat) : Int) < 0 := by omega
  have hn : (-((r + 1 : Nat) : Int)).natAbs = r + 1 := by omega
  have hc : r + 1 - 1 ≤ (A'.drop a).length ∧ r + 1 ≤ (T'.drop t).length := by
    simp only [List.length_drop]; omega
  refine ⟨(A'.drop a).take r ++ ((T'.drop (t + r)).take 1 ++ out), ?_, by omega, by omega,
    ?_, ?_⟩
  · rw [applyDelta, if_neg hv, if_pos hv', hn, if_pos hc, Nat.add_sub_cancel,
      drop_drop_add, drop_drop_add, drop_drop_add]
    have e : t + (r + 1) = t + r + 1 := rfl
    rw [e, h1]
    rfl
  · simp only [List.length_append, List.length_take, List.length_drop, h4]
    omega
  · rw [hamming_insert _ _ _ _ _ (by simp only [List.length_take, List.length_drop]; omega) h3,
      h5]

theorem Applies_pos (A' T' : List Char) (s : List Int) (a t r M : Nat)
    (h : Applies A' T' s (a + r + 1) (t + r) M) :
    Applies A' T' (((r + 1 : Nat) : Int) :: s) a t
      (hamming ((A'.drop a).take r) ((T'.drop t).take r) + M) := by
  obtain ⟨out, h1, h2, h3, h4, h5⟩ := h
  have hv : (0 : Int) < ((r + 1 : Nat) : Int) := by omega
  have hn : (((r + 1 : Nat) : Int)).natAbs = r + 1 := by omega
  have hc : r + 1 ≤ (A'.drop a).length ∧ r + 1 - 1 ≤ (T'.drop t).length := by
    simp only [List.length_drop]; omega
  refine ⟨(A'.drop a).take r ++ out, ?_, by omega, by omega, ?_, ?_⟩
  · rw [applyDelta, if_pos hv, hn, if_pos hc, Nat.add_sub_cancel,
      drop_drop_add, drop_drop_add]
    have e : a + (r + 1) = a + r + 1 := rfl
    rw [e, h1]
    rfl
  · simp only [List.length_append, List.length_take, List.length_drop, h4]
    omega
  · rw [hamming_copy _ _ _ _ _ (by simp only [List.length_take, List.length_drop]; omega) h3,
      h5]

/-! ## Counting mismatches -/

theorem charAt_nat (l : List Char) (i : Nat) (h : i < l.length) : charAt l (i : Int) = l[i] := by
  simp only [charAt, Int.toNat_ofNat, List.getD_eq_getElem?_getD, List.getElem?_eq_getElem h,
    Option.getD_some]

theorem charAt_take (l : List Char) (k : Nat) (i : Int) (h0 : 0 ≤ i) (h : i < k) :
    charAt (l.take k) i = charAt l i := by
  have hi : i.toNat < k := by omega
  simp only [charAt, List.getD_eq_getElem?_getD, List.getElem?_take_of_lt hi]

theorem mismatches_congr (A T A2 T2 : List Char) (d : Int) : ∀ (n : Nat) (lo : Int),
    (∀ i, lo ≤ i → i < lo + n →
      charAt A2 i = charAt A i ∧ charAt T2 (i + d) = charAt T (i + d)) →
    mismatches A2 T2 d lo n = mismatches A T d lo n := by
  intro n
  induction n with
  | zero => intro lo _; rfl
  | succ n ih =>
    intro lo h
    simp only [mismatches]
    have h1 := h lo (le_refl _) (by push_cast; omega)
    rw [h1.1, h1.2, ih (lo + 1) (fun i i1 i2 => h i (by omega) (by push_cast; omega))]

theorem mismatches_split (A T : List Char) (d : Int) : ∀ (n1 n2 : Nat) (lo : Int),
    mismatches A T d lo (n1 + n2) =
      mismatches A T d lo n1 + mismatches A T d (lo + n1) n2 := by
  intro n1
  induction n1 with
  | zero => intro n2 lo; simp [mismatches]
  | succ n1 ih =>
    intro n2 lo
    have e : n1 + 1 + n2 = (n1 + n2) + 1 := by omega
    rw [e]
    simp only [mismatches]
    rw [ih n2 (lo + 1)]
    have e2 : lo + 1 + (n1 : Int) = lo + ((n1 + 1 : Nat) : Int) := by push_cast; omega
    rw [e2]
    omega

theorem mismatches_zero (A T : List Char) (d : Int) : ∀ (n : Nat) (lo : Int),
    (∀ i, lo ≤ i → i < lo + n → charAt A i = charAt T (i + d)) →
    mismatches A T d lo n = 0 := by
  intro n
  induction n with
  | zero => intro lo _; rfl
  | succ n ih =>
    intro lo h
    simp only [mismatches]
    rw [if_pos (h lo (le_refl _) (by push_cast; omega)),
      ih (lo + 1) (fun i i1 i2 => h i (by omega) (by push_cast; omega))]

theorem mismatches_one (A T : List Char) (d lo : Int)
    (h : charAt A lo ≠ charAt T (lo + d)) : mismatches A T d lo 1 = 1 := by
  simp only [mismatches, if_neg h]

/-- The mismatches of two aligned runs, counted on the lists and on the
indices. -/
theorem hamming_take_eq (A' T' : List Char) : ∀ (r a t : Nat), a + r ≤ A'.length →
    t + r ≤ T'.length →
    hamming ((A'.drop a).take r) ((T'.drop t).take r) =
      mismatches A' T' ((t : Int) - a) a r := by
  intro r
  induction r with
  | zero => intro a t _ _; simp [hamming, mismatches]
  | succ r ih =>
    intro a t ha ht
    have ha' : a < A'.length := by omega
    have ht' : t < T'.length := by omega
    rw [List.drop_eq_getElem_cons ha', List.drop_eq_getElem_cons ht']
    simp only [List.take_succ_cons, hamming, mismatches]
    have e1 : (a : Int) + ((t : Int) - a) = t := by omega
    rw [e1, charAt_nat A' a ha', charAt_nat T' t ht', ih (a + 1) (t + 1) (by omega) (by omega)]
    have e2 : (((t + 1 : Nat) : Int) - ((a + 1 : Nat) : Int)) = (t : Int) - a := by
      push_cast; omega
    have e3 : ((a + 1 : Nat) : Int) = (a : Int) + 1 := by push_cast; rfl
    rw [e2, e3]

/-! ## The alignment described by the traceback -/

theorem Applies.lengths {A' T' : List Char} {s : List Int} {a t M : Nat}
    (h : Applies A' T' s a t M) : a ≤ A'.length ∧ t ≤ T'.length := by
  obtain ⟨_, _, h2, h3, _, _⟩ := h
  exact ⟨h2, h3⟩

theorem mismatches_take (A T : List Char) (ae te : Nat) (d lo : Int) (n : Nat)
    (h0 : 0 ≤ lo) (h1 : lo + n ≤ ae) (h2 : 0 ≤ lo + d) (h3 : lo + d + n ≤ te) :
    mismatches (A.take ae) (T.take te) d lo n = mismatches A T d lo n := by
  apply mismatches_congr
  intro i i1 i2
  exact ⟨charAt_take A ae i (by omega) (by omega), charAt_take T te (i + d) (by omega) (by omega)⟩

/-- From `(a, a + d)` copy the columns up to `(u, u + d)`, then insert a
character of `T`. -/
theorem Applies_ins (A T : List Char) (ae te : Nat) (s : List Int) (a u d : Int) (M : Nat)
    (h0 : 0 ≤ a) (hau : a ≤ u) (ht0 : 0 ≤ a + d)
    (h : Applies (A.take ae) (T.take te) s u.toNat (u + d + 1).toNat M) :
    Applies (A.take ae) (T.take te) (-(u - a + 1) :: s) a.toNat (a + d).toNat
      (mismatches A T d a (u - a).toNat + M) := by
  have hb := h.lengths
  simp only [List.length_take] at hb
  have e1 : u.toNat = a.toNat + (u - a).toNat := by omega
  have e2 : (u + d + 1).toNat = (a + d).toNat + (u - a).toNat + 1 := by omega
  rw [e1, e2] at h
  have := Applies_neg _ _ s _ _ _ M h
  have e3 : -(((u - a).toNat + 1 : Nat) : Int) = -(u - a + 1) := by omega
  rw [e3, hamming_take_eq _ _ _ _ _ (by simp only [List.length_take]; omega)
    (by simp only [List.length_take]; omega)] at this
  have e4 : (((a + d).toNat : Nat) : Int) - ((a.toNat : Nat) : Int) = d := by omega
  have e5 : ((a.toNat : Nat) : Int) = a := by omega
  rw [e4, e5, mismatches_take A T ae te d a _ h0 (by omega) ht0 (by omega)] at this
  exact this

/-- From `(a, a + d)` copy the columns up to `(u, u + d)`, then delete a
character of `A`. -/
theorem Applies_del (A T : List Char) (ae te : Nat) (s : List Int) (a u d : Int) (M : Nat)
    (h0 : 0 ≤ a) (hau : a ≤ u) (ht0 : 0 ≤ a + d)
    (h : Applies (A.take ae) (T.take te) s (u + 1).toNat (u + d).toNat M) :
    Applies (A.take ae) (T.take te) ((u - a + 1) :: s) a.toNat (a + d).toNat
      (mismatches A T d a (u - a).toNat + M) := by
  have hb := h.lengths
  simp only [List.length_take] at hb
  have e1 : (u + 1).toNat = a.toNat + (u - a).toNat + 1 := by omega
  have e2 : (u + d).toNat = (a + d).toNat + (u - a).toNat := by omega
  rw [e1, e2] at h
  have := Applies_pos _ _ s _ _ _ M h
  have e3 : (((u - a).toNat + 1 : Nat) : Int) = u - a + 1 := by omega
  rw [e3, hamming_take_eq _ _ _ _ _ (by simp only [List.length_take]; omega)
    (by simp only [List.length_take]; omega)] at this
  have e4 : (((a + d).toNat : Nat) : Int) - ((a.toNat : Nat) : Int) = d := by omega
  have e5 : ((a.toNat : Nat) : Int) = a := by omega
  rw [e4, e5, mismatches_take A T ae te d a _ h0 (by omega) ht0 (by omega)] at this
  exact this

/-- From `(a, a + d)` copy the columns up to the ends `(ae, ae + d)`. -/
theorem Applies_end (A T : List Char) (ae te : Nat) (a d : Int)
    (h0 : 0 ≤ a) (hae : a ≤ ae) (ht0 : 0 ≤ a + d) (hte : (ae : Int) + d = te)
    (hA : ae ≤ A.length) (hT : te ≤ T.length) :
    Applies (A.take ae) (T.take te) [] a.toNat (a + d).toNat
      (mismatches A T d a (ae - a).toNat) := by
  have hlA : (A.take ae).length = ae := by simp only [List.length_take]; omega
  have hlT : (T.take te).length = te := by simp only [List.length_take]; omega
  have := Applies_nil (A.take ae) (T.take te) a.toNat (a + d).toNat (by omega) (by omega)
    (by omega)
  have e1 : (A.take ae).drop a.toNat = ((A.take ae).drop a.toNat).take (ae - a).toNat :=
    (List.take_of_length_le (by rw [List.length_drop]; omega)).symm
  have e2 : (T.take te).drop (a + d).toNat =
      ((T.take te).drop (a + d).toNat).take (ae - a).toNat :=
    (List.take_of_length_le (by rw [List.length_drop]; omega)).symm
  rw [e1, e2, hamming_take_eq _ _ _ _ _ (by omega) (by omega)] at this
  have e4 : (((a + d).toNat : Nat) : Int) - ((a.toNat : Nat) : Int) = d := by omega
  have e5 : ((a.toNat : Nat) : Int) = a := by omega
  rw [e4, e5, mismatches_take A T ae te d a _ h0 (by omega) ht0 (by omega)] at this
  exact this

theorem TraceZone.self {B : Nat → Int × Int} {D D' : Nat → Int → Int} {K : Nat}
    (z : TraceZone B D D' K) : TraceZone B D D K :=
  ⟨fun j hj => ⟨(z.sent j hj).1, (z.sent j hj).1⟩, z.nonneg, fun _ _ _ _ _ => rfl, z.band, z.ne⟩

theorem TraceZone.mono {B : Nat → Int × Int} {D D' : Nat → Int → Int} {K K' : Nat}
    (z : TraceZone B D D' K) (h : K' ≤ K) : TraceZone B D D' K' :=
  ⟨fun j hj => z.sent j (by omega), fun j hj => z.nonneg j (by omega),
    fun j hj => z.agree j (by omega), fun j hj => z.band j (by omega),
    fun j hj => z.ne j (by omega)⟩

/-- The rows below `K ≤ k` of a table with history can be traced. -/
theorem Hist.traceable {A T : List Char} {B : Nat → Int × Int} {D D' : Nat → Int → Int}
    {k : Nat} (h : Hist A T B D D' k) (K : Nat) (hK : K ≤ k) : Traceable A T B D K := by
  have hl := h.live 0 (by omega) 0 (by rw [h.base]) (by rw [h.base])
  rw [h.scan] at hl
  unfold Live at hl
  refine ⟨(h.zone.mono hK).self, h.base, fun _ => h.scan, by omega, ?_, ?_⟩
  · intro j hj c c1 c2
    exact h.cell j (by omega) c c1 c2
  · intro j hj c c1 c2
    exact h.live j (by omega) c c1 c2

/-- Once the sentinels of level `k+1` are written, the rows up to `k` can be
traced. -/
theorem Hist.traceable_open {A T : List Char} {B : Nat → Int × Int} {D D' : Nat → Int → Int}
    {k : Nat} (h : Hist A T B D D' k) :
    Traceable A T B (openRow D k ((B k).1 - 1) ((B k).2 + 1)) (k + 1) := by
  have hl := h.live 0 (by omega) 0 (by rw [h.base]) (by rw [h.base])
  rw [h.scan] at hl
  unfold Live at hl
  have hlo := h.lo
  have keep : ∀ j c, j ≤ k → (B j).1 ≤ c → c ≤ (B j).2 →
      openRow D k ((B k).1 - 1) ((B k).2 + 1) j c = D j c := by
    intro j c hj c1 c2
    by_cases hjk : j = k
    · subst hjk
      exact openRow_inside _ _ _ _ _ _ (by omega) (by omega)
    · exact openRow_row_ne _ _ _ _ _ _ hjk
  refine ⟨h.zone_open.self, h.base, ?_, by omega, ?_, ?_⟩
  · intro _
    rw [keep 0 0 (by omega) (by rw [h.base]) (by rw [h.base])]
    exact h.scan
  · intro j hj c c1 c2
    rw [keep (j + 1) c (by omega) c1 c2, h.cell j (by omega) c c1 c2]
    exact cellRow_congr _ _ _ _ _ _ _ _
      (fun x _ _ => (openRow_row_ne _ _ _ _ _ _ (by omega)).symm)
  · intro j hj c c1 c2
    rw [keep j c (by omega) c1 c2]
    exact h.live j (by omega) c c1 c2

/-- A band cell of a row below `K`: it is live, the strings differ right after
it, and it is the extension, over matching characters, of the value `w` that
the traceback will compute for it. -/
theorem Traceable.pred {A T : List Char} {B : Nat → Int × Int} {D : Nat → Int → Int} {K : Nat}
    (tr : Traceable A T B D K) (j : Nat) (hj : j < K) (c : Int)
    (c1 : (B j).1 ≤ c) (c2 : c ≤ (B j).2) :
    Live A.length T.length (D j c) c ∧ charAt A (D j c) ≠ charAt T (D j c + c) ∧
    ∃ w, w ≤ D j c ∧ mismatches A T c w (D j c - w).toNat = 0 ∧
      (j = 0 → c = 0 ∧ w = firstRow A T) ∧
      (∀ i, j = i + 1 → (B i).1 - 1 ≤ c ∧ c ≤ (B i).2 + 1 ∧ w = (pick D i c).2) := by
  have hlive := tr.live j hj c c1 c2
  refine ⟨hlive, ?_, ?_⟩
  · cases j with
    | zero =>
      rw [tr.base] at c1 c2
      simp only at c1 c2
      have hc : c = 0 := by omega
      subst hc
      rw [tr.scan hj] at hlive ⊢
      have hstop := scanPrefix_stop A T (min (A.length : Int) T.length)
        (min (A.length : Int) T.length).toNat 0 (by omega)
      have hf := tr.first
      unfold firstRow at hf ⊢
      intro heq
      rw [Int.add_zero] at heq
      exact hstop ⟨hf, heq⟩
    | succ i =>
      have hcell := tr.cell i hj c c1 c2
      unfold Live at hlive
      have hstop := extend_stop A T A.length T.length c
        (A.length - max (max (1 + D i c) (D i (c - 1))) (D i (c + 1) + 1)).toNat
        (max (max (1 + D i c) (D i (c - 1))) (D i (c + 1) + 1)) (le_refl _)
      simp only [cellRow] at hcell
      rw [← hcell] at hstop
      intro heq
      exact hstop ⟨hlive.2.1, hlive.2.2.2, heq⟩
  · cases j with
    | zero =>
      rw [tr.base] at c1 c2
      simp only at c1 c2
      have hc : c = 0 := by omega
      subst hc
      refine ⟨D 0 0, le_refl _, ?_, fun _ => ⟨rfl, tr.scan hj⟩, fun i hi => by omega⟩
      simp [mismatches]
    | succ i =>
      have hcell := tr.cell i hj c c1 c2
      have hband := tr.zone.band i hj
      refine ⟨(pick D i c).2, ?_, ?_, fun h => by omega, ?_⟩
      · rw [hcell, pick_max]
        exact extend_ge _ _ _ _ _ _ _
      · apply mismatches_zero
        intro x x1 x2
        have hge : (pick D i c).2 ≤ D (i + 1) c := by
          rw [hcell, pick_max]; exact extend_ge _ _ _ _ _ _ _
        have : x < D (i + 1) c := by omega
        rw [hcell] at this
        simp only [cellRow] at this
        rw [pick_max] at x1
        exact extend_match _ _ _ _ _ _ _ x x1 this
      · intro i' hi'
        have : i' = i := by omega
        subst this
        exact ⟨by omega, by omega, rfl⟩

theorem Sign_of_neg (a : Int) (h : a < 0) : Sign a = -1 := by
  simp only [Sign]
  rw [if_neg (by omega), if_pos h]

theorem Sign_of_pos (a : Int) (h : 0 < a) : Sign a = 1 := by
  simp only [Sign]
  rw [if_pos h]

/-- The traceback from level `j` at diagonal `d`, for an alignment that has
reached row `last` on that diagonal.  The script it produces, continued by any
script `s'` that applies from the position `(a, a + d)` right after the last
insertion or deletion, applies from the start, and the mismatches it leaves up
to `last` are the substitutions of the traceback plus the mismatches after the
value `w` of the traced cell. -/
theorem trace_aligns {A T : List Char} {B : Nat → Int × Int} {D : Nat → Int → Int} {K : Nat}
    (tr : Traceable A T B D K) (ae te : Nat) :
    ∀ (j : Nat), j ≤ K → ∀ (d last w : Int),
      (j = 0 → d = 0 ∧ w = firstRow A T) →
      (∀ i, j = i + 1 → (B i).1 - 1 ≤ d ∧ d ≤ (B i).2 + 1 ∧ w = (pick D i d).2) →
      w ≤ last →
      ∃ (a : Int) (Mb : Nat),
        |(traceSteps D j d last).1.headD ((traceSteps D j d last).2 + 1)| = last + 1 - a ∧
        0 ≤ a ∧ a ≤ w ∧ 0 ≤ a + d ∧
        (∀ s' M', Applies (A.take ae) (T.take te) s' a.toNat (a + d).toNat M' →
          Applies (A.take ae) (T.take te)
            (deltaOf (traceSteps D j d last).1 ((traceSteps D j d last).2 + 1) ++ s') 0 0
            (Mb + M')) ∧
        Mb + mismatches A T d a (last - a).toNat =
          traceSubs D j d + mismatches A T d w (last - w).toNat := by
  intro j
  induction j with
  | zero =>
    intro _ d last w h0 _ hw
    obtain ⟨hd, hw0⟩ := h0 rfl
    subst hd
    have hf0 : 0 ≤ firstRow A T := scanPrefix_ge A T _ _ 0
    refine ⟨0, 0, ?_, le_refl _, by omega, by omega, ?_, ?_⟩
    · show |last + 1| = last + 1 - 0
      rw [abs_of_nonneg (by omega)]; omega
    · intro s' M' h
      simpa [traceSteps, deltaOf] using h
    · have e : (last - 0).toNat = w.toNat + (last - w).toNat := by omega
      rw [e, mismatches_split]
      have hz : mismatches A T 0 0 w.toNat = 0 := by
        apply mismatches_zero
        intro i i1 i2
        rw [Int.add_zero]
        apply scanPrefix_match A T (min (A.length : Int) T.length)
          (min (A.length : Int) T.length).toNat 0 i i1
        have : firstRow A T = scanPrefix A T (min (A.length : Int) T.length)
          (min (A.length : Int) T.length).toNat 0 := rfl
        omega
      have e2 : (0 : Int) + ((w.toNat : Nat) : Int) = w := by omega
      rw [hz, e2]
      simp [traceSubs]
  | succ j ih =>
    intro hj d last w _ hs hw
    obtain ⟨d1, d2, hwe⟩ := hs j rfl
    have hin := tr.zone.pick_in j (by omega) d d1 d2
    obtain ⟨hlive, hmis, w', hw', hz, hb0, hbS⟩ :=
      tr.pred j (by omega) (pick D j d).1 hin.1 hin.2.1
    unfold Live at hlive
    rw [traceSteps_succ, traceSubs_succ]
    rcases pick_cases D j d with ⟨p1, p2, _, _⟩ | ⟨p1, p2, _, _⟩ | ⟨p1, p2, _, _⟩
    · -- the predecessor is on the same diagonal: a substitution
      rw [p1] at hlive hmis hw' hz hb0 hbS
      rw [if_neg (by rw [p1]; omega), if_neg (by rw [p1]; omega),
        if_neg (by rw [p1]; omega), if_neg (by rw [p1]; omega)]
      obtain ⟨a, Mb, hH, ha0, haw, hat, hcont, heq⟩ :=
        ih (by omega) d last w' hb0 hbS (by omega)
      refine ⟨a, Mb, hH, ha0, by omega, hat, hcont, ?_⟩
      rw [heq]
      have e : (last - w').toNat = (D j d - w').toNat + (1 + (last - w).toNat) := by omega
      rw [e, mismatches_split, mismatches_split, hz]
      have e2 : w' + (((D j d - w').toNat : Nat) : Int) = D j d := by omega
      have e3 : D j d + ((1 : Nat) : Int) = w := by omega
      rw [e2, e3, mismatches_one A T d (D j d) hmis]
      omega
    · -- the predecessor is on diagonal `d - 1`: an insertion
      rw [p1] at hlive hmis hw' hz hb0 hbS
      rw [if_pos p1, if_pos p1, p1, p2]
      rw [p2] at hwe
      obtain ⟨a, Mb, hH, ha0, haw, hat, hcont, heq⟩ :=
        ih (by omega) (d - 1) (D j (d - 1)) w' hb0 hbS hw'
      have hp : D j (d - 1) - last - 1 < 0 := by omega
      refine ⟨D j (d - 1), Mb + mismatches A T (d - 1) a (D j (d - 1) - a).toNat, ?_, by omega,
        by omega, by omega, ?_, ?_⟩
      · show |D j (d - 1) - last - 1| = last + 1 - D j (d - 1)
        rw [abs_of_neg hp]; omega
      · intro s' M' h
        have e1 : D j (d - 1) + d = D j (d - 1) + (d - 1) + 1 := by omega
        rw [e1] at h
        have h1 := Applies_ins A T ae te s' a (D j (d - 1)) (d - 1) M' ha0 (by omega) hat h
        have h2 := hcont _ _ h1
        simp only [deltaOf, Sign_of_neg _ hp, hH, List.append_assoc, List.singleton_append]
        have e2 : (D j (d - 1) + 1 - a) * -1 = -(D j (d - 1) - a + 1) := by omega
        rw [e2, Nat.add_assoc]
        exact h2
      · rw [hz] at heq
        rw [heq, hwe]
        omega
    · -- the predecessor is on diagonal `d + 1`: a deletion
      rw [p1] at hlive hmis hw' hz hb0 hbS
      have hne : ¬ (pick D j d).1 = d - 1 := by rw [p1]; omega
      rw [if_neg hne, if_neg hne, if_pos p1, if_pos p1, p1, p2]
      rw [p2] at hwe
      obtain ⟨a, Mb, hH, ha0, haw, hat, hcont, heq⟩ :=
        ih (by omega) (d + 1) (D j (d + 1)) w' hb0 hbS hw'
      have hp : 0 < last - (1 + D j (d + 1) - 1) := by omega
      refine ⟨D j (d + 1) + 1, Mb + mismatches A T (d + 1) a (D j (d + 1) - a).toNat, ?_,
        by omega, by omega, by omega, ?_, ?_⟩
      · show |last - (1 + D j (d + 1) - 1)| = last + 1 - (D j (d + 1) + 1)
        rw [abs_of_pos hp]; omega
      · intro s' M' h
        have e1 : D j (d + 1) + 1 + d = D j (d + 1) + (d + 1) := by omega
        rw [e1] at h
        have h1 := Applies_del A T ae te s' a (D j (d + 1)) (d + 1) M' ha0 (by omega) hat h
        have h2 := hcont _ _ h1
        simp only [deltaOf, Sign_of_pos _ hp, hH, List.append_assoc, List.singleton_append]
        have e2 : (D j (d + 1) + 1 - a) * 1 = D j (d + 1) - a + 1 := by omega
        rw [e2, Nat.add_assoc]
        exact h2
      · rw [hz] at heq
        rw [heq, hwe]
        have e3 : D j (d + 1) + 1 = 1 + D j (d + 1) := by omega
        rw [e3]
        omega

/-- The script of a traceback applies to `A[0 .. last)` and yields a string of
the length of `T[0 .. last + d)` that differs from it in as many positions as
the traceback has substitutions. -/
theorem trace_result {A T : List Char} {B : Nat → Int × Int} {D : Nat → Int → Int} {K : Nat}
    (tr : Traceable A T B D K) (j : Nat) (hj : j ≤ K) (d last w : Int)
    (h0 : j = 0 → d = 0 ∧ w = firstRow A T)
    (hS : ∀ i, j = i + 1 → (B i).1 - 1 ≤ d ∧ d ≤ (B i).2 + 1 ∧ w = (pick D i d).2)
    (hw : w ≤ last) (hz : mismatches A T d w (last - w).toNat = 0)
    (hl1 : last ≤ A.length) (hl2 : 0 ≤ last + d) (hl3 : last + d ≤ T.length) :
    ∃ out, applyDelta (deltaOf (traceSteps D j d last).1 ((traceSteps D j d last).2 + 1))
        (A.take last.toNat) (T.take (last + d).toNat) = some out ∧
      out.length = (last + d).toNat ∧
      hamming out (T.take (last + d).toNat) = traceSubs D j d := by
  obtain ⟨a, Mb, _, ha0, haw, hat, hcont, heq⟩ :=
    trace_aligns tr last.toNat (last + d).toNat j hj d last w h0 hS hw
  have hend := Applies_end A T last.toNat (last + d).toNat a d ha0 (by omega) hat (by omega)
    (by omega) (by omega)
  obtain ⟨out, o1, _, _, o4, o5⟩ := hcont [] _ hend
  have e1 : ((last.toNat : Nat) : Int) - a = last - a := by omega
  rw [e1, heq, hz] at o5
  simp only [List.append_nil, List.drop_zero, List.length_take] at o1 o4 o5
  refine ⟨out, o1, by omega, by omega⟩

theorem traceSubs_rows (D D2 : Nat → Int → Int) :
    ∀ (K : Nat), (∀ j c, j < K → D2 j c = D j c) → ∀ (d : Int),
      traceSubs D2 K d = traceSubs D K d := by
  intro K
  induction K with
  | zero => intro _ d; rfl
  | succ K ih =>
    intro h d
    have hpick : pick D2 K d = pick D K d :=
      pick_congr D D2 K d (fun c _ _ => h K c (by omega))
    have ih' := ih (fun j c hj => h j c (by omega))
    rw [traceSubs_succ, traceSubs_succ, hpick, ih', ih', ih']

/-- Where the diagonal loop reports a hit, the reported row is the extension,
over matching characters, of the value the traceback computes for the reported
diagonal. -/
theorem Hist.hit_start {A T : List Char} {B : Nat → Int × Int} {D D' : Nat → Int → Int}
    {k : Nat} (h : Hist A T B D D' k) (Max : Int) (d Row : Int) (D2 : Nat → Int → Int)
    (hfill : fillRow A T A.length T.length Max k ((B k).2 + 1)
      ((B k).2 + 1 - ((B k).1 - 1) + 1).toNat ((B k).1 - 1)
      (openRow D k ((B k).1 - 1) ((B k).2 + 1)) = .ok (.hitEnd d Row D2)) :
    (pick (openRow D k ((B k).1 - 1) ((B k).2 + 1)) k d).2 ≤ Row ∧
    mismatches A T d (pick (openRow D k ((B k).1 - 1) ((B k).2 + 1)) k d).2
      (Row - (pick (openRow D k ((B k).1 - 1) ((B k).2 + 1)) k d).2).toNat = 0 ∧
    (∀ j c, j ≤ k → D2 j c = openRow D k ((B k).1 - 1) ((B k).2 + 1) j c) := by
  obtain ⟨d0, h1, h2, h3, h4, _, h6, _⟩ := h.hit Max d Row D2 hfill
  have hlo := (h.lo k (le_refl _)).2.1
  rcases h6 with ⟨h6, _, hD2⟩ | ⟨h6, ⟨t1, t2, t3⟩, hD2⟩
  · subst h6
    have hge : (pick (openRow D k ((B k).1 - 1) ((B k).2 + 1)) k d).2 ≤ Row := by
      rw [h3, pick_max]; exact extend_ge _ _ _ _ _ _ _
    refine ⟨hge, ?_, fun j c hj => hit_rows _ _ _ _ _ 0 0 _ (Or.inl hD2) j c hj⟩
    apply mismatches_zero
    intro x x1 x2
    have : x < Row := by omega
    rw [h3] at this
    simp only [cellRow] at this
    rw [pick_max] at x1
    exact extend_match _ _ _ _ _ _ _ x x1 this
  · subst h6
    have z := h.zone_open
    have hm : (0 : Int) < A.length := by
      have := h.live k (le_refl _) (B k).1 (le_refl _) hlo
      unfold Live at this; omega
    have cellLe : ∀ c, (B k).1 - 1 - 1 ≤ c → c ≤ (B k).2 + 1 + 1 →
        openRow D k ((B k).1 - 1) ((B k).2 + 1) k c < A.length := by
      intro c c1 c2
      rcases (z.cell k (by omega) c c1 c2).2 with ⟨e, _⟩ | ⟨_, i1, i2⟩
      · omega
      · rw [openRow_inside _ _ _ _ _ _ (by omega) (by omega)]
        have := h.live k (le_refl _) c i1 i2
        unfold Live at this; omega
    have c1 := cellLe (d0 + 1 - 1) (by omega) (by omega)
    have c2 := cellLe (d0 + 1 + 1) (by omega) (by omega)
    have hw : (pick (openRow D k ((B k).1 - 1) ((B k).2 + 1)) k (d0 + 1)).2 = Row := by
      rw [pick_max]
      simp only [max_def]
      split_ifs <;> omega
    rw [hw]
    refine ⟨le_refl _, by simp [mismatches],
      fun j c hj => hit_rows _ _ _ _ _ _ _ _ (Or.inr hD2) j c hj⟩

/-! ## The delta script of a result -/

theorem DeltaValid_branch {A T : List Char} {B : Nat → Int × Int} {D : Nat → Int → Int}
    {k : Nat} (hH : Hist A T B D D k) (W : pedWorkArea_t) (s : LoopState)
    (hb : BPok B D k s.Max_Score_Best_e s.Max_Score_Best_d s.Max_Score_Len)
    (Dx : Nat → Int → Int) (hDx : ∀ j c, j < k → Dx j c = D j c) :
    DeltaValid A T (branchPoint W (k + 1) s Dx) := by
  unfold DeltaValid
  simp only [branchPoint, script_Compute_Delta, deltaLen_Compute_Delta]
  obtain ⟨hbe, hb2⟩ := hb
  rcases hb2 with ⟨z1, z2, z3⟩ | ⟨b1, b2, b3, b4⟩
  · rw [z1, z2, z3]
    refine ⟨[], rfl, rfl, ?_, fun h => by cases h⟩
    simp only [traceSteps, hamming, List.length_nil]
    push_cast
    omega
  · have tr1 := hH.traceable_open
    have hlo := hH.lo
    have keep : openRow D k ((B k).1 - 1) ((B k).2 + 1) s.Max_Score_Best_e s.Max_Score_Best_d =
        D s.Max_Score_Best_e s.Max_Score_Best_d := by
      by_cases hjk : s.Max_Score_Best_e = k
      · rw [hjk] at b2 b3 ⊢
        exact openRow_inside _ _ _ _ _ _ (by omega) (by omega)
      · exact openRow_row_ne _ _ _ _ _ _ hjk
    obtain ⟨hlive, _, w, hw, hz, h0, hS⟩ :=
      tr1.pred s.Max_Score_Best_e (by omega) s.Max_Score_Best_d b2 b3
    rw [keep, ← b4] at hlive hw hz
    unfold Live at hlive
    obtain ⟨out, o1, o2, o3⟩ := trace_result tr1 s.Max_Score_Best_e (by omega)
      s.Max_Score_Best_d s.Max_Score_Len w h0 hS hw hz (by omega) (by omega) (by omega)
    have hrows : ∀ j c, j < s.Max_Score_Best_e →
        Dx j c = openRow D k ((B k).1 - 1) ((B k).2 + 1) j c := by
      intro j c hj
      rw [hDx j c (by omega), openRow_row_ne _ _ _ _ _ _ (by omega)]
    rw [traceSteps_rows _ Dx _ hrows]
    have hlen := traceSteps_length (openRow D k ((B k).1 - 1) ((B k).2 + 1))
      s.Max_Score_Best_e s.Max_Score_Best_d s.Max_Score_Len
    refine ⟨out, o1, o2, ?_, fun h => by cases h⟩
    rw [o3]
    push_cast
    omega

theorem DeltaValid_hit {A T : List Char} {B : Nat → Int × Int} {D : Nat → Int → Int}
    {k : Nat} (hH : Hist A T B D D k) (W : pedWorkArea_t) (d Row : Int) (D2 : Nat → Int → Int)
    (hfill : fillRow A T A.length T.length W.Edit_Array_Max k ((B k).2 + 1)
      ((B k).2 + 1 - ((B k).1 - 1) + 1).toNat ((B k).1 - 1)
      (openRow D k ((B k).1 - 1) ((B k).2 + 1)) = .ok (.hitEnd d Row D2)) :
    DeltaValid A T (endMatch W (k + 1) d Row D2) := by
  unfold DeltaValid
  simp only [endMatch, script_Compute_Delta, deltaLen_Compute_Delta]
  have tr1 := hH.traceable_open
  obtain ⟨hw, hz, hrows⟩ := hH.hit_start _ d Row D2 hfill
  obtain ⟨b1, b2, b3, b4, _, b6, b7⟩ := hH.hit_bounds _ d Row D2 hfill
  obtain ⟨out, o1, o2, o3⟩ := trace_result tr1 (k + 1) (le_refl _) d Row _
    (fun h => by omega)
    (fun i hi => by
      have : i = k := by omega
      subst this
      exact ⟨b6, b7, rfl⟩)
    hw hz b2 b3 b4
  rw [traceSteps_rows _ D2 _ (fun j c hj => hrows j c (by omega))]
  have hlen := traceSteps_length (openRow D k ((B k).1 - 1) ((B k).2 + 1)) (k + 1) d Row
  refine ⟨out, o1, o2, ?_, fun _ => ?_⟩
  · rw [o3]; push_cast; omega
  · rw [o3]; push_cast; omega

/-- The delta script of every result of a call on a valid input is valid. -/
theorem delta_valid (A T : List Char) (E : Int) (WA : pedWorkArea_t)
    (hE : E < WA.Edit_Array_Max) :
    ∃ r, Prefix_Edit_Dist A T E WA = .ok r ∧ DeltaValid A T r := by
  rcases Prefix_Edit_Dist_run A T E WA hE with ⟨h0, h⟩ | ⟨_, e, s, D, r, hreach, hinv, hfin, h⟩
  · refine ⟨_, h, ?_⟩
    unfold DeltaValid
    have hr0 : 0 ≤ firstRow A T := scanPrefix_ge A T _ _ 0
    have hz : mismatches A T 0 0 (firstRow A T).toNat = 0 := by
      apply mismatches_zero
      intro i i1 i2
      rw [Int.add_zero]
      apply scanPrefix_match A T (min (A.length : Int) T.length)
        (min (A.length : Int) T.length).toNat 0 i i1
      have : firstRow A T = scanPrefix A T (min (A.length : Int) T.length)
        (min (A.length : Int) T.length).toNat 0 := rfl
      omega
    have hham := hamming_take_eq A T (firstRow A T).toNat 0 0 (by omega) (by omega)
    simp only [List.drop_zero] at hham
    have e0 : ((0 : Nat) : Int) - ((0 : Nat) : Int) = 0 := by omega
    have e1 : ((0 : Nat) : Int) = 0 := rfl
    rw [e0, e1, hz] at hham
    refine ⟨A.take (firstRow A T).toNat, rfl, ?_, ?_, fun _ => ?_⟩
    · simp only [List.length_take]; omega
    · show ((hamming (A.take (firstRow A T).toNat) (T.take (firstRow A T).toNat) : Nat) : Int)
        + 0 ≤ 0
      rw [hham]; simp
    · show ((hamming (A.take (firstRow A T).toNat) (T.take (firstRow A T).toNat) : Nat) : Int)
        + 0 = 0
      rw [hham]; simp
  · refine ⟨r, h, ?_⟩
    obtain ⟨k, B, he, hH, hb, hcase⟩ := hfin.info hinv
    subst he
    rcases hcase with ⟨_, h2⟩ | ⟨_, d, Row, D2, hfill, h2⟩ | ⟨_, D2, hfill, h2⟩
    · subst h2
      exact DeltaValid_branch hH _ s hb D (fun _ _ _ => rfl)
    · subst h2
      exact DeltaValid_hit hH _ d Row D2 hfill
    · subst h2
      obtain ⟨hD2, _, _⟩ := hH.filled _ D2 hfill
      apply DeltaValid_branch hH _ s hb D2
      intro j c hj
      rw [hD2]
      exact level_keep _ _ _ _ _ _ _ (Or.inl hj)

/-! ## Edit distance between prefixes -/

theorem ped_zero_left (A T : List Char) (j : Nat) : ped A T 0 j = j := rfl

theorem ped_zero_right (A T : List Char) (i : Nat) : ped A T i 0 = i := by
  cases i with
  | zero => rfl
  | succ i => rfl

theorem ped_succ_succ (A T : List Char) (i j : Nat) :
    ped A T (i + 1) (j + 1) =
      min (min (ped A T i (j + 1) + 1) (ped A T (i + 1) j + 1))
        (ped A T i j + if charAt A (i : Int) = charAt T (j : Int) then 0 else 1) := rfl

/-- Deleting one more character of `A` costs at most one more edit. -/
theorem ped_del (A T : List Char) (i j : Nat) : ped A T (i + 1) j ≤ ped A T i j + 1 := by
  cases j with
  | zero => rw [ped_zero_right, ped_zero_right]
  | succ j =>
    rw [ped_succ_succ]
    omega

/-- Inserting one more character of `T` costs at most one more edit. -/
theorem ped_ins (A T : List Char) (i j : Nat) : ped A T i (j + 1) ≤ ped A T i j + 1 := by
  cases i with
  | zero => rw [ped_zero_left, ped_zero_left]
  | succ i =>
    rw [ped_succ_succ]
    omega

/-- Aligning one more pair costs at most one more edit. -/
theorem ped_sub (A T : List Char) (i j : Nat) : ped A T (i + 1) (j + 1) ≤ ped A T i j + 1 := by
  rw [ped_succ_succ]
  split <;> omega

/-- Aligning one more pair of equal characters costs nothing. -/
theorem ped_match (A T : List Char) (i j : Nat)
    (h : charAt A (i : Int) = charAt T (j : Int)) : ped A T (i + 1) (j + 1) ≤ ped A T i j := by
  rw [ped_succ_succ, if_pos h]
  omega

/-- The last step of a cheapest alignment is a deletion, an insertion, a
substitution or a match. -/
theorem ped_cases (A T : List Char) (i j : Nat) :
    ped A T (i + 1) (j + 1) = ped A T i (j + 1) + 1 ∨
    ped A T (i + 1) (j + 1) = ped A T (i + 1) j + 1 ∨
    ped A T (i + 1) (j + 1) = ped A T i j + 1 ∨
    (ped A T (i + 1) (j + 1) = ped A T i j ∧ charAt A (i : Int) = charAt T (j : Int)) := by
  rw [ped_succ_succ]
  by_cases h : charAt A (i : Int) = charAt T (j : Int)
  · rw [if_pos h]
    simp only [min_def]
    split_ifs <;> first | (left; omega) | (right; left; omega) | (right; right; right; exact ⟨by omega, h⟩)
  · rw [if_neg h]
    simp only [min_def]
    split_ifs <;> first | (left; omega) | (right; left; omega) | (right; right; left; omega)

/-- The edit distance is at least the difference of the lengths. -/
theorem ped_diag (A T : List Char) : ∀ (i j : Nat),
    (j : Int) - i ≤ ped A T i j ∧ (i : Int) - j ≤ ped A T i j := by
  intro i
  induction i with
  | zero => intro j; rw [ped_zero_left]; omega
  | succ i ih =>
    intro j
    induction j with
    | zero => rw [ped_zero_right]; omega
    | succ j ihj =>
      have h1 := ih (j + 1)
      have h2 := ih j
      rcases ped_cases A T i j with h | h | h | ⟨h, _⟩ <;> rw [h] <;> push_cast <;> omega

/-- Distance `0` means equal lengths and equal characters. -/
theorem ped_eq_zero (A T : List Char) : ∀ (i j : Nat), ped A T i j = 0 →
    i = j ∧ ∀ x : Nat, x < i → charAt A (x : Int) = charAt T (x : Int) := by
  intro i
  induction i with
  | zero =>
    intro j h
    rw [ped_zero_left] at h
    exact ⟨h.symm, fun x hx => by omega⟩
  | succ i ih =>
    intro j h
    cases j with
    | zero => rw [ped_zero_right] at h; omega
    | succ j =>
      rcases ped_cases A T i j with c | c | c | ⟨c, hc⟩
      · omega
      · omega
      · omega
      · rw [c] at h
        obtain ⟨e, hall⟩ := ih j h
        subst e
        refine ⟨rfl, fun x hx => ?_⟩
        by_cases hxi : x = i
        · subst hxi; exact hc
        · exact hall x (by omega)

/-! ## Runs without pruning -/

theorem InvB.start_band (A T : List Char) (D0 D0' : Nat → Int → Int)
    (hD0 : D0 0 0 = firstRow A T) (hD0' : D0' 0 0 = firstRow A T)
    (hne : firstRow A T ≠ min (A.length : Int) T.length) :
    InvB A T 1 LoopState.init D0 D0' 0 (fun _ => (0, 0)) := by
  refine ⟨rfl, ?_, rfl, ⟨le_refl _, Or.inl ⟨rfl, rfl, rfl⟩⟩,
    ⟨le_refl _, Or.inl ⟨rfl, rfl, rfl⟩⟩⟩
  have h1 := scanPrefix_ge A T (min (A.length : Int) T.length)
    (min (A.length : Int) T.length).toNat 0
  have h2 := scanPrefix_le A T (min (A.length : Int) T.length)
    (min (A.length : Int) T.length).toNat 0 (by omega)
  refine ⟨rfl, hD0, fun j hj => by omega, fun j hj => by omega, fun j hj => by omega, ?_, ?_⟩
  · intro j hj c hc1 hc2
    have hj0 : j = 0 := by omega
    subst hj0
    simp only at hc1 hc2
    have hc : c = 0 := by omega
    subst hc
    rw [hD0]
    unfold firstRow at hne ⊢
    unfold Live
    omega
  · intro j hj c hc1 hc2
    have hj0 : j = 0 := by omega
    subst hj0
    simp only at hc1 hc2
    have hc : c = 0 := by omega
    subst hc
    rw [hD0, hD0']

/-- When the `Edit_Match_Limit` of a level is not positive, the two pruning
loops of that level leave the band as the diagonal loop filled it. -/
theorem InvB.keep_band {A T : List Char} {e : Nat} {s : LoopState} {D : Nat → Int → Int}
    {k : Nat} {B : Nat → Int × Int} (hIB : InvB A T e s D D k B)
    (hfull : ∀ j, j ≤ k → B j = (-(j : Int), (j : Int))) (limit : Int) (hG : limit ≤ 0)
    (Max : Int) (D2 : Nat → Int → Int)
    (hfill : fillRow A T A.length T.length Max (e - 1) (min (s.Right + 1) (e : Int))
      (min (s.Right + 1) (e : Int) - max (s.Left - 1) (-(e : Int)) + 1).toNat
      (max (s.Left - 1) (-(e : Int)))
      (openRow D (e - 1) (max (s.Left - 1) (-(e : Int))) (min (s.Right + 1) (e : Int))) =
        .ok (.filled D2)) :
    e - 1 = k ∧ max (s.Left - 1) (-(e : Int)) = (B k).1 - 1 ∧
    min (s.Right + 1) (e : Int) = (B k).2 + 1 ∧
    max (s.Left - 1) (-(e : Int)) ≤ min (s.Right + 1) (e : Int) ∧
    pruneLeft (D2 e) limit (min (s.Right + 1) (e : Int)) (max (s.Left - 1) (-(e : Int))) =
      max (s.Left - 1) (-(e : Int)) ∧
    pruneRight (D2 e) limit
        (pruneLeft (D2 e) limit (min (s.Right + 1) (e : Int)) (max (s.Left - 1) (-(e : Int))))
        (min (s.Right + 1) (e : Int)) = min (s.Right + 1) (e : Int) := by
  have hI : Inv A T e s D D := ⟨k, B, hIB⟩
  obtain ⟨hD2, hno, _⟩ := hI.fill_shape _ _ hfill
  obtain ⟨he, hH, hB, _, _⟩ := hIB
  have hBk := hfull k (le_refl _)
  have hB1 : (B k).1 = s.Left := by rw [hB]
  have hB2 : (B k).2 = s.Right := by rw [hB]
  rw [hBk] at hB1 hB2
  simp only at hB1 hB2
  have e1 : e - 1 = k := by omega
  have eL : max (s.Left - 1) (-(e : Int)) = (B k).1 - 1 := by
    rw [hBk, ← hB1, he]; push_cast; omega
  have eR : min (s.Right + 1) (e : Int) = (B k).2 + 1 := by
    rw [hBk, ← hB2, he]; push_cast; omega
  have hrow : ∀ c, max (s.Left - 1) (-(e : Int)) ≤ c → c ≤ min (s.Right + 1) (e : Int) →
      0 ≤ D2 e c ∧ 0 ≤ D2 e c + c := by
    intro c c1 c2
    rw [hD2, rowFilled_in _ _ _ _ _ _ c1 c2, e1, eL, eR]
    rw [eL] at c1
    rw [eR] at c2
    have := hH.open_bounds c c1 c2
    exact ⟨this.1, this.2.2.1⟩
  have hLle : max (s.Left - 1) (-(e : Int)) ≤ min (s.Right + 1) (e : Int) := by omega
  have keepL : pruneLeft (D2 e) limit (min (s.Right + 1) (e : Int))
      (max (s.Left - 1) (-(e : Int))) = max (s.Left - 1) (-(e : Int)) := by
    have := hrow _ (le_refl _) hLle
    exact pruneLeft_keep _ _ _ _ (fun _ => by omega) (fun _ => by omega)
  refine ⟨e1, eL, eR, hLle, keepL, ?_⟩
  have := hrow _ hLle (le_refl _)
  exact pruneRight_keep _ _ _ _ (fun _ => by omega) (fun _ => by omega)

/-- When no `Edit_Match_Limit` is positive nothing is pruned: the band of level
`j` is `[-j, j]` in every reachable loop state. -/
theorem Reach.full {A T : List Char} {E : Int} {WA : pedWorkArea_t} {D0 : Nat → Int → Int}
    (hD0 : D0 0 0 = firstRow A T)
    (hne : firstRow A T ≠ min (A.length : Int) T.length)
    (hG : ∀ e, WA.G.Edit_Match_Limit e ≤ 0)
    {e : Nat} {s : LoopState} {D : Nat → Int → Int} (h : Reach A T E WA D0 e s D) :
    ∃ (k : Nat) (B : Nat → Int × Int), InvB A T e s D D k B ∧
      ∀ j, j ≤ k → B j = (-(j : Int), (j : Int)) := by
  induction h with
  | init =>
    refine ⟨0, fun _ => (0, 0), InvB.start_band A T D0 D0 hD0 hD0 hne, ?_⟩
    intro j hj
    have : j = 0 := by omega
    subst this
    rfl
  | step e s D D2 _ hE hfill hprune ih =>
    obtain ⟨k, B, hIB, hfull⟩ := ih
    have hI : Inv A T e s D D := ⟨k, B, hIB⟩
    obtain ⟨hD2, hno, _⟩ := hI.fill_shape _ _ hfill
    obtain ⟨_, eL, eR, hLle, keepL, keepR⟩ :=
      hIB.keep_band hfull (WA.G.Edit_Match_Limit e) (hG e) _ D2 hfill
    have hBk := hfull k (le_refl _)
    have hnext := hIB.next_band WA.G
      (pruneLeft (D2 e) (WA.G.Edit_Match_Limit e) (min (s.Right + 1) (e : Int))
        (max (s.Left - 1) (-(e : Int))))
      (pruneRight (D2 e) (WA.G.Edit_Match_Limit e)
        (pruneLeft (D2 e) (WA.G.Edit_Match_Limit e) (min (s.Right + 1) (e : Int))
          (max (s.Left - 1) (-(e : Int)))) (min (s.Right + 1) (e : Int)))
      (by rw [keepL]) (by rw [keepR, keepL]; exact hLle) (by rw [keepR])
      (fun c c1 c2 => hno c (by rw [keepL] at c1; exact c1) (by rw [keepR] at c2; exact c2))
    rw [← hD2] at hnext
    refine ⟨k + 1, _, hnext, ?_⟩
    intro j hj
    by_cases hjk : j = k + 1
    · subst hjk
      rw [setBand_same, keepR, keepL, eL, eR, hBk]
      simp only [Prod.mk.injEq]
      push_cast
      constructor <;> omega
    · rw [setBand_ne _ _ _ _ hjk]
      exact hfull j (by omega)

/-! ## The table against the edit distance: every cell is reachable -/

theorem ped_sub_int (A T : List Char) (u c : Int) (h0 : 0 ≤ u) (h1 : 0 ≤ u + c) :
    ped A T (1 + u).toNat (1 + u + c).toNat ≤ ped A T u.toNat (u + c).toNat + 1 := by
  have e1 : (1 + u).toNat = u.toNat + 1 := by omega
  have e2 : (1 + u + c).toNat = (u + c).toNat + 1 := by omega
  rw [e1, e2]
  exact ped_sub A T _ _

theorem ped_ins_int (A T : List Char) (u c : Int) (_ : 0 ≤ u) (h1 : 0 ≤ u + (c - 1)) :
    ped A T u.toNat (u + c).toNat ≤ ped A T u.toNat (u + (c - 1)).toNat + 1 := by
  have e2 : (u + c).toNat = (u + (c - 1)).toNat + 1 := by omega
  rw [e2]
  exact ped_ins A T _ _

theorem ped_del_int (A T : List Char) (u c : Int) (h0 : 0 ≤ u) (h1 : 0 ≤ u + (c + 1)) :
    ped A T (u + 1).toNat (u + 1 + c).toNat ≤ ped A T u.toNat (u + (c + 1)).toNat + 1 := by
  have e1 : (u + 1).toNat = u.toNat + 1 := by omega
  have e2 : (u + 1 + c).toNat = (u + (c + 1)).toNat := by omega
  rw [e1, e2]
  exact ped_del A T _ _

/-- Extending along a diagonal over matching characters costs no edit. -/
theorem ped_extend (A T : List Char) (m n d : Int) :
    ∀ (f : Nat) (Row : Int), 0 ≤ Row → 0 ≤ Row + d →
      ped A T (extend A T m n d f Row).toNat (extend A T m n d f Row + d).toNat ≤
        ped A T Row.toNat (Row + d).toNat := by
  intro f
  induction f with
  | zero => intro Row _ _; exact le_refl _
  | succ f ih =>
    intro Row h0 h1
    unfold extend
    split
    · rename_i hc
      refine le_trans (ih (Row + 1) (by omega) (by omega)) ?_
      have e1 : (Row + 1).toNat = Row.toNat + 1 := by omega
      have e2 : (Row + 1 + d).toNat = (Row + d).toNat + 1 := by omega
      rw [e1, e2]
      apply ped_match
      have a1 : ((Row.toNat : Nat) : Int) = Row := by omega
      have a2 : (((Row + d).toNat : Nat) : Int) = Row + d := by omega
      rw [a1, a2]
      exact hc.2.2
    · exact le_refl _

/-- A scan from the start over matching characters costs no edit. -/
theorem ped_scan (A T : List Char) (shorter : Int) :
    ∀ (f : Nat) (Row : Int), 0 ≤ Row →
      ped A T (scanPrefix A T shorter f Row).toNat (scanPrefix A T shorter f Row).toNat ≤
        ped A T Row.toNat Row.toNat := by
  intro f
  induction f with
  | zero => intro Row _; exact le_refl _
  | succ f ih =>
    intro Row h0
    unfold scanPrefix
    split
    · rename_i hc
      refine le_trans (ih (Row + 1) (by omega)) ?_
      have e1 : (Row + 1).toNat = Row.toNat + 1 := by omega
      rw [e1]
      apply ped_match
      have a1 : ((Row.toNat : Nat) : Int) = Row := by omega
      rw [a1]
      exact hc.2
    · exact le_refl _

theorem ped_firstRow (A T : List Char) :
    ped A T (firstRow A T).toNat (firstRow A T).toNat = 0 := by
  have := ped_scan A T (min (A.length : Int) T.length) (min (A.length : Int) T.length).toNat 0
    (le_refl _)
  unfold firstRow
  simp only [Int.toNat_zero, ped_zero_left] at this
  omega

/-- The value the recurrence gives a cell next to a band whose cells are
reachable with `j` edits is reachable with `j + 1` edits. -/
theorem ped_cell (A T : List Char) (m n : Int) (D : Nat → Int → Int) (k : Nat)
    (L R : Int) (hLR : L ≤ R) (hs : Sentinels D k (L - 1) (R + 1))
    (hl : ∀ c, L ≤ c → c ≤ R → Live m n (D k c) c ∧
      ped A T (D k c).toNat (D k c + c).toNat ≤ k)
    (c : Int) (h1 : L - 1 ≤ c) (h2 : c ≤ R + 1) :
    ped A T (cellRow A T m n D k c).toNat (cellRow A T m n D k c + c).toNat ≤ k + 1 := by
  obtain ⟨s1, s2, s3, s4⟩ := hs
  have key : ∀ x, L - 1 - 1 ≤ x → x ≤ R + 1 + 1 →
      (D k x = -2 ∧ (x < L ∨ R < x)) ∨
      ((Live m n (D k x) x ∧ ped A T (D k x).toNat (D k x + x).toNat ≤ k) ∧ L ≤ x ∧ x ≤ R) := by
    intro x hx1 hx2
    by_cases hin : L ≤ x ∧ x ≤ R
    · exact Or.inr ⟨hl x hin.1 hin.2, hin⟩
    · left
      have : x = L - 1 - 1 ∨ x = L - 1 ∨ x = R + 1 ∨ x = R + 1 + 1 := by omega
      rcases this with h | h | h | h
      · subst h; exact ⟨s1, by omega⟩
      · subst h; exact ⟨s2, by omega⟩
      · subst h; exact ⟨s3, by omega⟩
      · subst h; exact ⟨s4, by omega⟩
  have k0 := key c (by omega) (by omega)
  have k1 := key (c - 1) (by omega) (by omega)
  have k2 := key (c + 1) (by omega) (by omega)
  have g0 : 1 + D k c ≤ max (max (1 + D k c) (D k (c - 1))) (D k (c + 1) + 1) :=
    le_trans (le_max_left _ _) (le_max_left _ _)
  have g1 : D k (c - 1) ≤ max (max (1 + D k c) (D k (c - 1))) (D k (c + 1) + 1) :=
    le_trans (le_max_right _ _) (le_max_left _ _)
  have g2 : D k (c + 1) + 1 ≤ max (max (1 + D k c) (D k (c - 1))) (D k (c + 1) + 1) :=
    le_max_right _ _
  have hcase : max (max (1 + D k c) (D k (c - 1))) (D k (c + 1) + 1) = 1 + D k c ∨
      max (max (1 + D k c) (D k (c - 1))) (D k (c + 1) + 1) = D k (c - 1) ∨
      max (max (1 + D k c) (D k (c - 1))) (D k (c + 1) + 1) = D k (c + 1) + 1 := by
    simp only [max_def]
    split_ifs <;> simp
  have hb0 : 0 ≤ max (max (1 + D k c) (D k (c - 1))) (D k (c + 1) + 1) := by
    unfold Live at k0 k1 k2
    rcases k0 with ⟨e0, h0⟩ | ⟨⟨h0, _⟩, _⟩
    · rcases k1 with ⟨e1, h1'⟩ | ⟨⟨h1', _⟩, _⟩
      · rcases k2 with ⟨e2, h2'⟩ | ⟨⟨h2', _⟩, _⟩
        · omega
        · omega
      · omega
    · omega
  simp only [cellRow]
  have hbase : ped A T (max (max (1 + D k c) (D k (c - 1))) (D k (c + 1) + 1)).toNat
        (max (max (1 + D k c) (D k (c - 1))) (D k (c + 1) + 1) + c).toNat ≤ k + 1 ∧
      0 ≤ max (max (1 + D k c) (D k (c - 1))) (D k (c + 1) + 1) + c := by
    unfold Live at k0 k1 k2
    rcases hcase with hc | hc | hc
    · rw [hc]
      rw [hc] at hb0
      rcases k0 with ⟨e0, _⟩ | ⟨⟨h0, p0⟩, _⟩
      · omega
      · exact ⟨le_trans (ped_sub_int A T _ c h0.1 h0.2.2.1) (by omega), by omega⟩
    · rw [hc]
      rw [hc] at hb0
      rcases k1 with ⟨e1, _⟩ | ⟨⟨h1', p1⟩, _⟩
      · omega
      · exact ⟨le_trans (ped_ins_int A T _ c h1'.1 h1'.2.2.1) (by omega), by omega⟩
    · rw [hc]
      rw [hc] at hb0
      rcases k2 with ⟨e2, _⟩ | ⟨⟨h2', p2⟩, _⟩
      · omega
      · exact ⟨le_trans (ped_del_int A T _ c h2'.1 h2'.2.2.1) (by omega), by omega⟩
  exact le_trans (ped_extend A T m n c _ _ hb0 hbase.2) hbase.1

/-- Every cell of a band of level `j` is reachable with `j` edits: the prefix
of `A` it stands for is within `j` edits of the prefix of `T` on its
diagonal. -/
theorem Hist.sound {A T : List Char} {B : Nat → Int × Int} {D D' : Nat → Int → Int} {k : Nat}
    (h : Hist A T B D D' k) : ∀ j, j ≤ k → ∀ c, (B j).1 ≤ c → c ≤ (B j).2 →
      ped A T (D j c).toNat (D j c + c).toNat ≤ j := by
  intro j
  induction j with
  | zero =>
    intro _ c c1 c2
    rw [h.base] at c1 c2
    simp only at c1 c2
    have hc : c = 0 := by omega
    subst hc
    rw [h.scan, add_zero, ped_firstRow]
  | succ j ih =>
    intro hj c c1 c2
    have hb := h.band j (by omega)
    rw [h.cell j (by omega) c c1 c2]
    exact ped_cell A T A.length T.length D j (B j).1 (B j).2 (h.lo j (by omega)).2.1
      (h.sent j (by omega)).1
      (fun x x1 x2 => ⟨h.live j (by omega) x x1 x2, ih (by omega) x x1 x2⟩)
      c (by omega) (by omega)

/-- The end positions reported by a hit at level `k + 1` are reachable with
`k + 1` edits. -/
theorem Hist.hit_sound {A T : List Char} {B : Nat → Int × Int} {D D' : Nat → Int → Int}
    {k : Nat} (h : Hist A T B D D' k) (Max : Int) (d Row : Int) (D2 : Nat → Int → Int)
    (hfill : fillRow A T A.length T.length Max k ((B k).2 + 1)
      ((B k).2 + 1 - ((B k).1 - 1) + 1).toNat ((B k).1 - 1)
      (openRow D k ((B k).1 - 1) ((B k).2 + 1)) = .ok (.hitEnd d Row D2)) :
    ped A T Row.toNat (Row + d).toNat ≤ k + 1 := by
  obtain ⟨d0, h1, h2, h3, _, _, h6, _⟩ := h.hit Max d Row D2 hfill
  have hbd := h.hit_bounds Max d Row D2 hfill
  have hlo := (h.lo k (le_refl _)).2.1
  have hin : ∀ x, (B k).1 ≤ x → x ≤ (B k).2 →
      openRow D k ((B k).1 - 1) ((B k).2 + 1) k x = D k x :=
    fun x x1 x2 => openRow_inside _ _ _ _ _ _ (by omega) (by omega)
  have hl : ∀ x, (B k).1 ≤ x → x ≤ (B k).2 →
      Live A.length T.length (openRow D k ((B k).1 - 1) ((B k).2 + 1) k x) x ∧
      ped A T (openRow D k ((B k).1 - 1) ((B k).2 + 1) k x).toNat
        (openRow D k ((B k).1 - 1) ((B k).2 + 1) k x + x).toNat ≤ k := by
    intro x x1 x2
    rw [hin x x1 x2]
    exact ⟨h.live k (le_refl _) x x1 x2, h.sound k (le_refl _) x x1 x2⟩
  rcases h6 with ⟨e1, _, _⟩ | ⟨e1, ⟨_, t2, t3⟩, _⟩
  · subst e1
    rw [h3]
    exact ped_cell A T A.length T.length _ k (B k).1 (B k).2 hlo (openRow_sentinels D k _ _)
      hl d h1 h2
  · subst e1
    by_cases hs : d0 + 1 = (B k).2 + 1
    · rw [hs, openRow_at _ _ _ _ _ (Or.inr (Or.inr (Or.inl rfl)))] at t2
      omega
    · have hx := hl (d0 + 1) (by omega) (by omega)
      rw [← t2]
      unfold Live at hx
      have := ped_sub_int A T (openRow D k ((B k).1 - 1) ((B k).2 + 1) k (d0 + 1)) (d0 + 1)
        hx.1.1 hx.1.2.2.1
      omega

/-- The extension loop stopped at a mismatch in every cell of a band after
level 0, and the first scan stopped at a mismatch. -/
theorem Hist.stop {A T : List Char} {B : Nat → Int × Int} {D D' : Nat → Int → Int} {k : Nat}
    (h : Hist A T B D D' k) (j : Nat) (hj : j ≤ k) (c : Int) (c1 : (B j).1 ≤ c)
    (c2 : c ≤ (B j).2) : charAt A (D j c) ≠ charAt T (D j c + c) := by
  have hlive := h.live j hj c c1 c2
  unfold Live at hlive
  cases j with
  | zero =>
    rw [h.base] at c1 c2
    simp only at c1 c2
    have hc : c = 0 := by omega
    subst hc
    rw [add_zero]
    rw [add_zero] at hlive
    intro heq
    rw [h.scan] at heq hlive
    exact scanPrefix_stop A T (min (A.length : Int) T.length)
      (min (A.length : Int) T.length).toNat 0 (by omega)
      ⟨by unfold firstRow at hlive; omega, heq⟩
  | succ j =>
    intro heq
    rw [h.cell j (by omega) c c1 c2] at heq hlive
    simp only [cellRow] at heq hlive
    exact extend_stop A T A.length T.length c _ _ (le_refl _) ⟨hlive.2.1, hlive.2.2.2, heq⟩

/-! ## The table against the edit distance: every cell is furthest -/

theorem cellRow_ge (A T : List Char) (m n : Int) (D : Nat → Int → Int) (k : Nat) (c : Int) :
    1 + D k c ≤ cellRow A T m n D k c ∧ D k (c - 1) ≤ cellRow A T m n D k c ∧
    D k (c + 1) + 1 ≤ cellRow A T m n D k c := by
  simp only [cellRow]
  have hge := extend_ge A T m n c
    (m - max (max (1 + D k c) (D k (c - 1))) (D k (c + 1) + 1)).toNat
    (max (max (1 + D k c) (D k (c - 1))) (D k (c + 1) + 1))
  have g0 : 1 + D k c ≤ max (max (1 + D k c) (D k (c - 1))) (D k (c + 1) + 1) :=
    le_trans (le_max_left _ _) (le_max_left _ _)
  have g1 : D k (c - 1) ≤ max (max (1 + D k c) (D k (c - 1))) (D k (c + 1) + 1) :=
    le_trans (le_max_right _ _) (le_max_left _ _)
  have g2 : D k (c + 1) + 1 ≤ max (max (1 + D k c) (D k (c - 1))) (D k (c + 1) + 1) :=
    le_max_right _ _
  omega

/-- With nothing pruned, the cell of level `j` on a diagonal is at least as far
as every pair of prefixes on that diagonal that are within `j` edits of each
other. -/
theorem Hist.complete {A T : List Char} {B : Nat → Int × Int} {D D' : Nat → Int → Int}
    {k : Nat} (h : Hist A T B D D' k) (hfull : ∀ j, j ≤ k → B j = (-(j : Int), (j : Int))) :
    ∀ j, j ≤ k → ∀ a b : Nat, a ≤ A.length → b ≤ T.length → ped A T a b ≤ j →
      (a : Int) ≤ D j ((b : Int) - a) := by
  intro j
  induction j with
  | zero =>
    intro _ a b ha hb hp
    obtain ⟨hab, hm⟩ := ped_eq_zero A T a b (by omega)
    subst hab
    rw [sub_self, h.scan]
    by_contra hlt
    have h1 := scanPrefix_ge A T (min (A.length : Int) T.length)
      (min (A.length : Int) T.length).toNat 0
    have hx := hm (firstRow A T).toNat (by unfold firstRow at hlt ⊢; omega)
    have e1 : (((firstRow A T).toNat : Nat) : Int) = firstRow A T := by
      unfold firstRow; omega
    rw [e1] at hx
    exact scanPrefix_stop A T (min (A.length : Int) T.length)
      (min (A.length : Int) T.length).toNat 0 (by omega)
      ⟨by unfold firstRow at hlt; omega, hx⟩
  | succ j ih =>
    intro hj a
    have hBj := hfull (j + 1) hj
    have hB1 : (B (j + 1)).1 = -((j + 1 : Nat) : Int) := by rw [hBj]
    have hB2 : (B (j + 1)).2 = ((j + 1 : Nat) : Int) := by rw [hBj]
    induction a with
    | zero =>
      intro b _ hb hp
      rw [ped_zero_left] at hp
      have := h.live (j + 1) hj (b : Int) (by rw [hB1]; push_cast; omega)
        (by rw [hB2]; push_cast; omega)
      unfold Live at this
      simp only [Nat.cast_zero, sub_zero]
      omega
    | succ a iha =>
      intro b ha hb hp
      have hd := ped_diag A T (a + 1) b
      obtain ⟨c, hc⟩ : ∃ c : Int, c = (b : Int) - ((a + 1 : Nat) : Int) := ⟨_, rfl⟩
      rw [← hc]
      have c1 : (B (j + 1)).1 ≤ c := by rw [hB1]; omega
      have c2 : c ≤ (B (j + 1)).2 := by rw [hB2]; omega
      have hcell := h.cell j (by omega) c c1 c2
      have hge := cellRow_ge A T A.length T.length D j c
      cases b with
      | zero =>
        rw [ped_zero_right] at hp
        have := ih (by omega) a 0 (by omega) (by omega) (by rw [ped_zero_right]; omega)
        have e1 : ((0 : Nat) : Int) - (a : Int) = c + 1 := by omega
        rw [e1] at this
        rw [hcell]
        omega
      | succ b =>
        rcases ped_cases A T a b with hk | hk | hk | ⟨hk, hch⟩
        · have := ih (by omega) a (b + 1) (by omega) hb (by omega)
          have e1 : ((b + 1 : Nat) : Int) - (a : Int) = c + 1 := by omega
          rw [e1] at this
          rw [hcell]
          omega
        · have := ih (by omega) (a + 1) b ha (by omega) (by omega)
          have e1 : (b : Int) - ((a + 1 : Nat) : Int) = c - 1 := by omega
          rw [e1] at this
          rw [hcell]
          omega
        · have := ih (by omega) a b (by omega) (by omega) (by omega)
          have e1 : (b : Int) - (a : Int) = c := by omega
          rw [e1] at this
          rw [hcell]
          omega
        · have hle := iha b (by omega) (by omega) (by omega)
          have e1 : (b : Int) - (a : Int) = c := by omega
          rw [e1] at hle
          have hstop := h.stop (j + 1) hj c c1 c2
          by_contra hlt
          have hv : D (j + 1) c = (a : Int) := by omega
          rw [hv] at hstop
          apply hstop
          rw [hch]
          congr 1
          omega

/-! ## Optimality of an end match -/

/-- With nothing pruned, no pair of prefixes of which one is a whole string is
within `k` edits while the level loop is entered for level `k + 1`. -/
theorem Hist.no_end {A T : List Char} {B : Nat → Int × Int} {D D' : Nat → Int → Int}
    {k : Nat} (h : Hist A T B D D' k) (hfull : ∀ j, j ≤ k → B j = (-(j : Int), (j : Int)))
    (a b : Nat) (ha : a ≤ A.length) (hb : b ≤ T.length)
    (hend : a = A.length ∨ b = T.length) : k + 1 ≤ ped A T a b := by
  by_contra hlt
  have hc := h.complete hfull k (le_refl _) a b ha hb (by omega)
  have hd := ped_diag A T a b
  have hBk := hfull k (le_refl _)
  have hB1 : (B k).1 = -(k : Int) := by rw [hBk]
  have hB2 : (B k).2 = (k : Int) := by rw [hBk]
  have hl := h.live k (le_refl _) ((b : Int) - a) (by rw [hB1]; omega) (by rw [hB2]; omega)
  unfold Live at hl
  omega

/-- When no `Edit_Match_Limit` is positive and some pair of prefixes of which
one is a whole string is within `Error_Limit` edits, the call returns an end
match whose end positions are such a pair, at the least edit distance of all
such pairs, and `errors` is that distance. -/
theorem optimal_end (A T : List Char) (E : Int) (WA : pedWorkArea_t)
    (hE : E < WA.Edit_Array_Max) (hG : ∀ e, WA.G.Edit_Match_Limit e ≤ 0)
    (i j : Nat) (hi : i ≤ A.length) (hj : j ≤ T.length)
    (hend : i = A.length ∨ j = T.length) (hp : (ped A T i j : Int) ≤ E) :
    ∃ r, Prefix_Edit_Dist A T E WA = .ok r ∧ r.Match_To_End = true ∧
      0 ≤ r.A_End ∧ r.A_End ≤ A.length ∧ 0 ≤ r.T_End ∧ r.T_End ≤ T.length ∧
      (r.A_End = A.length ∨ r.T_End = T.length) ∧
      (ped A T r.A_End.toNat r.T_End.toNat : Int) = r.errors ∧
      ∀ a b : Nat, a ≤ A.length → b ≤ T.length → (a = A.length ∨ b = T.length) →
        r.errors ≤ (ped A T a b : Int) := by
  rcases Prefix_Edit_Dist_run A T E WA hE with ⟨h0, h⟩ | ⟨hne, e, s, D, r, hreach, _, hfin, h⟩
  · refine ⟨_, h, rfl, ?_⟩
    show 0 ≤ firstRow A T ∧ firstRow A T ≤ A.length ∧ 0 ≤ firstRow A T ∧
      firstRow A T ≤ T.length ∧ (firstRow A T = A.length ∨ firstRow A T = T.length) ∧
      (ped A T (firstRow A T).toNat (firstRow A T).toNat : Int) = 0 ∧
      ∀ a b : Nat, a ≤ A.length → b ≤ T.length → (a = A.length ∨ b = T.length) →
        (0 : Int) ≤ (ped A T a b : Int)
    rw [ped_firstRow, h0]
    refine ⟨by omega, by omega, by omega, by omega, by omega, rfl, fun a b _ _ _ => by omega⟩
  · refine ⟨r, h, ?_⟩
    have hG0 : ∀ e, ({ WA with deltaLen := 0 } : pedWorkArea_t).G.Edit_Match_Limit e ≤ 0 := hG
    obtain ⟨k, B, hIB, hfull⟩ := hreach.full (setCell_same _ _ _ _) hne hG0
    have hI : Inv A T e s D D := ⟨k, B, hIB⟩
    have hband := hI.band
    have hkeep := hIB.keep_band hfull
    obtain ⟨he, hH, hB, _, _⟩ := hIB
    have hB1 : (B k).1 = s.Left := by rw [hB]
    have hB2 : (B k).2 = s.Right := by rw [hB]
    have e1 : e - 1 = k := by omega
    have key := hH.no_end hfull
    rcases hfin with ⟨h1, _⟩ | ⟨_, d, Row, D2, hfill, h2⟩ | ⟨_, D2, hfill, hcol, _⟩
    · have := key i j hi hj hend
      omega
    · subst h2
      rw [e1, hband.2.1, hband.2.2.1, ← hB1, ← hB2] at hfill
      have hbd := hH.hit_bounds _ d Row D2 hfill
      have hs := hH.hit_sound _ d Row D2 hfill
      have hk := key Row.toNat (Row + d).toNat (by omega) (by omega) (by omega)
      refine ⟨rfl, hbd.1, hbd.2.1, hbd.2.2.1, hbd.2.2.2.1, hbd.2.2.2.2.1, ?_, ?_⟩
      · show (ped A T Row.toNat (Row + d).toNat : Int) = (e : Int)
        omega
      · intro a b ha hb hab
        have := key a b ha hb hab
        show (e : Int) ≤ (ped A T a b : Int)
        omega
    · obtain ⟨_, _, _, hLle, keepL, _⟩ :=
        hkeep (WA.G.Edit_Match_Limit e) (hG e) _ D2 hfill
      rw [show ({ WA with deltaLen := 0 } : pedWorkArea_t).G = WA.G from rfl, keepL] at hcol
      omega

/-! ## The arena: `Allocate_More_Edit_Space` -/

theorem int32_eq (x : Int) (h1 : -2147483648 ≤ x) (h2 : x < 2147483648) : int32 x = x := by
  unfold int32
  omega

theorem int32_range (x : Int) : -2147483648 ≤ int32 x ∧ int32 x < 2147483648 := by
  unfold int32
  omega

theorem int32_dvd (x : Int) : ∃ q : Int, int32 x = x - 4294967296 * q :=
  ⟨(x + 2147483648) / 4294967296, by unfold int32; omega⟩

/-- Once the doubling loop has ended, more iterations change nothing. -/
theorem growSize_more (need : Int) : ∀ (f g : Nat) (Size : Int), f ≤ g →
    need ≤ growSize need f Size → growSize need g Size = growSize need f Size := by
  intro f
  induction f with
  | zero =>
    intro g Size _ h
    simp only [growSize] at h ⊢
    cases g with
    | zero => rfl
    | succ g =>
      unfold growSize
      rw [if_neg (by omega)]
  | succ f ih =>
    intro g Size hg h
    obtain ⟨g, rfl⟩ : ∃ g', g = g' + 1 := ⟨g - 1, by omega⟩
    unfold growSize at h ⊢
    split
    · rename_i hlt
      rw [if_pos hlt] at h
      exact ih g _ (by omega) h
    · rfl

/-- At `Size = 0` the doubling loop makes no progress. -/
theorem growSize_zero (need : Int) : ∀ f : Nat, growSize need f 0 = 0 := by
  intro f
  induction f with
  | zero => rfl
  | succ f ih =>
    unfold growSize
    split
    · have : int32 (0 * 2) = 0 := by decide
      rw [this]
      exact ih
    · rfl

/-- A doubling loop that ends at all ends within `j + 1` iterations when
`2^32` divides `Size * 2^j`. -/
theorem growSize_early (need : Int) : ∀ (j f : Nat) (Size : Int),
    (4294967296 : Int) ∣ Size * 2 ^ j → -2147483648 ≤ Size → Size < 2147483648 →
    need ≤ growSize need f Size → need ≤ growSize need (j + 1) Size := by
  intro j
  induction j with
  | zero =>
    intro f Size hd h1 h2 h
    have h0 : Size = 0 := by
      rw [pow_zero, mul_one] at hd
      omega
    subst h0
    rw [growSize_zero] at h ⊢
    exact h
  | succ j ih =>
    intro f Size hd h1 h2 h
    by_cases hlt : Size < need
    · cases f with
      | zero =>
        simp only [growSize] at h
        omega
      | succ f =>
        unfold growSize at h ⊢
        rw [if_pos hlt] at h ⊢
        obtain ⟨q, hq⟩ := int32_dvd (Size * 2)
        refine ih f _ ?_ (int32_range _).1 (int32_range _).2 h
        rw [hq]
        have : (Size * 2 - 4294967296 * q) * 2 ^ j = Size * 2 ^ (j + 1) - 4294967296 * (q * 2 ^ j) := by
          ring
        rw [this]
        exact dvd_sub hd (dvd_mul_right _ _)
    · unfold growSize
      rw [if_neg hlt]
      omega

/-- The bound of 33 iterations in `Allocate_More_Edit_Space` is exact: whether
the doubling loop ends, and the size it ends at, are the same for every larger
bound. -/
theorem growSize_fuel (need S : Int) (f : Nat) (hf : 33 ≤ f) :
    (need ≤ growSize need f (int32 S) ↔ need ≤ growSize need 33 (int32 S)) ∧
    (need ≤ growSize need 33 (int32 S) →
      growSize need f (int32 S) = growSize need 33 (int32 S)) := by
  have h33 : need ≤ growSize need f (int32 S) → need ≤ growSize need 33 (int32 S) := by
    intro h
    refine growSize_early need 32 f (int32 S) ?_ (int32_range _).1 (int32_range _).2 h
    exact ⟨int32 S, by norm_num; ring⟩
  refine ⟨⟨h33, fun h => ?_⟩, fun h => growSize_more need 33 f _ hf h⟩
  rw [growSize_more need 33 f _ hf h]
  exact h

/-- The doubling loop without overflow: from a size in `[1, 2^30]` and for
`need ≤ 2^29` it ends, at a size in `[need, 2^30]` that is not below the
initial one. -/
theorem growSize_ge (need : Int) (hn : need ≤ 536870912) : ∀ (f : Nat) (Size : Int),
    1 ≤ Size → Size ≤ 1073741824 → need ≤ Size * 2 ^ f →
    need ≤ growSize need f Size ∧ Size ≤ growSize need f Size ∧
      growSize need f Size ≤ 1073741824 := by
  intro f
  induction f with
  | zero =>
    intro Size h1 h2 hf
    simp only [growSize]
    rw [pow_zero, mul_one] at hf
    omega
  | succ f ih =>
    intro Size h1 h2 hf
    unfold growSize
    split
    · rename_i hlt
      rw [int32_eq (Size * 2) (by omega) (by omega)]
      have := ih (Size * 2) (by omega) (by omega) (by rw [pow_succ] at hf; linarith)
      omega
    · omega

/-- What the row loop of `Allocate_More_Edit_Space` does as long as no `int32`
overflows (a block of at most `2^30` cells): it leaves the rows below `e` and
from its final `e` on alone, and the rows in between get centres in block `a`
that start at `Offset`, advance by `6 + 2 j` from row `j` to row `j + 1`, and
passed the test `Offset + Del < Size`. -/
theorem assignRows_spec (a : Nat) (Size Max : Int) (hSize : Size ≤ 1073741824) :
    ∀ (f : Nat) (Offset Del : Int) (e : Nat) (rows : Nat → Option (Nat × Int)),
      Del = 6 + 2 * (e : Int) → 2 ≤ Offset → Offset + Del < 2147483648 →
      e ≤ (assignRows a Size Max f Offset Del e rows).1 ∧
      (∀ j, j < e ∨ (assignRows a Size Max f Offset Del e rows).1 ≤ j →
        (assignRows a Size Max f Offset Del e rows).2 j = rows j) ∧
      (e < (assignRows a Size Max f Offset Del e rows).1 →
        (assignRows a Size Max f Offset Del e rows).2 e = some (a, Offset)) ∧
      (∀ j, e ≤ j → j + 1 < (assignRows a Size Max f Offset Del e rows).1 →
        ∃ c, (assignRows a Size Max f Offset Del e rows).2 j = some (a, c) ∧
          (assignRows a Size Max f Offset Del e rows).2 (j + 1) = some (a, c + 6 + 2 * (j : Int))) ∧
      (∀ j, e ≤ j → j < (assignRows a Size Max f Offset Del e rows).1 →
        ∃ c, (assignRows a Size Max f Offset Del e rows).2 j = some (a, c) ∧
          Offset ≤ c ∧ c + 6 + 2 * (j : Int) < Size ∧ (j : Int) < Max) := by
  intro f
  induction f with
  | zero =>
    intro Offset Del e rows _ _ _
    unfold assignRows
    exact ⟨le_refl _, fun _ _ => rfl, fun h => by omega, fun j h1 h2 => by omega,
      fun j h1 h2 => by omega⟩
  | succ f ih =>
    intro Offset Del e rows hDel hO hsum
    unfold assignRows
    rw [int32_eq (Offset + Del) (by omega) hsum, int32_eq (Del + 2) (by omega) (by omega)]
    split
    · rename_i hc
      obtain ⟨i1, i2, i3, i4, i5⟩ := ih (Offset + Del) (Del + 2) (e + 1)
        (fun j => if j = e then some (a, Offset) else rows j) (by push_cast; omega)
        (by omega) (by omega)
      have he : (assignRows a Size Max f (Offset + Del) (Del + 2) (e + 1)
          (fun j => if j = e then some (a, Offset) else rows j)).2 e = some (a, Offset) := by
        rw [i2 e (Or.inl (by omega))]
        simp
      refine ⟨by omega, ?_, fun _ => he, ?_, ?_⟩
      · intro j hj
        rw [i2 j (by omega)]
        have : j ≠ e := by omega
        simp [this]
      · intro j h1 h2
        by_cases hje : j = e
        · subst hje
          refine ⟨Offset, he, ?_⟩
          rw [i3 h2]
          simp only [Option.some.injEq, Prod.mk.injEq, true_and]
          omega
        · exact i4 j (by omega) h2
      · intro j h1 h2
        by_cases hje : j = e
        · subst hje
          exact ⟨Offset, he, le_refl _, by omega, hc.2⟩
        · obtain ⟨c, c1, c2, c3, c4⟩ := i5 j (by omega) h2
          exact ⟨c, c1, by omega, c3, c4⟩
    · exact ⟨le_refl _, fun _ _ => rfl, fun h => by omega, fun j h1 h2 => by omega,
        fun j h1 h2 => by omega⟩

/-- The row loop never moves `e` back. -/
theorem assignRows_le (a : Nat) (Size Max : Int) :
    ∀ (f : Nat) (Offset Del : Int) (e : Nat) (rows : Nat → Option (Nat × Int)),
      e ≤ (assignRows a Size Max f Offset Del e rows).1 := by
  intro f
  induction f with
  | zero =>
    intro Offset Del e rows
    unfold assignRows
    exact le_refl _
  | succ f ih =>
    intro Offset Del e rows
    unfold assignRows
    split
    · have := ih (int32 (Offset + Del)) (int32 (Del + 2)) (e + 1)
        (fun j => if j = e then some (a, Offset) else rows j)
      omega
    · exact le_refl _

/-- The row loop hands out no row exactly when its test fails on entry. -/
theorem assignRows_none (a : Nat) (Size Max : Int) (f : Nat) (Offset Del : Int) (e : Nat)
    (rows : Nat → Option (Nat × Int)) :
    (assignRows a Size Max (f + 1) Offset Del e rows).1 = e ↔
      ¬ (int32 (Offset + Del) < Size ∧ (e : Int) < Max) := by
  unfold assignRows
  split
  · rename_i hc
    have := assignRows_le a Size Max f (int32 (Offset + Del)) (int32 (Del + 2)) (e + 1)
      (fun j => if j = e then some (a, Offset) else rows j)
    constructor
    · intro h; omega
    · intro h; exact absurd hc h
  · rename_i hc
    exact ⟨fun _ => hc, fun _ => rfl⟩

/-- The loop that looks for the first row without storage finds it. -/
theorem firstNull_spec (rows : Nat → Option (Nat × Int)) (b : Nat) (hb : rows b = none) :
    ∀ (f b0 : Nat), b0 ≤ b → b - b0 < f → (∀ j, b0 ≤ j → j < b → (rows j).isSome = true) →
      firstNull rows f b0 = b := by
  intro f
  induction f with
  | zero =>
    intro b0 _ h _
    omega
  | succ f ih =>
    intro b0 h1 h2 h3
    unfold firstNull
    by_cases hbb : b0 = b
    · subst hbb
      rw [hb]
      rfl
    · rw [if_pos (h3 b0 (le_refl _) (by omega))]
      exact ih (b0 + 1) (by omega) (by omega) (fun j j1 j2 => h3 j (by omega) j2)

/-- One iteration of the row loop whose test passes. -/
theorem assignRows_succ (a : Nat) (Size Max : Int) (f : Nat) (Offset Del : Int) (e : Nat)
    (rows : Nat → Option (Nat × Int)) (h : int32 (Offset + Del) < Size ∧ (e : Int) < Max) :
    assignRows a Size Max (f + 1) Offset Del e rows =
      assignRows a Size Max f (int32 (Offset + Del)) (int32 (Del + 2)) (e + 1)
        (fun j => if j = e then some (a, Offset) else rows j) := by
  rw [assignRows, if_pos h]

/-- A run of `n` iterations of the row loop in which nothing overflows: the
test `Offset + Del < Size` passes `n` times when it passes the last time. -/
theorem assignRows_run (a : Nat) (Size Max : Int) (hSize : Size ≤ 2147483647) :
    ∀ (n f : Nat) (Offset Del : Int) (e : Nat) (rows : Nat → Option (Nat × Int)),
      0 ≤ Del → 2 ≤ Offset → Offset + n * Del + n * (n - 1) < Size ∨ n = 0 →
      ((e + n : Nat) : Int) ≤ Max →
      assignRows a Size Max (f + n) Offset Del e rows =
        assignRows a Size Max f (Offset + n * Del + n * (n - 1)) (Del + 2 * n) (e + n)
          (fun j => if e ≤ j ∧ j < e + n then
            some (a, Offset + ((j - e : Nat) : Int) * Del +
              ((j - e : Nat) : Int) * (((j - e : Nat) : Int) - 1))
            else rows j) := by
  intro n
  induction n with
  | zero =>
    intro f Offset Del e rows _ _ _ _
    have : (fun j => if e ≤ j ∧ j < e + 0 then
        some (a, Offset + ((j - e : Nat) : Int) * Del +
          ((j - e : Nat) : Int) * (((j - e : Nat) : Int) - 1))
        else rows j) = rows := by
      funext j
      rw [if_neg (by omega)]
    rw [this]
    simp
  | succ n ih =>
    intro f Offset Del e rows hD hO hlast hmax
    have hlast : Offset + ((n + 1 : Nat) : Int) * Del +
        ((n + 1 : Nat) : Int) * (((n + 1 : Nat) : Int) - 1) < Size := by
      rcases hlast with h | h
      · exact h
      · omega
    push_cast at hlast hmax
    have hn : (0 : Int) ≤ n := Int.ofNat_nonneg n
    have hnD : 0 ≤ (n : Int) * Del := mul_nonneg hn hD
    have hnn : 0 ≤ (n : Int) * n := mul_nonneg hn hn
    have hsum : Offset + Del < Size := by nlinarith
    show assignRows a Size Max ((f + n) + 1) Offset Del e rows = _
    rw [assignRows_succ a Size Max (f + n) Offset Del e rows
      (by rw [int32_eq (Offset + Del) (by omega) (by omega)]; exact ⟨hsum, by omega⟩)]
    rw [int32_eq (Offset + Del) (by omega) (by omega), int32_eq (Del + 2) (by omega) (by omega)]
    rw [ih f (Offset + Del) (Del + 2) (e + 1) _ (by omega) (by omega)
      (by
        by_cases h0 : n = 0
        · right; exact h0
        · left; nlinarith)
      (by push_cast; omega)]
    have e1 : Offset + Del + (n : Int) * (Del + 2) + (n : Int) * ((n : Int) - 1) =
        Offset + ((n : Int) + 1) * Del + ((n : Int) + 1) * ((n : Int) + 1 - 1) := by ring
    have e2 : Del + 2 + 2 * (n : Int) = Del + 2 * ((n : Int) + 1) := by ring
    have e3 : e + 1 + n = e + (n + 1) := by omega
    push_cast
    rw [e1, e2, e3]
    congr 1
    funext j
    by_cases hj : j = e
    · subst hj
      rw [if_neg (by omega), if_pos (by omega)]
      simp
    · by_cases hj2 : e + 1 ≤ j ∧ j < e + (n + 1)
      · rw [if_pos hj2, if_pos (by omega)]
        have : ((j - e : Nat) : Int) = ((j - (e + 1) : Nat) : Int) + 1 := by omega
        rw [this]
        simp only [Option.some.injEq, Prod.mk.injEq, true_and]
        ring
      · rw [if_neg hj2, if_neg hj, if_neg (by omega)]

/-- The call without overflow, for `b` the first row without storage: for
`1 ≤ EDIT_SPACE_SIZE ≤ 2^30` and `8 + 3 b ≤ 2^29` every `int32` holds its exact
value, the doubling loop ends at a `Size` in `[Offset + Del, 2^30]`, the
allocation is given a positive size, and the call is the row loop followed by
the assertion. -/
theorem Allocate_exact (S : Int) (WA : editSpace) (hS1 : 1 ≤ S) (hS2 : S ≤ 1073741824)
    (hb : 8 + 3 * (firstNull WA.Edit_Array_Lazy WA.Edit_Array_Max.toNat 0 : Int) ≤ 536870912) :
    ∃ Size : Int,
      Size = growSize (8 + 3 * (firstNull WA.Edit_Array_Lazy WA.Edit_Array_Max.toNat 0 : Int)) 33 S ∧
      8 + 3 * (firstNull WA.Edit_Array_Lazy WA.Edit_Array_Max.toNat 0 : Int) ≤ Size ∧
      S ≤ Size ∧ Size ≤ 1073741824 ∧
      Allocate_More_Edit_Space S WA =
        if (assignRows WA.alloc.length Size WA.Edit_Array_Max
            (WA.Edit_Array_Max - (firstNull WA.Edit_Array_Lazy WA.Edit_Array_Max.toNat 0 : Nat)).toNat
            (2 + (firstNull WA.Edit_Array_Lazy WA.Edit_Array_Max.toNat 0 : Nat))
            (6 + (firstNull WA.Edit_Array_Lazy WA.Edit_Array_Max.toNat 0 : Nat) * 2)
            (firstNull WA.Edit_Array_Lazy WA.Edit_Array_Max.toNat 0) WA.Edit_Array_Lazy).1 =
              firstNull WA.Edit_Array_Lazy WA.Edit_Array_Max.toNat 0 then none
        else some { WA with
          Edit_Array_Lazy := (assignRows WA.alloc.length Size WA.Edit_Array_Max
            (WA.Edit_Array_Max - (firstNull WA.Edit_Array_Lazy WA.Edit_Array_Max.toNat 0 : Nat)).toNat
            (2 + (firstNull WA.Edit_Array_Lazy WA.Edit_Array_Max.toNat 0 : Nat))
            (6 + (firstNull WA.Edit_Array_Lazy WA.Edit_Array_Max.toNat 0 : Nat) * 2)
            (firstNull WA.Edit_Array_Lazy WA.Edit_Array_Max.toNat 0) WA.Edit_Array_Lazy).2,
          alloc := WA.alloc ++ [Size] } := by
  obtain ⟨b, hbdef⟩ : ∃ b, b = firstNull WA.Edit_Array_Lazy WA.Edit_Array_Max.toNat 0 := ⟨_, rfl⟩
  rw [← hbdef] at hb ⊢
  have hb0 : (0 : Int) ≤ b := Int.ofNat_nonneg b
  obtain ⟨g1, g2, g3⟩ := growSize_ge (8 + 3 * (b : Int)) hb 33 S hS1 hS2 (by norm_num; omega)
  refine ⟨_, rfl, g1, g2, g3, ?_⟩
  simp only [Allocate_More_Edit_Space]
  rw [← hbdef]
  have e1 : int32 (2 + (b : Int)) = 2 + (b : Int) := int32_eq _ (by omega) (by omega)
  have e2 : int32 ((b : Int) * 2) = (b : Int) * 2 := int32_eq _ (by omega) (by omega)
  have e3 : int32 (6 + (b : Int) * 2) = 6 + (b : Int) * 2 := int32_eq _ (by omega) (by omega)
  have e4 : int32 (2 + (b : Int) + (6 + (b : Int) * 2)) = 8 + 3 * (b : Int) := by
    rw [int32_eq _ (by omega) (by omega)]
    ring
  have e5 : int32 S = S := int32_eq _ (by omega) (by omega)
  rw [e1, e2, e3, e4, e5, if_neg (by omega)]

/-- Without overflow the call fails its assertion exactly when no row is left
to hand out or the doubling loop stops at `Size = Offset + Del`: the doubling
loop accepts that size and the row loop refuses it. -/
theorem Allocate_none_iff (S : Int) (WA : editSpace) (hS1 : 1 ≤ S) (hS2 : S ≤ 1073741824)
    (hb : 8 + 3 * (firstNull WA.Edit_Array_Lazy WA.Edit_Array_Max.toNat 0 : Int) ≤ 536870912) :
    Allocate_More_Edit_Space S WA = none ↔
      WA.Edit_Array_Max ≤ (firstNull WA.Edit_Array_Lazy WA.Edit_Array_Max.toNat 0 : Nat) ∨
      growSize (8 + 3 * (firstNull WA.Edit_Array_Lazy WA.Edit_Array_Max.toNat 0 : Int)) 33 S =
        8 + 3 * (firstNull WA.Edit_Array_Lazy WA.Edit_Array_Max.toNat 0 : Int) := by
  obtain ⟨Size, hSize, g1, g2, g3, hA⟩ := Allocate_exact S WA hS1 hS2 hb
  rw [hA, ← hSize]
  obtain ⟨b, hbdef⟩ : ∃ b, b = firstNull WA.Edit_Array_Lazy WA.Edit_Array_Max.toNat 0 := ⟨_, rfl⟩
  rw [← hbdef] at hb g1 ⊢
  by_cases hm : WA.Edit_Array_Max ≤ (b : Int)
  · have h0 : (WA.Edit_Array_Max - (b : Int)).toNat = 0 := by omega
    rw [h0]
    simp only [assignRows, if_true]
    exact ⟨fun _ => Or.inl hm, fun _ => trivial⟩
  · obtain ⟨f, hf⟩ : ∃ f, (WA.Edit_Array_Max - (b : Int)).toNat = f + 1 :=
      ⟨(WA.Edit_Array_Max - (b : Int)).toNat - 1, by omega⟩
    rw [hf]
    have key := assignRows_none WA.alloc.length Size WA.Edit_Array_Max f (2 + (b : Int))
      (6 + (b : Int) * 2) b WA.Edit_Array_Lazy
    rw [int32_eq (2 + (b : Int) + (6 + (b : Int) * 2)) (by omega) (by omega)] at key
    constructor
    · intro h
      split at h
      · rename_i heq
        have := key.mp heq
        right; omega
      · cases h
    · intro h
      rw [if_pos]
      apply key.mpr
      rcases h with h | h
      · omega
      · omega

/-! ## Results of the level loop without the precondition on `Error_Limit` -/

/-- Shape of a result of the level loop on any input: whenever the loop returns
(and does not fail an assertion), the result is one of the three `Final` forms
at a reachable loop state. -/
theorem levels_shape (A T : List Char) (E : Int) (WA : pedWorkArea_t) (D0 : Nat → Int → Int) :
    ∀ (f e : Nat) (s : LoopState) (D : Nat → Int → Int), (E + 1 - e).toNat ≤ f →
      Reach A T E WA D0 e s D → ∀ r, levels A T A.length T.length E WA f e s D = .ok r →
      ∃ e' s' D', Reach A T E WA D0 e' s' D' ∧ Final A T E WA e' s' D' r := by
  intro f
  induction f with
  | zero =>
    intro e s D hf hreach r h
    simp only [levels] at h
    injection h with h
    exact ⟨e, s, D, hreach, Or.inl ⟨by omega, h.symm⟩⟩
  | succ f ih =>
    intro e s D hf hreach r h
    by_cases hle : (e : Int) ≤ E
    · simp only [levels, if_pos hle] at h
      cases hfill : fillRow A T A.length T.length WA.Edit_Array_Max (e - 1)
          (min (s.Right + 1) (e : Int))
          (min (s.Right + 1) (e : Int) - max (s.Left - 1) (-(e : Int)) + 1).toNat
          (max (s.Left - 1) (-(e : Int)))
          (openRow D (e - 1) (max (s.Left - 1) (-(e : Int))) (min (s.Right + 1) (e : Int))) with
      | error a =>
        rw [hfill] at h
        cases h
      | ok o =>
        rw [hfill] at h
        cases o with
        | hitEnd d Row D2 =>
          simp only [] at h
          injection h with h
          exact ⟨e, s, D, hreach, Or.inr (Or.inl ⟨hle, d, Row, D2, hfill, h.symm⟩)⟩
        | filled D2 =>
          simp only [] at h
          by_cases hcol : pruneLeft (D2 e) (WA.G.Edit_Match_Limit e)
              (min (s.Right + 1) (e : Int)) (max (s.Left - 1) (-(e : Int))) >
              min (s.Right + 1) (e : Int)
          · rw [if_pos hcol] at h
            injection h with h
            exact ⟨e, s, D, hreach, Or.inr (Or.inr ⟨hle, D2, hfill, hcol, h.symm⟩)⟩
          · rw [if_neg hcol] at h
            have hLR := not_lt.mp hcol
            have hstop := pruneLeft_stop _ _ _ _ hLR
            have hge := pruneRight_ge (D2 e) (WA.G.Edit_Match_Limit e) _ _ hLR hstop.1 hstop.2
            rw [if_pos hge] at h
            exact ih (e + 1) _ D2 (by push_cast; omega)
              (Reach.step e s D D2 hreach hle hfill hLR) r h
    · simp only [levels, if_neg hle] at h
      injection h with h
      exact ⟨e, s, D, hreach, Or.inl ⟨by omega, h.symm⟩⟩

/-- Shape of a result of a call on any input. -/
theorem Prefix_Edit_Dist_shape (A T : List Char) (E : Int) (WA : pedWorkArea_t) (r : Result)
    (h : Prefix_Edit_Dist A T E WA = .ok r) :
    (firstRow A T = min (A.length : Int) T.length ∧
      r = { errors := 0, A_End := firstRow A T, T_End := firstRow A T, Match_To_End := true
            WA := { WA with deltaLen := 0
                            Edit_Array_Lazy := setCell WA.Edit_Array_Lazy 0 0 (firstRow A T) } }) ∨
    (firstRow A T ≠ min (A.length : Int) T.length ∧
      ∃ e s D,
        Reach A T E { WA with deltaLen := 0 } (setCell WA.Edit_Array_Lazy 0 0 (firstRow A T))
          e s D ∧
        Final A T E { WA with deltaLen := 0 } e s D r) := by
  by_cases h0 : firstRow A T = min (A.length : Int) T.length
  · left
    rw [Prefix_Edit_Dist_exact A T E WA h0] at h
    injection h with h
    exact ⟨h0, h.symm⟩
  · right
    rw [Prefix_Edit_Dist_levels A T E WA h0] at h
    exact ⟨h0, levels_shape A T E { WA with deltaLen := 0 } _ E.toNat 1 LoopState.init _
      (by omega) Reach.init r h⟩

/-- The loop states of `Reach` lie on the run of the call: the level loop
started at the first level continues from each of them. -/
theorem Reach.run_eq {A T : List Char} {E : Int} {WA : pedWorkArea_t} {D0 : Nat → Int → Int}
    {e : Nat} {s : LoopState} {D : Nat → Int → Int} (h : Reach A T E WA D0 e s D) :
    levels A T A.length T.length E WA E.toNat 1 LoopState.init D0 =
      levels A T A.length T.length E WA (E + 1 - e).toNat e s D := by
  induction h with
  | init =>
    have : (E + 1 - ((1 : Nat) : Int)).toNat = E.toNat := by push_cast; omega
    rw [this]
  | step e s D D2 _ hE hfill hprune ih =>
    rw [ih]
    obtain ⟨f, hf⟩ : ∃ f, (E + 1 - (e : Int)).toNat = f + 1 :=
      ⟨(E + 1 - (e : Int)).toNat - 1, by omega⟩
    have hf2 : (E + 1 - ((e + 1 : Nat) : Int)).toNat = f := by push_cast; omega
    rw [hf, hf2]
    simp only [levels, if_pos hE, hfill]
    have hstop := pruneLeft_stop _ _ _ _ hprune
    have hge := pruneRight_ge (D2 e) (WA.G.Edit_Match_Limit e) _ _ hprune hstop.1 hstop.2
    rw [if_neg (not_lt.mpr hprune), if_pos hge]

/-- When no `Edit_Match_Limit` is positive, an end match that a call returns
ends at a pair of prefixes, one of them a whole string, whose edit distance is
`errors`, and no such pair is at a smaller distance. -/
theorem end_match_least (A T : List Char) (E : Int) (WA : pedWorkArea_t)
    (hG : ∀ e, WA.G.Edit_Match_Limit e ≤ 0) (r : Result)
    (h : Prefix_Edit_Dist A T E WA = .ok r) (hm : r.Match_To_End = true) :
    0 ≤ r.A_End ∧ r.A_End ≤ A.length ∧ 0 ≤ r.T_End ∧ r.T_End ≤ T.length ∧
    (r.A_End = A.length ∨ r.T_End = T.length) ∧
    (ped A T r.A_End.toNat r.T_End.toNat : Int) = r.errors ∧
    ∀ a b : Nat, a ≤ A.length → b ≤ T.length → (a = A.length ∨ b = T.length) →
      r.errors ≤ (ped A T a b : Int) := by
  rcases Prefix_Edit_Dist_shape A T E WA r h with ⟨h0, hr⟩ | ⟨hne, e, s, D, hreach, hfin⟩
  · subst hr
    show 0 ≤ firstRow A T ∧ firstRow A T ≤ A.length ∧ 0 ≤ firstRow A T ∧
      firstRow A T ≤ T.length ∧ (firstRow A T = A.length ∨ firstRow A T = T.length) ∧
      (ped A T (firstRow A T).toNat (firstRow A T).toNat : Int) = 0 ∧
      ∀ a b : Nat, a ≤ A.length → b ≤ T.length → (a = A.length ∨ b = T.length) →
        (0 : Int) ≤ (ped A T a b : Int)
    rw [ped_firstRow, h0]
    refine ⟨by omega, by omega, by omega, by omega, by omega, rfl, fun a b _ _ _ => by omega⟩
  · have hG0 : ∀ e, ({ WA with deltaLen := 0 } : pedWorkArea_t).G.Edit_Match_Limit e ≤ 0 := hG
    obtain ⟨k, B, hIB, hfull⟩ := hreach.full (setCell_same _ _ _ _) hne hG0
    have hI : Inv A T e s D D := ⟨k, B, hIB⟩
    have hband := hI.band
    obtain ⟨he, hH, hB, _, _⟩ := hIB
    have hB1 : (B k).1 = s.Left := by rw [hB]
    have hB2 : (B k).2 = s.Right := by rw [hB]
    have e1 : e - 1 = k := by omega
    have key := hH.no_end hfull
    rcases hfin with ⟨_, h2⟩ | ⟨_, d, Row, D2, hfill, h2⟩ | ⟨_, D2, _, _, h2⟩
    · subst h2; cases hm
    · subst h2
      rw [e1, hband.2.1, hband.2.2.1, ← hB1, ← hB2] at hfill
      have hbd := hH.hit_bounds _ d Row D2 hfill
      have hs := hH.hit_sound _ d Row D2 hfill
      have hk := key Row.toNat (Row + d).toNat (by omega) (by omega) (by omega)
      refine ⟨hbd.1, hbd.2.1, hbd.2.2.1, hbd.2.2.2.1, hbd.2.2.2.2.1, ?_, ?_⟩
      · show (ped A T Row.toNat (Row + d).toNat : Int) = (e : Int)
        omega
      · intro a b ha hb hab
        have := key a b ha hb hab
        show (e : Int) ≤ (ped A T a b : Int)
        omega
    · subst h2; cases hm

/-! ## What a script that applies looks like -/

/-- A script that applies has no zero entry. -/
theorem applyDelta_ne_zero : ∀ (s : List Int) (A T out : List Char),
    applyDelta s A T = some out → ∀ v, v ∈ s → v ≠ 0 := by
  intro s
  induction s with
  | nil => intro A T out _ v hv; cases hv
  | cons w ds ih =>
    intro A T out h v hv
    unfold applyDelta at h
    have hw : w ≠ 0 := by
      intro h0
      subst h0
      simp at h
    rcases List.mem_cons.mp hv with hv | hv
    · subst hv; exact hw
    · split at h
      · split at h
        · obtain ⟨o, ho, _⟩ := Option.map_eq_some'.mp h
          exact ih _ _ _ ho v hv
        · cases h
      · split at h
        · split at h
          · obtain ⟨o, ho, _⟩ := Option.map_eq_some'.mp h
            exact ih _ _ _ ho v hv
          · cases h
        · cases h

/-- The output of a script is as long as its input, plus one for every
insertion (negative entry), minus one for every deletion (positive entry). -/
theorem applyDelta_length : ∀ (s : List Int) (A T out : List Char),
    applyDelta s A T = some out →
      out.length + s.countP (fun v => decide (0 < v)) =
        A.length + s.countP (fun v => decide (v < 0)) := by
  intro s
  induction s with
  | nil =>
    intro A T out h
    simp only [applyDelta, Option.some.injEq] at h
    subst h
    rfl
  | cons w ds ih =>
    intro A T out h
    unfold applyDelta at h
    split at h
    · rename_i hpos
      split at h
      · rename_i hc
        obtain ⟨o, ho, hout⟩ := Option.map_eq_some'.mp h
        have := ih _ _ _ ho
        subst hout
        have hn : ¬ w < 0 := by omega
        simp only [List.length_append, List.length_take, List.length_drop, List.countP_cons,
          hpos, hn, decide_True, decide_False, if_true] at this ⊢
        simp only [Bool.false_eq_true, if_false]
        omega
      · cases h
    · rename_i hpos
      split at h
      · rename_i hneg
        split at h
        · rename_i hc
          obtain ⟨o, ho, hout⟩ := Option.map_eq_some'.mp h
          have := ih _ _ _ ho
          subst hout
          simp only [List.length_append, List.length_take, List.length_drop, List.countP_cons,
            hpos, hneg, decide_True, decide_False, if_true] at this ⊢
          simp only [Bool.false_eq_true, if_false]
          omega
        · cases h
      · cases h

/-- The end positions of every result lie inside the strings. -/
theorem result_bounds (A T : List Char) (E : Int) (WA : pedWorkArea_t) (r : Result)
    (h : Prefix_Edit_Dist A T E WA = .ok r) :
    0 ≤ r.A_End ∧ r.A_End ≤ A.length ∧ 0 ≤ r.T_End ∧ r.T_End ≤ T.length := by
  rcases Prefix_Edit_Dist_shape A T E WA r h with ⟨h0, hr⟩ | ⟨hne, e, s, D, hreach, hfin⟩
  · subst hr
    show 0 ≤ firstRow A T ∧ firstRow A T ≤ A.length ∧ 0 ≤ firstRow A T ∧ firstRow A T ≤ T.length
    rw [h0]; omega
  · have hinv := hreach.inv (setCell_same _ _ _ _) hne
    obtain ⟨k, B, he, hH, hb, hcase⟩ := hfin.info hinv
    have hbb := hb.bounds hH
    rcases hcase with ⟨_, h2⟩ | ⟨_, d, Row, D2, hfill, h2⟩ | ⟨_, D2, _, h2⟩
    · subst h2; exact hbb
    · subst h2
      have := hH.hit_bounds _ d Row D2 hfill
      exact ⟨this.1, this.2.1, this.2.2.1, this.2.2.2.1⟩
    · subst h2; exact hbb

/-! ## `Compute_Delta` against the delta emitter of the specification -/

theorem keepTraceback_succ (D : Nat → Int → Int) (k : Nat) (d last : Int) (stack : List Int) :
    keepTraceback D (k + 1) d last stack =
      if (pick D k d).1 = d - 1 then
        keepTraceback D k (d - 1) (D k (d - 1)) (((pick D k d).2 - last - 1) :: stack)
      else if (pick D k d).1 = d + 1 then
        keepTraceback D k (d + 1) (D k (d + 1)) ((last - ((pick D k d).2 - 1)) :: stack)
      else keepTraceback D k d last stack := rfl

theorem specTraceback_succ (D : Nat → Int → Int) (k : Nat) (d last : Int) (stack : List Int) :
    specTraceback D (k + 1) d last stack =
      if (pick D k d).1 = d - 1 then
        specTraceback D k (d - 1) (D k (d - 1)) (((pick D k d).2 - last - 1) :: stack)
      else if (pick D k d).1 = d + 1 then
        specTraceback D k (d + 1) (D k (d + 1)) ((last - ((pick D k d).2 - 1)) :: stack)
      else specTraceback D k d (D k d) stack := rfl

/-- The list traceback that keeps `last` pushes the values that the loop of
`Compute_Delta` pushes, and ends with the same `last`. -/
theorem keepTraceback_eq (D : Nat → Int → Int) : ∀ (k : Nat) (d last : Int) (stack : List Int),
    keepTraceback D k d last stack =
      ((traceSteps D k d last).1.reverse ++ stack, (traceSteps D k d last).2) := by
  intro k
  induction k with
  | zero => intro d last stack; rfl
  | succ k ih =>
    intro d last stack
    rw [keepTraceback_succ, traceSteps_succ]
    by_cases h1 : (pick D k d).1 = d - 1
    · rw [if_pos h1, if_pos h1, ih, h1]
      simp
    · rw [if_neg h1, if_neg h1]
      by_cases h2 : (pick D k d).1 = d + 1
      · rw [if_pos h2, if_pos h2, ih, h2]
        simp
      · rw [if_neg h2, if_neg h2, ih]

theorem specEmit_concat : ∀ (s : List Int) (x v : Int),
    specEmit (x :: (s ++ [v])) = specEmit (x :: s) ++ [|s.getLastD x| * Sign v] := by
  intro s
  induction s with
  | nil => intro x v; rfl
  | cons y s ih =>
    intro x v
    show |x| * Sign y :: specEmit (y :: (s ++ [v])) =
      (|x| * Sign y :: specEmit (y :: s)) ++ [|(y :: s).getLastD x| * Sign v]
    rw [ih, List.getLastD_cons]
    rfl

/-- Reading the stack from the top down gives the script in reverse push
order. -/
theorem specEmit_reverse : ∀ (l : List Int) (x : Int),
    specEmit (x :: l.reverse) = deltaOf l x := by
  intro l
  induction l with
  | nil => intro x; rfl
  | cons v l ih =>
    intro x
    rw [List.reverse_cons, specEmit_concat, ih]
    show deltaOf l x ++ [|l.reverse.getLastD x| * Sign v] = deltaOf l x ++ [|l.headD x| * Sign v]
    cases l with
    | nil => rfl
    | cons a t =>
      rw [List.reverse_cons, List.getLastD_concat]
      rfl

/-- The script that `Compute_Delta` writes is the script of the section 4.4
procedure in which a same-diagonal step leaves `last` alone. -/
theorem script_keep (WA : pedWorkArea_t) (e : Nat) (d row : Int) :
    script (Compute_Delta WA e d row) = keepDelta WA.Edit_Array_Lazy e d row := by
  rw [script_Compute_Delta]
  unfold keepDelta
  rw [keepTraceback_eq]
  simp only [List.append_nil]
  exact (specEmit_reverse _ _).symm

/-- Without a same-diagonal step the two list tracebacks agree. -/
theorem spec_eq_keep (D : Nat → Int → Int) : ∀ (k : Nat) (d last : Int) (stack : List Int),
    traceSubs D k d = 0 → specTraceback D k d last stack = keepTraceback D k d last stack := by
  intro k
  induction k with
  | zero => intro d last stack _; rfl
  | succ k ih =>
    intro d last stack h
    rw [traceSubs_succ] at h
    rw [specTraceback_succ, keepTraceback_succ]
    by_cases h1 : (pick D k d).1 = d - 1
    · rw [if_pos h1] at h
      rw [if_pos h1, if_pos h1, ih _ _ _ h]
    · rw [if_neg h1] at h
      rw [if_neg h1, if_neg h1]
      by_cases h2 : (pick D k d).1 = d + 1
      · rw [if_pos h2] at h
        rw [if_pos h2, if_pos h2, ih _ _ _ h]
      · rw [if_neg h2] at h
        omega

/-! ## The tie-break rule -/

/-- The tie-break at level `k + 1`: when the first cell `d0` of the band that
hits an end has `Row = m`, `1 + D[k][d0+1] = Row` and `d0 < Right`, the diagonal
loop reports the hit at `d0 + 1`; that diagonal is in the band of level `k`, its
cell there is `m - 1`, the traceback from `(k + 1, d0 + 1, m)` picks the same
diagonal, and the characters `A[m-1]` and `T[m+d0]` differ. -/
theorem Hist.tie_break {A T : List Char} {B : Nat → Int × Int} {D D' : Nat → Int → Int}
    {k : Nat} (h : Hist A T B D D' k) (Max : Int) (hmax : ((k + 1 : Nat) : Int) < Max)
    (d0 : Int) (h1 : (B k).1 - 1 ≤ d0) (h2 : d0 ≤ (B k).2 + 1)
    (hfirst : ∀ c, (B k).1 - 1 ≤ c → c < d0 → ¬ hitsEnd A.length T.length
      (cellRow A T A.length T.length (openRow D k ((B k).1 - 1) ((B k).2 + 1)) k c) c)
    (htie : cellRow A T A.length T.length (openRow D k ((B k).1 - 1) ((B k).2 + 1)) k d0 =
        A.length ∧
      1 + openRow D k ((B k).1 - 1) ((B k).2 + 1) k (d0 + 1) =
        cellRow A T A.length T.length (openRow D k ((B k).1 - 1) ((B k).2 + 1)) k d0 ∧
      d0 < (B k).2 + 1) :
    ∃ D2, fillRow A T A.length T.length Max k ((B k).2 + 1)
        ((B k).2 + 1 - ((B k).1 - 1) + 1).toNat ((B k).1 - 1)
        (openRow D k ((B k).1 - 1) ((B k).2 + 1)) = .ok (.hitEnd (d0 + 1) A.length D2) ∧
      (∀ j c, j ≤ k → D2 j c = openRow D k ((B k).1 - 1) ((B k).2 + 1) j c) ∧
      (B k).1 ≤ d0 + 1 ∧ d0 + 1 ≤ (B k).2 ∧
      D k (d0 + 1) = (A.length : Int) - 1 ∧
      pick D2 k (d0 + 1) = (d0 + 1, (A.length : Int)) ∧
      charAt A ((A.length : Int) - 1) ≠ charAt T ((A.length : Int) + d0) ∧
      (A.length : Int) + d0 + 1 ≤ T.length := by
  have hlo := (h.lo k (le_refl _)).2.1
  have hm : (0 : Int) < A.length := by
    have := h.live k (le_refl _) (B k).1 (le_refl _) hlo
    unfold Live at this; omega
  have key : ∀ x, (B k).1 - 1 - 1 ≤ x → x ≤ (B k).2 + 1 + 1 →
      (openRow D k ((B k).1 - 1) ((B k).2 + 1) k x = -2 ∧ (x < (B k).1 ∨ (B k).2 < x)) ∨
      (openRow D k ((B k).1 - 1) ((B k).2 + 1) k x = D k x ∧
        Live A.length T.length (D k x) x ∧ (B k).1 ≤ x ∧ x ≤ (B k).2) := by
    intro x hx1 hx2
    by_cases hin : (B k).1 ≤ x ∧ x ≤ (B k).2
    · exact Or.inr ⟨openRow_inside _ _ _ _ _ _ (by omega) (by omega),
        h.live k (le_refl _) x hin.1 hin.2, hin⟩
    · left
      exact ⟨openRow_at _ _ _ _ _ (by omega), by omega⟩
  obtain ⟨t1, t2, t3⟩ := htie
  -- the cell next to the hit is a cell of the band
  have k1 := key (d0 + 1) (by omega) (by omega)
  rcases k1 with ⟨e1, _⟩ | ⟨e1, l1, b1, b2⟩
  · rw [e1] at t2; omega
  rw [e1] at t2
  unfold Live at l1
  have hrun : ∃ D2, fillRow A T A.length T.length Max k ((B k).2 + 1)
        ((B k).2 + 1 - ((B k).1 - 1) + 1).toNat ((B k).1 - 1)
        (openRow D k ((B k).1 - 1) ((B k).2 + 1)) = .ok (.hitEnd (d0 + 1) A.length D2) ∧
      (∀ j c, j ≤ k → D2 j c = openRow D k ((B k).1 - 1) ((B k).2 + 1) j c) := by
    rcases fillRow_spec A T A.length T.length Max k ((B k).2 + 1) hmax
        ((B k).2 + 1 - ((B k).1 - 1) + 1).toNat ((B k).1 - 1)
        (openRow D k ((B k).1 - 1) ((B k).2 + 1)) (le_refl _) with
      ⟨_, hno⟩ | ⟨d1, hd1, hd2, hd3, hd4, ⟨hd5, _⟩ | ⟨hd5, hf⟩⟩
    · exact absurd (Or.inl t1) (hno d0 h1 h2)
    · have hd : d1 = d0 := by
        by_contra hne
        rcases lt_or_gt_of_ne hne with hlt | hgt
        · exact hfirst d1 hd1 hlt hd3
        · exact hd4 d0 h1 hgt (Or.inl t1)
      subst hd
      exact absurd ⟨t1, by rw [e1]; exact t2 ▸ rfl, t3⟩ hd5
    · have hd : d1 = d0 := by
        by_contra hne
        rcases lt_or_gt_of_ne hne with hlt | hgt
        · exact hfirst d1 hd1 hlt hd3
        · exact hd4 d0 h1 hgt (Or.inl t1)
      subst hd
      rw [t1] at hf
      exact ⟨_, hf, fun j c hj => hit_rows _ _ k _ d1 (d1 + 1) _ _ (Or.inr rfl) j c hj⟩
  obtain ⟨D2, hf, hrows⟩ := hrun
  refine ⟨D2, hf, hrows, b1, b2, by omega, ?_, ?_, by omega⟩
  · rw [pick_congr _ D2 k (d0 + 1) (fun c _ _ => hrows k c (le_refl _))]
    have k0 := key d0 (by omega) (by omega)
    have k2 := key (d0 + 1 + 1) (by omega) (by omega)
    have c0 : openRow D k ((B k).1 - 1) ((B k).2 + 1) k (d0 + 1 - 1) ≤ (A.length : Int) - 1 := by
      have : d0 + 1 - 1 = d0 := by omega
      rw [this]
      rcases k0 with ⟨e0, _⟩ | ⟨e0, l0, _⟩
      · rw [e0]; omega
      · rw [e0]; unfold Live at l0; omega
    have c2 : openRow D k ((B k).1 - 1) ((B k).2 + 1) k (d0 + 1 + 1) ≤ (A.length : Int) - 1 := by
      rcases k2 with ⟨e0, _⟩ | ⟨e0, l0, _⟩
      · rw [e0]; omega
      · rw [e0]; unfold Live at l0; omega
    rcases pick_cases (openRow D k ((B k).1 - 1) ((B k).2 + 1)) k (d0 + 1) with
      ⟨p1, p2, _, _⟩ | ⟨_, _, p3, _⟩ | ⟨_, _, p3, _⟩
    · rw [e1] at p2
      exact Prod.ext p1 (by rw [p2]; omega)
    · rw [e1] at p3; omega
    · rw [e1] at p3; omega
  · have hstop := h.stop k (le_refl _) (d0 + 1) b1 b2
    have e2 : D k (d0 + 1) = (A.length : Int) - 1 := by omega
    rw [e2] at hstop
    have e3 : (A.length : Int) - 1 + (d0 + 1) = (A.length : Int) + d0 := by omega
    rw [e3] at hstop
    exact hstop

/-- The result of a call whose diagonal loop takes the tie-break at a
reachable loop state. -/
theorem tie_break_result (A T : List Char) (E : Int) (WA : pedWorkArea_t)
    (hE : E < WA.Edit_Array_Max) (hne : firstRow A T ≠ min (A.length : Int) T.length)
    (e : Nat) (s : LoopState) (D : Nat → Int → Int)
    (hreach : Reach A T E { WA with deltaLen := 0 }
      (setCell WA.Edit_Array_Lazy 0 0 (firstRow A T)) e s D)
    (hle : (e : Int) ≤ E) (d0 : Int)
    (h1 : max (s.Left - 1) (-(e : Int)) ≤ d0) (h2 : d0 ≤ min (s.Right + 1) (e : Int))
    (hfirst : ∀ c, max (s.Left - 1) (-(e : Int)) ≤ c → c < d0 → ¬ hitsEnd A.length T.length
      (cellRow A T A.length T.length
        (openRow D (e - 1) (max (s.Left - 1) (-(e : Int))) (min (s.Right + 1) (e : Int)))
        (e - 1) c) c)
    (htie : cellRow A T A.length T.length
          (openRow D (e - 1) (max (s.Left - 1) (-(e : Int))) (min (s.Right + 1) (e : Int)))
          (e - 1) d0 = A.length ∧
      1 + openRow D (e - 1) (max (s.Left - 1) (-(e : Int))) (min (s.Right + 1) (e : Int))
          (e - 1) (d0 + 1) =
        cellRow A T A.length T.length
          (openRow D (e - 1) (max (s.Left - 1) (-(e : Int))) (min (s.Right + 1) (e : Int)))
          (e - 1) d0 ∧
      d0 < min (s.Right + 1) (e : Int)) :
    ∃ r, Prefix_Edit_Dist A T E WA = .ok r ∧ r.errors = e ∧ r.Match_To_End = true ∧
      r.A_End = A.length ∧ r.T_End = A.length + d0 + 1 ∧ r.T_End ≤ T.length ∧
      (pick r.WA.Edit_Array_Lazy (e - 1) (d0 + 1)).1 = d0 + 1 ∧
      charAt A ((A.length : Int) - 1) ≠ charAt T (r.T_End - 1) ∧
      script r.WA =
        deltaOf (traceSteps r.WA.Edit_Array_Lazy (e - 1) (d0 + 1) A.length).1
          ((traceSteps r.WA.Edit_Array_Lazy (e - 1) (d0 + 1) A.length).2 + 1) ∧
      r.WA.deltaLen ≤ (e : Int) - 1 := by
  have hinv := hreach.inv (setCell_same _ _ _ _) hne
  obtain ⟨k, B, he, he1, hH, hL, hR, _, _⟩ := hinv.unpack
  rw [he1, hL, hR] at hfirst htie
  rw [hL] at h1
  rw [hR] at h2
  obtain ⟨D2, hf, hrows, _, _, _, hpick, hch, hT⟩ :=
    hH.tie_break WA.Edit_Array_Max (by rw [← he]; omega) d0 h1 h2 hfirst htie
  have hf' : fillRow A T A.length T.length
      ({ WA with deltaLen := 0 } : pedWorkArea_t).Edit_Array_Max (e - 1)
      (min (s.Right + 1) (e : Int))
      (min (s.Right + 1) (e : Int) - max (s.Left - 1) (-(e : Int)) + 1).toNat
      (max (s.Left - 1) (-(e : Int)))
      (openRow D (e - 1) (max (s.Left - 1) (-(e : Int))) (min (s.Right + 1) (e : Int))) =
      .ok (.hitEnd (d0 + 1) A.length D2) := by
    rw [he1, hL, hR]; exact hf
  obtain ⟨f, hfu⟩ : ∃ f, (E + 1 - (e : Int)).toNat = f + 1 :=
    ⟨(E + 1 - (e : Int)).toNat - 1, by omega⟩
  have hrun : Prefix_Edit_Dist A T E WA =
      .ok (endMatch { WA with deltaLen := 0 } e (d0 + 1) A.length D2) := by
    rw [Prefix_Edit_Dist_levels A T E WA hne, hreach.run_eq, hfu]
    exact levels_hit A T A.length T.length E _ f e s D hle (d0 + 1) A.length D2 hf'
  have hsteps : ∀ last, traceSteps D2 e (d0 + 1) last = traceSteps D2 (e - 1) (d0 + 1) last := by
    intro last
    rw [he1, he, traceSteps_succ, hpick]
    rw [if_neg (by simp only []; omega), if_neg (by simp only []; omega)]
  refine ⟨_, hrun, rfl, rfl, rfl, by show (A.length : Int) + (d0 + 1) = A.length + d0 + 1; omega,
    by show (A.length : Int) + (d0 + 1) ≤ T.length; omega, ?_, ?_, ?_, ?_⟩
  · show (pick D2 (e - 1) (d0 + 1)).1 = d0 + 1
    rw [he1, hpick]
  · show charAt A ((A.length : Int) - 1) ≠ charAt T ((A.length : Int) + (d0 + 1) - 1)
    have : (A.length : Int) + (d0 + 1) - 1 = (A.length : Int) + d0 := by omega
    rw [this]; exact hch
  · show script (Compute_Delta _ e (d0 + 1) A.length) =
      deltaOf (traceSteps D2 (e - 1) (d0 + 1) A.length).1
        ((traceSteps D2 (e - 1) (d0 + 1) A.length).2 + 1)
    rw [script_Compute_Delta]
    show deltaOf (traceSteps D2 e (d0 + 1) A.length).1
        ((traceSteps D2 e (d0 + 1) A.length).2 + 1) = _
    rw [hsteps]
  · show (Compute_Delta _ e (d0 + 1) A.length).deltaLen ≤ (e : Int) - 1
    rw [deltaLen_Compute_Delta]
    show (((traceSteps D2 e (d0 + 1) A.length).1.length : Nat) : Int) ≤ (e : Int) - 1
    rw [hsteps]
    have := traceSteps_length D2 (e - 1) (d0 + 1) A.length
    omega

/-- The geometry of the rows that one call of `Allocate_More_Edit_Space` hands
out when no `int32` overflows (`1 ≤ EDIT_SPACE_SIZE ≤ 2^30` and
`8 + 3 b ≤ 2^29`), for `b` the first row without storage: the call appends one
block of
`Size` cells and assigns the rows `b .. e - 1` in it; the range
`[c - (j + 2), c + (j + 2)]` of row `j` around its centre `c` starts at cell `0`
for row `b`, is followed at once by the range of row `j + 1`, and lies inside
`[0, Size)`; the rows below `b` and from `e` on are left alone. -/
theorem Allocate_geometry (S : Int) (WA WA' : editSpace) (hS1 : 1 ≤ S) (hS2 : S ≤ 1073741824)
    (hb : 8 + 3 * (firstNull WA.Edit_Array_Lazy WA.Edit_Array_Max.toNat 0 : Int) ≤ 536870912)
    (h : Allocate_More_Edit_Space S WA = some WA') :
    ∃ (Size : Int) (e : Nat) (center : Nat → Int),
      WA'.alloc = WA.alloc ++ [Size] ∧ WA'.Edit_Array_Max = WA.Edit_Array_Max ∧
      firstNull WA.Edit_Array_Lazy WA.Edit_Array_Max.toNat 0 < e ∧
      (e : Int) ≤ WA.Edit_Array_Max ∧
      (∀ j, j < firstNull WA.Edit_Array_Lazy WA.Edit_Array_Max.toNat 0 ∨ e ≤ j →
        WA'.Edit_Array_Lazy j = WA.Edit_Array_Lazy j) ∧
      (∀ j, firstNull WA.Edit_Array_Lazy WA.Edit_Array_Max.toNat 0 ≤ j → j < e →
        WA'.Edit_Array_Lazy j = some (WA.alloc.length, center j)) ∧
      center (firstNull WA.Edit_Array_Lazy WA.Edit_Array_Max.toNat 0) -
        ((firstNull WA.Edit_Array_Lazy WA.Edit_Array_Max.toNat 0 : Nat) + 2) = 0 ∧
      (∀ j, firstNull WA.Edit_Array_Lazy WA.Edit_Array_Max.toNat 0 ≤ j → j + 1 < e →
        center (j + 1) - (((j + 1 : Nat) : Int) + 2) = center j + ((j : Int) + 2) + 1) ∧
      (∀ j, firstNull WA.Edit_Array_Lazy WA.Edit_Array_Max.toNat 0 ≤ j → j < e →
        0 ≤ center j - ((j : Int) + 2) ∧ center j + ((j : Int) + 2) < Size) := by
  obtain ⟨Size, _, g1, g2, g3, hA⟩ := Allocate_exact S WA hS1 hS2 hb
  rw [hA] at h
  obtain ⟨b, hbdef⟩ : ∃ b, b = firstNull WA.Edit_Array_Lazy WA.Edit_Array_Max.toNat 0 := ⟨_, rfl⟩
  rw [← hbdef] at h hb g1 ⊢
  obtain ⟨F, hF⟩ : ∃ F, F = (WA.Edit_Array_Max - (b : Int)).toNat := ⟨_, rfl⟩
  rw [← hF] at h
  have hb0 : (0 : Int) ≤ b := Int.ofNat_nonneg b
  obtain ⟨i1, i2, i3, i4, i5⟩ := assignRows_spec WA.alloc.length Size WA.Edit_Array_Max g3
    F (2 + (b : Int)) (6 + (b : Int) * 2) b WA.Edit_Array_Lazy (by omega) (by omega) (by omega)
  split at h
  · cases h
  · rename_i hne
    injection h with h
    subst h
    have hlt : b < (assignRows WA.alloc.length Size WA.Edit_Array_Max F (2 + (b : Int))
        (6 + (b : Int) * 2) b WA.Edit_Array_Lazy).1 := by omega
    -- the centre of a row, read off the table of row pointers
    have hcen : ∀ j c, (assignRows WA.alloc.length Size WA.Edit_Array_Max F
        (2 + (b : Int)) (6 + (b : Int) * 2) b WA.Edit_Array_Lazy).2 j = some (WA.alloc.length, c) →
        ((assignRows WA.alloc.length Size WA.Edit_Array_Max F
          (2 + (b : Int)) (6 + (b : Int) * 2) b WA.Edit_Array_Lazy).2 j).elim 0 Prod.snd = c := by
      intro j c hj
      rw [hj]; rfl
    -- every assigned row starts at or after cell `0`
    have hstart : ∀ n j, j = b + n → j < (assignRows WA.alloc.length Size WA.Edit_Array_Max
        F (2 + (b : Int)) (6 + (b : Int) * 2) b WA.Edit_Array_Lazy).1 →
        ∃ c, (assignRows WA.alloc.length Size WA.Edit_Array_Max F
          (2 + (b : Int)) (6 + (b : Int) * 2) b WA.Edit_Array_Lazy).2 j =
            some (WA.alloc.length, c) ∧ 0 ≤ c - ((j : Int) + 2) := by
      intro n
      induction n with
      | zero =>
        intro j hj hje
        have : j = b := by omega
        subst this
        exact ⟨2 + (j : Int), i3 hlt, by omega⟩
      | succ n ih =>
        intro j hj hje
        obtain ⟨c, hc, hc0⟩ := ih (b + n) rfl (by omega)
        obtain ⟨c', hc', hnext⟩ := i4 (b + n) (by omega) (by rw [hj] at hje; exact hje)
        rw [hc] at hc'
        injection hc' with hc'
        injection hc' with _ hc'
        subst hc'
        subst hj
        exact ⟨_, hnext, by push_cast at hc0 ⊢; omega⟩
    refine ⟨Size, _, fun j => ((assignRows WA.alloc.length Size WA.Edit_Array_Max F
        (2 + (b : Int)) (6 + (b : Int) * 2) b WA.Edit_Array_Lazy).2 j).elim 0 Prod.snd,
      rfl, rfl, hlt, ?_, i2, ?_, ?_, ?_, ?_⟩
    · obtain ⟨c, _, _, _, hmax⟩ := i5 ((assignRows WA.alloc.length Size WA.Edit_Array_Max
        F (2 + (b : Int)) (6 + (b : Int) * 2) b WA.Edit_Array_Lazy).1 - 1)
        (by omega) (by omega)
      omega
    · intro j j1 j2
      obtain ⟨c, hc, _⟩ := i5 j j1 j2
      show _ = some (_, Option.elim _ 0 Prod.snd)
      rw [hcen j c hc]
      exact hc
    · show Option.elim _ 0 Prod.snd - _ = 0
      rw [hcen b _ (i3 hlt)]
      omega
    · intro j j1 j2
      obtain ⟨c, hc, hnext⟩ := i4 j j1 j2
      show Option.elim _ 0 Prod.snd - _ = Option.elim _ 0 Prod.snd + _ + 1
      rw [hcen j c hc, hcen (j + 1) _ hnext]
      push_cast
      omega
    · intro j j1 j2
      obtain ⟨c, hc, _, hsz, _⟩ := i5 j j1 j2
      obtain ⟨c', hc', hc0⟩ := hstart (j - b) j (by omega) j2
      rw [hc] at hc'
      injection hc' with hc'
      injection hc' with _ hc'
      subst hc'
      show 0 ≤ Option.elim _ 0 Prod.snd - _ ∧ Option.elim _ 0 Prod.snd + _ < Size
      rw [hcen j c hc]
      exact ⟨hc0, by omega⟩

/-! ## The accesses of the scans and of the pruning loops -/

theorem scanPrefixLog_ok (A T : List Char) (m n E shorter : Int) (hm : shorter ≤ m)
    (hn : shorter ≤ n) :
    ∀ (f : Nat) (Row : Int), 0 ≤ Row → ∀ a, a ∈ scanPrefixLog A T shorter f Row →
      a.inRange m n E := by
  intro f
  induction f with
  | zero => intro Row _ a ha; cases ha
  | succ f ih =>
    intro Row h0 a ha
    unfold scanPrefixLog at ha
    split at ha
    · rename_i hc
      rcases List.mem_cons.mp ha with ha | ha
      · subst ha; exact ⟨h0, by omega⟩
      rcases List.mem_cons.mp ha with ha | ha
      · subst ha; exact ⟨h0, by omega⟩
      split at ha
      · exact ih (Row + 1) (by omega) a ha
      · cases ha
    · cases ha

theorem extendLog_ok (A T : List Char) (m n E d : Int) :
    ∀ (f : Nat) (Row : Int), 0 ≤ Row → 0 ≤ Row + d → ∀ a, a ∈ extendLog A T m n d f Row →
      a.inRange m n E := by
  intro f
  induction f with
  | zero => intro Row _ _ a ha; cases ha
  | succ f ih =>
    intro Row h0 h1 a ha
    unfold extendLog at ha
    split at ha
    · rename_i hc
      rcases List.mem_cons.mp ha with ha | ha
      · subst ha; exact ⟨h0, hc.1⟩
      rcases List.mem_cons.mp ha with ha | ha
      · subst ha; exact ⟨h1, hc.2⟩
      split at ha
      · exact ih (Row + 1) (by omega) (by omega) a ha
      · cases ha
    · cases ha

theorem pruneLeftNegLog_in (e : Nat) (row : Int → Int) (limit Right lo : Int) :
    ∀ (f : Nat) (Left : Int), lo ≤ Left → ∀ a, a ∈ pruneLeftNegLog e row limit Right f Left →
      a.readsRow e lo Right := by
  intro f
  induction f with
  | zero => intro Left _ a ha; cases ha
  | succ f ih =>
    intro Left h0 a ha
    unfold pruneLeftNegLog at ha
    split at ha
    · rename_i hc
      rcases List.mem_cons.mp ha with ha | ha
      · exact ⟨Left, ha, h0, hc.1⟩
      split at ha
      · exact ih (Left + 1) (by omega) a ha
      · cases ha
    · cases ha

theorem pruneLeftPosLog_in (e : Nat) (row : Int → Int) (limit Right lo : Int) :
    ∀ (f : Nat) (Left : Int), lo ≤ Left → ∀ a, a ∈ pruneLeftPosLog e row limit Right f Left →
      a.readsRow e lo Right := by
  intro f
  induction f with
  | zero => intro Left _ a ha; cases ha
  | succ f ih =>
    intro Left h0 a ha
    unfold pruneLeftPosLog at ha
    split at ha
    · rename_i hc
      rcases List.mem_cons.mp ha with ha | ha
      · exact ⟨Left, ha, h0, hc⟩
      split at ha
      · exact ih (Left + 1) (by omega) a ha
      · cases ha
    · cases ha

/-- The left pruning reads cells of the band only. -/
theorem pruneLeftLog_in (e : Nat) (row : Int → Int) (limit Right Left : Int) :
    ∀ a, a ∈ pruneLeftLog e row limit Right Left → a.readsRow e Left Right := by
  intro a ha
  unfold pruneLeftLog at ha
  rcases List.mem_append.mp ha with ha | ha
  · exact pruneLeftNegLog_in e row limit Right Left _ Left (le_refl _) a ha
  · simp only [] at ha
    split at ha
    · exact pruneLeftPosLog_in e row limit Right Left _ _
        (pruneLeftNeg_ge row limit Right _ Left) a ha
    · cases ha

theorem pruneRightPosLog_in (e : Nat) (row : Int → Int) (limit Left : Int)
    (hL : 0 ≤ Left → limit ≤ row Left + Left) :
    ∀ (f : Nat) (Right : Int), Left ≤ Right → ∀ a, a ∈ pruneRightPosLog e row limit f Right →
      a.readsRow e Left Right := by
  intro f
  induction f with
  | zero => intro Right _ a ha; cases ha
  | succ f ih =>
    intro Right h0 a ha
    unfold pruneRightPosLog at ha
    split at ha
    · rename_i hc
      rcases List.mem_cons.mp ha with ha | ha
      · exact ⟨Right, ha, h0, le_refl _⟩
      split at ha
      · rename_i ht
        have hlt : Left ≤ Right - 1 := by
          by_contra hlt
          have : Left = Right := by omega
          subst this
          have := hL (by omega)
          omega
        obtain ⟨c, hc1, hc2, hc3⟩ := ih (Right - 1) hlt a ha
        exact ⟨c, hc1, hc2, by omega⟩
      · cases ha
    · cases ha

/-- The scan without a bound of its own reads cells from `Right` down to the
first cell that passes the test, which is at or above `Left`, however many
iterations it is allowed. -/
theorem pruneRightNegLog_in (e : Nat) (row : Int → Int) (limit Left : Int)
    (hL : limit ≤ row Left) :
    ∀ (f : Nat) (Right : Int), Left ≤ Right → ∀ a, a ∈ pruneRightNegLog e row limit f Right →
      a.readsRow e Left Right := by
  intro f
  induction f with
  | zero => intro Right _ a ha; cases ha
  | succ f ih =>
    intro Right h0 a ha
    unfold pruneRightNegLog at ha
    rcases List.mem_cons.mp ha with ha | ha
    · exact ⟨Right, ha, h0, le_refl _⟩
    split at ha
    · rename_i ht
      have hlt : Left ≤ Right - 1 := by
        by_contra hlt
        have : Left = Right := by omega
        subst this
        omega
      obtain ⟨c, hc1, hc2, hc3⟩ := ih (Right - 1) hlt a ha
      exact ⟨c, hc1, hc2, by omega⟩
    · cases ha

/-- With enough iterations the scan without a bound of its own stops by its
own test: more iterations change neither its result nor its reads. -/
theorem pruneRightNeg_fuel (e : Nat) (row : Int → Int) (limit Left : Int)
    (hL : limit ≤ row Left) :
    ∀ (f g : Nat) (Right : Int), Left ≤ Right → (Right - Left + 1).toNat ≤ f → f ≤ g →
      pruneRightNeg row limit g Right = pruneRightNeg row limit f Right ∧
      pruneRightNegLog e row limit g Right = pruneRightNegLog e row limit f Right := by
  intro f
  induction f with
  | zero => intro g Right h0 hf _; omega
  | succ f ih =>
    intro g Right h0 hf hg
    obtain ⟨g', hg'⟩ : ∃ g', g = g' + 1 := ⟨g - 1, by omega⟩
    subst hg'
    unfold pruneRightNeg pruneRightNegLog
    by_cases ht : row Right < limit
    · rw [if_pos ht, if_pos ht, if_pos ht, if_pos ht]
      have hlt : Left ≤ Right - 1 := by
        by_contra hlt
        have : Left = Right := by omega
        subst this
        omega
      have := ih g' (Right - 1) hlt (by omega) (by omega)
      rw [this.1, this.2]
      exact ⟨rfl, rfl⟩
    · rw [if_neg ht, if_neg ht, if_neg ht, if_neg ht]
      exact ⟨rfl, rfl⟩

/-- After the left pruning has stopped inside the band, the right pruning
reads cells between `Left` and `Right` only. -/
theorem pruneRightLog_in (e : Nat) (row : Int → Int) (limit Left Right : Int) (h : Left ≤ Right)
    (h1 : Left < 0 → limit ≤ row Left) (h2 : 0 ≤ Left → limit ≤ row Left + Left) :
    ∀ a, a ∈ pruneRightLog e row limit Left Right → a.readsRow e Left Right := by
  intro a ha
  unfold pruneRightLog at ha
  have hp := pruneRightPos_ge row limit Left h2 Right.toNat Right h
  have hq := pruneRightPos_le row limit Right.toNat Right
  rcases List.mem_append.mp ha with ha | ha
  · exact pruneRightPosLog_in e row limit Left h2 _ Right h a ha
  · simp only [] at ha
    split at ha
    · rename_i h0
      have hL : limit ≤ row Left := by
        by_cases hneg : Left < 0
        · exact h1 hneg
        · have hz : Left = 0 := by omega
          have := h2 (by omega)
          omega
      obtain ⟨c, hc1, hc2, hc3⟩ := pruneRightNegLog_in e row limit Left hL _ _ hp a ha
      exact ⟨c, hc1, hc2, by omega⟩
    · cases ha

theorem scanLongestLog_in (row : Int → Int) (e : Nat) (Right lo : Int) :
    ∀ (f : Nat) (d : Int) (b : Int × Nat × Int), lo ≤ d →
      ∀ a, a ∈ scanLongestLog row e Right f d b → a.readsRow e lo Right := by
  intro f
  induction f with
  | zero => intro d b _ a ha; cases ha
  | succ f ih =>
    intro d b h0 a ha
    unfold scanLongestLog at ha
    split at ha
    · rename_i hc
      rcases List.mem_cons.mp ha with ha | ha
      · exact ⟨d, ha, h0, hc⟩
      split at ha
      · rcases List.mem_cons.mp ha with ha | ha
        · exact ⟨d, ha, h0, hc⟩
        · exact ih (d + 1) _ (by omega) a ha
      · exact ih (d + 1) _ (by omega) a ha
    · cases ha

/-! ## The accesses of `Compute_Delta` -/

theorem traceLog_succ (D : Nat → Int → Int) (k : Nat) (d : Int) (sl : Nat) :
    traceLog D (k + 1) d sl =
      .cellR k d :: .cellR k (d - 1) :: .cellR k (d + 1) ::
        (if (pick D k d).1 = d - 1 then
          .stackW sl :: .cellR k (pick D k d).1 :: traceLog D k (d - 1) (sl + 1)
        else if (pick D k d).1 = d + 1 then
          .stackW sl :: .cellR k (pick D k d).1 :: traceLog D k (d + 1) (sl + 1)
        else traceLog D k d sl) := rfl

/-- The traceback from level `K` reads the rows below `K` only. -/
theorem traceLog_rows (D D2 : Nat → Int → Int) :
    ∀ (K : Nat), (∀ j c, j < K → D2 j c = D j c) → ∀ (d : Int) (sl : Nat),
      traceLog D2 K d sl = traceLog D K d sl := by
  intro K
  induction K with
  | zero => intro _ d sl; rfl
  | succ K ih =>
    intro h d sl
    have hpick : pick D2 K d = pick D K d :=
      pick_congr D D2 K d (fun c _ _ => h K c (by omega))
    have ih' := ih (fun j c hj => h j c (by omega))
    rw [traceLog_succ, traceLog_succ, hpick, ih', ih', ih']

/-- The traceback writes the stack positions from `stackLen` on, at most one
for every level. -/
theorem traceLog_stack (D : Nat → Int → Int) :
    ∀ (j : Nat) (d : Int) (sl : Nat) (a : Access), a ∈ traceLog D j d sl →
      (∃ r c, a = .cellR r c) ∨ (∃ i : Nat, a = .stackW i ∧ sl ≤ i ∧ i < sl + j) := by
  intro j
  induction j with
  | zero => intro d sl a ha; cases ha
  | succ j ih =>
    intro d sl a ha
    rw [traceLog_succ] at ha
    rcases List.mem_cons.mp ha with ha | ha
    · exact Or.inl ⟨_, _, ha⟩
    rcases List.mem_cons.mp ha with ha | ha
    · exact Or.inl ⟨_, _, ha⟩
    rcases List.mem_cons.mp ha with ha | ha
    · exact Or.inl ⟨_, _, ha⟩
    split at ha
    · rcases List.mem_cons.mp ha with ha | ha
      · exact Or.inr ⟨sl, ha, le_refl _, by omega⟩
      rcases List.mem_cons.mp ha with ha | ha
      · exact Or.inl ⟨_, _, ha⟩
      rcases ih _ _ a ha with h | ⟨i, h1, h2, h3⟩
      · exact Or.inl h
      · exact Or.inr ⟨i, h1, by omega, by omega⟩
    · split at ha
      · rcases List.mem_cons.mp ha with ha | ha
        · exact Or.inr ⟨sl, ha, le_refl _, by omega⟩
        rcases List.mem_cons.mp ha with ha | ha
        · exact Or.inl ⟨_, _, ha⟩
        rcases ih _ _ a ha with h | ⟨i, h1, h2, h3⟩
        · exact Or.inl h
        · exact Or.inr ⟨i, h1, by omega, by omega⟩
      · rcases ih _ _ a ha with h | ⟨i, h1, h2, h3⟩
        · exact Or.inl h
        · exact Or.inr ⟨i, h1, by omega, by omega⟩

/-- Inside a trace zone whose bands lie in `[-j, j]`, the traceback reads, in a
row `r`, cells of the columns `-(r+2) .. r+2` only. -/
theorem traceLog_cells {B : Nat → Int × Int} {D : Nat → Int → Int} {K : Nat}
    (z : TraceZone B D D K) (hlo : ∀ j, j < K → -(j : Int) ≤ (B j).1 ∧ (B j).2 ≤ j) :
    ∀ (j : Nat), j ≤ K → ∀ (d : Int) (sl : Nat),
      (∀ i, j = i + 1 → (B i).1 - 1 ≤ d ∧ d ≤ (B i).2 + 1) →
      ∀ (a : Access) (r c : Int), a ∈ traceLog D j d sl → a = .cellR r c →
        0 ≤ r ∧ r < j ∧ -(r + 2) ≤ c ∧ c ≤ r + 2 := by
  intro j
  induction j with
  | zero => intro _ d sl _ a r c ha; cases ha
  | succ j ih =>
    intro hj d sl hd a r c ha hrc
    obtain ⟨h1, h2⟩ := hd j rfl
    have hb := hlo j (by omega)
    have hin := z.pick_in j (by omega) d h1 h2
    have hnext : ∀ i, j = i + 1 →
        (B i).1 - 1 ≤ (pick D j d).1 ∧ (pick D j d).1 ≤ (B i).2 + 1 := by
      intro i hi
      subst hi
      have := z.band i (by omega)
      omega
    have hrec : ∀ d' sl', d' = (pick D j d).1 → a ∈ traceLog D j d' sl' →
        0 ≤ r ∧ r < ((j + 1 : Nat) : Int) ∧ -(r + 2) ≤ c ∧ c ≤ r + 2 := by
      intro d' sl' hd' ha'
      have := ih (by omega) d' sl' (by rw [hd']; exact hnext) a r c ha' hrc
      push_cast
      omega
    subst hrc
    rw [traceLog_succ] at ha
    rcases List.mem_cons.mp ha with ha | ha
    · injection ha with e1 e2; subst e1 e2; push_cast; omega
    rcases List.mem_cons.mp ha with ha | ha
    · injection ha with e1 e2; subst e1 e2; push_cast; omega
    rcases List.mem_cons.mp ha with ha | ha
    · injection ha with e1 e2; subst e1 e2; push_cast; omega
    split at ha
    · rename_i hp
      rcases List.mem_cons.mp ha with ha | ha
      · cases ha
      rcases List.mem_cons.mp ha with ha | ha
      · injection ha with e1 e2; subst e1 e2; push_cast; omega
      · exact hrec _ _ hp.symm ha
    · split at ha
      · rename_i hp
        rcases List.mem_cons.mp ha with ha | ha
        · cases ha
        rcases List.mem_cons.mp ha with ha | ha
        · injection ha with e1 e2; subst e1 e2; push_cast; omega
        · exact hrec _ _ hp.symm ha
      · rename_i hp1 hp2
        have c3 : (pick D j d).1 = d := by
          rcases pick_cases D j d with ⟨p, _⟩ | ⟨p, _⟩ | ⟨p, _⟩
          · exact p
          · exact absurd p hp1
          · exact absurd p hp2
        exact hrec _ _ c3.symm ha

theorem emitLog_in : ∀ (i k : Nat) (a : Access), a ∈ emitLog i k →
    (∃ x : Nat, a = .stackR x ∧ x ≤ i) ∨ (∃ x : Nat, a = .deltaW x ∧ k ≤ x ∧ x < k + i) := by
  intro i
  induction i with
  | zero => intro k a ha; cases ha
  | succ i ih =>
    intro k a ha
    unfold emitLog at ha
    rcases List.mem_cons.mp ha with ha | ha
    · exact Or.inl ⟨i + 1, ha, le_refl _⟩
    rcases List.mem_cons.mp ha with ha | ha
    · exact Or.inl ⟨i, ha, by omega⟩
    rcases List.mem_cons.mp ha with ha | ha
    · exact Or.inr ⟨k, ha, le_refl _, by omega⟩
    rcases ih (k + 1) a ha with ⟨x, h1, h2⟩ | ⟨x, h1, h2, h3⟩
    · exact Or.inl ⟨x, h1, by omega⟩
    · exact Or.inr ⟨x, h1, by omega, by omega⟩

/-- For every table and terminal, `Compute_Delta` from level `e` reads cells
and touches the positions `0 .. e` of `deltaStack` and `0 .. e - 1` of `delta`
only. -/
theorem Compute_DeltaLog_stack (WA : pedWorkArea_t) (e : Nat) (d row : Int) (a : Access)
    (ha : a ∈ Compute_DeltaLog WA e d row) :
    (∃ r c, a = .cellR r c ∧ a ∈ traceLog WA.Edit_Array_Lazy e d 0) ∨
    (∃ i : Nat, a = .stackW i ∧ i ≤ e) ∨ (∃ i : Nat, a = .stackR i ∧ i ≤ e) ∨
    (∃ i : Nat, a = .deltaW i ∧ i < e) := by
  have hlen := traceSteps_length WA.Edit_Array_Lazy e d row
  unfold Compute_DeltaLog at ha
  simp only [trace_eq_steps, Nat.zero_add, Nat.add_sub_cancel] at ha
  rcases List.mem_append.mp ha with ha | ha
  · rcases traceLog_stack _ _ _ _ a ha with ⟨r, c, h⟩ | ⟨i, h1, _, h3⟩
    · exact Or.inl ⟨r, c, h, ha⟩
    · exact Or.inr (Or.inl ⟨i, h1, by omega⟩)
  rcases List.mem_cons.mp ha with ha | ha
  · exact Or.inr (Or.inl ⟨_, ha, by omega⟩)
  rcases emitLog_in _ _ a ha with ⟨x, h1, h2⟩ | ⟨x, h1, _, h3⟩
  · exact Or.inr (Or.inr (Or.inl ⟨x, h1, by omega⟩))
  · exact Or.inr (Or.inr (Or.inr ⟨x, h1, by omega⟩))

/-! ## The accesses of the diagonal loop -/

/-- The value from which the extension of a cell next to a live band starts is
not negative, and neither is its column in `T`. -/
theorem cellRow_start (m n : Int) (D : Nat → Int → Int) (k : Nat)
    (L R : Int) (hLR : L ≤ R) (hs : Sentinels D k (L - 1) (R + 1))
    (hl : ∀ c, L ≤ c → c ≤ R → Live m n (D k c) c) (c : Int) (h1 : L - 1 ≤ c) (h2 : c ≤ R + 1) :
    0 ≤ max (max (1 + D k c) (D k (c - 1))) (D k (c + 1) + 1) ∧
    0 ≤ max (max (1 + D k c) (D k (c - 1))) (D k (c + 1) + 1) + c := by
  obtain ⟨s1, s2, s3, s4⟩ := hs
  have key : ∀ x, L - 1 - 1 ≤ x → x ≤ R + 1 + 1 →
      (D k x = -2 ∧ (x < L ∨ R < x)) ∨ (Live m n (D k x) x ∧ L ≤ x ∧ x ≤ R) := by
    intro x hx1 hx2
    by_cases hin : L ≤ x ∧ x ≤ R
    · exact Or.inr ⟨hl x hin.1 hin.2, hin⟩
    · left
      have : x = L - 1 - 1 ∨ x = L - 1 ∨ x = R + 1 ∨ x = R + 1 + 1 := by omega
      rcases this with h | h | h | h
      · subst h; exact ⟨s1, by omega⟩
      · subst h; exact ⟨s2, by omega⟩
      · subst h; exact ⟨s3, by omega⟩
      · subst h; exact ⟨s4, by omega⟩
  have k0 := key c (by omega) (by omega)
  have k1 := key (c - 1) (by omega) (by omega)
  have k2 := key (c + 1) (by omega) (by omega)
  unfold Live at k0 k1 k2
  rcases k0 with ⟨e0, h0⟩ | ⟨h0, _⟩ <;> rcases k1 with ⟨e1, h1'⟩ | ⟨h1', _⟩ <;>
    rcases k2 with ⟨e2, h2'⟩ | ⟨h2', _⟩ <;>
    simp only [max_def] <;> split_ifs <;> omega

/-- The accesses of the diagonal loop of level `k + 1` are in range when the
values the loop computes from the row `D1 k` it reads are. -/
theorem fillRowLog_ok (A T : List Char) (m n E Max : Int) (k : Nat) (L R : Int)
    (D1 : Nat → Int → Int) (hk : ((k + 1 : Nat) : Int) ≤ E)
    (hL : -((k : Int) + 1) ≤ L) (hR : R ≤ (k : Int) + 1)
    (hcell : ∀ c, L ≤ c → c ≤ R →
      0 ≤ max (max (1 + D1 k c) (D1 k (c - 1))) (D1 k (c + 1) + 1) ∧
      0 ≤ max (max (1 + D1 k c) (D1 k (c - 1))) (D1 k (c + 1) + 1) + c ∧
      0 ≤ cellRow A T m n D1 k c ∧ cellRow A T m n D1 k c ≤ m ∧
      0 ≤ cellRow A T m n D1 k c + c ∧ cellRow A T m n D1 k c + c ≤ n)
    (htie : ∀ c, L ≤ c → c < R → cellRow A T m n D1 k c = m → 1 + D1 k (c + 1) = m →
      m + (c + 1) ≤ n) :
    ∀ (f : Nat) (d : Int) (D : Nat → Int → Int), (∀ c, D k c = D1 k c) → L ≤ d →
      ∀ a, a ∈ fillRowLog A T m n Max k R f d D → a.inRange m n E := by
  intro f
  induction f with
  | zero => intro d D _ _ a ha; cases ha
  | succ f ih =>
    intro d D hrow hd a ha
    unfold fillRowLog at ha
    split at ha
    · rename_i hdR
      have hc := hcell d hd hdR
      have hrw : cellRow A T m n D k d = cellRow A T m n D1 k d :=
        cellRow_congr A T m n D D1 k d (fun c _ _ => hrow c)
      simp only [] at ha
      rw [hrw] at ha
      rcases List.mem_append.mp ha with ha | ha
      · unfold cellRowLog at ha
        simp only [] at ha
        rw [hrow d, hrow (d - 1), hrow (d + 1)] at ha
        rcases List.mem_cons.mp ha with ha | ha
        · subst ha; exact ⟨by omega, by push_cast at hk; omega, by omega, by omega⟩
        rcases List.mem_cons.mp ha with ha | ha
        · subst ha; exact ⟨by omega, by push_cast at hk; omega, by omega, by omega⟩
        rcases List.mem_cons.mp ha with ha | ha
        · subst ha; exact ⟨by omega, by push_cast at hk; omega, by omega, by omega⟩
        exact extendLog_ok A T m n E d _ _ hc.1 hc.2.1 a ha
      · split at ha
        · rcases List.mem_cons.mp ha with ha | ha
          · subst ha
            exact ⟨⟨by omega, hk, by push_cast; omega, by push_cast; omega⟩,
              hc.2.2.1, hc.2.2.2.1, hc.2.2.2.2.1, hc.2.2.2.2.2⟩
          split at ha
          · rcases List.mem_append.mp ha with ha | ha
            · split at ha
              · rcases List.mem_cons.mp ha with ha | ha
                · subst ha; exact ⟨by omega, by push_cast at hk; omega, by omega, by omega⟩
                rcases List.mem_cons.mp ha with ha | ha
                · subst ha
                  exact ⟨by omega, hk, by push_cast; omega, by push_cast; omega⟩
                · cases ha
              · cases ha
            · split at ha
              · rename_i ht
                obtain ⟨t1, t2, t3⟩ := ht
                have e1 : setCell D (k + 1) d (cellRow A T m n D1 k d) k (d + 1) =
                    D1 k (d + 1) := by
                  rw [setCell_row_ne _ _ _ _ _ _ (by omega), hrow]
                have e2 : setCell D (k + 1) d (cellRow A T m n D1 k d) (k + 1) d =
                    cellRow A T m n D1 k d := setCell_same _ _ _ _
                have e3 : d + 1 - 1 = d := by omega
                rw [e1, e2] at t2
                have hT := htie d hd t3 t1 (by omega)
                rcases List.mem_cons.mp ha with ha | ha
                · subst ha
                  exact ⟨by omega, hk, by push_cast; omega, by push_cast; omega⟩
                rcases List.mem_cons.mp ha with ha | ha
                · subst ha
                  rw [e3, e2, t1]
                  exact ⟨⟨by omega, hk, by push_cast; omega, by push_cast; omega⟩,
                    by omega, le_refl _, by omega, hT⟩
                · cases ha
              · cases ha
          · exact ih (d + 1) _ (fun c => by rw [setCell_row_ne _ _ _ _ _ _ (by omega), hrow])
              (by omega) a ha
        · cases ha
    · cases ha

/-! ## The accesses of a level, from the table invariant -/

/-- The accesses of the diagonal loop of level `k + 1` are in range. -/
theorem Hist.fillLog_ok {A T : List Char} {B : Nat → Int × Int} {D D' : Nat → Int → Int}
    {k : Nat} (h : Hist A T B D D' k) (E Max : Int) (hk : ((k + 1 : Nat) : Int) ≤ E) (f : Nat) :
    ∀ a, a ∈ fillRowLog A T A.length T.length Max k ((B k).2 + 1) f ((B k).1 - 1)
        (openRow D k ((B k).1 - 1) ((B k).2 + 1)) → a.inRange A.length T.length E := by
  have hlo := h.lo k (le_refl _)
  have hin : ∀ x, (B k).1 ≤ x → x ≤ (B k).2 →
      openRow D k ((B k).1 - 1) ((B k).2 + 1) k x = D k x :=
    fun x x1 x2 => openRow_inside _ _ _ _ _ _ (by omega) (by omega)
  have hl : ∀ x, (B k).1 ≤ x → x ≤ (B k).2 →
      Live A.length T.length (openRow D k ((B k).1 - 1) ((B k).2 + 1) k x) x := by
    intro x x1 x2
    rw [hin x x1 x2]
    exact h.live k (le_refl _) x x1 x2
  have hm : (0 : Int) < A.length := by
    have := h.live k (le_refl _) (B k).1 (le_refl _) hlo.2.1
    unfold Live at this; omega
  apply fillRowLog_ok A T A.length T.length E Max k ((B k).1 - 1) ((B k).2 + 1)
    (openRow D k ((B k).1 - 1) ((B k).2 + 1)) hk (by omega) (by omega) ?_ ?_ f ((B k).1 - 1)
    _ (fun _ => rfl) (le_refl _)
  · intro c c1 c2
    have s := cellRow_start A.length T.length _ k (B k).1 (B k).2 hlo.2.1
      (openRow_sentinels D k _ _) hl c c1 c2
    have b := h.open_bounds c c1 c2
    exact ⟨s.1, s.2, b.1, b.2.1, b.2.2.1, b.2.2.2⟩
  · intro c c1 c2 _ ht
    by_cases hs : c + 1 = (B k).2 + 1
    · rw [hs, openRow_at _ _ _ _ _ (Or.inr (Or.inr (Or.inl rfl)))] at ht
      omega
    · have := hl (c + 1) (by omega) (by omega)
      unfold Live at this
      omega

/-- The accesses of `Compute_Delta` after a hit at level `k + 1` are in
range. -/
theorem Hist.hitLog_ok {A T : List Char} {B : Nat → Int × Int} {D D' : Nat → Int → Int}
    {k : Nat} (h : Hist A T B D D' k) (E Max : Int) (hk : ((k + 1 : Nat) : Int) ≤ E)
    (W : pedWorkArea_t) (d Row : Int) (D2 : Nat → Int → Int)
    (hfill : fillRow A T A.length T.length Max k ((B k).2 + 1)
      ((B k).2 + 1 - ((B k).1 - 1) + 1).toNat ((B k).1 - 1)
      (openRow D k ((B k).1 - 1) ((B k).2 + 1)) = .ok (.hitEnd d Row D2)) :
    ∀ a, a ∈ Compute_DeltaLog { W with Edit_Array_Lazy := D2 } (k + 1) d Row →
      a.inRange A.length T.length E := by
  intro a ha
  obtain ⟨_, _, hrows⟩ := h.hit_start Max d Row D2 hfill
  have hb := h.hit_bounds Max d Row D2 hfill
  rcases Compute_DeltaLog_stack _ _ _ _ a ha with ⟨r, c, h1, h2⟩ | ⟨i, h1, h2⟩ | ⟨i, h1, h2⟩ |
      ⟨i, h1, h2⟩
  · have h2' : a ∈ traceLog D2 (k + 1) d 0 := h2
    rw [traceLog_rows _ D2 _ (fun j c hj => hrows j c (by omega))] at h2'
    have := traceLog_cells h.zone_open.self (fun j hj => by
        have := h.lo j (by omega); omega) (k + 1) (le_refl _) d 0
      (fun i hi => by
        have : i = k := by omega
        subst this
        exact ⟨hb.2.2.2.2.2.1, hb.2.2.2.2.2.2⟩) a r c h2' h1
    subst h1
    exact ⟨this.1, by omega, this.2.2.1, this.2.2.2⟩
  · subst h1; exact ⟨by omega, by omega⟩
  · subst h1; exact ⟨by omega, by omega⟩
  · subst h1; exact ⟨by omega, by omega⟩

/-- The accesses of `Compute_Delta` from a stored branch point are in range. -/
theorem BPok.log_ok {A T : List Char} {B : Nat → Int × Int} {D D' : Nat → Int → Int} {k : Nat}
    (h : Hist A T B D D' k) {be : Nat} {bd len : Int} (hb : BPok B D k be bd len)
    (E : Int) (hk : (k : Int) ≤ E) (W : pedWorkArea_t) (Dx : Nat → Int → Int)
    (hrows : ∀ j c, j < k → Dx j c = D j c) :
    ∀ a, a ∈ Compute_DeltaLog { W with Edit_Array_Lazy := Dx } be bd len →
      a.inRange A.length T.length E := by
  intro a ha
  obtain ⟨hbe, hcase⟩ := hb
  rcases Compute_DeltaLog_stack _ _ _ _ a ha with ⟨r, c, h1, h2⟩ | ⟨i, h1, h2⟩ | ⟨i, h1, h2⟩ |
      ⟨i, h1, h2⟩
  · have h2' : a ∈ traceLog Dx be bd 0 := h2
    rw [traceLog_rows _ Dx _ (fun j c hj => hrows j c (by omega))] at h2'
    have := traceLog_cells (h.zone.mono hbe).self (fun j hj => by
        have := h.lo j (by omega); omega) be (le_refl _) bd 0
      (fun i hi => by
        rcases hcase with ⟨h0, _, _⟩ | ⟨_, c1, c2, _⟩
        · omega
        · subst hi
          have := h.band i (by omega)
          omega) a r c h2' h1
    subst h1
    exact ⟨this.1, by omega, this.2.2.1, this.2.2.2⟩
  · subst h1; exact ⟨by omega, by omega⟩
  · subst h1; exact ⟨by omega, by omega⟩
  · subst h1; exact ⟨by omega, by omega⟩

/-- A read of a cell of the band of level `e ≤ E` is in range. -/
theorem readsRow_ok (m n E : Int) (e : Nat) (lo hi : Int) (he : (e : Int) ≤ E)
    (h1 : -((e : Int)) ≤ lo) (h2 : hi ≤ (e : Int)) (a : Access) (ha : a.readsRow e lo hi) :
    a.inRange m n E := by
  obtain ⟨c, hc, c1, c2⟩ := ha
  subst hc
  exact ⟨by omega, he, by omega, by omega⟩

/-! ## The accesses of a call -/

/-- The accesses of the branch-point return from a reachable loop state are in
range. -/
theorem Reach.branchLog_ok {A T : List Char} {E : Int} {WA : pedWorkArea_t}
    {D0 : Nat → Int → Int} (hE0 : 0 ≤ E) (hD0 : D0 0 0 = firstRow A T)
    (hne : firstRow A T ≠ min (A.length : Int) T.length)
    {e : Nat} {s : LoopState} {D : Nat → Int → Int} (h : Reach A T E WA D0 e s D)
    (Dx : Nat → Int → Int) (hrows : ∀ j c, j + 1 < e → Dx j c = D j c) :
    ∀ a, a ∈ Compute_DeltaLog { WA with Edit_Array_Lazy := Dx }
        s.Max_Score_Best_e s.Max_Score_Best_d s.Max_Score_Len →
      a.inRange A.length T.length E := by
  have hle := h.level_le
  obtain ⟨k, B, he, _, hH, _, _, _, hb⟩ := (h.inv hD0 hne).unpack
  exact hb.log_ok hH E (by omega) WA Dx (fun j c hj => hrows j c (by omega))

/-- Every access of the level loop, started at a loop state that the call
reaches, is in range. -/
theorem levelsLog_ok (A T : List Char) (E : Int) (WA : pedWorkArea_t) (D0 : Nat → Int → Int)
    (hE0 : 0 ≤ E) (hD0 : D0 0 0 = firstRow A T)
    (hne : firstRow A T ≠ min (A.length : Int) T.length) :
    ∀ (f e : Nat) (s : LoopState) (D : Nat → Int → Int), Reach A T E WA D0 e s D →
      ∀ a, a ∈ levelsLog A T A.length T.length E WA f e s D →
        a.inRange A.length T.length E := by
  intro f
  induction f with
  | zero =>
    intro e s D hreach a ha
    simp only [levelsLog] at ha
    exact hreach.branchLog_ok hE0 hD0 hne D (fun _ _ _ => rfl) a ha
  | succ f ih =>
    intro e s D hreach a ha
    by_cases hle : (e : Int) ≤ E
    · have hinv := hreach.inv hD0 hne
      obtain ⟨k, B, he, he1, hH, hL, hR, _, _⟩ := hinv.unpack
      have hlo := hH.lo k (le_refl _)
      simp only [levelsLog, if_pos hle] at ha
      rw [he1, hL, hR] at ha
      have hk : ((k + 1 : Nat) : Int) ≤ E := by rw [← he]; exact hle
      have hek : (e : Int) - 1 = (k : Int) := by omega
      rcases List.mem_cons.mp ha with ha | ha
      · subst ha; exact ⟨by omega, by omega, by omega, by omega⟩
      rcases List.mem_cons.mp ha with ha | ha
      · subst ha; exact ⟨by omega, by omega, by omega, by omega⟩
      rcases List.mem_cons.mp ha with ha | ha
      · subst ha; exact ⟨by omega, by omega, by omega, by omega⟩
      rcases List.mem_cons.mp ha with ha | ha
      · subst ha; exact ⟨by omega, by omega, by omega, by omega⟩
      rcases List.mem_append.mp ha with ha | ha
      · exact hH.fillLog_ok E _ hk _ a ha
      cases hfill : fillRow A T A.length T.length WA.Edit_Array_Max k ((B k).2 + 1)
          ((B k).2 + 1 - ((B k).1 - 1) + 1).toNat ((B k).1 - 1)
          (openRow D k ((B k).1 - 1) ((B k).2 + 1)) with
      | error x =>
        rw [hfill] at ha
        cases ha
      | ok o =>
        rw [hfill] at ha
        cases o with
        | hitEnd d Row D2 =>
          simp only [] at ha
          rw [he] at ha
          exact hH.hitLog_ok E _ hk WA d Row D2 hfill a ha
        | filled D2 =>
          simp only [] at ha
          have hfill' : fillRow A T A.length T.length WA.Edit_Array_Max (e - 1)
              (min (s.Right + 1) (e : Int))
              (min (s.Right + 1) (e : Int) - max (s.Left - 1) (-(e : Int)) + 1).toNat
              (max (s.Left - 1) (-(e : Int)))
              (openRow D (e - 1) (max (s.Left - 1) (-(e : Int)))
                (min (s.Right + 1) (e : Int))) = .ok (.filled D2) := by
            rw [he1, hL, hR]; exact hfill
          obtain ⟨hD2, _, _⟩ := hH.filled _ D2 hfill
          have hband : ∀ x : Access, x.readsRow e ((B k).1 - 1) ((B k).2 + 1) →
              x.inRange A.length T.length E :=
            fun x hx => readsRow_ok _ _ E e _ _ hle (by omega) (by omega) x hx
          rcases List.mem_append.mp ha with ha | ha
          · exact hband a (pruneLeftLog_in e _ _ _ _ a ha)
          by_cases hcol : pruneLeft (D2 e) (WA.G.Edit_Match_Limit e) ((B k).2 + 1)
              ((B k).1 - 1) > (B k).2 + 1
          · rw [if_pos hcol] at ha
            refine hreach.branchLog_ok hE0 hD0 hne D2 (fun j c hj => ?_) a ha
            rw [hD2, rowFilled_row_ne _ _ _ _ _ _ _ (by omega),
              openRow_row_ne _ _ _ _ _ _ (by omega)]
          · rw [if_neg hcol] at ha
            have hLR := not_lt.mp hcol
            have hstop := pruneLeft_stop _ _ _ _ hLR
            have hge := pruneRight_ge (D2 e) (WA.G.Edit_Match_Limit e) _ _ hLR hstop.1 hstop.2
            have hL' := pruneLeft_ge (D2 e) (WA.G.Edit_Match_Limit e) ((B k).2 + 1)
              ((B k).1 - 1)
            have hR' := pruneRight_le (D2 e) (WA.G.Edit_Match_Limit e)
              (pruneLeft (D2 e) (WA.G.Edit_Match_Limit e) ((B k).2 + 1) ((B k).1 - 1))
              ((B k).2 + 1)
            rcases List.mem_append.mp ha with ha | ha
            · obtain ⟨c, hc, c1, c2⟩ := pruneRightLog_in e _ _ _ _ hLR hstop.1 hstop.2 a ha
              exact hband a ⟨c, hc, by omega, c2⟩
            rw [if_pos hge] at ha
            rcases List.mem_append.mp ha with ha | ha
            · obtain ⟨c, hc, c1, c2⟩ := scanLongestLog_in _ e _ _ _ _ _ (le_refl _) a ha
              exact hband a ⟨c, hc, by omega, by omega⟩
            · have hstep := Reach.step e s D D2 hreach hle hfill'
                (by rw [hL, hR]; exact hLR)
              rw [hL, hR] at hstep
              exact ih (e + 1) _ D2 hstep a ha
    · simp only [levelsLog, if_neg hle] at ha
      exact hreach.branchLog_ok hE0 hD0 hne D (fun _ _ _ => rfl) a ha

/-- Every array access of a call on a valid input is in range. -/
theorem Prefix_Edit_DistLog_ok (A T : List Char) (E : Int) (WA : pedWorkArea_t)
    (hE0 : 0 ≤ E) :
    ∀ a, a ∈ Prefix_Edit_DistLog A T E WA → a.inRange A.length T.length E := by
  intro a ha
  have h1 := scanPrefix_ge A T (min (A.length : Int) T.length)
    (min (A.length : Int) T.length).toNat 0
  have h2 := scanPrefix_le A T (min (A.length : Int) T.length)
    (min (A.length : Int) T.length).toNat 0 (by omega)
  simp only [Prefix_Edit_DistLog] at ha
  rcases List.mem_append.mp ha with ha | ha
  · exact scanPrefixLog_ok A T A.length T.length E _ (min_le_left _ _) (min_le_right _ _)
      _ 0 (le_refl _) a ha
  rcases List.mem_cons.mp ha with ha | ha
  · subst ha
    exact ⟨⟨le_refl _, hE0, by omega, by omega⟩, by omega, by omega, by omega, by omega⟩
  split at ha
  · cases ha
  · rename_i hne
    exact levelsLog_ok A T E { WA with deltaLen := 0 } _ hE0 (setCell_same _ _ _ _) hne
      _ 1 LoopState.init _ Reach.init a ha

/-! ## The assertion `Left <= Right` -/

theorem fillRow_error_kind (A T : List Char) (m n Max : Int) (k : Nat) (Right : Int) :
    ∀ (f : Nat) (d : Int) (D : Nat → Int → Int) (x : Abort),
      fillRow A T m n Max k Right f d D = .error x → x = .editArrayMax := by
  intro f
  induction f with
  | zero => intro d D x h; simp only [fillRow] at h; cases h
  | succ f ih =>
    intro d D x h
    unfold fillRow at h
    split at h
    · simp only [] at h
      split at h
      · split at h
        · split at h <;> cases h
        · exact ih _ _ x h
      · injection h with h; exact h.symm
    · cases h

/-- The level loop never fails the assertion `Left <= Right`, on any input. -/
theorem levels_error_kind (A T : List Char) (m n E : Int) (WA : pedWorkArea_t) :
    ∀ (f e : Nat) (s : LoopState) (D : Nat → Int → Int) (x : Abort),
      levels A T m n E WA f e s D = .error x → x = .editArrayMax := by
  intro f
  induction f with
  | zero => intro e s D x h; simp only [levels] at h; cases h
  | succ f ih =>
    intro e s D x h
    by_cases hle : (e : Int) ≤ E
    · simp only [levels, if_pos hle] at h
      cases hfill : fillRow A T m n WA.Edit_Array_Max (e - 1) (min (s.Right + 1) (e : Int))
          (min (s.Right + 1) (e : Int) - max (s.Left - 1) (-(e : Int)) + 1).toNat
          (max (s.Left - 1) (-(e : Int)))
          (openRow D (e - 1) (max (s.Left - 1) (-(e : Int))) (min (s.Right + 1) (e : Int))) with
      | error y =>
        rw [hfill] at h
        injection h with h
        subst h
        exact fillRow_error_kind A T m n _ _ _ _ _ _ _ hfill
      | ok o =>
        rw [hfill] at h
        cases o with
        | hitEnd d Row D2 => simp only [] at h; cases h
        | filled D2 =>
          simp only [] at h
          by_cases hcol : pruneLeft (D2 e) (WA.G.Edit_Match_Limit e)
              (min (s.Right + 1) (e : Int)) (max (s.Left - 1) (-(e : Int))) >
              min (s.Right + 1) (e : Int)
          · rw [if_pos hcol] at h; cases h
          · rw [if_neg hcol] at h
            have hLR := not_lt.mp hcol
            have hstop := pruneLeft_stop _ _ _ _ hLR
            have hge := pruneRight_ge (D2 e) (WA.G.Edit_Match_Limit e) _ _ hLR hstop.1 hstop.2
            rw [if_pos hge] at h
            exact ih _ _ _ x h
    · simp only [levels, if_neg hle] at h
      cases h

theorem Prefix_Edit_Dist_error_kind (A T : List Char) (E : Int) (WA : pedWorkArea_t) (x : Abort)
    (h : Prefix_Edit_Dist A T E WA = .error x) : x = .editArrayMax := by
  by_cases h0 : firstRow A T = min (A.length : Int) T.length
  · rw [Prefix_Edit_Dist_exact A T E WA h0] at h
    cases h
  · rw [Prefix_Edit_Dist_levels A T E WA h0] at h
    exact levels_error_kind A T _ _ E _ _ _ _ _ x h

/-- The right pruning after a left pruning that stopped inside the band: it
ends between `Left` and `Right`, at a cell that fails the test of the loop it
ends in, it reads cells between `Left` and `Right` only, and the scan without
a bound of its own gives the same result and the same reads for every number of
iterations from `Right - Left + 1` on. -/
theorem pruneRight_safe (e : Nat) (row : Int → Int) (limit L R : Int)
    (hcol : pruneLeft row limit R L ≤ R) :
    L ≤ pruneLeft row limit R L ∧
    pruneLeft row limit R L ≤ pruneRight row limit (pruneLeft row limit R L) R ∧
    pruneRight row limit (pruneLeft row limit R L) R ≤ R ∧
    (∀ a, a ∈ pruneRightLog e row limit (pruneLeft row limit R L) R →
      a.readsRow e (pruneLeft row limit R L) R) ∧
    (pruneRightPos row limit R.toNat R ≤ 0 →
      limit ≤ row (pruneRight row limit (pruneLeft row limit R L) R) ∧
      ∀ f, (pruneRightPos row limit R.toNat R - pruneLeft row limit R L + 1).toNat ≤ f →
        pruneRightNeg row limit f (pruneRightPos row limit R.toNat R) =
          pruneRight row limit (pruneLeft row limit R L) R ∧
        pruneRightNegLog e row limit f (pruneRightPos row limit R.toNat R) =
          pruneRightNegLog e row limit
            (pruneRightPos row limit R.toNat R - pruneLeft row limit R L + 1).toNat
            (pruneRightPos row limit R.toNat R) ∧
        ∀ a, a ∈ pruneRightNegLog e row limit f (pruneRightPos row limit R.toNat R) →
          a.readsRow e (pruneLeft row limit R L) R) := by
  have hstop := pruneLeft_stop row limit R L hcol
  have hge := pruneRight_ge row limit _ _ hcol hstop.1 hstop.2
  have hp := pruneRightPos_ge row limit _ hstop.2 R.toNat R hcol
  have hq := pruneRightPos_le row limit R.toNat R
  refine ⟨pruneLeft_ge row limit R L, hge, pruneRight_le row limit _ R,
    pruneRightLog_in e row limit _ R hcol hstop.1 hstop.2, fun h0 => ?_⟩
  have hL : limit ≤ row (pruneLeft row limit R L) := by
    by_cases hneg : pruneLeft row limit R L < 0
    · exact hstop.1 hneg
    · have := hstop.2 (by omega)
      omega
  have hres : pruneRight row limit (pruneLeft row limit R L) R =
      pruneRightNeg row limit
        (pruneRightPos row limit R.toNat R - pruneLeft row limit R L + 1).toNat
        (pruneRightPos row limit R.toNat R) := by
    simp only [pruneRight, if_pos h0]
  refine ⟨?_, fun f hf => ?_⟩
  · rw [hres]
    exact (pruneRightNeg_ge row limit _ hL _ _ hp).2 (by omega)
  · have := pruneRightNeg_fuel e row limit _ hL _ f _ hp (le_refl _) hf
    refine ⟨by rw [hres]; exact this.1, this.2, fun a ha => ?_⟩
    obtain ⟨c, hc, c1, c2⟩ := pruneRightNegLog_in e row limit _ hL f _ hp a ha
    exact ⟨c, hc, c1, by omega⟩

/-! ## The logged writes are the writes of the call -/

theorem replay_append : ∀ (l l2 : List Access) (D : Nat → Int → Int),
    replay (l ++ l2) D = replay l2 (replay l D) := by
  intro l
  induction l with
  | nil => intro l2 D; rfl
  | cons a l ih =>
    intro l2 D
    cases a <;> exact ih l2 _

theorem replay_keeps : ∀ (l : List Access) (D : Nat → Int → Int),
    (∀ a, a ∈ l → a.keepsTable) → replay l D = D := by
  intro l
  induction l with
  | nil => intro D _; rfl
  | cons a l ih =>
    intro D h
    have ha := h a (List.mem_cons_self _ _)
    have hl := ih D (fun x hx => h x (List.mem_cons_of_mem _ hx))
    cases a <;> first | exact hl | exact absurd ha (fun h => h)

theorem readsRow_keeps (e : Nat) (lo hi : Int) (a : Access) (h : a.readsRow e lo hi) :
    a.keepsTable := by
  obtain ⟨c, hc, _⟩ := h
  subst hc
  trivial

theorem extendLog_keeps (A T : List Char) (m n d : Int) :
    ∀ (f : Nat) (Row : Int) (a : Access), a ∈ extendLog A T m n d f Row → a.keepsTable := by
  intro f
  induction f with
  | zero => intro Row a ha; cases ha
  | succ f ih =>
    intro Row a ha
    unfold extendLog at ha
    split at ha
    · rcases List.mem_cons.mp ha with ha | ha
      · subst ha; trivial
      rcases List.mem_cons.mp ha with ha | ha
      · subst ha; trivial
      split at ha
      · exact ih _ a ha
      · cases ha
    · cases ha

theorem scanPrefixLog_keeps (A T : List Char) (shorter : Int) :
    ∀ (f : Nat) (Row : Int) (a : Access), a ∈ scanPrefixLog A T shorter f Row →
      a.keepsTable := by
  intro f
  induction f with
  | zero => intro Row a ha; cases ha
  | succ f ih =>
    intro Row a ha
    unfold scanPrefixLog at ha
    split at ha
    · rcases List.mem_cons.mp ha with ha | ha
      · subst ha; trivial
      rcases List.mem_cons.mp ha with ha | ha
      · subst ha; trivial
      split at ha
      · exact ih _ a ha
      · cases ha
    · cases ha

theorem cellRowLog_keeps (A T : List Char) (m n : Int) (D : Nat → Int → Int) (k : Nat) (d : Int)
    (a : Access) (ha : a ∈ cellRowLog A T m n D k d) : a.keepsTable := by
  unfold cellRowLog at ha
  simp only [] at ha
  rcases List.mem_cons.mp ha with ha | ha
  · subst ha; trivial
  rcases List.mem_cons.mp ha with ha | ha
  · subst ha; trivial
  rcases List.mem_cons.mp ha with ha | ha
  · subst ha; trivial
  exact extendLog_keeps A T m n d _ _ a ha

theorem pruneRightPosLog_keeps (e : Nat) (row : Int → Int) (limit : Int) :
    ∀ (f : Nat) (Right : Int) (a : Access), a ∈ pruneRightPosLog e row limit f Right →
      a.keepsTable := by
  intro f
  induction f with
  | zero => intro Right a ha; cases ha
  | succ f ih =>
    intro Right a ha
    unfold pruneRightPosLog at ha
    split at ha
    · rcases List.mem_cons.mp ha with ha | ha
      · subst ha; trivial
      split at ha
      · exact ih _ a ha
      · cases ha
    · cases ha

theorem pruneRightNegLog_keeps (e : Nat) (row : Int → Int) (limit : Int) :
    ∀ (f : Nat) (Right : Int) (a : Access), a ∈ pruneRightNegLog e row limit f Right →
      a.keepsTable := by
  intro f
  induction f with
  | zero => intro Right a ha; cases ha
  | succ f ih =>
    intro Right a ha
    unfold pruneRightNegLog at ha
    rcases List.mem_cons.mp ha with ha | ha
    · subst ha; trivial
    split at ha
    · exact ih _ a ha
    · cases ha

theorem pruneRightLog_keeps (e : Nat) (row : Int → Int) (limit Left Right : Int) (a : Access)
    (ha : a ∈ pruneRightLog e row limit Left Right) : a.keepsTable := by
  unfold pruneRightLog at ha
  rcases List.mem_append.mp ha with ha | ha
  · exact pruneRightPosLog_keeps e row limit _ _ a ha
  · simp only [] at ha
    split at ha
    · exact pruneRightNegLog_keeps e row limit _ _ a ha
    · cases ha

theorem Compute_DeltaLog_keeps (WA : pedWorkArea_t) (e : Nat) (d row : Int) (a : Access)
    (ha : a ∈ Compute_DeltaLog WA e d row) : a.keepsTable := by
  rcases Compute_DeltaLog_stack WA e d row a ha with ⟨r, c, h1, _⟩ | ⟨i, h1, _⟩ | ⟨i, h1, _⟩ |
      ⟨i, h1, _⟩ <;> subst h1 <;> trivial

/-- The table that the diagonal loop hands on is the table it was given with
its logged writes applied. -/
theorem fillRow_replay (A T : List Char) (m n Max : Int) (k : Nat) (Right : Int) :
    ∀ (f : Nat) (d : Int) (D : Nat → Int → Int),
      (∀ d2 Row D2, fillRow A T m n Max k Right f d D = .ok (.hitEnd d2 Row D2) →
        replay (fillRowLog A T m n Max k Right f d D) D = D2) ∧
      (∀ D2, fillRow A T m n Max k Right f d D = .ok (.filled D2) →
        replay (fillRowLog A T m n Max k Right f d D) D = D2) := by
  intro f
  induction f with
  | zero =>
    intro d D
    simp only [fillRow, fillRowLog]
    refine ⟨fun d2 Row D2 h => (by cases h), fun D2 h => ?_⟩
    injection h with h
    injection h with h
  | succ f ih =>
    intro d D
    have hk : (((k + 1 : Nat) : Int)).toNat = k + 1 := Int.toNat_ofNat _
    unfold fillRow fillRowLog
    by_cases hd : d ≤ Right
    · rw [if_pos hd, if_pos hd]
      simp only []
      rw [replay_append, replay_keeps _ D (cellRowLog_keeps A T m n D k d)]
      by_cases hmax : ((k + 1 : Nat) : Int) < Max
      · rw [if_pos hmax, if_pos hmax]
        simp only [replay, hk]
        by_cases hhit : cellRow A T m n D k d = m ∨ cellRow A T m n D k d + d = n
        · rw [if_pos hhit, if_pos hhit, replay_append]
          have hreads : replay (if cellRow A T m n D k d = m then
              [Access.cellR k (d + 1), Access.cellR ((k + 1 : Nat) : Int) d] else [])
              (setCell D (k + 1) d (cellRow A T m n D k d)) =
              setCell D (k + 1) d (cellRow A T m n D k d) := by
            split <;> rfl
          rw [hreads]
          by_cases htie : cellRow A T m n D k d = m ∧
              1 + setCell D (k + 1) d (cellRow A T m n D k d) k (d + 1) =
                setCell D (k + 1) d (cellRow A T m n D k d) (k + 1) d ∧ d < Right
          · rw [if_pos htie, if_pos htie]
            simp only [replay, hk]
            refine ⟨fun d2 Row D2 h => ?_, fun D2 h => (by cases h)⟩
            injection h with h
            injection h with _ _ h
          · rw [if_neg htie, if_neg htie]
            simp only [replay]
            refine ⟨fun d2 Row D2 h => ?_, fun D2 h => (by cases h)⟩
            injection h with h
            injection h with _ _ h
        · rw [if_neg hhit, if_neg hhit]
          exact ih (d + 1) _
      · rw [if_neg hmax, if_neg hmax]
        exact ⟨fun d2 Row D2 h => (by cases h), fun D2 h => (by cases h)⟩
    · rw [if_neg hd, if_neg hd]
      simp only [replay]
      refine ⟨fun d2 Row D2 h => (by cases h), fun D2 h => ?_⟩
      injection h with h
      injection h with h

/-- The table in the work area that the level loop hands back is the table it
started from with the logged writes applied. -/
theorem levels_replay (A T : List Char) (m n E : Int) (WA : pedWorkArea_t) :
    ∀ (f e : Nat) (s : LoopState) (D : Nat → Int → Int) (r : Result),
      levels A T m n E WA f e s D = .ok r →
      r.WA.Edit_Array_Lazy = replay (levelsLog A T m n E WA f e s D) D := by
  intro f
  induction f with
  | zero =>
    intro e s D r h
    simp only [levels] at h
    injection h with h
    subst h
    simp only [levelsLog]
    rw [replay_keeps _ D (Compute_DeltaLog_keeps _ _ _ _)]
    rfl
  | succ f ih =>
    intro e s D r h
    have hk : ((e : Int) - 1).toNat = e - 1 := by omega
    by_cases hle : (e : Int) ≤ E
    · simp only [levels, if_pos hle] at h
      simp only [levelsLog, if_pos hle, replay, hk]
      rw [replay_append]
      have hopen : setCell (setCell (setCell (setCell D (e - 1) (max (s.Left - 1) (-(e : Int)))
          (-2)) (e - 1) (max (s.Left - 1) (-(e : Int)) - 1) (-2)) (e - 1)
          (min (s.Right + 1) (e : Int)) (-2)) (e - 1) (min (s.Right + 1) (e : Int) + 1) (-2) =
          openRow D (e - 1) (max (s.Left - 1) (-(e : Int))) (min (s.Right + 1) (e : Int)) := rfl
      rw [hopen]
      have hrep := fillRow_replay A T m n WA.Edit_Array_Max (e - 1) (min (s.Right + 1) (e : Int))
        (min (s.Right + 1) (e : Int) - max (s.Left - 1) (-(e : Int)) + 1).toNat
        (max (s.Left - 1) (-(e : Int)))
        (openRow D (e - 1) (max (s.Left - 1) (-(e : Int))) (min (s.Right + 1) (e : Int)))
      cases hfill : fillRow A T m n WA.Edit_Array_Max (e - 1) (min (s.Right + 1) (e : Int))
          (min (s.Right + 1) (e : Int) - max (s.Left - 1) (-(e : Int)) + 1).toNat
          (max (s.Left - 1) (-(e : Int)))
          (openRow D (e - 1) (max (s.Left - 1) (-(e : Int))) (min (s.Right + 1) (e : Int))) with
      | error x =>
        rw [hfill] at h
        cases h
      | ok o =>
        rw [hfill] at h
        cases o with
        | hitEnd d Row D2 =>
          simp only [] at h
          injection h with h
          subst h
          rw [hrep.1 d Row D2 hfill, replay_keeps _ D2 (Compute_DeltaLog_keeps _ _ _ _)]
          rfl
        | filled D2 =>
          simp only [] at h ⊢
          rw [hrep.2 D2 hfill, replay_append,
            replay_keeps _ D2 (fun a ha => readsRow_keeps _ _ _ a (pruneLeftLog_in _ _ _ _ _ a ha))]
          by_cases hcol : pruneLeft (D2 e) (WA.G.Edit_Match_Limit e)
              (min (s.Right + 1) (e : Int)) (max (s.Left - 1) (-(e : Int))) >
              min (s.Right + 1) (e : Int)
          · rw [if_pos hcol] at h ⊢
            injection h with h
            subst h
            rw [replay_keeps _ D2 (Compute_DeltaLog_keeps _ _ _ _)]
            rfl
          · rw [if_neg hcol] at h ⊢
            have hLR := not_lt.mp hcol
            have hstop := pruneLeft_stop _ _ _ _ hLR
            have hge := pruneRight_ge (D2 e) (WA.G.Edit_Match_Limit e) _ _ hLR hstop.1 hstop.2
            rw [if_pos hge] at h ⊢
            rw [replay_append, replay_keeps _ D2 (pruneRightLog_keeps _ _ _ _ _),
              replay_append,
              replay_keeps _ D2 (fun a ha =>
                readsRow_keeps _ _ _ a (scanLongestLog_in _ _ _ _ _ _ _ (le_refl _) a ha))]
            exact ih _ _ D2 r h
    · simp only [levels, if_neg hle] at h
      injection h with h
      subst h
      simp only [levelsLog, if_neg hle]
      rw [replay_keeps _ D (Compute_DeltaLog_keeps _ _ _ _)]
      rfl

/-- The table that a call leaves in the work area is the table it was given
with the logged writes applied in order. -/
theorem Prefix_Edit_Dist_replay (A T : List Char) (E : Int) (WA : pedWorkArea_t) (r : Result)
    (h : Prefix_Edit_Dist A T E WA = .ok r) :
    r.WA.Edit_Array_Lazy = replay (Prefix_Edit_DistLog A T E WA) WA.Edit_Array_Lazy := by
  simp only [Prefix_Edit_DistLog]
  rw [replay_append, replay_keeps _ _ (scanPrefixLog_keeps A T _ _ _)]
  simp only [replay, Int.toNat_zero]
  by_cases h0 : firstRow A T = min (A.length : Int) T.length
  · rw [Prefix_Edit_Dist_exact A T E WA h0] at h
    injection h with h
    subst h
    unfold firstRow at h0
    rw [if_pos h0]
    rfl
  · rw [Prefix_Edit_Dist_levels A T E WA h0] at h
    have := levels_replay A T A.length T.length E _ _ _ _ _ r h
    unfold firstRow at h0
    rw [if_neg h0]
    exact this

/-! ## The arena at the edge of `int32` -/

/-- The row loop for a block of `2^31 - 1` cells in an empty work area of
`46339` rows: the rows `0 .. 46337` are handed out without overflow; for row
`46338` the sum `Offset + Del = 2147441936 + 92682` overflows, the test
`Offset + Del < Size` passes and the row is handed out at centre
`2147441936`. -/
theorem assignRows_overflow :
    (assignRows 0 2147483647 46339 46339 2 6 0 (fun _ => none)).1 = 46339 ∧
    (assignRows 0 2147483647 46339 46339 2 6 0 (fun _ => none)).2 46338 =
      some (0, 2147441936) := by
  have hrun := assignRows_run 0 2147483647 46339 (by norm_num) 46338 1 2 6 0 (fun _ => none)
    (by norm_num) (by norm_num) (Or.inl (by norm_num)) (by norm_num)
  have e1 : (2 : Int) + ((46338 : Nat) : Int) * 6 + ((46338 : Nat) : Int) * (((46338 : Nat) : Int) - 1) =
      2147441936 := by norm_num
  have e2 : (6 : Int) + 2 * ((46338 : Nat) : Int) = 92682 := by norm_num
  rw [e1, e2] at hrun
  have hfuel : (46339 : Nat) = 1 + 46338 := by norm_num
  rw [hfuel, hrun]
  have hc : int32 (2147441936 + 92682) < 2147483647 ∧ ((0 + 46338 : Nat) : Int) < 46339 := by
    constructor
    · decide
    · norm_num
  rw [assignRows_succ 0 2147483647 46339 0 2147441936 92682 (0 + 46338) _ hc]
  simp [assignRows]

/-- The call for `EDIT_SPACE_SIZE = 2^31 - 1` on an empty work area of `46339`
rows returns: it allocates one block of `2^31 - 1` cells and hands out the
rows `0 .. 46338`, row `46338` at centre `2147441936`. -/
theorem Allocate_overflow :
    firstNull (emptySpace 46339).Edit_Array_Lazy (emptySpace 46339).Edit_Array_Max.toNat 0 = 0 ∧
    ∃ WA', Allocate_More_Edit_Space 2147483647 (emptySpace 46339) = some WA' ∧
      WA'.alloc = [2147483647] ∧ WA'.Edit_Array_Lazy 46338 = some (0, 2147441936) := by
  have hfirst : firstNull (emptySpace 46339).Edit_Array_Lazy
      (emptySpace 46339).Edit_Array_Max.toNat 0 = 0 :=
    firstNull_spec _ 0 rfl _ 0 (le_refl _) (by decide) (fun j j1 j2 => by omega)
  refine ⟨hfirst, ?_⟩
  obtain ⟨r1, r2⟩ := assignRows_overflow
  have hg : growSize 8 33 2147483647 = 2147483647 := by decide
  simp only [Allocate_More_Edit_Space]
  rw [hfirst]
  have e1 : int32 (2 + ((0 : Nat) : Int)) = 2 := by decide
  have e2 : int32 (6 + int32 (((0 : Nat) : Int) * 2)) = 6 := by decide
  have e3 : int32 ((2 : Int) + 6) = 8 := by decide
  have e4 : int32 2147483647 = 2147483647 := by decide
  have e5 : ((emptySpace 46339).Edit_Array_Max - ((0 : Nat) : Int)).toNat = 46339 := by decide
  have e6 : (emptySpace 46339).alloc.length = 0 := rfl
  have e7 : (emptySpace 46339).Edit_Array_Max = 46339 := rfl
  have e8 : (emptySpace 46339).Edit_Array_Lazy = fun _ => none := rfl
  rw [e1, e2, e3, e4, hg, e5, e6, e7, e8, if_neg (by decide), if_neg (by rw [r1]; decide)]
  have key : ∀ (rows : Nat → Option (Nat × Int)) (al : List Int) (M : Int),
      ({ Edit_Array_Lazy := rows, alloc := al, Edit_Array_Max := M } : editSpace).Edit_Array_Lazy =
        rows := fun _ _ _ => rfl
  refine ⟨_, rfl, List.nil_append _, ?_⟩
  rw [key]
  exact r2

/-! ## The claims -/

theorem charAt_take_eq (A T : List Char) (k : Nat) (h : A.take k = T.take k) (i : Int)
    (h0 : 0 ≤ i) (h1 : i < k) : charAt A i = charAt T i := by
  have hi : i.toNat < k := by omega
  have := congrArg (fun l => l.getD i.toNat default) h
  simp only [List.getD_eq_getElem?_getD, List.getElem?_take_of_lt hi] at this
  simpa [charAt, List.getD_eq_getElem?_getD] using this

/-- C1: if `A` and `T` agree on their first `min(m, n)` characters, then for
every `Error_Limit` and every work area (any tuning, any buffer contents)
`Prefix_Edit_Dist` returns `0` with `A_End = T_End = min(m, n)`,
`Match_To_End = true` and `deltaLen = 0`. -/
theorem C1_common_prefix (A T : List Char) (E : Int) (WA : pedWorkArea_t)
    (h : A.take (min A.length T.length) = T.take (min A.length T.length)) :
    ∃ r, Prefix_Edit_Dist A T E WA = .ok r ∧ r.errors = 0 ∧
      r.A_End = (min A.length T.length : Nat) ∧ r.T_End = (min A.length T.length : Nat) ∧
      r.Match_To_End = true ∧ r.WA.deltaLen = 0 := by
  have hfirst : firstRow A T = min (A.length : Int) T.length := by
    unfold firstRow
    apply scanPrefix_full A T _ _ _ 0 (le_refl _) (by omega) (by omega)
    intro i h0 h1
    exact charAt_take_eq A T _ h i h0 (by omega)
  refine ⟨_, Prefix_Edit_Dist_exact A T E WA hfirst, rfl, ?_, ?_, rfl, rfl⟩
  · show firstRow A T = _
    rw [hfirst]; omega
  · show firstRow A T = _
    rw [hfirst]; omega

theorem C1_common_prefix_witness :
    ("ACGT".toList.take (min "ACGT".toList.length "ACGTACGT".toList.length) =
      "ACGTACGT".toList.take (min "ACGT".toList.length "ACGTACGT".toList.length)) ∧
    ∃ r, Prefix_Edit_Dist "ACGT".toList "ACGTACGT".toList 3 exampleWA = .ok r ∧ r.errors = 0 ∧
      r.A_End = (min "ACGT".toList.length "ACGTACGT".toList.length : Nat) ∧
      r.T_End = (min "ACGT".toList.length "ACGTACGT".toList.length : Nat) ∧
      r.Match_To_End = true ∧ r.WA.deltaLen = 0 :=
  ⟨by decide, C1_common_prefix "ACGT".toList "ACGTACGT".toList 3 exampleWA (by decide)⟩

/-- C4, as stated, fails: on `A = AAAAAA`, `T = TTTTTT`, `Error_Limit = 2` the
level loop runs through level `2` without an end match and the call returns
`e = 3 > Error_Limit` with `Match_To_End = false`. -/
theorem C4_counterexample :
    ∃ a, answer "AAAAAA".toList "TTTTTT".toList 2 exampleWA = .ok a ∧
      a.Match_To_End = false ∧ ¬ a.errors ≤ 2 :=
  ⟨⟨3, 0, 0, false, []⟩, by decide, by decide, by decide⟩

/-- C4, amended: on every valid input (`0 ≤ Error_Limit < Edit_Array_Max`) the
call returns, `0 ≤ errors ≤ Error_Limit + 1`, and `errors ≤ Error_Limit`
whenever `Match_To_End` is true. -/
theorem C4_errors_range (A T : List Char) (E : Int) (WA : pedWorkArea_t)
    (hE0 : 0 ≤ E) (hE : E < WA.Edit_Array_Max) :
    ∃ r, Prefix_Edit_Dist A T E WA = .ok r ∧ 0 ≤ r.errors ∧ r.errors ≤ E + 1 ∧
      (r.Match_To_End = true → r.errors ≤ E) := by
  rcases Prefix_Edit_Dist_run A T E WA hE with ⟨_, h⟩ | ⟨_, e, s, D, r, hreach, hinv, hfin, h⟩
  · exact ⟨_, h, le_refl _, by show (0 : Int) ≤ E + 1; omega, fun _ => hE0⟩
  · refine ⟨r, h, ?_⟩
    have hle := hreach.level_le
    rcases hfin with ⟨h1, h2⟩ | ⟨h1, d, Row, D2, _, h2⟩ | ⟨h1, D2, _, _, h2⟩
    · subst h2
      refine ⟨by show (0 : Int) ≤ (e : Int); omega, by show (e : Int) ≤ E + 1; omega, ?_⟩
      intro hm; cases hm
    · subst h2
      exact ⟨by show (0 : Int) ≤ (e : Int); omega, by show (e : Int) ≤ E + 1; omega,
        fun _ => h1⟩
    · subst h2
      refine ⟨by show (0 : Int) ≤ (e : Int); omega, by show (e : Int) ≤ E + 1; omega, ?_⟩
      intro hm; cases hm

theorem C4_errors_range_witness :
    ((0 : Int) ≤ 2 ∧ (2 : Int) < exampleWA.Edit_Array_Max) ∧
    ∃ r, Prefix_Edit_Dist "AAAAAA".toList "TTTTTT".toList 2 exampleWA = .ok r ∧ 0 ≤ r.errors ∧
      r.errors ≤ 2 + 1 ∧ (r.Match_To_End = true → r.errors ≤ 2) :=
  ⟨⟨by decide, by decide⟩,
    C4_errors_range "AAAAAA".toList "TTTTTT".toList 2 exampleWA (by decide) (by decide)⟩

/-- C5: on every valid input (`Error_Limit < Edit_Array_Max`) the call returns
and, whatever the outcome (exact prefix, end match with or without the
tie-break adjustment, branch point), `0 ≤ A_End ≤ m` and `0 ≤ T_End ≤ n`. -/
theorem C5_end_positions (A T : List Char) (E : Int) (WA : pedWorkArea_t)
    (hE : E < WA.Edit_Array_Max) :
    ∃ r, Prefix_Edit_Dist A T E WA = .ok r ∧ 0 ≤ r.A_End ∧ r.A_End ≤ A.length ∧
      0 ≤ r.T_End ∧ r.T_End ≤ T.length := by
  rcases Prefix_Edit_Dist_run A T E WA hE with ⟨h0, h⟩ | ⟨_, e, s, D, r, hreach, hinv, hfin, h⟩
  · refine ⟨_, h, ?_⟩
    show 0 ≤ firstRow A T ∧ firstRow A T ≤ A.length ∧ 0 ≤ firstRow A T ∧ firstRow A T ≤ T.length
    rw [h0]; omega
  · refine ⟨r, h, ?_⟩
    obtain ⟨k, B, he, hH, hb, hcase⟩ := hfin.info hinv
    have hbb := hb.bounds hH
    rcases hcase with ⟨_, h2⟩ | ⟨_, d, Row, D2, hfill, h2⟩ | ⟨_, D2, _, h2⟩
    · subst h2; exact hbb
    · subst h2
      have := hH.hit_bounds _ d Row D2 hfill
      exact ⟨this.1, this.2.1, this.2.2.1, this.2.2.2.1⟩
    · subst h2; exact hbb

theorem C5_end_positions_witness :
    ((1 : Int) < exampleWA.Edit_Array_Max) ∧
    ∃ r, Prefix_Edit_Dist "ACGT".toList "ACCGT".toList 1 exampleWA = .ok r ∧ 0 ≤ r.A_End ∧
      r.A_End ≤ "ACGT".toList.length ∧ 0 ≤ r.T_End ∧ r.T_End ≤ "ACCGT".toList.length :=
  ⟨by decide, C5_end_positions "ACGT".toList "ACCGT".toList 1 exampleWA (by decide)⟩

/-- C6: on every valid input the call returns and, if `Match_To_End` is set,
then `A_End = m` or `T_End = n`, also when the tie-break rule advanced `d`
before the end positions were stored. -/
theorem C6_match_reaches_end (A T : List Char) (E : Int) (WA : pedWorkArea_t)
    (hE : E < WA.Edit_Array_Max) :
    ∃ r, Prefix_Edit_Dist A T E WA = .ok r ∧
      (r.Match_To_End = true → r.A_End = A.length ∨ r.T_End = T.length) := by
  rcases Prefix_Edit_Dist_run A T E WA hE with ⟨h0, h⟩ | ⟨_, e, s, D, r, hreach, hinv, hfin, h⟩
  · refine ⟨_, h, fun _ => ?_⟩
    show firstRow A T = A.length ∨ firstRow A T = T.length
    rw [h0]; omega
  · refine ⟨r, h, ?_⟩
    obtain ⟨k, B, he, hH, hb, hcase⟩ := hfin.info hinv
    rcases hcase with ⟨_, h2⟩ | ⟨_, d, Row, D2, hfill, h2⟩ | ⟨_, D2, _, h2⟩
    · subst h2; intro hm; cases hm
    · subst h2
      intro _
      exact (hH.hit_bounds _ d Row D2 hfill).2.2.2.2.1
    · subst h2; intro hm; cases hm

theorem C6_match_reaches_end_witness :
    ((1 : Int) < exampleWA.Edit_Array_Max) ∧
    ∃ r, Prefix_Edit_Dist "ACGT".toList "ACCGT".toList 1 exampleWA = .ok r ∧
      (r.Match_To_End = true →
        r.A_End = "ACGT".toList.length ∨ r.T_End = "ACCGT".toList.length) :=
  ⟨by decide, C6_match_reaches_end "ACGT".toList "ACCGT".toList 1 exampleWA (by decide)⟩

/-- C7, as stated, fails: on `A = ACGT`, `T = AGGT`, `Error_Limit = 1` the call
returns `errors = 1` (one substitution) and an empty delta script. -/
theorem C7_counterexample :
    ∃ a, answer "ACGT".toList "AGGT".toList 1 exampleWA = .ok a ∧
      a.errors = 1 ∧ a.delta.length = 0 :=
  ⟨⟨1, 4, 4, true, []⟩, by decide, by decide, by decide⟩

/-- C7, amended: on every valid input the call returns with
`0 ≤ deltaLen ≤ errors`; after an end match `deltaLen` is `errors` minus the
number of traceback steps that stay on their diagonal (the substitutions, for
which `Compute_Delta` pushes no entry). -/
theorem C7_delta_length (A T : List Char) (E : Int) (WA : pedWorkArea_t)
    (hE : E < WA.Edit_Array_Max) :
    ∃ r, Prefix_Edit_Dist A T E WA = .ok r ∧ 0 ≤ r.WA.deltaLen ∧ r.WA.deltaLen ≤ r.errors ∧
      (r.Match_To_End = true →
        r.WA.deltaLen +
          (traceSubs r.WA.Edit_Array_Lazy r.errors.toNat (r.T_End - r.A_End) : Nat) =
          r.errors) := by
  rcases Prefix_Edit_Dist_run A T E WA hE with ⟨h0, h⟩ | ⟨_, e, s, D, r, hreach, hinv, hfin, h⟩
  · exact ⟨_, h, le_refl _, le_refl _, fun _ => rfl⟩
  · refine ⟨r, h, ?_⟩
    obtain ⟨k, B, he, hH, hb, hcase⟩ := hfin.info hinv
    have hbe := hb.1
    have bp : ∀ (W : pedWorkArea_t) (D2 : Nat → Int → Int),
        0 ≤ (branchPoint W e s D2).WA.deltaLen ∧
        (branchPoint W e s D2).WA.deltaLen ≤ (branchPoint W e s D2).errors := by
      intro W D2
      simp only [branchPoint, deltaLen_Compute_Delta]
      have := traceSteps_length D2 s.Max_Score_Best_e s.Max_Score_Best_d s.Max_Score_Len
      constructor
      · omega
      · omega
    rcases hcase with ⟨_, h2⟩ | ⟨_, d, Row, D2, hfill, h2⟩ | ⟨_, D2, _, h2⟩
    · subst h2
      exact ⟨(bp _ D).1, (bp _ D).2, fun hm => by cases hm⟩
    · subst h2
      simp only [endMatch, deltaLen_Compute_Delta, table_Compute_Delta]
      have := traceSteps_length D2 e d Row
      have e1 : Row + d - Row = d := by omega
      rw [Int.toNat_ofNat, e1]
      refine ⟨by omega, by omega, fun _ => by omega⟩
    · subst h2
      exact ⟨(bp _ D2).1, (bp _ D2).2, fun hm => by cases hm⟩

theorem C7_delta_length_witness :
    ((1 : Int) < exampleWA.Edit_Array_Max) ∧
    ∃ r, Prefix_Edit_Dist "ACGT".toList "AGGT".toList 1 exampleWA = .ok r ∧
      0 ≤ r.WA.deltaLen ∧ r.WA.deltaLen ≤ r.errors ∧
      (r.Match_To_End = true →
        r.WA.deltaLen +
          (traceSubs r.WA.Edit_Array_Lazy r.errors.toNat (r.T_End - r.A_End) : Nat) =
          r.errors) :=
  ⟨by decide, C7_delta_length "ACGT".toList "AGGT".toList 1 exampleWA (by decide)⟩

/-- C10: determinism under reuse of the work area.  For every `A`, `T`,
`Error_Limit`, tuning and `Edit_Array_Max`, two calls that start from any two
contents of the diagonal table, the delta stack, the delta buffer and
`deltaLen` give the same outcome: the same abort, or the same
`(errors, A_End, T_End, Match_To_End)` and the same `delta[0 .. deltaLen)`.
No cell is read before the call has written it. -/
theorem C10_work_area_reuse (A T : List Char) (E : Int) (WA : pedWorkArea_t)
    (D' : Nat → Int → Int) (stack' delta' : Nat → Int) (len' : Int) :
    answer A T E { WA with Edit_Array_Lazy := D', deltaStack := stack', delta := delta'
                           deltaLen := len' } = answer A T E WA :=
  answer_reuse A T E WA D' stack' delta' len'

/-- C8: single mismatch.  If `m ≤ n` and `A` and `T` agree on the positions
`0 .. m-1` except at exactly one position `k < m`, then for every
`Error_Limit ≥ 1` (below `Edit_Array_Max`) and every work area the call returns
`errors = 1` with `Match_To_End = true` and `A_End = m`. -/
theorem C8_single_mismatch (A T : List Char) (E : Int) (WA : pedWorkArea_t) (k : Nat)
    (hmn : A.length ≤ T.length) (hk : k < A.length)
    (hone : ∀ i, i < A.length → (A[i]? = T[i]? ↔ i ≠ k))
    (hE1 : 1 ≤ E) (hE : E < WA.Edit_Array_Max) :
    ∃ r, Prefix_Edit_Dist A T E WA = .ok r ∧ r.errors = 1 ∧ r.Match_To_End = true ∧
      r.A_End = A.length := by
  have hchar : ∀ i : Int, 0 ≤ i → i < A.length → (charAt A i = charAt T i ↔ i ≠ k) := by
    intro i h0 h1
    have hi : i = ((i.toNat : Nat) : Int) := by omega
    rw [hi, charAt_eq_iff A T i.toNat (by omega) (by omega), hone i.toNat (by omega)]
    omega
  have hfirst : firstRow A T = k :=
    firstRow_eq A T k (by omega) (by omega)
      (fun i h0 h1 => (hchar i h0 (by omega)).2 (by omega))
      (fun h => (hchar k (by omega) (by omega)).1 h rfl)
  have hne : firstRow A T ≠ min (A.length : Int) T.length := by rw [hfirst]; omega
  obtain ⟨f, hf⟩ : ∃ f, E.toNat = f + 1 := ⟨E.toNat - 1, by omega⟩
  rw [Prefix_Edit_Dist_levels A T E WA hne, hf, hfirst]
  have hD0 : setCell WA.Edit_Array_Lazy 0 0 (k : Int) 0 0 = k := setCell_same _ _ _ _
  have hcell := first_cell A T A.length T.length (setCell WA.Edit_Array_Lazy 0 0 (k : Int))
  rw [hD0] at hcell
  have hc0 : cellRow A T A.length T.length
      (openRow (setCell WA.Edit_Array_Lazy 0 0 (k : Int)) 0 (-1) 1) 0 0 = A.length := by
    rw [hcell 0 (by omega), if_pos (Or.inr rfl)]
    apply extend_full A T _ _ 0 (k + 1) _ _ _ (le_refl _) (by omega) (le_refl _)
    intro i h0 h1
    refine ⟨by omega, ?_⟩
    rw [Int.add_zero]
    exact (hchar i (by omega) h1).2 (by omega)
  have hcm : cellRow A T A.length T.length
      (openRow (setCell WA.Edit_Array_Lazy 0 0 (k : Int)) 0 (-1) 1) 0 (-1) ≤ A.length := by
    rw [hcell (-1) (by omega), if_pos (Or.inl rfl)]
    exact (extend_le A T _ _ (-1) _ _ (by omega) (by omega)).1
  have hmax : ((0 + 1 : Nat) : Int) < { WA with deltaLen := 0 }.Edit_Array_Max := by
    show ((0 + 1 : Nat) : Int) < WA.Edit_Array_Max
    push_cast; omega
  rcases fillRow_spec A T A.length T.length { WA with deltaLen := 0 }.Edit_Array_Max 0 1 hmax
      3 (-1) (openRow (setCell WA.Edit_Array_Lazy 0 0 (k : Int)) 0 (-1) 1) (by decide) with
    ⟨_, h2⟩ | ⟨d0, a1, a2, a3, a4, a5⟩
  · exfalso
    exact h2 0 (by omega) (by omega) (Or.inl hc0)
  · have hd0 : d0 = -1 ∨ d0 = 0 := by
      by_contra hcon
      exact a4 0 (by omega) (by omega) (Or.inl hc0)
    have hrow : cellRow A T A.length T.length
        (openRow (setCell WA.Edit_Array_Lazy 0 0 (k : Int)) 0 (-1) 1) 0 d0 = A.length := by
      rcases hd0 with h | h
      · subst h
        rcases a3 with h3 | h3
        · exact h3
        · omega
      · subst h; exact hc0
    rcases a5 with ⟨_, h5⟩ | ⟨_, h5⟩
    · rw [first_level_hit A T _ _ E _ f _ hE1 _ _ _ h5]
      exact ⟨_, rfl, rfl, rfl, hrow⟩
    · rw [first_level_hit A T _ _ E _ f _ hE1 _ _ _ h5]
      exact ⟨_, rfl, rfl, rfl, hrow⟩

theorem C8_single_mismatch_witness :
    ("ACGT".toList.length ≤ "AGGT".toList.length ∧ 1 < "ACGT".toList.length ∧
      (∀ i, i < "ACGT".toList.length → ("ACGT".toList[i]? = "AGGT".toList[i]? ↔ i ≠ 1)) ∧
      (1 : Int) ≤ 1 ∧ (1 : Int) < exampleWA.Edit_Array_Max) ∧
    ∃ r, Prefix_Edit_Dist "ACGT".toList "AGGT".toList 1 exampleWA = .ok r ∧ r.errors = 1 ∧
      r.Match_To_End = true ∧ r.A_End = "ACGT".toList.length :=
  ⟨⟨by decide, by decide, by decide, by decide, by decide⟩,
    C8_single_mismatch "ACGT".toList "AGGT".toList 1 exampleWA 1 (by decide) (by decide)
      (by decide) (by decide) (by decide)⟩

/-- C9: single insertion.  For `A = ACGT`, `T = ACCGT`, `Error_Limit = 1`, every
tuning and every contents of the buffers (with `1 < Edit_Array_Max`) the call
returns `(1, 4, 5, true)` and the delta script is the single negative entry
`-3`: two matches, then one character inserted into `A`. -/
theorem C9_single_insertion (WA : pedWorkArea_t) (hmax : 1 < WA.Edit_Array_Max) :
    answer "ACGT".toList "ACCGT".toList 1 WA =
      .ok { errors := 1, A_End := 4, T_End := 5, Match_To_End := true, delta := [-3] } := by
  have hreuse := answer_reuse "ACGT".toList "ACCGT".toList 1
    { Edit_Array_Lazy := fun _ _ => 0, Edit_Array_Max := WA.Edit_Array_Max
      deltaStack := fun _ => 0, delta := fun _ => 0, deltaLen := 0, G := WA.G }
    WA.Edit_Array_Lazy WA.deltaStack WA.delta WA.deltaLen
  have hWA : ({ Edit_Array_Lazy := WA.Edit_Array_Lazy, Edit_Array_Max := WA.Edit_Array_Max
                deltaStack := WA.deltaStack, delta := WA.delta, deltaLen := WA.deltaLen
                G := WA.G } : pedWorkArea_t) = WA := rfl
  rw [hWA] at hreuse
  rw [hreuse]
  unfold answer
  rw [Prefix_Edit_Dist_levels _ _ _ _ (by decide)]
  have hk : ((0 + 1 : Nat) : Int) < WA.Edit_Array_Max := by push_cast; omega
  rcases fillRow_spec "ACGT".toList "ACCGT".toList "ACGT".toList.length "ACCGT".toList.length
      WA.Edit_Array_Max 0 1 hk 3 (-1)
      (openRow (setCell (fun _ _ => 0) 0 0 (firstRow "ACGT".toList "ACCGT".toList)) 0 (-1) 1)
      (by decide) with ⟨_, h2⟩ | ⟨d0, a1, a2, a3, a4, a5⟩
  · exfalso
    exact h2 1 (by decide) (by decide) (by decide)
  · have hd0 : d0 = 1 := by
      have : d0 = -1 ∨ d0 = 0 ∨ d0 = 1 := by omega
      rcases this with h | h | h
      · subst h; exact absurd a3 (by decide)
      · subst h; exact absurd a3 (by decide)
      · exact h
    subst hd0
    rcases a5 with ⟨_, h5⟩ | ⟨⟨_, _, t3⟩, _⟩
    · have hlev := first_level_hit "ACGT".toList "ACCGT".toList "ACGT".toList.length
        "ACCGT".toList.length 1
        { Edit_Array_Lazy := fun _ _ => 0, Edit_Array_Max := WA.Edit_Array_Max
          deltaStack := fun _ => 0, delta := fun _ => 0, deltaLen := 0, G := WA.G }
        0 (setCell (fun _ _ => 0) 0 0 (firstRow "ACGT".toList "ACCGT".toList))
        (le_refl _) _ _ _ h5
      have h1 : (1 : Int).toNat = 0 + 1 := rfl
      rw [h1]
      rw [hlev]
      show Except.ok _ = Except.ok _
      rw [answer_endMatch]
      decide
    · omega

theorem C9_single_insertion_witness :
    ((1 : Int) < exampleWA.Edit_Array_Max) ∧
    answer "ACGT".toList "ACCGT".toList 1 exampleWA =
      .ok { errors := 1, A_End := 4, T_End := 5, Match_To_End := true, delta := [-3] } :=
  ⟨by decide, C9_single_insertion exampleWA (by decide)⟩

/-- C3, as stated, fails: on `A = ACGT`, `T = AGGT`, `Error_Limit = 1` the call
returns `(1, 4, 4, true)` with an empty delta script, and applying the empty
script to `A[0 .. 4)` gives `ACGT`, not `T[0 .. 4) = AGGT`: the substitution is
counted in `errors` but has no entry in the script. -/
theorem C3_counterexample :
    ∃ a, answer "ACGT".toList "AGGT".toList 1 exampleWA = .ok a ∧ a.errors = 1 ∧
      a.delta.length = 0 ∧
      applyDelta a.delta ("ACGT".toList.take a.A_End.toNat) ("AGGT".toList.take a.T_End.toNat) ≠
        some ("AGGT".toList.take a.T_End.toNat) :=
  ⟨⟨1, 4, 4, true, []⟩, by decide, by decide, by decide, by decide⟩

/-- C3, amended: on every valid input the call returns, and the emitted delta
script applies to `A[0 .. A_End)` (a positive entry copies `|v| - 1` characters
and deletes one character of `A`, a negative entry copies `|v| - 1` characters
and inserts the next character of `T`, then the rest is copied) and produces a
string of length `T_End` that differs from `T[0 .. T_End)` in at most
`errors - deltaLen` positions, and in exactly `errors - deltaLen` positions
after an end match: these are the substitutions, which the script does not
record. -/
theorem C3_delta_applies (A T : List Char) (E : Int) (WA : pedWorkArea_t)
    (hE : E < WA.Edit_Array_Max) :
    ∃ r out, Prefix_Edit_Dist A T E WA = .ok r ∧
      applyDelta (script r.WA) (A.take r.A_End.toNat) (T.take r.T_End.toNat) = some out ∧
      out.length = r.T_End.toNat ∧
      hamming out (T.take r.T_End.toNat) + r.WA.deltaLen ≤ r.errors ∧
      (r.Match_To_End = true →
        hamming out (T.take r.T_End.toNat) + r.WA.deltaLen = r.errors) := by
  obtain ⟨r, h, out, h1, h2, h3, h4⟩ := delta_valid A T E WA hE
  exact ⟨r, out, h, h1, h2, h3, h4⟩

theorem C3_delta_applies_witness :
    ((1 : Int) < exampleWA.Edit_Array_Max) ∧
    ∃ r out, Prefix_Edit_Dist "ACGT".toList "ACCGT".toList 1 exampleWA = .ok r ∧
      applyDelta (script r.WA) ("ACGT".toList.take r.A_End.toNat)
        ("ACCGT".toList.take r.T_End.toNat) = some out ∧
      out.length = r.T_End.toNat ∧
      hamming out ("ACCGT".toList.take r.T_End.toNat) + r.WA.deltaLen ≤ r.errors ∧
      (r.Match_To_End = true →
        hamming out ("ACCGT".toList.take r.T_End.toNat) + r.WA.deltaLen = r.errors) :=
  ⟨by decide, C3_delta_applies "ACGT".toList "ACCGT".toList 1 exampleWA (by decide)⟩

/-- C2, as stated, fails: on `A = AB`, `T = CA`, `Error_Limit = 2` with a
tuning that never prunes, the whole of `A` is at edit distance 2 from every
prefix of `T` (so the minimum `k = 2` is within `Error_Limit`), yet the call
returns `errors = 1` with `Match_To_End = true`, `A_End = 1`, `T_End = 2`: the
alignment of `A[0 .. 1)` with the whole of `T` ended the search at level 1. -/
theorem C2_counterexample :
    (2 : Int) < exampleWA.Edit_Array_Max ∧
    (∀ e, exampleWA.G.Edit_Match_Limit e ≤ 0) ∧
    (∀ j, j ≤ "CA".toList.length → ped "AB".toList "CA".toList "AB".toList.length j = 2) ∧
    answer "AB".toList "CA".toList 2 exampleWA =
      .ok { errors := 1, A_End := 1, T_End := 2, Match_To_End := true, delta := [-1] } :=
  ⟨by decide, fun _ => le_refl _, by decide, by decide⟩

/-- C2, amended: when the tuning never prunes (`Edit_Match_Limit ≤ 0`
everywhere) and some prefix of `A` and some prefix of `T`, one of them a whole
string, are within `Error_Limit` edits of each other (in particular when the
whole of `A` is within `Error_Limit` edits of a prefix of `T`), the call
returns `Match_To_End = true`, the end positions `(A_End, T_End)` are such a
pair, `errors` is the edit distance between `A[0 .. A_End)` and
`T[0 .. T_End)`, and no such pair is at a smaller distance: `errors` is the
minimum over the alignments that reach the end of at least one string. -/
theorem C2_least_end_distance (A T : List Char) (E : Int) (WA : pedWorkArea_t)
    (hE : E < WA.Edit_Array_Max) (hG : ∀ e, WA.G.Edit_Match_Limit e ≤ 0)
    (i j : Nat) (hi : i ≤ A.length) (hj : j ≤ T.length)
    (hend : i = A.length ∨ j = T.length) (hp : (ped A T i j : Int) ≤ E) :
    ∃ r, Prefix_Edit_Dist A T E WA = .ok r ∧ r.Match_To_End = true ∧
      0 ≤ r.A_End ∧ r.A_End ≤ A.length ∧ 0 ≤ r.T_End ∧ r.T_End ≤ T.length ∧
      (r.A_End = A.length ∨ r.T_End = T.length) ∧
      (ped A T r.A_End.toNat r.T_End.toNat : Int) = r.errors ∧
      ∀ a b : Nat, a ≤ A.length → b ≤ T.length → (a = A.length ∨ b = T.length) →
        r.errors ≤ (ped A T a b : Int) :=
  optimal_end A T E WA hE hG i j hi hj hend hp

theorem C2_least_end_distance_witness :
    ((2 : Int) < exampleWA.Edit_Array_Max ∧ (∀ e, exampleWA.G.Edit_Match_Limit e ≤ 0) ∧
      2 ≤ "AB".toList.length ∧ 2 ≤ "CA".toList.length ∧
      (2 = "AB".toList.length ∨ 2 = "CA".toList.length) ∧
      (ped "AB".toList "CA".toList 2 2 : Int) ≤ 2) ∧
    ∃ r, Prefix_Edit_Dist "AB".toList "CA".toList 2 exampleWA = .ok r ∧
      r.Match_To_End = true ∧
      0 ≤ r.A_End ∧ r.A_End ≤ "AB".toList.length ∧ 0 ≤ r.T_End ∧
      r.T_End ≤ "CA".toList.length ∧
      (r.A_End = "AB".toList.length ∨ r.T_End = "CA".toList.length) ∧
      (ped "AB".toList "CA".toList r.A_End.toNat r.T_End.toNat : Int) = r.errors ∧
      ∀ a b : Nat, a ≤ "AB".toList.length → b ≤ "CA".toList.length →
        (a = "AB".toList.length ∨ b = "CA".toList.length) →
        r.errors ≤ (ped "AB".toList "CA".toList a b : Int) :=
  ⟨⟨by decide, fun _ => le_refl _, by decide, by decide, by decide, by decide⟩,
    C2_least_end_distance "AB".toList "CA".toList 2 exampleWA (by decide) (fun _ => le_refl _)
      2 2 (by decide) (by decide) (by decide) (by decide)⟩

/-- C11: the forward-progress assertion `assert(e != b)` fails on a valid
input.  With `EDIT_SPACE_SIZE = 8` and a work area in which no row is assigned
yet (`b = 0 < Edit_Array_Max = 64`), `Offset + Del = 2 + 6 = 8`: the doubling
loop `while (Size < Offset + Del)` accepts `Size = 8`, the row loop
`while (Offset + Del < Size ...)` refuses it, no row is handed out and the
call aborts. -/
theorem C11_no_progress :
    (1 : Int) ≤ 8 ∧
    firstNull (emptySpace 64).Edit_Array_Lazy (emptySpace 64).Edit_Array_Max.toNat 0 = 0 ∧
    (0 : Int) < (emptySpace 64).Edit_Array_Max ∧
    growSize (2 + 0 + (6 + 0 * 2)) (2 + 0 + (6 + 0 * 2) : Int).toNat 8 = 8 ∧
    (assignRows 0 8 64 8 2 6 0 (emptySpace 64).Edit_Array_Lazy).1 = 0 ∧
    (Allocate_More_Edit_Space 8 (emptySpace 64)).isNone = true :=
  ⟨by decide, by decide, by decide, by decide, by decide, by decide⟩

/-- C12: for every `A`, `T`, `Error_Limit` and every tuning that never prunes
(`Edit_Match_Limit ≤ 0` everywhere): if the call returns `Match_To_End = true`
then `errors` is the minimum of the edit distance between `A[0 .. i)` and
`T[0 .. j)` over the pairs `(i, j)` with `i = m` or `j = n` (it is the distance
of the pair `(A_End, T_End)`, which is such a pair, and a lower bound for all of
them); and on a valid input (`Error_Limit < Edit_Array_Max`) the call returns
`Match_To_End = true` whenever some such pair is within `Error_Limit`. -/
theorem C12_end_match_optimal (A T : List Char) (E : Int) (WA : pedWorkArea_t)
    (hG : ∀ e, WA.G.Edit_Match_Limit e ≤ 0) :
    (∀ r, Prefix_Edit_Dist A T E WA = .ok r → r.Match_To_End = true →
      (0 ≤ r.A_End ∧ r.A_End ≤ A.length ∧ 0 ≤ r.T_End ∧ r.T_End ≤ T.length ∧
        (r.A_End = A.length ∨ r.T_End = T.length) ∧
        (ped A T r.A_End.toNat r.T_End.toNat : Int) = r.errors ∧
        ∀ a b : Nat, a ≤ A.length → b ≤ T.length → (a = A.length ∨ b = T.length) →
          r.errors ≤ (ped A T a b : Int))) ∧
    (E < WA.Edit_Array_Max → ∀ i j : Nat, i ≤ A.length → j ≤ T.length →
      (i = A.length ∨ j = T.length) → (ped A T i j : Int) ≤ E →
      ∃ r, Prefix_Edit_Dist A T E WA = .ok r ∧ r.Match_To_End = true) := by
  refine ⟨fun r h hm => end_match_least A T E WA hG r h hm, ?_⟩
  intro hE i j hi hj hend hp
  obtain ⟨r, h1, h2, _⟩ := optimal_end A T E WA hE hG i j hi hj hend hp
  exact ⟨r, h1, h2⟩

theorem C12_end_match_optimal_witness :
    (∀ e, exampleWA.G.Edit_Match_Limit e ≤ 0) ∧
    ((∀ r, Prefix_Edit_Dist "ACGT".toList "AGGTT".toList 3 exampleWA = .ok r →
        r.Match_To_End = true →
        (0 ≤ r.A_End ∧ r.A_End ≤ "ACGT".toList.length ∧ 0 ≤ r.T_End ∧
          r.T_End ≤ "AGGTT".toList.length ∧
          (r.A_End = "ACGT".toList.length ∨ r.T_End = "AGGTT".toList.length) ∧
          (ped "ACGT".toList "AGGTT".toList r.A_End.toNat r.T_End.toNat : Int) = r.errors ∧
          ∀ a b : Nat, a ≤ "ACGT".toList.length → b ≤ "AGGTT".toList.length →
            (a = "ACGT".toList.length ∨ b = "AGGTT".toList.length) →
            r.errors ≤ (ped "ACGT".toList "AGGTT".toList a b : Int))) ∧
      ((3 : Int) < exampleWA.Edit_Array_Max → ∀ i j : Nat, i ≤ "ACGT".toList.length →
        j ≤ "AGGTT".toList.length →
        (i = "ACGT".toList.length ∨ j = "AGGTT".toList.length) →
        (ped "ACGT".toList "AGGTT".toList i j : Int) ≤ 3 →
        ∃ r, Prefix_Edit_Dist "ACGT".toList "AGGTT".toList 3 exampleWA = .ok r ∧
          r.Match_To_End = true)) :=
  ⟨fun _ => le_refl _,
    C12_end_match_optimal "ACGT".toList "AGGTT".toList 3 exampleWA (fun _ => le_refl _)⟩

/-- C13: on every valid input the call returns, and if `Match_To_End` is true
then no entry of the delta script is zero, `deltaLen ≤ errors`, and the script
read as insertions and deletions (a positive entry deletes one character of
`A` after `|v| - 1` aligned pairs, a negative entry inserts one character of
`T` after `|v| - 1` aligned pairs, the rest is aligned pairwise) consumes
exactly `A[0 .. A_End)` and produces a string as long as `T[0 .. T_End)` that
differs from it in exactly `errors - deltaLen` aligned pairs; in particular
`T_End - A_End` is the number of negative entries minus the number of positive
entries. -/
theorem C13_alignment_valid (A T : List Char) (E : Int) (WA : pedWorkArea_t)
    (hE : E < WA.Edit_Array_Max) :
    ∃ r, Prefix_Edit_Dist A T E WA = .ok r ∧
      (r.Match_To_End = true →
        (∀ v, v ∈ script r.WA → v ≠ 0) ∧ r.WA.deltaLen ≤ r.errors ∧
        ∃ out, applyDelta (script r.WA) (A.take r.A_End.toNat) (T.take r.T_End.toNat) =
            some out ∧
          out.length = r.T_End.toNat ∧
          (hamming out (T.take r.T_End.toNat) : Int) = r.errors - r.WA.deltaLen ∧
          r.T_End - r.A_End =
            ((script r.WA).countP (fun v => decide (v < 0)) : Int) -
              ((script r.WA).countP (fun v => decide (0 < v)) : Int)) := by
  obtain ⟨r, h, out, h1, h2, h3, h4⟩ := delta_valid A T E WA hE
  refine ⟨r, h, fun hm => ?_⟩
  have hb := result_bounds A T E WA r h
  have hlen := applyDelta_length _ _ _ _ h1
  have h5 := h4 hm
  rw [List.length_take] at hlen
  refine ⟨applyDelta_ne_zero _ _ _ _ h1, by omega, out, h1, h2, by omega, ?_⟩
  omega

theorem C13_alignment_valid_witness :
    ((2 : Int) < exampleWA.Edit_Array_Max) ∧
    ∃ r, Prefix_Edit_Dist "ACGTACGT".toList "AGGTACCGT".toList 2 exampleWA = .ok r ∧
      (r.Match_To_End = true →
        (∀ v, v ∈ script r.WA → v ≠ 0) ∧ r.WA.deltaLen ≤ r.errors ∧
        ∃ out, applyDelta (script r.WA) ("ACGTACGT".toList.take r.A_End.toNat)
            ("AGGTACCGT".toList.take r.T_End.toNat) = some out ∧
          out.length = r.T_End.toNat ∧
          (hamming out ("AGGTACCGT".toList.take r.T_End.toNat) : Int) =
            r.errors - r.WA.deltaLen ∧
          r.T_End - r.A_End =
            ((script r.WA).countP (fun v => decide (v < 0)) : Int) -
              ((script r.WA).countP (fun v => decide (0 < v)) : Int)) :=
  ⟨by decide,
    C13_alignment_valid "ACGTACGT".toList "AGGTACCGT".toList 2 exampleWA (by decide)⟩

/-- C14, as stated, fails: on `A = ACGTACGT`, `T = AGGTACCGT`, `Error_Limit = 2`
the call ends at the terminal `(e, d, row) = (2, 1, 8)` and `Compute_Delta`
writes the script `[-7]` from the table of that call, while the procedure of
section 4.4, which sets `last ← D[k-1][d]` on the same-diagonal step at
`k = 1`, gives `[-2]` from the same table and terminal. -/
theorem C14_counterexample :
    (Prefix_Edit_Dist "ACGTACGT".toList "AGGTACCGT".toList 2 exampleWA).toOption.map
        (fun r => (r.errors, r.T_End - r.A_End, r.A_End)) =
      some ((2 : Int), (1 : Int), (8 : Int)) ∧
    (Prefix_Edit_Dist "ACGTACGT".toList "AGGTACCGT".toList 2 exampleWA).toOption.map
        (fun r => (script (Compute_Delta r.WA 2 1 8), specDelta r.WA.Edit_Array_Lazy 2 1 8)) =
      some (([-7] : List Int), ([-2] : List Int)) :=
  ⟨by decide, by decide⟩

/-- C14, amended: for every table and terminal `(e, d, row)`, `Compute_Delta`
performs the traceback of section 4.4 except that a same-diagonal step
(`from == d`) pushes nothing, leaves `d` unchanged and leaves `last` unchanged:
the script it writes is the script of the section 4.4 procedure without the
assignment `last ← D[k-1][d]` of that case, `deltaLen` is the number of pushed
values, and the script is the one of section 4.4 as written whenever the
traceback takes no same-diagonal step. -/
theorem C14_traceback_keeps_last (WA : pedWorkArea_t) (e : Nat) (d row : Int) :
    script (Compute_Delta WA e d row) = keepDelta WA.Edit_Array_Lazy e d row ∧
    (Compute_Delta WA e d row).deltaLen =
      ((keepTraceback WA.Edit_Array_Lazy e d row []).1.length : Int) ∧
    (traceSubs WA.Edit_Array_Lazy e d = 0 →
      script (Compute_Delta WA e d row) = specDelta WA.Edit_Array_Lazy e d row) := by
  refine ⟨script_keep WA e d row, ?_, fun h => ?_⟩
  · rw [deltaLen_Compute_Delta, keepTraceback_eq]
    simp
  · rw [script_keep]
    unfold keepDelta specDelta
    rw [spec_eq_keep _ _ _ _ _ h]

/-- C15: on a valid input, at a loop state the call reaches at a level
`e ≤ Error_Limit`, let `d0` be the first diagonal of the band whose cell hits
an end.  If that cell has `Row = m`, `1 + D[e-1][d0+1] = D[e][d0]` and
`d0 < Right`, the call returns `errors = e`, `Match_To_End = true`,
`A_End = m` and `T_End = m + d0 + 1 ≤ n`; the traceback from the adjusted cell
`(e, d0 + 1, m)` picks the same diagonal at level `e`, so the last edit aligns
`A[m-1]` with `T[T_End-1]`, which differ, and pushes nothing: the script is the
one of the traceback from `(e - 1, d0 + 1)` with `last = m`, and
`deltaLen ≤ e - 1`. -/
theorem C15_tie_break (A T : List Char) (E : Int) (WA : pedWorkArea_t)
    (hE : E < WA.Edit_Array_Max) (hne : firstRow A T ≠ min (A.length : Int) T.length)
    (e : Nat) (s : LoopState) (D : Nat → Int → Int)
    (hreach : Reach A T E { WA with deltaLen := 0 }
      (setCell WA.Edit_Array_Lazy 0 0 (firstRow A T)) e s D)
    (hle : (e : Int) ≤ E) (d0 : Int)
    (h1 : max (s.Left - 1) (-(e : Int)) ≤ d0) (h2 : d0 ≤ min (s.Right + 1) (e : Int))
    (hfirst : ∀ c, max (s.Left - 1) (-(e : Int)) ≤ c → c < d0 → ¬ hitsEnd A.length T.length
      (cellRow A T A.length T.length
        (openRow D (e - 1) (max (s.Left - 1) (-(e : Int))) (min (s.Right + 1) (e : Int)))
        (e - 1) c) c)
    (htie : cellRow A T A.length T.length
          (openRow D (e - 1) (max (s.Left - 1) (-(e : Int))) (min (s.Right + 1) (e : Int)))
          (e - 1) d0 = A.length ∧
      1 + openRow D (e - 1) (max (s.Left - 1) (-(e : Int))) (min (s.Right + 1) (e : Int))
          (e - 1) (d0 + 1) =
        cellRow A T A.length T.length
          (openRow D (e - 1) (max (s.Left - 1) (-(e : Int))) (min (s.Right + 1) (e : Int)))
          (e - 1) d0 ∧
      d0 < min (s.Right + 1) (e : Int)) :
    ∃ r, Prefix_Edit_Dist A T E WA = .ok r ∧ r.errors = e ∧ r.Match_To_End = true ∧
      r.A_End = A.length ∧ r.T_End = A.length + d0 + 1 ∧ r.T_End ≤ T.length ∧
      (pick r.WA.Edit_Array_Lazy (e - 1) (d0 + 1)).1 = d0 + 1 ∧
      charAt A ((A.length : Int) - 1) ≠ charAt T (r.T_End - 1) ∧
      script r.WA =
        deltaOf (traceSteps r.WA.Edit_Array_Lazy (e - 1) (d0 + 1) A.length).1
          ((traceSteps r.WA.Edit_Array_Lazy (e - 1) (d0 + 1) A.length).2 + 1) ∧
      r.WA.deltaLen ≤ (e : Int) - 1 :=
  tie_break_result A T E WA hE hne e s D hreach hle d0 h1 h2 hfirst htie

theorem C15_tie_break_witness :
    ((1 : Int) < exampleWA.Edit_Array_Max ∧
      firstRow "ACGT".toList "ACGA".toList ≠
        min ("ACGT".toList.length : Int) "ACGA".toList.length ∧
      (cellRow "ACGT".toList "ACGA".toList "ACGT".toList.length "ACGA".toList.length
          (openRow (setCell exampleWA.Edit_Array_Lazy 0 0 (firstRow "ACGT".toList "ACGA".toList))
            0 (-1) 1) 0 (-1) = "ACGT".toList.length ∧
        1 + openRow (setCell exampleWA.Edit_Array_Lazy 0 0
            (firstRow "ACGT".toList "ACGA".toList)) 0 (-1) 1 0 (-1 + 1) =
          cellRow "ACGT".toList "ACGA".toList "ACGT".toList.length "ACGA".toList.length
            (openRow (setCell exampleWA.Edit_Array_Lazy 0 0
              (firstRow "ACGT".toList "ACGA".toList)) 0 (-1) 1) 0 (-1) ∧
        (-1 : Int) < 1)) ∧
    ∃ r, Prefix_Edit_Dist "ACGT".toList "ACGA".toList 1 exampleWA = .ok r ∧
      r.errors = (1 : Nat) ∧ r.Match_To_End = true ∧
      r.A_End = "ACGT".toList.length ∧ r.T_End = "ACGT".toList.length + (-1) + 1 ∧
      r.T_End ≤ "ACGA".toList.length ∧
      (pick r.WA.Edit_Array_Lazy (1 - 1) (-1 + 1)).1 = -1 + 1 ∧
      charAt "ACGT".toList (("ACGT".toList.length : Int) - 1) ≠
        charAt "ACGA".toList (r.T_End - 1) ∧
      script r.WA =
        deltaOf (traceSteps r.WA.Edit_Array_Lazy (1 - 1) (-1 + 1) "ACGT".toList.length).1
          ((traceSteps r.WA.Edit_Array_Lazy (1 - 1) (-1 + 1) "ACGT".toList.length).2 + 1) ∧
      r.WA.deltaLen ≤ ((1 : Nat) : Int) - 1 :=
  ⟨⟨by decide, by decide, by decide, by decide, by decide⟩,
    C15_tie_break "ACGT".toList "ACGA".toList 1 exampleWA (by decide) (by decide)
      1 LoopState.init _ Reach.init (by decide) (-1) (by decide) (by decide)
      (fun c c1 c2 => by
        have : max (LoopState.init.Left - 1) (-((1 : Nat) : Int)) = -1 := by decide
        rw [this] at c1
        omega)
      ⟨by decide, by decide, by decide⟩⟩

/-- C18: on every valid input (`0 ≤ Error_Limit < Edit_Array_Max`) the call
returns, and if `Match_To_End` is false the result is the branch-point return
at a loop state `(e, s)` that the call reaches: `errors = e`, and either the
band collapsed at level `e` (`1 ≤ e ≤ Error_Limit`, the diagonal loop of level
`e` filled its band and `Left > Right` after the left pruning) or the loop ran
through level `Error_Limit` and `e = Error_Limit + 1`.  In both cases `errors`
exceeds `Max_Score_Best_e`, the level from which the delta of the branch point
is traced. -/
theorem C18_branch_point_errors (A T : List Char) (E : Int) (WA : pedWorkArea_t)
    (hE0 : 0 ≤ E) (hE : E < WA.Edit_Array_Max) :
    ∃ r, Prefix_Edit_Dist A T E WA = .ok r ∧
      (r.Match_To_End = false →
        ∃ (e : Nat) (s : LoopState) (D Dx : Nat → Int → Int),
          Reach A T E { WA with deltaLen := 0 }
            (setCell WA.Edit_Array_Lazy 0 0 (firstRow A T)) e s D ∧
          r = branchPoint { WA with deltaLen := 0 } e s Dx ∧ r.errors = e ∧ 1 ≤ e ∧
          (s.Max_Score_Best_e : Int) < r.errors ∧
          (((e : Int) ≤ E ∧
              fillRow A T A.length T.length WA.Edit_Array_Max (e - 1)
                  (min (s.Right + 1) (e : Int))
                  (min (s.Right + 1) (e : Int) - max (s.Left - 1) (-(e : Int)) + 1).toNat
                  (max (s.Left - 1) (-(e : Int)))
                  (openRow D (e - 1) (max (s.Left - 1) (-(e : Int)))
                    (min (s.Right + 1) (e : Int))) = .ok (.filled Dx) ∧
              min (s.Right + 1) (e : Int) <
                pruneLeft (Dx e) (WA.G.Edit_Match_Limit e) (min (s.Right + 1) (e : Int))
                  (max (s.Left - 1) (-(e : Int)))) ∨
            ((e : Int) = E + 1 ∧ Dx = D))) := by
  rcases Prefix_Edit_Dist_run A T E WA hE with ⟨_, h⟩ | ⟨_, e, s, D, r, hreach, hinv, hfin, h⟩
  · exact ⟨_, h, fun hm => by cases hm⟩
  · refine ⟨r, h, fun hm => ?_⟩
    have hle := hreach.level_le
    obtain ⟨k, B, he, _, _, _, hb⟩ := hinv
    have hbe : s.Max_Score_Best_e ≤ k := hb.1
    rcases hfin with ⟨h1, h2⟩ | ⟨_, d, Row, D2, _, h2⟩ | ⟨h1, D2, hfill, hcol, h2⟩
    · refine ⟨e, s, D, D, hreach, h2, by rw [h2]; rfl, by omega, ?_, Or.inr ⟨by omega, rfl⟩⟩
      rw [h2]
      show (s.Max_Score_Best_e : Int) < (e : Int)
      omega
    · rw [h2] at hm; cases hm
    · refine ⟨e, s, D, D2, hreach, h2, by rw [h2]; rfl, by omega, ?_, Or.inl ⟨h1, hfill, hcol⟩⟩
      rw [h2]
      show (s.Max_Score_Best_e : Int) < (e : Int)
      omega

theorem C18_branch_point_errors_witness :
    ((0 : Int) ≤ 2 ∧ (2 : Int) < exampleWA.Edit_Array_Max) ∧
    ∃ r, Prefix_Edit_Dist "AAAAAA".toList "TTTTTT".toList 2 exampleWA = .ok r ∧
      (r.Match_To_End = false →
        ∃ (e : Nat) (s : LoopState) (D Dx : Nat → Int → Int),
          Reach "AAAAAA".toList "TTTTTT".toList 2 { exampleWA with deltaLen := 0 }
            (setCell exampleWA.Edit_Array_Lazy 0 0
              (firstRow "AAAAAA".toList "TTTTTT".toList)) e s D ∧
          r = branchPoint { exampleWA with deltaLen := 0 } e s Dx ∧ r.errors = e ∧ 1 ≤ e ∧
          (s.Max_Score_Best_e : Int) < r.errors ∧
          (((e : Int) ≤ 2 ∧
              fillRow "AAAAAA".toList "TTTTTT".toList "AAAAAA".toList.length
                  "TTTTTT".toList.length exampleWA.Edit_Array_Max (e - 1)
                  (min (s.Right + 1) (e : Int))
                  (min (s.Right + 1) (e : Int) - max (s.Left - 1) (-(e : Int)) + 1).toNat
                  (max (s.Left - 1) (-(e : Int)))
                  (openRow D (e - 1) (max (s.Left - 1) (-(e : Int)))
                    (min (s.Right + 1) (e : Int))) = .ok (.filled Dx) ∧
              min (s.Right + 1) (e : Int) <
                pruneLeft (Dx e) (exampleWA.G.Edit_Match_Limit e) (min (s.Right + 1) (e : Int))
                  (max (s.Left - 1) (-(e : Int)))) ∨
            ((e : Int) = 2 + 1 ∧ Dx = D))) :=
  ⟨⟨by decide, by decide⟩,
    C18_branch_point_errors "AAAAAA".toList "TTTTTT".toList 2 exampleWA (by decide) (by decide)⟩

/-- C19 fails as stated, for every `EDIT_SPACE_SIZE >= 1`: with
`EDIT_SPACE_SIZE = 2^31 - 1` and an empty work area of `46339` rows (`b = 0`)
the call returns with one new block of `Size = 2147483647` cells, but for row
`46338` the `int32` sum `Offset + Del = 2147441936 + 92682` overflows, the test
`Offset + Del < Size` passes, and the row is handed out at centre `2147441936`:
its range ends at cell `2147441936 + 46340 = 2147488276`, past the block.  No
`Size`, `e` and centres satisfy the geometry of the claim for this call. -/
theorem C19_counterexample :
    (1 : Int) ≤ 2147483647 ∧
    firstNull (emptySpace 46339).Edit_Array_Lazy (emptySpace 46339).Edit_Array_Max.toNat 0 = 0 ∧
    ∃ WA', Allocate_More_Edit_Space 2147483647 (emptySpace 46339) = some WA' ∧
      WA'.alloc = [2147483647] ∧ WA'.Edit_Array_Lazy 46338 = some (0, 2147441936) ∧
      ¬ ((2147441936 : Int) + (46338 + 2) < 2147483647) ∧
      ¬ ∃ (Size : Int) (e : Nat) (center : Nat → Int),
        WA'.alloc = (emptySpace 46339).alloc ++ [Size] ∧
        firstNull (emptySpace 46339).Edit_Array_Lazy (emptySpace 46339).Edit_Array_Max.toNat 0 < e ∧
        (∀ j, j < firstNull (emptySpace 46339).Edit_Array_Lazy
            (emptySpace 46339).Edit_Array_Max.toNat 0 ∨ e ≤ j →
          WA'.Edit_Array_Lazy j = (emptySpace 46339).Edit_Array_Lazy j) ∧
        (∀ j, firstNull (emptySpace 46339).Edit_Array_Lazy
            (emptySpace 46339).Edit_Array_Max.toNat 0 ≤ j → j < e →
          WA'.Edit_Array_Lazy j = some ((emptySpace 46339).alloc.length, center j)) ∧
        (∀ j, firstNull (emptySpace 46339).Edit_Array_Lazy
            (emptySpace 46339).Edit_Array_Max.toNat 0 ≤ j → j < e →
          0 ≤ center j - ((j : Int) + 2) ∧ center j + ((j : Int) + 2) < Size) := by
  obtain ⟨hfirst, WA', hA, hal, hrow⟩ := Allocate_overflow
  refine ⟨by decide, hfirst, WA', hA, hal, hrow, by decide, ?_⟩
  rintro ⟨Size, e, center, h1, _, h3, h4, h5⟩
  rw [hfirst] at h3 h4 h5
  have hSize : Size = 2147483647 := by
    rw [hal, emptySpace, List.nil_append] at h1
    exact (List.cons.inj h1).1.symm
  have he : 46338 < e := by
    by_contra hle
    have := h3 46338 (Or.inr (by omega))
    rw [hrow] at this
    cases this
  have hc := h4 46338 (by omega) he
  rw [hrow] at hc
  injection hc with hc
  injection hc with _ hc
  have := (h5 46338 (by omega) he).2
  rw [← hc, hSize] at this
  norm_num at this

/-- C19, amended: for every `EDIT_SPACE_SIZE` with
`1 <= EDIT_SPACE_SIZE <= 2^30` and every work area whose first row without
storage `b` has `8 + 3 b <= 2^29` (bounds under which no `int32` of the
function overflows), a call of `Allocate_More_Edit_Space` that returns appends
one block of `Size` cells and assigns the rows `b, b+1, .., e-1` in it.  The
addressable range `[center_j - (j+2), center_j + (j+2)]` (`2j + 5` cells) of
row `j` starts at cell `0` for row `b`, is immediately followed by the range of
row `j + 1`, and lies inside `[0, Size)`.  The rows below `b` keep their
pointers; when the assigned rows are the rows below `b` (rows are handed out in
ascending order), every assigned row keeps its pointer and the assigned rows
are afterwards the rows below `e`. -/
theorem C19_row_geometry (S : Int) (WA WA' : editSpace) (hS1 : 1 ≤ S) (hS2 : S ≤ 1073741824)
    (hb : 8 + 3 * (firstNull WA.Edit_Array_Lazy WA.Edit_Array_Max.toNat 0 : Int) ≤ 536870912)
    (h : Allocate_More_Edit_Space S WA = some WA') :
    ∃ (Size : Int) (e : Nat) (center : Nat → Int),
      (WA'.alloc = WA.alloc ++ [Size] ∧ WA'.Edit_Array_Max = WA.Edit_Array_Max ∧
        firstNull WA.Edit_Array_Lazy WA.Edit_Array_Max.toNat 0 < e ∧
        (e : Int) ≤ WA.Edit_Array_Max ∧
        (∀ j, j < firstNull WA.Edit_Array_Lazy WA.Edit_Array_Max.toNat 0 ∨ e ≤ j →
          WA'.Edit_Array_Lazy j = WA.Edit_Array_Lazy j) ∧
        (∀ j, firstNull WA.Edit_Array_Lazy WA.Edit_Array_Max.toNat 0 ≤ j → j < e →
          WA'.Edit_Array_Lazy j = some (WA.alloc.length, center j)) ∧
        center (firstNull WA.Edit_Array_Lazy WA.Edit_Array_Max.toNat 0) -
          ((firstNull WA.Edit_Array_Lazy WA.Edit_Array_Max.toNat 0 : Nat) + 2) = 0 ∧
        (∀ j, firstNull WA.Edit_Array_Lazy WA.Edit_Array_Max.toNat 0 ≤ j → j + 1 < e →
          center (j + 1) - (((j + 1 : Nat) : Int) + 2) = center j + ((j : Int) + 2) + 1) ∧
        (∀ j, firstNull WA.Edit_Array_Lazy WA.Edit_Array_Max.toNat 0 ≤ j → j < e →
          0 ≤ center j - ((j : Int) + 2) ∧ center j + ((j : Int) + 2) < Size)) ∧
      ((∀ i, firstNull WA.Edit_Array_Lazy WA.Edit_Array_Max.toNat 0 ≤ i →
          WA.Edit_Array_Lazy i = none) →
        (∀ j c, WA.Edit_Array_Lazy j = some c → WA'.Edit_Array_Lazy j = some c) ∧
        (∀ i, e ≤ i → WA'.Edit_Array_Lazy i = none)) := by
  obtain ⟨Size, e, center, g⟩ := Allocate_geometry S WA WA' hS1 hS2 hb h
  refine ⟨Size, e, center, g, fun hseg => ⟨fun j c hj => ?_, fun i hi => ?_⟩⟩
  · by_cases hjb : j < firstNull WA.Edit_Array_Lazy WA.Edit_Array_Max.toNat 0
    · rw [g.2.2.2.2.1 j (Or.inl hjb)]; exact hj
    · rw [hseg j (by omega)] at hj; cases hj
  · rw [g.2.2.2.2.1 i (Or.inr hi)]
    exact hseg i (by have := g.2.2.1; omega)

theorem C19_row_geometry_witness :
    (1 : Int) ≤ 100 ∧ (100 : Int) ≤ 1073741824 ∧
    8 + 3 * (firstNull (emptySpace 64).Edit_Array_Lazy
      (emptySpace 64).Edit_Array_Max.toNat 0 : Int) ≤ 536870912 ∧
    ∃ WA', Allocate_More_Edit_Space 100 (emptySpace 64) = some WA' ∧
    ∃ (Size : Int) (e : Nat) (center : Nat → Int),
      (WA'.alloc = (emptySpace 64).alloc ++ [Size] ∧
        WA'.Edit_Array_Max = (emptySpace 64).Edit_Array_Max ∧
        firstNull (emptySpace 64).Edit_Array_Lazy (emptySpace 64).Edit_Array_Max.toNat 0 < e ∧
        (e : Int) ≤ (emptySpace 64).Edit_Array_Max ∧
        (∀ j, j < firstNull (emptySpace 64).Edit_Array_Lazy
            (emptySpace 64).Edit_Array_Max.toNat 0 ∨ e ≤ j →
          WA'.Edit_Array_Lazy j = (emptySpace 64).Edit_Array_Lazy j) ∧
        (∀ j, firstNull (emptySpace 64).Edit_Array_Lazy
            (emptySpace 64).Edit_Array_Max.toNat 0 ≤ j → j < e →
          WA'.Edit_Array_Lazy j = some ((emptySpace 64).alloc.length, center j)) ∧
        center (firstNull (emptySpace 64).Edit_Array_Lazy
            (emptySpace 64).Edit_Array_Max.toNat 0) -
          ((firstNull (emptySpace 64).Edit_Array_Lazy
            (emptySpace 64).Edit_Array_Max.toNat 0 : Nat) + 2) = 0 ∧
        (∀ j, firstNull (emptySpace 64).Edit_Array_Lazy
            (emptySpace 64).Edit_Array_Max.toNat 0 ≤ j → j + 1 < e →
          center (j + 1) - (((j + 1 : Nat) : Int) + 2) = center j + ((j : Int) + 2) + 1) ∧
        (∀ j, firstNull (emptySpace 64).Edit_Array_Lazy
            (emptySpace 64).Edit_Array_Max.toNat 0 ≤ j → j < e →
          0 ≤ center j - ((j : Int) + 2) ∧ center j + ((j : Int) + 2) < Size)) ∧
      ((∀ i, firstNull (emptySpace 64).Edit_Array_Lazy
            (emptySpace 64).Edit_Array_Max.toNat 0 ≤ i →
          (emptySpace 64).Edit_Array_Lazy i = none) →
        (∀ j c, (emptySpace 64).Edit_Array_Lazy j = some c → WA'.Edit_Array_Lazy j = some c) ∧
        (∀ i, e ≤ i → WA'.Edit_Array_Lazy i = none)) :=
  ⟨by decide, by decide, by decide,
    (Allocate_More_Edit_Space 100 (emptySpace 64)).get (by decide), (Option.some_get _).symm,
    C19_row_geometry 100 (emptySpace 64) _ (by decide) (by decide) (by decide)
      (Option.some_get _).symm⟩

/-- C16: on every input with `0 ≤ Error_Limit`, every row value `v` that the
call stores into `Edit_Array_Lazy[r][c]` (the write of `D[0][0]`, the writes of
the diagonal loop and the write of the tie-break) has `0 ≤ v ≤ m` and
`0 ≤ v + c ≤ n`; every read `A[i]` of the first scan and of the extension loops
has `0 ≤ i < m` and every read `T[i]` has `0 ≤ i < n`; and at every loop state
that the call reaches, the cells of the band `[Left, Right]` of the last filled
row hold values with `0 ≤ v < m` and `0 ≤ v + c < n`.  The logged writes are
the writes of the call: the table it leaves is the table it was given with
them applied in order. -/
theorem C16_table_invariant (A T : List Char) (E : Int) (WA : pedWorkArea_t) (hE0 : 0 ≤ E) :
    (∀ a, a ∈ Prefix_Edit_DistLog A T E WA →
      (∀ r c v, a = .cellW r c v → 0 ≤ v ∧ v ≤ A.length ∧ 0 ≤ v + c ∧ v + c ≤ T.length) ∧
      (∀ i, a = .strA i → 0 ≤ i ∧ i < A.length) ∧
      (∀ i, a = .strT i → 0 ≤ i ∧ i < T.length)) ∧
    (firstRow A T ≠ min (A.length : Int) T.length →
      ∀ (e : Nat) (s : LoopState) (D : Nat → Int → Int),
        Reach A T E { WA with deltaLen := 0 } (setCell WA.Edit_Array_Lazy 0 0 (firstRow A T))
          e s D →
        ∀ c, s.Left ≤ c → c ≤ s.Right → Live A.length T.length (D (e - 1) c) c) ∧
    (∀ r, Prefix_Edit_Dist A T E WA = .ok r →
      r.WA.Edit_Array_Lazy = replay (Prefix_Edit_DistLog A T E WA) WA.Edit_Array_Lazy) := by
  refine ⟨?_, ?_, fun r h => Prefix_Edit_Dist_replay A T E WA r h⟩
  · intro a ha
    have h := Prefix_Edit_DistLog_ok A T E WA hE0 a ha
    refine ⟨fun r c v hv => ?_, fun i hi => ?_, fun i hi => ?_⟩
    · subst hv; exact h.2
    · subst hi; exact h
    · subst hi; exact h
  · intro hne e s D hreach c c1 c2
    obtain ⟨k, B, he, hH, hB, _, _⟩ := hreach.inv (setCell_same _ _ _ _) hne
    have e1 : e - 1 = k := by omega
    rw [e1]
    exact hH.live k (le_refl _) c (by rw [hB]; exact c1) (by rw [hB]; exact c2)

theorem C16_table_invariant_witness :
    ((0 : Int) ≤ 2) ∧
    ((∀ a, a ∈ Prefix_Edit_DistLog "ACGTACGT".toList "AGGTACCGT".toList 2 exampleWA →
      (∀ r c v, a = .cellW r c v → 0 ≤ v ∧ v ≤ "ACGTACGT".toList.length ∧ 0 ≤ v + c ∧
        v + c ≤ "AGGTACCGT".toList.length) ∧
      (∀ i, a = .strA i → 0 ≤ i ∧ i < "ACGTACGT".toList.length) ∧
      (∀ i, a = .strT i → 0 ≤ i ∧ i < "AGGTACCGT".toList.length)) ∧
    (firstRow "ACGTACGT".toList "AGGTACCGT".toList ≠
        min ("ACGTACGT".toList.length : Int) "AGGTACCGT".toList.length →
      ∀ (e : Nat) (s : LoopState) (D : Nat → Int → Int),
        Reach "ACGTACGT".toList "AGGTACCGT".toList 2 { exampleWA with deltaLen := 0 }
          (setCell exampleWA.Edit_Array_Lazy 0 0
            (firstRow "ACGTACGT".toList "AGGTACCGT".toList)) e s D →
        ∀ c, s.Left ≤ c → c ≤ s.Right →
          Live "ACGTACGT".toList.length "AGGTACCGT".toList.length (D (e - 1) c) c) ∧
    (∀ r, Prefix_Edit_Dist "ACGTACGT".toList "AGGTACCGT".toList 2 exampleWA = .ok r →
      r.WA.Edit_Array_Lazy =
        replay (Prefix_Edit_DistLog "ACGTACGT".toList "AGGTACCGT".toList 2 exampleWA)
          exampleWA.Edit_Array_Lazy)) :=
  ⟨by decide, C16_table_invariant "ACGTACGT".toList "AGGTACCGT".toList 2 exampleWA (by decide)⟩

/-- C17: the assertion `Left <= Right` never fails, on any input, and the
pruning loops are safe for every row `D[e]`, every `Edit_Match_Limit[e]` and
every band `[L, R]` filled at level `e`: when the left pruning does not
collapse the band (`Left ≤ R` after it), the right pruning ends at a `Right`
with `Left ≤ Right ≤ R`, reads cells of `[Left, R]` only, and when the loop
`while (D[e][Right] < limit) Right--` is entered it stops at a cell that fails
its test, with the same result and the same reads however many iterations
beyond `Right - Left + 1` it is allowed. -/
theorem C17_pruning_safe (A T : List Char) (E : Int) (WA : pedWorkArea_t)
    (e : Nat) (row : Int → Int) (limit L R : Int) (hcol : pruneLeft row limit R L ≤ R) :
    (∀ x, Prefix_Edit_Dist A T E WA = .error x → x ≠ .leftRight) ∧
    L ≤ pruneLeft row limit R L ∧
    pruneLeft row limit R L ≤ pruneRight row limit (pruneLeft row limit R L) R ∧
    pruneRight row limit (pruneLeft row limit R L) R ≤ R ∧
    (∀ a, a ∈ pruneRightLog e row limit (pruneLeft row limit R L) R →
      a.readsRow e (pruneLeft row limit R L) R) ∧
    (pruneRightPos row limit R.toNat R ≤ 0 →
      limit ≤ row (pruneRight row limit (pruneLeft row limit R L) R) ∧
      ∀ f, (pruneRightPos row limit R.toNat R - pruneLeft row limit R L + 1).toNat ≤ f →
        pruneRightNeg row limit f (pruneRightPos row limit R.toNat R) =
          pruneRight row limit (pruneLeft row limit R L) R ∧
        pruneRightNegLog e row limit f (pruneRightPos row limit R.toNat R) =
          pruneRightNegLog e row limit
            (pruneRightPos row limit R.toNat R - pruneLeft row limit R L + 1).toNat
            (pruneRightPos row limit R.toNat R) ∧
        ∀ a, a ∈ pruneRightNegLog e row limit f (pruneRightPos row limit R.toNat R) →
          a.readsRow e (pruneLeft row limit R L) R) := by
  refine ⟨fun x hx hlr => ?_, pruneRight_safe e row limit L R hcol⟩
  have := Prefix_Edit_Dist_error_kind A T E WA x hx
  rw [this] at hlr
  cases hlr

theorem C17_pruning_safe_witness :
    (pruneLeft exampleRow 3 2 (-2) ≤ 2) ∧
    ((∀ x, Prefix_Edit_Dist "AAAAAA".toList "TTTTTT".toList 2 exampleWA = .error x →
        x ≠ .leftRight) ∧
      (-2 : Int) ≤ pruneLeft exampleRow 3 2 (-2) ∧
      pruneLeft exampleRow 3 2 (-2) ≤ pruneRight exampleRow 3 (pruneLeft exampleRow 3 2 (-2)) 2 ∧
      pruneRight exampleRow 3 (pruneLeft exampleRow 3 2 (-2)) 2 ≤ 2 ∧
      (∀ a, a ∈ pruneRightLog 2 exampleRow 3 (pruneLeft exampleRow 3 2 (-2)) 2 →
        a.readsRow 2 (pruneLeft exampleRow 3 2 (-2)) 2) ∧
      (pruneRightPos exampleRow 3 (2 : Int).toNat 2 ≤ 0 →
        3 ≤ exampleRow (pruneRight exampleRow 3 (pruneLeft exampleRow 3 2 (-2)) 2) ∧
        ∀ f, (pruneRightPos exampleRow 3 (2 : Int).toNat 2 -
            pruneLeft exampleRow 3 2 (-2) + 1).toNat ≤ f →
          pruneRightNeg exampleRow 3 f (pruneRightPos exampleRow 3 (2 : Int).toNat 2) =
            pruneRight exampleRow 3 (pruneLeft exampleRow 3 2 (-2)) 2 ∧
          pruneRightNegLog 2 exampleRow 3 f (pruneRightPos exampleRow 3 (2 : Int).toNat 2) =
            pruneRightNegLog 2 exampleRow 3
              (pruneRightPos exampleRow 3 (2 : Int).toNat 2 -
                pruneLeft exampleRow 3 2 (-2) + 1).toNat
              (pruneRightPos exampleRow 3 (2 : Int).toNat 2) ∧
          ∀ a, a ∈ pruneRightNegLog 2 exampleRow 3 f
              (pruneRightPos exampleRow 3 (2 : Int).toNat 2) →
            a.readsRow 2 (pruneLeft exampleRow 3 2 (-2)) 2)) :=
  ⟨by decide,
    C17_pruning_safe "AAAAAA".toList "TTTTTT".toList 2 exampleWA 2 exampleRow 3 (-2) 2
      (by decide)⟩

/-- C20: on every input with `0 ≤ Error_Limit`, every read or write of
`Edit_Array_Lazy[r][c]` that the call performs (sentinel writes, the reads and
writes of the diagonal loop and of the tie-break, the reads of the pruning
loops and of the branch-point scan, and the reads of `Compute_Delta` from an
end match or from the stored branch point) has `0 ≤ r ≤ Error_Limit` and
`-(r + 2) ≤ c ≤ r + 2`, and every index of `deltaStack` and `delta` it touches
lies in `0 .. Error_Limit`; and for every table and terminal, `Compute_Delta`
from level `e` writes `deltaStack` at indices `≤ e` and `delta` at indices
`< e`. -/
theorem C20_accesses_in_range (A T : List Char) (E : Int) (WA : pedWorkArea_t) (hE0 : 0 ≤ E) :
    (∀ a, a ∈ Prefix_Edit_DistLog A T E WA →
      (∀ r c, a = .cellR r c → 0 ≤ r ∧ r ≤ E ∧ -(r + 2) ≤ c ∧ c ≤ r + 2) ∧
      (∀ r c v, a = .cellW r c v → 0 ≤ r ∧ r ≤ E ∧ -(r + 2) ≤ c ∧ c ≤ r + 2) ∧
      (∀ r c, a = .sentW r c → 0 ≤ r ∧ r ≤ E ∧ -(r + 2) ≤ c ∧ c ≤ r + 2) ∧
      (∀ i, a = .stackW i ∨ a = .stackR i ∨ a = .deltaW i → 0 ≤ i ∧ i ≤ E)) ∧
    (∀ (W : pedWorkArea_t) (e : Nat) (d row : Int) (a : Access),
      a ∈ Compute_DeltaLog W e d row →
      (∀ i, a = .stackW i ∨ a = .stackR i → 0 ≤ i ∧ i ≤ (e : Int)) ∧
      (∀ i, a = .deltaW i → 0 ≤ i ∧ i < (e : Int))) := by
  constructor
  · intro a ha
    have h := Prefix_Edit_DistLog_ok A T E WA hE0 a ha
    refine ⟨fun r c hc => ?_, fun r c v hc => ?_, fun r c hc => ?_, fun i hi => ?_⟩
    · subst hc; exact h
    · subst hc; exact h.1
    · subst hc; exact h
    · rcases hi with hi | hi | hi <;> subst hi <;> exact h
  · intro W e d row a ha
    rcases Compute_DeltaLog_stack W e d row a ha with ⟨r, c, h1, _⟩ | ⟨i, h1, h2⟩ |
        ⟨i, h1, h2⟩ | ⟨i, h1, h2⟩
    · subst h1
      exact ⟨fun i hi => (by rcases hi with hi | hi <;> cases hi), fun i hi => (by cases hi)⟩
    · subst h1
      refine ⟨fun j hj => ?_, fun j hj => (by cases hj)⟩
      rcases hj with hj | hj
      · injection hj with hj; omega
      · cases hj
    · subst h1
      refine ⟨fun j hj => ?_, fun j hj => (by cases hj)⟩
      rcases hj with hj | hj
      · cases hj
      · injection hj with hj; omega
    · subst h1
      refine ⟨fun j hj => (by rcases hj with hj | hj <;> cases hj), fun j hj => ?_⟩
      injection hj with hj; omega

theorem C20_accesses_in_range_witness :
    ((0 : Int) ≤ 2) ∧
    ((∀ a, a ∈ Prefix_Edit_DistLog "AAAAAA".toList "TTTTTT".toList 2 exampleWA →
      (∀ r c, a = .cellR r c → 0 ≤ r ∧ r ≤ 2 ∧ -(r + 2) ≤ c ∧ c ≤ r + 2) ∧
      (∀ r c v, a = .cellW r c v → 0 ≤ r ∧ r ≤ 2 ∧ -(r + 2) ≤ c ∧ c ≤ r + 2) ∧
      (∀ r c, a = .sentW r c → 0 ≤ r ∧ r ≤ 2 ∧ -(r + 2) ≤ c ∧ c ≤ r + 2) ∧
      (∀ i, a = .stackW i ∨ a = .stackR i ∨ a = .deltaW i → 0 ≤ i ∧ i ≤ 2)) ∧
    (∀ (W : pedWorkArea_t) (e : Nat) (d row : Int) (a : Access),
      a ∈ Compute_DeltaLog W e d row →
      (∀ i, a = .stackW i ∨ a = .stackR i → 0 ≤ i ∧ i ≤ (e : Int)) ∧
      (∀ i, a = .deltaW i → 0 ≤ i ∧ i < (e : Int)))) :=
  ⟨by decide, C20_accesses_in_range "AAAAAA".toList "TTTTTT".toList 2 exampleWA (by decide)⟩

end Canu
